import Mathlib

/-!
# The UFS file-system engine of `LocalFileSystem.cpp`

A shallow embedding of the on-disk file system implemented in
`src/LocalFileSystem.cpp` and of the handlers `get` and `put` of
`src/DistributedFileSystemService.cpp`, followed by theorems about their
operations.

Modelling conventions.

* C `int` values are `Int`.  Signed operations are the mathematical ones
  (signed overflow is undefined in C++ and is not modelled); `/` and `%` on
  `int` are the truncating `Int.tdiv` and `Int.tmod`.  Where the source mixes
  an `int` with a `sizeof` (an unsigned 64-bit `size_t`), the conversions are
  made explicit with `toSizeT` and `toInt`.
* Memory (a stack array, a `vector`, a caller buffer, the content of a disk
  block) is a function from a byte offset to a byte.  Offsets are `Int`, so an
  index computed by the source never has to be clamped.
* Local arrays that the source leaves uninitialised are read from a parameter
  `junk` (one byte function per local array).
* The header `ufs.h` and the class `Disk` are not part of the sources at hand.
  The constants of the header are the fields of `Cfg`; the record layouts and
  the block device are modelled from the specification and are marked so.
* The image is kept by region: superblock, the two bitmaps, the inode table and
  the blocks addressed by number.  A block write whose number lies outside the
  data region therefore does not alter the bitmaps or the inode table of the
  model; the theorems that speak about the image after such a write assume the
  block numbers involved lie in the data region.
* The classes `ClientError` and `HTTPResponse` are not part of the sources at
  hand either; a handler is modelled by the response it leaves (the error whose
  status it set, and the body) and the writes of its transactions.
-/

set_option maxRecDepth 100000

namespace LocalFileSystem

/-! ## Constants and records -/

/-- Modelled from the spec: the constants of the missing headers `ufs.h` and
`LocalFileSystem.h` (block size, number of direct pointers, width of a name
field, the two inode types and the error kinds of section 7). -/
structure Cfg where
  UFS_BLOCK_SIZE : Nat
  DIRECT_PTRS : Nat
  DIR_ENT_NAME_SIZE : Nat
  UFS_DIRECTORY : Int
  UFS_REGULAR_FILE : Int
  EINVALIDINODE : Int
  EINVALIDSIZE : Int
  EINVALIDTYPE : Int
  EINVALIDNAME : Int
  ENOTFOUND : Int
  ENOTENOUGHSPACE : Int
  EDIRNOTEMPTY : Int
  EUNLINKNOTALLOWED : Int

/-- Modelled from the spec: `sizeof(dir_ent_t)`, a name field of
`DIR_ENT_NAME_SIZE` bytes followed by a four-byte `inum`. -/
def sizeof_dir_ent_t (c : Cfg) : Nat := c.DIR_ENT_NAME_SIZE + 4

/-- The constant `ENTRIES_IN_BLOCK` of the source. -/
def ENTRIES_IN_BLOCK (c : Cfg) : Nat := c.UFS_BLOCK_SIZE / sizeof_dir_ent_t c

/-- Modelled from the spec: `MAX_FILE_SIZE` is `DIRECT_PTRS * block_size`. -/
def MAX_FILE_SIZE (c : Cfg) : Int := (c.DIRECT_PTRS : Int) * (c.UFS_BLOCK_SIZE : Int)

/-- Modelled from the spec: the superblock record `super_t` of `ufs.h`. -/
structure super_t where
  inode_bitmap_addr : Int
  inode_bitmap_len : Int
  data_bitmap_addr : Int
  data_bitmap_len : Int
  inode_region_addr : Int
  inode_region_len : Int
  data_region_addr : Int
  num_inodes : Int
  num_data : Int

/-- Modelled from the spec: the inode record `inode_t` of `ufs.h`; `direct` is
the array `direct[DIRECT_PTRS]`, indexed as the source indexes it. -/
structure inode_t where
  type : Int
  size : Int
  direct : Int → Int

instance : Inhabited inode_t := ⟨⟨0, 0, fun _ => 0⟩⟩

/-- Modelled from the spec: the image behind the block device `Disk`, by
region.  `inodeBitmap` and `dataBitmap` are the bytes of the two bitmap
regions, `inodes` the records of the inode region, and `blocks n` the bytes of
block number `n`. -/
structure Disk where
  super : super_t
  inodeBitmap : Int → Nat
  dataBitmap : Int → Nat
  inodes : Int → inode_t
  blocks : Int → Int → Nat

/-- One buffered write of a transaction: a whole region written back by
`writeInodeBitmap`, `writeDataBitmap` or `writeInodeRegion`, or one
`disk->writeBlock(n, content)`. -/
inductive BlockWrite where
  | inodeBitmap (buf : Int → Nat)
  | dataBitmap (buf : Int → Nat)
  | inodeRegion (inodes : Int → inode_t)
  | block (n : Int) (content : Int → Nat)

/-! ## C arithmetic -/

/-- Conversion of an `int` to `size_t` (64-bit, modulo `2^64`). -/
def toSizeT (x : Int) : Nat := (x % 18446744073709551616).toNat

/-- Conversion of an unsigned value to `int` (32-bit two's complement). -/
def toInt (n : Nat) : Int :=
  if n % 4294967296 < 2147483648 then ((n % 4294967296 : Nat) : Int)
  else ((n % 4294967296 : Nat) : Int) - 4294967296

/-- The function `divide` of the source: `(a+b-1) / b`. -/
def divide (a b : Int) : Int := Int.tdiv (a + b - 1) b

/-! ## Memory -/

/-- The call `memcpy(dst + dOff, src + sOff, n)`. -/
def memcpy (dst : Int → Nat) (dOff : Int) (src : Int → Nat) (sOff : Int) (n : Int) : Int → Nat :=
  fun k => if dOff ≤ k ∧ k < dOff + n then src (sOff + (k - dOff)) else dst k

/-- Load of a little-endian `int` stored at byte offset `off`. -/
def readInt (mem : Int → Nat) (off : Int) : Int :=
  toInt (mem off % 256 + 256 * (mem (off + 1) % 256) + 65536 * (mem (off + 2) % 256)
    + 16777216 * (mem (off + 3) % 256))

/-- Store of an `int` at byte offset `off`, little-endian two's complement. -/
def writeInt (mem : Int → Nat) (off : Int) (v : Int) : Int → Nat :=
  fun k =>
    if k = off then (v % 4294967296).toNat % 256
    else if k = off + 1 then (v % 4294967296).toNat / 256 % 256
    else if k = off + 2 then (v % 4294967296).toNat / 65536 % 256
    else if k = off + 3 then (v % 4294967296).toNat / 16777216 % 256
    else mem k

/-- The bytes `name.c_str()` exposes to `strcpy`: those before the first zero. -/
def c_str (name : List Nat) : List Nat := name.takeWhile (fun b => b ≠ 0)

/-- The call `strcpy(mem + off, name.c_str())`: the bytes before the first zero
of `name`, then a zero terminator. -/
def strcpy (mem : Int → Nat) (off : Int) (name : List Nat) : Int → Nat :=
  fun k =>
    if off ≤ k ∧ k < off + (c_str name).length then (c_str name).getD (k - off).toNat 0
    else if k = off + (c_str name).length then 0
    else mem k

/-- The value `entries[i].inum` of an array of `dir_ent_t` held in `mem`. -/
def entInum (c : Cfg) (mem : Int → Nat) (i : Int) : Int :=
  readInt mem (i * (sizeof_dir_ent_t c : Int) + (c.DIR_ENT_NAME_SIZE : Int))

/-- The value `string(entries[i].name)`: the bytes of the name field before its
first zero.  (A name field without a zero makes the source read past the
field; the model stops at the end of the field.) -/
def entName (c : Cfg) (mem : Int → Nat) (i : Int) : List Nat :=
  c_str ((List.range c.DIR_ENT_NAME_SIZE).map
    (fun (k : Nat) => mem (i * (sizeof_dir_ent_t c : Int) + (k : Int))))

/-- The assignment `entries[i].inum = v`. -/
def setInum (c : Cfg) (mem : Int → Nat) (i : Int) (v : Int) : Int → Nat :=
  writeInt mem (i * (sizeof_dir_ent_t c : Int) + (c.DIR_ENT_NAME_SIZE : Int)) v

/-- The call `strcpy(entries[i].name, name.c_str())`. -/
def setName (c : Cfg) (mem : Int → Nat) (i : Int) (name : List Nat) : Int → Nat :=
  strcpy mem (i * (sizeof_dir_ent_t c : Int)) name

/-- The loops `for (int i = from; i < ENTRIES_IN_BLOCK; ++i) entries[i].inum = -1`
of `create`, run for `n` slots starting at slot `i`. -/
def vacate (c : Cfg) : Nat → Nat → (Int → Nat) → (Int → Nat)
  | 0, _, mem => mem
  | n + 1, i, mem => vacate c n (i + 1) (setInum c mem (i : Int) (-1))

/-! ## Helpers of the source -/

/-- The helper `checkInode`. -/
def checkInode (super : super_t) (num : Int) : Bool :=
  decide (num < super.num_inodes ∧ num ≥ 0)

/-- The helper `block2Bit`. -/
def block2Bit (super : super_t) (num : Int) : Int := num - super.data_region_addr

/-- The helper `bit2Block`. -/
def bit2Block (super : super_t) (bit : Int) : Int := bit + super.data_region_addr

/-- The value `1 << bitOffset` on a 32-bit `int`.  For the offsets `0..7` that a
non-negative bit index yields this is the usual mask; for a negative offset the
shift is undefined in C++ and the count is taken modulo 32 as x86 does. -/
def bitMask (bitOffset : Int) : Nat := 2 ^ (bitOffset % 32).toNat

/-- The helper `findBit`. -/
def findBit (bitmap : Int → Nat) (bit : Int) : Bool :=
  (bitmap (Int.tdiv bit 8) &&& bitMask (Int.tmod bit 8)) != 0

/-- The helper `createBit`; the stored byte is an `unsigned char`. -/
def createBit (bitmap : Int → Nat) (bit : Int) : Int → Nat :=
  Function.update bitmap (Int.tdiv bit 8)
    ((bitmap (Int.tdiv bit 8) ||| bitMask (Int.tmod bit 8)) % 256)

/-- The helper `delBit`; `~(1 << bitOffset)` is taken on 32 bits and the
stored byte is an `unsigned char`. -/
def delBit (bitmap : Int → Nat) (bit : Int) : Int → Nat :=
  Function.update bitmap (Int.tdiv bit 8)
    ((bitmap (Int.tdiv bit 8) &&& (4294967295 - bitMask (Int.tmod bit 8))) % 256)

/-- The loop of `countBits` over the indices `i, i+1, ...`, `n` of them. -/
def countBitsFrom (bitmap : Int → Nat) : Nat → Nat → Int
  | 0, _ => 0
  | n + 1, i =>
    (if findBit bitmap (i : Int) then 0 else 1) + countBitsFrom bitmap n (i + 1)

/-- The helper `countBits`. -/
def countBits (bitmap : Int → Nat) (size : Int) : Int :=
  countBitsFrom bitmap size.toNat 0

/-- The loop of `findFirstBit` over the indices `i, i+1, ...`, `n` of them. -/
def findFirstBitFrom (bitmap : Int → Nat) : Nat → Nat → Int
  | 0, _ => -1
  | n + 1, i =>
    if findBit bitmap (i : Int) then findFirstBitFrom bitmap n (i + 1) else (i : Int)

/-- The helper `findFirstBit`. -/
def findFirstBit (bitmap : Int → Nat) (len : Int) : Int :=
  findFirstBitFrom bitmap (len * 8).toNat 0

/-! ## Region input and output -/

/-- A region of `len` blocks copied from `src` over `dst`: what
`readInodeBitmap` and `readDataBitmap` do to a buffer, and what
`writeInodeBitmap` and `writeDataBitmap` do to the image. -/
def copyRegion (c : Cfg) (len : Int) (src dst : Int → Nat) : Int → Nat :=
  fun k => if 0 ≤ k ∧ k < len * (c.UFS_BLOCK_SIZE : Int) then src k else dst k

/-- The method `readInodeBitmap`, into the buffer `buf`. -/
def readInodeBitmap (c : Cfg) (d : Disk) (buf : Int → Nat) : Int → Nat :=
  copyRegion c d.super.inode_bitmap_len d.inodeBitmap buf

/-- The method `readDataBitmap`, into the buffer `buf`. -/
def readDataBitmap (c : Cfg) (d : Disk) (buf : Int → Nat) : Int → Nat :=
  copyRegion c d.super.data_bitmap_len d.dataBitmap buf

/-- The method `readInodeRegion`: the array `inodes[num_inodes]` holds the
records of the inode table. -/
def readInodeRegion (d : Disk) : Int → inode_t := d.inodes

/-- Modelled from the spec: the effect of one buffered write on the image.  A
region write replaces the region (the inode table has `num_inodes` records);
`writeBlock` replaces the `UFS_BLOCK_SIZE` bytes of one block. -/
def Disk.apply (c : Cfg) (d : Disk) : BlockWrite → Disk
  | BlockWrite.inodeBitmap buf =>
    { d with inodeBitmap := copyRegion c d.super.inode_bitmap_len buf d.inodeBitmap }
  | BlockWrite.dataBitmap buf =>
    { d with dataBitmap := copyRegion c d.super.data_bitmap_len buf d.dataBitmap }
  | BlockWrite.inodeRegion inodes =>
    { d with inodes := fun i => if 0 ≤ i ∧ i < d.super.num_inodes then inodes i else d.inodes i }
  | BlockWrite.block n content =>
    { d with blocks := Function.update d.blocks n (memcpy (d.blocks n) 0 content 0 c.UFS_BLOCK_SIZE) }

/-- Modelled from the spec: `commit` applies the writes buffered since
`beginTransaction`, in the order they were issued. -/
def commit (c : Cfg) (d : Disk) (ws : List BlockWrite) : Disk :=
  ws.foldl (Disk.apply c) d

/-! ## The engine -/

/-- The method `readSuperBlock`. -/
def readSuperBlock (d : Disk) : super_t := d.super

/-- The method `stat`: the result code and the record left in `*inode`. -/
def stat (c : Cfg) (d : Disk) (inodeNumber : Int) (inode : inode_t) : Int × inode_t :=
  let superBlock := readSuperBlock d
  if checkInode superBlock inodeNumber = false then (-c.EINVALIDINODE, inode)
  else (0, d.inodes inodeNumber)

/-- The inner loop of `lookup` over the entries `j, j+1, ...` of one block, `n`
of them: `some r` when the loop returns `r`, `none` when it runs to its end. -/
def lookupBlock (c : Cfg) (directoryEntries : Int → Nat) (name : List Nat) :
    Nat → Nat → Option Int
  | 0, _ => none
  | n + 1, j =>
    if entInum c directoryEntries (j : Int) = -1 then some (-c.ENOTFOUND)
    else if entName c directoryEntries (j : Int) = name then
      some (entInum c directoryEntries (j : Int))
    else lookupBlock c directoryEntries name n (j + 1)

/-- The outer loop of `lookup` over the direct pointers `i, i+1, ...`, `n` of
them, with the final `return -ENOTFOUND`. -/
def lookupLoop (c : Cfg) (d : Disk) (parentInode : inode_t) (name : List Nat) :
    Nat → Nat → Int
  | 0, _ => -c.ENOTFOUND
  | n + 1, i =>
    if parentInode.direct (i : Int) = -1 then -c.ENOTFOUND
    else
      match lookupBlock c (d.blocks (parentInode.direct (i : Int))) name
          (ENTRIES_IN_BLOCK c) 0 with
      | some r => r
      | none => lookupLoop c d parentInode name n (i + 1)

/-- The method `lookup`. -/
def lookup (c : Cfg) (d : Disk) (parentInodeNumber : Int) (name : List Nat) : Int :=
  let superBlock := readSuperBlock d
  if checkInode superBlock parentInodeNumber = false then -c.EINVALIDINODE
  else
    let parentInode := (stat c d parentInodeNumber default).2
    if parentInode.type ≠ c.UFS_DIRECTORY then -c.EINVALIDINODE
    else lookupLoop c d parentInode name c.DIRECT_PTRS 0

/-- The copy loop of `read` over the block indices `idx, idx+1, ...`, `n` of
them. -/
def readLoop (c : Cfg) (d : Disk) (inode : inode_t) (numBlocks lastBlockSize : Int) :
    Nat → Nat → (Int → Nat) → (Int → Nat)
  | 0, _, buffer => buffer
  | n + 1, idx, buffer =>
    readLoop c d inode numBlocks lastBlockSize n (idx + 1)
      (memcpy buffer ((idx : Int) * (c.UFS_BLOCK_SIZE : Int))
        (d.blocks (inode.direct (idx : Int))) 0
        (if (idx : Int) = numBlocks - 1 then lastBlockSize else (c.UFS_BLOCK_SIZE : Int)))

/-- The method `read`: the result code and the caller's buffer afterwards. -/
def read (c : Cfg) (d : Disk) (inodeNumber : Int) (buffer : Int → Nat) (size : Int) :
    Int × (Int → Nat) :=
  let superBlock := readSuperBlock d
  if checkInode superBlock inodeNumber = false then (-c.EINVALIDINODE, buffer)
  else if size > MAX_FILE_SIZE c ∨ size < 0 then (-c.EINVALIDSIZE, buffer)
  else
    let inode := (stat c d inodeNumber default).2
    if inode.type ≠ c.UFS_REGULAR_FILE ∧ inode.type ≠ c.UFS_DIRECTORY then
      (-c.EINVALIDTYPE, buffer)
    else
      let readSize := min size inode.size
      let numBlocks := Int.tdiv (readSize + (c.UFS_BLOCK_SIZE : Int) - 1) (c.UFS_BLOCK_SIZE : Int)
      let lastBlockSize :=
        if Int.tmod readSize (c.UFS_BLOCK_SIZE : Int) = 0 then (c.UFS_BLOCK_SIZE : Int)
        else Int.tmod readSize (c.UFS_BLOCK_SIZE : Int)
      (readSize, readLoop c d inode numBlocks lastBlockSize numBlocks.toNat 0 buffer)

/-- The loops of `create` and `unlink` that search an array of entries for
`name`, over the indices `i, i+1, ...`, `n` of them: the first match. -/
def findEntry (c : Cfg) (entries : Int → Nat) (name : List Nat) : Nat → Nat → Option Nat
  | 0, _ => none
  | n + 1, i =>
    if entName c entries (i : Int) = name then some i
    else findEntry c entries name n (i + 1)

/-- The tail of `create`, from the declaration of `entryBlock` on: the entry
block of the parent, the growth of the parent and the transaction.  The
reference `parentInode` is the record `inodes[parentInodeNumber]` of the array
as it stands. -/
def createEntry (c : Cfg) (junk : Nat → Int → Nat) (d : Disk)
    (parentInodeNumber : Int) (name : List Nat)
    (inodeBitmap dataBitmap : Int → Nat) (inodes : Int → inode_t)
    (availableInode newBlock : Int) (newEntries : Int → Nat) : Int × List BlockWrite :=
  let superBlock := readSuperBlock d
  let dataBitmapSize := superBlock.data_bitmap_len * (c.UFS_BLOCK_SIZE : Int)
  let parentInode := inodes parentInodeNumber
  if Int.tmod parentInode.size (c.UFS_BLOCK_SIZE : Int) = 0 then
    let entries := vacate c (ENTRIES_IN_BLOCK c - 1) 1
      (setName c (setInum c (junk 2) 0 availableInode) 0 name)
    let entryBlockBit := findFirstBit dataBitmap dataBitmapSize
    if entryBlockBit < -1 ∨ entryBlockBit ≥ superBlock.num_data then (-c.ENOTENOUGHSPACE, [])
    else
      let dataBitmap := createBit dataBitmap entryBlockBit
      let entryBlock := bit2Block superBlock entryBlockBit
      let parentBlockIndex := Int.tdiv parentInode.size (c.UFS_BLOCK_SIZE : Int)
      let parentInode :=
        { parentInode with direct := Function.update parentInode.direct parentBlockIndex entryBlock }
      let parentInode :=
        { parentInode with size := toInt (toSizeT parentInode.size + sizeof_dir_ent_t c) }
      let inodes := Function.update inodes parentInodeNumber parentInode
      (availableInode,
        [BlockWrite.inodeBitmap inodeBitmap, BlockWrite.dataBitmap dataBitmap,
          BlockWrite.inodeRegion inodes, BlockWrite.block entryBlock entries]
        ++ (if newBlock ≠ -1 then [BlockWrite.block newBlock newEntries] else []))
  else
    let directSize := divide parentInode.size (c.UFS_BLOCK_SIZE : Int)
    let lastBlockIndex := directSize - 1
    let entryBlock := parentInode.direct lastBlockIndex
    let entries := d.blocks entryBlock
    let entryIndex :=
      toInt (toSizeT (Int.tmod parentInode.size (c.UFS_BLOCK_SIZE : Int)) / sizeof_dir_ent_t c)
    let entries := setName c (setInum c entries entryIndex availableInode) entryIndex name
    let parentInode :=
      { parentInode with size := toInt (toSizeT parentInode.size + sizeof_dir_ent_t c) }
    let inodes := Function.update inodes parentInodeNumber parentInode
    (availableInode,
      [BlockWrite.inodeBitmap inodeBitmap, BlockWrite.dataBitmap dataBitmap,
        BlockWrite.inodeRegion inodes, BlockWrite.block entryBlock entries]
      ++ (if newBlock ≠ -1 then [BlockWrite.block newBlock newEntries] else []))

/-- The middle of `create`, from `findFirstBit(inodeBitmap, ...)` on: the
allocation of the inode and, for a directory, of its first block. -/
def createInode (c : Cfg) (junk : Nat → Int → Nat) (d : Disk)
    (parentInodeNumber type : Int) (name : List Nat)
    (inodeBitmap dataBitmap : Int → Nat) (inodes : Int → inode_t) : Int × List BlockWrite :=
  let superBlock := readSuperBlock d
  let inodeBitmapSize := superBlock.data_bitmap_len * (c.UFS_BLOCK_SIZE : Int)
  let dataBitmapSize := superBlock.data_bitmap_len * (c.UFS_BLOCK_SIZE : Int)
  let availableInode := findFirstBit inodeBitmap inodeBitmapSize
  if availableInode < 0 ∨ availableInode ≥ superBlock.num_inodes then (-c.ENOTENOUGHSPACE, [])
  else
    let inodeBitmap := createBit inodeBitmap availableInode
    let inodes := Function.update inodes availableInode
      { inodes availableInode with type := type }
    if type = c.UFS_DIRECTORY then
      let availableDataBit := findFirstBit dataBitmap dataBitmapSize
      if availableDataBit < 0 ∨ availableDataBit ≥ superBlock.num_data then
        (-c.ENOTENOUGHSPACE, [])
      else
        let dataBitmap := createBit dataBitmap availableDataBit
        let newBlock := bit2Block superBlock availableDataBit
        let newEntries := vacate c (ENTRIES_IN_BLOCK c - 2) 2
          (setName c (setInum c (setName c (setInum c (junk 1) 0 availableInode) 0 [46])
            1 parentInodeNumber) 1 [46, 46])
        let inodes := Function.update inodes availableInode
          { inodes availableInode with size := 2 * (sizeof_dir_ent_t c : Int) }
        let inodes := Function.update inodes availableInode
          { inodes availableInode with
            direct := Function.update (inodes availableInode).direct 0 newBlock }
        createEntry c junk d parentInodeNumber name inodeBitmap dataBitmap inodes
          availableInode newBlock newEntries
    else
      let inodes := Function.update inodes availableInode
        { inodes availableInode with size := 0 }
      createEntry c junk d parentInodeNumber name inodeBitmap dataBitmap inodes
        availableInode (-1) (junk 1)

/-- The method `create`: the result code and the writes of its transaction
(none when it returns before `beginTransaction`). -/
def create (c : Cfg) (junk : Nat → Int → Nat) (d : Disk)
    (parentInodeNumber type : Int) (name : List Nat) : Int × List BlockWrite :=
  let superBlock := readSuperBlock d
  if !checkInode superBlock parentInodeNumber then (-c.EINVALIDINODE, [])
  else if (decide (name.length < c.DIR_ENT_NAME_SIZE)) = false then (-c.EINVALIDNAME, [])
  else if type ≠ c.UFS_DIRECTORY ∧ type ≠ c.UFS_REGULAR_FILE then (-c.EINVALIDTYPE, [])
  else
    let inodeBitmap := readInodeBitmap c d (junk 3)
    let inodes := readInodeRegion d
    let dataBitmap := readDataBitmap c d (junk 4)
    let parentInode := inodes parentInodeNumber
    if parentInode.type ≠ c.UFS_DIRECTORY then (-c.EINVALIDINODE, [])
    else if parentInode.size = (c.UFS_BLOCK_SIZE : Int) * (c.DIRECT_PTRS : Int) then
      (-c.ENOTENOUGHSPACE, [])
    else
      let numParentEntries := toInt (toSizeT parentInode.size / sizeof_dir_ent_t c)
      let parentEntries := (read c d parentInodeNumber (junk 0)
        (toInt (toSizeT numParentEntries * sizeof_dir_ent_t c))).2
      match findEntry c parentEntries name numParentEntries.toNat 0 with
      | some i =>
        let inode := inodes (entInum c parentEntries (i : Int))
        if inode.type = type then (0, []) else (-c.EINVALIDTYPE, [])
      | none =>
        createInode c junk d parentInodeNumber type name inodeBitmap dataBitmap inodes

/-- The allocation loop of `write` over `i, i+1, ...`, `n` rounds: `none` when
a round returns `-ENOTENOUGHSPACE`, else the bitmap and the direct pointers. -/
def allocBlocks (c : Cfg) (superBlock : super_t) (curBlocks : Int) :
    Nat → Nat → (Int → Nat) → (Int → Int) → Option ((Int → Nat) × (Int → Int))
  | 0, _, dataBitmap, direct => some (dataBitmap, direct)
  | n + 1, i, dataBitmap, direct =>
    let idx := curBlocks + (i : Int)
    let availableBit :=
      findFirstBit dataBitmap (superBlock.data_bitmap_len * (c.UFS_BLOCK_SIZE : Int))
    if availableBit < 0 ∨ availableBit ≥ superBlock.num_data then none
    else
      allocBlocks c superBlock curBlocks n (i + 1) (createBit dataBitmap availableBit)
        (Function.update direct idx (bit2Block superBlock availableBit))

/-- The release loop of `write` over `i, i+1, ...`, `n` rounds. -/
def freeBlocks (superBlock : super_t) (direct : Int → Int) (curBlocks : Int) :
    Nat → Nat → (Int → Nat) → (Int → Nat)
  | 0, _, dataBitmap => dataBitmap
  | n + 1, i, dataBitmap =>
    freeBlocks superBlock direct curBlocks n (i + 1)
      (delBit dataBitmap (block2Bit superBlock (direct (curBlocks - (i : Int)))))

/-- The block of index `i` that the last loop of `write` passes to
`writeBlock`: the bytes copied from the buffer over the uninitialised array
`blockContent`. -/
def writeContent (c : Cfg) (junk : Nat → Int → Nat) (buffer : Int → Nat)
    (requiredBlocks lastBlockSize : Int) (i : Nat) : Int → Nat :=
  memcpy (junk 1) 0 buffer ((i : Int) * (c.UFS_BLOCK_SIZE : Int))
    (if (i : Int) = requiredBlocks - 1 then lastBlockSize else (c.UFS_BLOCK_SIZE : Int))

/-- The method `write`: the result code and the writes of its transaction. -/
def write (c : Cfg) (junk : Nat → Int → Nat) (d : Disk)
    (inodeNumber : Int) (buffer : Int → Nat) (size : Int) : Int × List BlockWrite :=
  let superBlock := readSuperBlock d
  if checkInode superBlock inodeNumber = false then (-c.EINVALIDINODE, [])
  else if size < 0 ∨ size > MAX_FILE_SIZE c then (-c.EINVALIDSIZE, [])
  else
    let inodeRegion := readInodeRegion d
    let inodeWrite := inodeRegion inodeNumber
    if inodeWrite.type ≠ c.UFS_REGULAR_FILE then (-c.EINVALIDTYPE, [])
    else
      let dataBitmap := readDataBitmap c d (junk 0)
      let curBlocks := divide inodeWrite.size (c.UFS_BLOCK_SIZE : Int)
      let requiredBlocks := divide size (c.UFS_BLOCK_SIZE : Int)
      let blocksToAllocate := max 0 (requiredBlocks - curBlocks)
      let blocksToDeallocate := max 0 (curBlocks - requiredBlocks)
      if requiredBlocks > (c.DIRECT_PTRS : Int) then (-c.ENOTENOUGHSPACE, [])
      else
        match allocBlocks c superBlock curBlocks blocksToAllocate.toNat 0 dataBitmap
            inodeWrite.direct with
        | none => (-c.ENOTENOUGHSPACE, [])
        | some (dataBitmap, direct) =>
          let dataBitmap :=
            freeBlocks superBlock direct curBlocks blocksToDeallocate.toNat 1 dataBitmap
          let inodeWrite := { inodeWrite with direct := direct, size := size }
          let inodeRegion := Function.update inodeRegion inodeNumber inodeWrite
          let lastBlockSize := Int.tmod (inodeWrite.size - 1) (c.UFS_BLOCK_SIZE : Int) + 1
          (size,
            [BlockWrite.inodeRegion inodeRegion, BlockWrite.dataBitmap dataBitmap]
            ++ (List.range requiredBlocks.toNat).map (fun (i : Nat) =>
              BlockWrite.block (inodeWrite.direct (i : Int))
                (writeContent c junk buffer requiredBlocks lastBlockSize i)))

/-- The loop of `unlink` that clears the data bits of the removed inode, over
the block indices `i, i+1, ...`, `n` of them. -/
def clearBlocks (superBlock : super_t) (direct : Int → Int) :
    Nat → Nat → (Int → Nat) → (Int → Nat)
  | 0, _, dataBitmap => dataBitmap
  | n + 1, i, dataBitmap =>
    clearBlocks superBlock direct n (i + 1)
      (delBit dataBitmap (block2Bit superBlock (direct (i : Int))))

/-- The call `entries.erase(entries.begin() + entryIndex)`: the entries after
the erased one move down by one slot. -/
def eraseEntry (c : Cfg) (entries : Int → Nat) (entryIndex : Int) : Int → Nat :=
  fun k =>
    if k < entryIndex * (sizeof_dir_ent_t c : Int) then entries k
    else entries (k + (sizeof_dir_ent_t c : Int))

/-- The padding loop of `unlink`, at most `n` rounds, on a vector of `count`
entries: each round appends an entry with an uninitialised name and
`inum = -1`. -/
def padEntries (c : Cfg) (junk : Nat → Int → Nat) : Nat → (Int → Nat) → Nat → (Int → Nat)
  | 0, entries, _ => entries
  | n + 1, entries, count =>
    if count * sizeof_dir_ent_t c % c.UFS_BLOCK_SIZE ≠ 0 then
      padEntries c junk n
        (setInum c (memcpy entries ((count : Int) * (sizeof_dir_ent_t c : Int)) (junk 2) 0
          (sizeof_dir_ent_t c : Int)) (count : Int) (-1))
        (count + 1)
    else entries

/-- The tail of `unlink`, from the declaration of `inodeToDelete` on, for the
entry of index `entryIndex` found in the array `entries`: the release of the
inode and of its blocks, the removal of the entry and the transaction. -/
def unlinkEntry (c : Cfg) (junk : Nat → Int → Nat) (d : Disk)
    (parentInodeNumber : Int) (inodes : Int → inode_t)
    (dataBitmap inodeBitmap entries : Int → Nat) (numEntries : Int) (entryIndex : Nat) :
    Int × List BlockWrite :=
  let superBlock := readSuperBlock d
  let parentInode := inodes parentInodeNumber
  let inodeToDelete := entInum c entries (entryIndex : Int)
  let inode := inodes inodeToDelete
  if inode.type = c.UFS_DIRECTORY ∧ inode.size > (sizeof_dir_ent_t c : Int) * 2 then
    (-c.EDIRNOTEMPTY, [])
  else
    let blocksToDelete := divide inode.size (c.UFS_BLOCK_SIZE : Int)
    let dataBitmap := clearBlocks superBlock inode.direct blocksToDelete.toNat 0 dataBitmap
    let inodeBitmap := delBit inodeBitmap inodeToDelete
    let entries := eraseEntry c entries (entryIndex : Int)
    let parentInode :=
      { parentInode with
        size := toInt ((toSizeT parentInode.size + 18446744073709551616 - sizeof_dir_ent_t c)
          % 18446744073709551616) }
    let shrink := decide (Int.tmod parentInode.size (c.UFS_BLOCK_SIZE : Int) = 0
      ∧ Int.tdiv parentInode.size (c.UFS_BLOCK_SIZE : Int) < (c.DIRECT_PTRS : Int))
    let blocksNeeded := Int.tdiv parentInode.size (c.UFS_BLOCK_SIZE : Int)
    let dataBitmap :=
      if shrink then delBit dataBitmap (block2Bit superBlock (parentInode.direct blocksNeeded))
      else dataBitmap
    let parentInode :=
      if shrink then
        { parentInode with direct := Function.update parentInode.direct blocksNeeded (-1) }
      else parentInode
    let inodes := Function.update inodes parentInodeNumber parentInode
    let entries := padEntries c junk c.UFS_BLOCK_SIZE entries (numEntries.toNat - 1)
    (0,
      [BlockWrite.inodeRegion inodes, BlockWrite.dataBitmap dataBitmap,
        BlockWrite.inodeBitmap inodeBitmap]
      ++ (List.range (divide parentInode.size (c.UFS_BLOCK_SIZE : Int)).toNat).map (fun (i : Nat) =>
        BlockWrite.block (parentInode.direct (i : Int))
          (fun k => entries ((i : Int) * (ENTRIES_IN_BLOCK c : Int)
            * (sizeof_dir_ent_t c : Int) + k))))

/-- The method `unlink`: the result code and the writes of its transaction. -/
def unlink (c : Cfg) (junk : Nat → Int → Nat) (d : Disk)
    (parentInodeNumber : Int) (name : List Nat) : Int × List BlockWrite :=
  let superBlock := readSuperBlock d
  if checkInode superBlock parentInodeNumber = false then (-c.EINVALIDINODE, [])
  else if (decide (name.length < c.DIR_ENT_NAME_SIZE)) = false then (-c.EINVALIDNAME, [])
  else if (decide (name ≠ [46] ∧ name ≠ [46, 46])) = false then (-c.EUNLINKNOTALLOWED, [])
  else
    let inodes := readInodeRegion d
    let parentInode := inodes parentInodeNumber
    if parentInode.type ≠ c.UFS_DIRECTORY then (-c.EINVALIDINODE, [])
    else
      let dataBitmap := readDataBitmap c d (junk 0)
      let inodeBitmap := readInodeBitmap c d (junk 1)
      let numEntries := toInt (toSizeT parentInode.size / sizeof_dir_ent_t c)
      let entries := (read c d parentInodeNumber (fun _ => 0) parentInode.size).2
      match findEntry c entries name numEntries.toNat 0 with
      | none => (0, [])
      | some entryIndex =>
        unlinkEntry c junk d parentInodeNumber inodes dataBitmap inodeBitmap entries numEntries
          entryIndex

/-! ## A small configuration for concrete evaluation -/

/-- A configuration with 16-byte blocks, three direct pointers and 4-byte name
fields (so a directory entry takes 8 bytes and a block holds two entries). -/
def exCfg : Cfg :=
  { UFS_BLOCK_SIZE := 16, DIRECT_PTRS := 3, DIR_ENT_NAME_SIZE := 4,
    UFS_DIRECTORY := 0, UFS_REGULAR_FILE := 1,
    EINVALIDINODE := 1, EINVALIDSIZE := 2, EINVALIDTYPE := 3, EINVALIDNAME := 4,
    ENOTFOUND := 5, ENOTENOUGHSPACE := 6, EDIRNOTEMPTY := 7, EUNLINKNOTALLOWED := 8 }

/-- A superblock for `exCfg`: one block for each bitmap, the inode region at
block 3, the data region from block 4, 8 inodes and 12 data blocks. -/
def exSuper : super_t :=
  { inode_bitmap_addr := 1, inode_bitmap_len := 1, data_bitmap_addr := 2, data_bitmap_len := 1,
    inode_region_addr := 3, inode_region_len := 1, data_region_addr := 4,
    num_inodes := 8, num_data := 12 }

/-- The entries block of a root directory: `.` and `..`, both inode 0. -/
def exRootBlock : Int → Nat :=
  setName exCfg (setInum exCfg (setName exCfg (setInum exCfg (fun _ => 0) 0 0) 0 [46]) 1 0)
    1 [46, 46]

/-- A fresh image for `exCfg`: only the root directory, in data block 4; the
unused inode records hold size 0 and `-1` in every direct slot. -/
def exFresh : Disk :=
  { super := exSuper
    inodeBitmap := fun k => if k = 0 then 1 else 0
    dataBitmap := fun k => if k = 0 then 1 else 0
    inodes := fun i =>
      if i = 0 then { type := 0, size := 16, direct := fun k => if k = 0 then 4 else -1 }
      else { type := 0, size := 0, direct := fun _ => -1 }
    blocks := fun n => if n = 4 then exRootBlock else fun _ => 0 }

/-- The content of uninitialised memory in the concrete evaluations. -/
def exJunk : Nat → Int → Nat := fun _ _ => 170

/-! ## Notions used to state the properties -/

/-- The concatenation of the blocks `direct[0]`, `direct[1]`, ... of an inode:
byte `k` of it is byte `k % block_size` of block `direct[k / block_size]`. -/
def fileData (c : Cfg) (d : Disk) (inode : inode_t) : Int → Nat :=
  fun k => d.blocks (inode.direct (k / (c.UFS_BLOCK_SIZE : Int))) (k % (c.UFS_BLOCK_SIZE : Int))

/-- The image `exFresh` after `create(0, regular-file, "f")`, which returns
inode 1. -/
def exWithFile : Disk :=
  commit exCfg exFresh (create exCfg exJunk exFresh 0 1 [102]).2

/-- The image `exWithFile` with every bit of its data bitmap set. -/
def exFullFile : Disk :=
  { exWithFile with dataBitmap := fun _ => 255 }

/-- The image after `create(p, t, name)` on `d`, in the configuration `exCfg`. -/
def exCreate (d : Disk) (p t : Int) (name : List Nat) : Disk :=
  commit exCfg d (create exCfg exJunk d p t name).2

/-- The image `exFresh` after the regular files `a`, `b`, `c` and `d` were
created in the root directory, which then holds six entries in three blocks. -/
def exFullDir : Disk :=
  exCreate (exCreate (exCreate (exCreate exFresh 0 1 [97]) 0 1 [98]) 0 1 [99]) 0 1 [100]

/-- The image after `write(i, buffer, size)` on `d`, in the configuration `exCfg`. -/
def exWrite (d : Disk) (i : Int) (buffer : Int → Nat) (size : Int) : Disk :=
  commit exCfg d (write exCfg exJunk d i buffer size).2

/-- The image after `unlink(p, name)` on `d`, in the configuration `exCfg`. -/
def exUnlink (d : Disk) (p : Int) (name : List Nat) : Disk :=
  commit exCfg d (unlink exCfg exJunk d p name).2

/-- A buffer of 32 bytes whose second half reads as a directory entry named
`x` with `inum = 0`. -/
def exStaleBuffer : Int → Nat := fun k => if k = 16 then 120 else 0

/-- The image reached from `exFresh` by `create(0, regular-file, "f")` (inode
1), `write(1, exStaleBuffer, 32)`, `unlink(0, "f")` and
`create(0, directory, "d")`, which takes inode 1 again. -/
def exStale : Disk :=
  exCreate (exUnlink (exWrite (exCreate exFresh 0 1 [102]) 1 exStaleBuffer 32) 0 [102]) 0 0 [100]

/-- Inode `i` is in use: bit `i` of the inode bitmap is set (invariant 1 of
section 3 of the specification). -/
def inUse (d : Disk) (i : Int) : Prop := findBit d.inodeBitmap i = true

instance (d : Disk) (i : Int) : Decidable (inUse d i) := by
  unfold inUse; infer_instance

/-- The number of blocks an inode of this size holds, `ceil(size / block_size)`,
computed as the source does with `divide`. -/
def numBlocks (c : Cfg) (inode : inode_t) : Int := divide inode.size (c.UFS_BLOCK_SIZE : Int)

/-- The layout of section 3: block numbers are not negative, the inode count is
a 32-bit `int`, and each bitmap region holds a bit for every inode,
respectively every data block, that the superblock counts. -/
def Layout (c : Cfg) (d : Disk) : Prop :=
  0 ≤ d.super.data_region_addr ∧
  d.super.num_inodes < 2147483648 ∧
  0 ≤ d.super.num_inodes ∧
  d.super.num_inodes ≤ d.super.inode_bitmap_len * (c.UFS_BLOCK_SIZE : Int) * 8 ∧
  0 ≤ d.super.num_data ∧
  d.super.num_data ≤ d.super.data_bitmap_len * (c.UFS_BLOCK_SIZE : Int) * 8

instance (c : Cfg) (d : Disk) : Decidable (Layout c d) := by
  unfold Layout; infer_instance

/-- Invariant 7 of section 3, for every inode in use: the size is at least 0
and at most `MAX_FILE_SIZE`. -/
def SizeInv (c : Cfg) (d : Disk) : Prop :=
  ∀ i : Nat, i < d.super.num_inodes.toNat → inUse d (i : Int) →
    0 ≤ (d.inodes (i : Int)).size ∧ (d.inodes (i : Int)).size ≤ MAX_FILE_SIZE c

instance (c : Cfg) (d : Disk) : Decidable (SizeInv c d) := by
  unfold SizeInv; infer_instance

/-- Slot `k` of inode `i` is a live reference: the inode is in range and in
use and `k` is below `ceil(size / block_size)` (and below `DIRECT_PTRS`). -/
def liveSlot (c : Cfg) (d : Disk) (i k : Nat) : Prop :=
  i < d.super.num_inodes.toNat ∧ inUse d (i : Int) ∧ k < c.DIRECT_PTRS ∧
    (k : Int) < numBlocks c (d.inodes (i : Int))

instance (c : Cfg) (d : Disk) (i k : Nat) : Decidable (liveSlot c d i k) := by
  unfold liveSlot; infer_instance

/-- Invariant 2 of section 3, first part: every live reference is a block of
the data region whose bit is set. -/
def BlocksValid (c : Cfg) (d : Disk) : Prop :=
  ∀ i : Nat, i < d.super.num_inodes.toNat → ∀ k : Nat, k < c.DIRECT_PTRS →
    liveSlot c d i k →
      ∃ j : Nat, j < d.super.num_data.toNat ∧
        (d.inodes (i : Int)).direct (k : Int) = d.super.data_region_addr + (j : Int) ∧
        findBit d.dataBitmap (j : Int) = true

instance (c : Cfg) (d : Disk) : Decidable (BlocksValid c d) := by
  unfold BlocksValid; infer_instance

/-- The block number in slot `k` of inode `i` differs from every live
reference other than that slot itself. -/
def slotUnique (c : Cfg) (d : Disk) (i k : Nat) : Prop :=
  ∀ i' : Nat, i' < d.super.num_inodes.toNat → ∀ k' : Nat, k' < c.DIRECT_PTRS →
    liveSlot c d i' k' →
      (d.inodes (i : Int)).direct (k : Int) = (d.inodes (i' : Int)).direct (k' : Int) →
      i = i' ∧ k = k'

instance (c : Cfg) (d : Disk) (i k : Nat) : Decidable (slotUnique c d i k) := by
  unfold slotUnique; infer_instance

/-- Invariant 2 of section 3, second part (a block is referenced by exactly one
inode): no two live references, of one inode or of two, are equal. -/
def BlocksDistinct (c : Cfg) (d : Disk) : Prop :=
  ∀ i : Nat, i < d.super.num_inodes.toNat → ∀ k : Nat, k < c.DIRECT_PTRS →
    liveSlot c d i k → slotUnique c d i k

instance (c : Cfg) (d : Disk) : Decidable (BlocksDistinct c d) := by
  unfold BlocksDistinct; infer_instance

/-- Invariant 2 of section 3, third part: every set bit of the data bitmap
below `num_data` belongs to a live reference. -/
def BitsOwned (c : Cfg) (d : Disk) : Prop :=
  ∀ j : Nat, j < d.super.num_data.toNat → findBit d.dataBitmap (j : Int) = true →
    ∃ i : Nat, i < d.super.num_inodes.toNat ∧ ∃ k : Nat, k < c.DIRECT_PTRS ∧
      liveSlot c d i k ∧
        (d.inodes (i : Int)).direct (k : Int) = d.super.data_region_addr + (j : Int)

instance (c : Cfg) (d : Disk) : Decidable (BitsOwned c d) := by
  unfold BitsOwned; infer_instance

/-- The two bytes `hi`, as a caller's buffer. -/
def exHi : Int → Nat := fun k => if k = 0 then 104 else 105

/-- The array `newEntries` that `create` builds for a new directory `a` under
the parent `p`: `.` and `..`, then vacant slots. -/
def newDirEntries (c : Cfg) (junk : Nat → Int → Nat) (a p : Int) : Int → Nat :=
  vacate c (ENTRIES_IN_BLOCK c - 2) 2
    (setName c (setInum c (setName c (setInum c (junk 1) 0 a) 0 [46]) 1 p) 1 [46, 46])

/-- The array `entries` that `create` builds for a new block of the parent: the
entry `(a, name)`, then vacant slots. -/
def newParentEntries (c : Cfg) (junk : Nat → Int → Nat) (a : Int) (name : List Nat) : Int → Nat :=
  vacate c (ENTRIES_IN_BLOCK c - 1) 1 (setName c (setInum c (junk 2) 0 a) 0 name)

/-- The writes of the transaction of `create`, in the order of the source. -/
def createWrites (inodeBitmap dataBitmap : Int → Nat) (inodes : Int → inode_t)
    (entryBlock : Int) (entries : Int → Nat) (newBlock : Int) (newEntries : Int → Nat) :
    List BlockWrite :=
  [BlockWrite.inodeBitmap inodeBitmap, BlockWrite.dataBitmap dataBitmap,
    BlockWrite.inodeRegion inodes, BlockWrite.block entryBlock entries]
  ++ (if newBlock ≠ -1 then [BlockWrite.block newBlock newEntries] else [])

/-- Invariant 4 of section 3 and the data model of a directory, for every
directory inode in use: the size is a positive multiple of
`sizeof(dir_ent_t)`, and each of the `size / sizeof(dir_ent_t)` entries carries
an inode number (not the `-1` of a vacant slot). -/
def DirInv (c : Cfg) (d : Disk) : Prop :=
  ∀ i : Nat, i < d.super.num_inodes.toNat → inUse d (i : Int) →
    (d.inodes (i : Int)).type = c.UFS_DIRECTORY →
      0 < (d.inodes (i : Int)).size ∧
      (d.inodes (i : Int)).size % (sizeof_dir_ent_t c : Int) = 0 ∧
      ∀ j : Nat, j < ((d.inodes (i : Int)).size / (sizeof_dir_ent_t c : Int)).toNat →
        0 ≤ entInum c (fileData c d (d.inodes (i : Int))) (j : Int) ∧
        entInum c (fileData c d (d.inodes (i : Int))) (j : Int) < d.super.num_inodes

instance (c : Cfg) (d : Disk) : Decidable (DirInv c d) := by
  unfold DirInv; infer_instance

/-- The image `d'` holds the directory `p` of `d` with one entry appended: the
bytes of the old entries are as they were, the entry of index
`size / sizeof(dir_ent_t)` is `(name, a)`, the size has grown by one entry, and
the direct slots up to the block of the new entry are not `-1`. -/
def Appended (c : Cfg) (d d' : Disk) (p a : Int) (name : List Nat) : Prop :=
  d'.super = d.super ∧
  (d'.inodes p).type = (d.inodes p).type ∧
  (d'.inodes p).size = (d.inodes p).size + (sizeof_dir_ent_t c : Int) ∧
  (∀ k : Int, 0 ≤ k → k < (d.inodes p).size →
    fileData c d' (d'.inodes p) k = fileData c d (d.inodes p) k) ∧
  entName c (fileData c d' (d'.inodes p))
    ((d.inodes p).size / (sizeof_dir_ent_t c : Int)) = name ∧
  entInum c (fileData c d' (d'.inodes p))
    ((d.inodes p).size / (sizeof_dir_ent_t c : Int)) = a ∧
  (∀ bi : Nat, (bi : Int) ≤ (d.inodes p).size / (c.UFS_BLOCK_SIZE : Int) →
    (d'.inodes p).direct (bi : Int) ≠ -1)

/-- The block numbers that the `writeBlock` calls of a transaction name, in
order (the region writes of the bitmaps and the inode table left aside). -/
def writtenBlocks : List BlockWrite → List Int
  | [] => []
  | BlockWrite.block n _ :: ws => n :: writtenBlocks ws
  | _ :: ws => writtenBlocks ws

/-- The index of a directory entry, counted as the engine does: the number of
entries of an inode is `size / sizeof(dir_ent_t)`. -/
def numEntries (c : Cfg) (inode : inode_t) : Nat :=
  (inode.size / (sizeof_dir_ent_t c : Int)).toNat

/-! ## Sequences of calls -/

/-- A call of one of the three methods that write to the image, with its
arguments. -/
inductive Call where
  | create (parentInodeNumber type : Int) (name : List Nat)
  | write (inodeNumber : Int) (buffer : Int → Nat) (size : Int)
  | unlink (parentInodeNumber : Int) (name : List Nat)

/-- The result code and the writes of a call on the image `d`. -/
def Call.exec (c : Cfg) (junk : Nat → Int → Nat) (d : Disk) : Call → Int × List BlockWrite
  | Call.create p t name => LocalFileSystem.create c junk d p t name
  | Call.write i buffer size => LocalFileSystem.write c junk d i buffer size
  | Call.unlink p name => LocalFileSystem.unlink c junk d p name

/-- The image after a sequence of calls, each with the content of its
uninitialised memory: `some` image when every call succeeds (its result is not
negative) and writes blocks of the data region only, `none` otherwise. -/
def runCalls (c : Cfg) : Disk → List ((Nat → Int → Nat) × Call) → Option Disk
  | d, [] => some d
  | d, jc :: rest =>
    if 0 ≤ (Call.exec c jc.1 d jc.2).1 ∧
        ∀ b ∈ writtenBlocks (Call.exec c jc.1 d jc.2).2, d.super.data_region_addr ≤ b then
      runCalls c (commit c d (Call.exec c jc.1 d jc.2).2) rest
    else none

/-- Modelled from the spec: a fresh image holds the root directory only
(sections 3 and 8; the tool that builds an image is not among the sources).
Inode 0 is the only inode in use; it is a directory of two entries, `.` and
`..`, both inode 0, in one block of the data region, the only block whose bit is
set; the other slots of that block are vacant. -/
def Fresh (c : Cfg) (d : Disk) : Prop :=
  Layout c d ∧ 0 < d.super.num_inodes ∧
  (∀ i : Nat, i < d.super.num_inodes.toNat → (inUse d (i : Int) ↔ i = 0)) ∧
  (d.inodes 0).type = c.UFS_DIRECTORY ∧
  (d.inodes 0).size = 2 * (sizeof_dir_ent_t c : Int) ∧
  (∃ m : Nat, m < d.super.num_data.toNat ∧
    (d.inodes 0).direct 0 = d.super.data_region_addr + (m : Int) ∧
    ∀ j : Nat, j < d.super.num_data.toNat → (findBit d.dataBitmap (j : Int) = true ↔ j = m)) ∧
  entName c (d.blocks ((d.inodes 0).direct 0)) 0 = [46] ∧
  entInum c (d.blocks ((d.inodes 0).direct 0)) 0 = 0 ∧
  entName c (d.blocks ((d.inodes 0).direct 0)) 1 = [46, 46] ∧
  entInum c (d.blocks ((d.inodes 0).direct 0)) 1 = 0 ∧
  ∀ s : Nat, s < ENTRIES_IN_BLOCK c → 2 ≤ s →
    entInum c (d.blocks ((d.inodes 0).direct 0)) (s : Int) = -1

instance (c : Cfg) (d : Disk) : Decidable (Fresh c d) := by
  unfold Fresh; infer_instance

/-- The unused inode records hold `-1` in every direct slot. -/
def FreshPointers (c : Cfg) (d : Disk) : Prop :=
  ∀ i : Nat, i < d.super.num_inodes.toNat → ¬ inUse d (i : Int) →
    ∀ k : Nat, k < c.DIRECT_PTRS → (d.inodes (i : Int)).direct (k : Int) = -1

instance (c : Cfg) (d : Disk) : Decidable (FreshPointers c d) := by
  unfold FreshPointers; infer_instance

/-- The first `ceil(size / block_size)` direct slots of every in-use
regular-file inode hold block numbers of the data region (invariant 3 of
section 3, first part). -/
def FileBlocksValid (c : Cfg) (d : Disk) : Prop :=
  ∀ i : Nat, i < d.super.num_inodes.toNat → inUse d (i : Int) →
    (d.inodes (i : Int)).type = c.UFS_REGULAR_FILE →
    ∀ k : Nat, k < c.DIRECT_PTRS → (k : Int) < numBlocks c (d.inodes (i : Int)) →
      ∃ m : Nat, m < d.super.num_data.toNat ∧
        (d.inodes (i : Int)).direct (k : Int) = d.super.data_region_addr + (m : Int)

instance (c : Cfg) (d : Disk) : Decidable (FileBlocksValid c d) := by
  unfold FileBlocksValid; infer_instance

/-- The direct slots of every in-use regular-file inode from
`ceil(size / block_size)` on hold `-1` (invariant 3 of section 3, second
part). -/
def FileRestVacant (c : Cfg) (d : Disk) : Prop :=
  ∀ i : Nat, i < d.super.num_inodes.toNat → inUse d (i : Int) →
    (d.inodes (i : Int)).type = c.UFS_REGULAR_FILE →
    ∀ k : Nat, k < c.DIRECT_PTRS → numBlocks c (d.inodes (i : Int)) ≤ (k : Int) →
      (d.inodes (i : Int)).direct (k : Int) = -1

instance (c : Cfg) (d : Disk) : Decidable (FileRestVacant c d) := by
  unfold FileRestVacant; infer_instance

/-- The calls `create(0, regular-file, "f")`, `write(1, "h", 1)` and
`write(1, "", 0)`. -/
def exShrinkCalls : List ((Nat → Int → Nat) × Call) :=
  [(exJunk, Call.create 0 1 [102]), (exJunk, Call.write 1 exHi 1), (exJunk, Call.write 1 exHi 0)]

/-- Inode `i` owns bit `j` of the data bitmap: it is in use and block
`data_region_addr + j` is one of its first `ceil(size / block_size)` direct
pointers. -/
def owns (c : Cfg) (d : Disk) (i j : Nat) : Prop :=
  inUse d (i : Int) ∧ ∃ k : Nat, k < c.DIRECT_PTRS ∧ (k : Int) < numBlocks c (d.inodes (i : Int)) ∧
    (d.inodes (i : Int)).direct (k : Int) = d.super.data_region_addr + (j : Int)

instance (c : Cfg) (d : Disk) (i j : Nat) : Decidable (owns c d i j) := by
  unfold owns; infer_instance

/-- Invariant 2 of section 3: bit `j` of the data bitmap is set if and only if
block `data_region_addr + j` is one of the first `ceil(size / block_size)`
direct pointers of exactly one in-use inode. -/
def BitmapBijection (c : Cfg) (d : Disk) : Prop :=
  ∀ j : Nat, j < d.super.num_data.toNat →
    (findBit d.dataBitmap (j : Int) = true ↔
      ∃ i : Nat, i < d.super.num_inodes.toNat ∧ owns c d i j ∧
        ∀ i' : Nat, i' < d.super.num_inodes.toNat → owns c d i' j → i' = i)

instance (c : Cfg) (d : Disk) : Decidable (BitmapBijection c d) := by
  unfold BitmapBijection; infer_instance

/-- The calls `create(0, regular-file, "f")`, `unlink(0, "f")` and
`write(1, "h", 1)`. -/
def exOrphanCalls : List ((Nat → Int → Nat) × Call) :=
  [(exJunk, Call.create 0 1 [102]), (exJunk, Call.unlink 0 [102]), (exJunk, Call.write 1 exHi 1)]

/-- Inode `i` is live: its number is in range and its bit is set. -/
def live (d : Disk) (i : Int) : Prop :=
  0 ≤ i ∧ i < d.super.num_inodes ∧ inUse d i

/-- The inode number of entry `e` of the directory `q`. -/
def child (c : Cfg) (d : Disk) (q : Int) (e : Nat) : Int :=
  entInum c (fileData c d (d.inodes q)) (e : Int)

/-- The consistency of an image that `create`, `write` and `unlink` keep when
they are called on live inodes: the layout, the invariants 2, 4 and 7 of
section 3, and the tree of directories (every entry after `.` and `..` of a live
directory names a live inode, and no two of them name the same one). -/
structure Sound (c : Cfg) (d : Disk) : Prop where
  layout : Layout c d
  sizes : ∀ i : Int, live d i →
    0 ≤ (d.inodes i).size ∧ (d.inodes i).size ≤ MAX_FILE_SIZE c
  valid : ∀ i : Int, live d i → ∀ k : Nat, (k : Int) < numBlocks c (d.inodes i) →
    ∃ m : Nat, m < d.super.num_data.toNat ∧
      (d.inodes i).direct (k : Int) = d.super.data_region_addr + (m : Int) ∧
      findBit d.dataBitmap (m : Int) = true
  distinct : ∀ i i' : Int, live d i → live d i' → ∀ k k' : Nat,
    (k : Int) < numBlocks c (d.inodes i) → (k' : Int) < numBlocks c (d.inodes i') →
    (d.inodes i).direct (k : Int) = (d.inodes i').direct (k' : Int) → i = i' ∧ k = k'
  owned : ∀ j : Nat, j < d.super.num_data.toNat → findBit d.dataBitmap (j : Int) = true →
    ∃ i : Int, live d i ∧ ∃ k : Nat, (k : Int) < numBlocks c (d.inodes i) ∧
      (d.inodes i).direct (k : Int) = d.super.data_region_addr + (j : Int)
  dirShape : ∀ i : Int, live d i → (d.inodes i).type = c.UFS_DIRECTORY →
    2 * (sizeof_dir_ent_t c : Int) ≤ (d.inodes i).size ∧
    (d.inodes i).size % (sizeof_dir_ent_t c : Int) = 0 ∧
    entName c (fileData c d (d.inodes i)) ((0 : Nat) : Int) = [46] ∧
    entName c (fileData c d (d.inodes i)) ((1 : Nat) : Int) = [46, 46]
  childLive : ∀ q : Int, live d q → (d.inodes q).type = c.UFS_DIRECTORY →
    ∀ e : Nat, 2 ≤ e → e < numEntries c (d.inodes q) → live d (child c d q e)
  childInj : ∀ q q' : Int, live d q → live d q' →
    (d.inodes q).type = c.UFS_DIRECTORY → (d.inodes q').type = c.UFS_DIRECTORY →
    ∀ e e' : Nat, 2 ≤ e → 2 ≤ e' → e < numEntries c (d.inodes q) →
    e' < numEntries c (d.inodes q') → child c d q e = child c d q' e' → q = q' ∧ e = e'

/-- The inode number that a call names: the parent of `create` and `unlink`, the
file of `write`. -/
def Call.inode : Call → Int
  | Call.create p _ _ => p
  | Call.write i _ _ => i
  | Call.unlink p _ => p

/-- The image after a sequence of calls on live inodes: as `runCalls`, and
`none` also when a call names an inode whose bit in the inode bitmap is
clear. -/
def runLiveCalls (c : Cfg) : Disk → List ((Nat → Int → Nat) × Call) → Option Disk
  | d, [] => some d
  | d, jc :: rest =>
    if inUse d (Call.inode jc.2) ∧ 0 ≤ (Call.exec c jc.1 d jc.2).1 ∧
        ∀ b ∈ writtenBlocks (Call.exec c jc.1 d jc.2).2, d.super.data_region_addr ≤ b then
      runLiveCalls c (commit c d (Call.exec c jc.1 d jc.2).2) rest
    else none

/-- The calls `create(0, directory, "d")` (inode 1), `create(1, regular-file,
"f")` (inode 2), `write(2, "hi", 2)` and `unlink(1, "f")`. -/
def exLiveCalls : List ((Nat → Int → Nat) × Call) :=
  [(exJunk, Call.create 0 0 [100]), (exJunk, Call.create 1 1 [102]),
    (exJunk, Call.write 2 exHi 2), (exJunk, Call.unlink 1 [102])]

/-- The error codes of the configuration, in the order of section 7. -/
def errorCodes (c : Cfg) : List Int :=
  [c.EINVALIDINODE, c.EINVALIDSIZE, c.EINVALIDNAME, c.EINVALIDTYPE, c.ENOTFOUND,
    c.ENOTENOUGHSPACE, c.EDIRNOTEMPTY, c.EUNLINKNOTALLOWED]

/-- Modelled from the spec: the error kinds of section 7 are distinct, and a
method returns either a result that is not negative or the negative of one of
them, so every code is positive (the header that defines the codes is not among
the sources). -/
def ErrorKinds (c : Cfg) : Prop :=
  (errorCodes c).Nodup ∧ ∀ e ∈ errorCodes c, 0 < e

instance (c : Cfg) : Decidable (ErrorKinds c) := by
  unfold ErrorKinds; infer_instance

/-- The image `exFresh` with the size of the root directory set to 64, above
`DIRECT_PTRS * block_size = 48`. -/
def exOversized : Disk :=
  { exFresh with
    inodes := fun i =>
      if i = 0 then { type := 0, size := 64, direct := fun k => if k = 0 then 4 else -1 }
      else exFresh.inodes i }

/-- The image `exFresh` with every bit of its data bitmap set: no data block is
free. -/
def exFullFresh : Disk :=
  { exFresh with dataBitmap := fun _ => 255 }

/-- A superblock for `exCfg` with two blocks of inode bitmap and one block of
data bitmap: 130 inodes, of which the one-block data bitmap length covers 128. -/
def exWideSuper : super_t :=
  { inode_bitmap_addr := 1, inode_bitmap_len := 2, data_bitmap_addr := 3, data_bitmap_len := 1,
    inode_region_addr := 4, inode_region_len := 163, data_region_addr := 167,
    num_inodes := 130, num_data := 12 }

/-- An image on `exWideSuper` whose inodes 0 to 127 are in use and whose inodes
128 and 129 are free; the root directory is as in `exFresh`, in block 167. -/
def exWide : Disk :=
  { super := exWideSuper
    inodeBitmap := fun k => if 0 ≤ k ∧ k < 16 then 255 else 0
    dataBitmap := fun k => if k = 0 then 1 else 0
    inodes := fun i =>
      if i = 0 then { type := 0, size := 16, direct := fun k => if k = 0 then 167 else -1 }
      else { type := 1, size := 0, direct := fun _ => -1 }
    blocks := fun n => if n = 167 then exRootBlock else fun _ => 0 }

/-- The image `exFresh` with every bit of its data bitmap set but bit 1: exactly
one data block, block 5, is free. -/
def exOneFree : Disk :=
  { exFresh with dataBitmap := fun k => if k = 0 then 253 else 255 }

/-- The image `exFresh` after `create(0, directory, "d")`, which returns inode
1: the root directory holds `.`, `..` and `d`; the directory `d` holds `.` and
`..`. -/
def exWithDir : Disk := exCreate exFresh 0 0 [100]

/-- The image `exWithDir` after `create(1, regular-file, "f")`, which returns
inode 2: the directory `d` holds `.`, `..` and `f`. -/
def exWithDirFile : Disk := exCreate exWithDir 1 1 [102]

/-- The sequence of `(name, inum)` entries of the directory `p`: the
`size / sizeof(dir_ent_t)` entries of the bytes that `read(p, buffer, size)`
returns for the size of `p`. -/
def dirEntries (c : Cfg) (d : Disk) (p : Int) : List (List Nat × Int) :=
  (List.range (numEntries c (d.inodes p))).map (fun (j : Nat) =>
    (entName c (read c d p (fun _ => 0) (d.inodes p).size).2 (j : Int),
      entInum c (read c d p (fun _ => 0) (d.inodes p).size).2 (j : Int)))

/-- The configuration `exCfg` with 125 direct pointers: a file holds up to 2000
bytes. -/
def exCfgLong : Cfg := { exCfg with DIRECT_PTRS := 125 }

/-- A superblock for `exCfgLong` whose data bitmap, one block of 16 bytes, has
exactly `num_data = 128` bits. -/
def exTightSuper : super_t :=
  { inode_bitmap_addr := 1, inode_bitmap_len := 1, data_bitmap_addr := 2, data_bitmap_len := 1,
    inode_region_addr := 3, inode_region_len := 1, data_region_addr := 4,
    num_inodes := 8, num_data := 128 }

/-- A block of two directory entries, `(n0, i0)` and `(n1, i1)`. -/
def exEntries (n0 : List Nat) (i0 : Int) (n1 : List Nat) (i1 : Int) : Int → Nat :=
  setName exCfg (setInum exCfg (setName exCfg (setInum exCfg (fun _ => 0) 0 i0) 0 n0) 1 i1) 1 n1

/-- An image on `exTightSuper`: the root directory (inode 0, blocks 4 and 5)
holds `.`, `..`, `f`, `g`; the file `f` (inode 1) holds 2000 bytes in the 125
blocks 6 to 130; the file `g` (inode 2) is empty. The bits 0 to 126 of the data
bitmap are set, one for each of these 127 blocks; bit 127, block 131, is the
only free one. -/
def exTight : Disk :=
  { super := exTightSuper
    inodeBitmap := fun k => if k = 0 then 7 else 0
    dataBitmap := fun k => if 0 ≤ k ∧ k < 15 then 255 else if k = 15 then 127 else 0
    inodes := fun i =>
      if i = 0 then
        { type := 0, size := 32, direct := fun k => if k = 0 then 4 else if k = 1 then 5 else -1 }
      else if i = 1 then
        { type := 1, size := 2000, direct := fun k => if 0 ≤ k ∧ k < 125 then 6 + k else -1 }
      else if i = 2 then { type := 1, size := 0, direct := fun _ => -1 }
      else { type := 0, size := 0, direct := fun _ => -1 }
    blocks := fun n =>
      if n = 4 then exEntries [46] 0 [46, 46] 0
      else if n = 5 then exEntries [102] 1 [103] 2
      else fun _ => 7 }

/-- The image `d'` is the image `d` after a `create(p, t, name)` that allocated
the inode `a`, the data bit `md` for the block of a new directory (`none` for a
regular file) and the data bit `mp` for a new block of the parent (`none` when
the last block of the parent had room): the bitmaps, the records and the blocks
of `d'` in terms of those of `d`. -/
structure Created (c : Cfg) (junk : Nat → Int → Nat) (d d' : Disk) (p t : Int)
    (name : List Nat) (a : Nat) (md mp : Option Nat) : Prop where
  plive : live d p
  pdir : (d.inodes p).type = c.UFS_DIRECTORY
  arange : (a : Int) < d.super.num_inodes
  afree : findBit d.inodeBitmap (a : Int) = false
  super : d'.super = d.super
  ibits : ∀ j : Nat, j < d.super.num_inodes.toNat →
    findBit d'.inodeBitmap (j : Int) = (decide (j = a) || findBit d.inodeBitmap (j : Int))
  dbits : ∀ j : Nat, j < d.super.num_data.toNat →
    findBit d'.dataBitmap (j : Int) =
      (findBit d.dataBitmap (j : Int) || decide (md = some j) || decide (mp = some j))
  mdSome : ∀ m : Nat, md = some m → m < d.super.num_data.toNat ∧
    findBit d.dataBitmap (m : Int) = false ∧ t = c.UFS_DIRECTORY ∧
    (d'.inodes (a : Int)).direct 0 = d.super.data_region_addr + (m : Int) ∧
    ∀ x : Int, 0 ≤ x → x < (c.UFS_BLOCK_SIZE : Int) →
      d'.blocks (d.super.data_region_addr + (m : Int)) x = newDirEntries c junk (a : Int) p x
  mdNone : md = none → t ≠ c.UFS_DIRECTORY
  mpSome : ∀ m : Nat, mp = some m → m < d.super.num_data.toNat ∧
    findBit d.dataBitmap (m : Int) = false ∧
    (d.inodes p).size % (c.UFS_BLOCK_SIZE : Int) = 0 ∧ md ≠ some m
  mpNone : mp = none → (d.inodes p).size % (c.UFS_BLOCK_SIZE : Int) ≠ 0
  ptype : (d'.inodes p).type = (d.inodes p).type
  psize : (d'.inodes p).size = (d.inodes p).size + (sizeof_dir_ent_t c : Int)
  pdirectSome : ∀ m : Nat, mp = some m → (d'.inodes p).direct =
    Function.update (d.inodes p).direct
      ((d.inodes p).size / (c.UFS_BLOCK_SIZE : Int)) (d.super.data_region_addr + (m : Int))
  pdirectNone : mp = none → (d'.inodes p).direct = (d.inodes p).direct
  atype : (d'.inodes (a : Int)).type = t
  asizeSome : ∀ m : Nat, md = some m →
    (d'.inodes (a : Int)).size = 2 * (sizeof_dir_ent_t c : Int)
  asizeNone : md = none → (d'.inodes (a : Int)).size = 0
  others : ∀ i : Int, 0 ≤ i → i < d.super.num_inodes → i ≠ p → i ≠ (a : Int) →
    d'.inodes i = d.inodes i
  blocks : ∀ b : Int, b ≠ (d'.inodes p).direct ((d.inodes p).size / (c.UFS_BLOCK_SIZE : Int)) →
    (∀ m : Nat, md = some m → b ≠ d.super.data_region_addr + (m : Int)) →
    d'.blocks b = d.blocks b
  appended : Appended c d d' p (a : Int) (c_str name)
  room : (d.inodes p).size + (sizeof_dir_ent_t c : Int) ≤ MAX_FILE_SIZE c

/-- The image `d'` is the image `d` after an `unlink(p, _)` that removed entry
`e` of the live directory `p`, which names the inode `child c d p e`: the
bitmaps, the records, the blocks and the entries of `d'` in terms of those of
`d`. -/
structure Unlinked (c : Cfg) (d d' : Disk) (p : Int) (e : Nat) : Prop where
  plive : live d p
  pdir : (d.inodes p).type = c.UFS_DIRECTORY
  e2 : 2 ≤ e
  elt : e < numEntries c (d.inodes p)
  xlive : live d (child c d p e)
  xne : child c d p e ≠ p
  super : d'.super = d.super
  ptype : (d'.inodes p).type = (d.inodes p).type
  psize : (d'.inodes p).size = (d.inodes p).size - (sizeof_dir_ent_t c : Int)
  nbLe : numBlocks c (d'.inodes p) ≤ numBlocks c (d.inodes p)
  pptr : ∀ k : Nat, (k : Int) < numBlocks c (d'.inodes p) →
    (d'.inodes p).direct (k : Int) = (d.inodes p).direct (k : Int)
  others : ∀ i : Int, i ≠ p → d'.inodes i = d.inodes i
  ibits : ∀ j : Nat, j < d.super.num_inodes.toNat →
    findBit d'.inodeBitmap (j : Int) =
      (decide ((j : Int) ≠ child c d p e) && findBit d.inodeBitmap (j : Int))
  dbits : ∀ j : Nat, j < d.super.num_data.toNat →
    (findBit d'.dataBitmap (j : Int) = true ↔
      (findBit d.dataBitmap (j : Int) = true ∧
        (∀ k : Nat, (k : Int) < numBlocks c (d.inodes (child c d p e)) →
          (d.inodes (child c d p e)).direct (k : Int) ≠ d.super.data_region_addr + (j : Int)) ∧
        (∀ k : Nat, numBlocks c (d'.inodes p) ≤ (k : Int) →
          (k : Int) < numBlocks c (d.inodes p) →
          (d.inodes p).direct (k : Int) ≠ d.super.data_region_addr + (j : Int))))
  blocks : ∀ b : Int, (∀ k : Nat, (k : Int) < numBlocks c (d'.inodes p) →
    (d.inodes p).direct (k : Int) ≠ b) → d'.blocks b = d.blocks b
  entries : ∀ j : Nat, j + 1 < numEntries c (d.inodes p) →
    entName c (fileData c d' (d'.inodes p)) (j : Int) =
      entName c (fileData c d (d.inodes p)) ((if j < e then j else j + 1 : Nat) : Int) ∧
    child c d' p j = child c d p (if j < e then j else j + 1)

/-- The number of clear bits among the bits `0 .. n-1` of a bitmap. -/
def clearBelow (bitmap : Int → Nat) (n : Nat) : Nat :=
  ((List.range n).filter (fun (j : Nat) => !findBit bitmap (j : Int))).length

/-- The method `diskHasSpace`, called with the superblock of the image. -/
def diskHasSpace (c : Cfg) (junk : Nat → Int → Nat) (d : Disk)
    (numInodesNeeded numDataBytesNeeded numDataBlocksNeeded : Int) : Bool :=
  let super := readSuperBlock d
  let inodeBitmapSize := super.inode_bitmap_len * (c.UFS_BLOCK_SIZE : Int)
  let inodeBitmap := readInodeBitmap c d (junk 0)
  let availableInodes := countBits inodeBitmap inodeBitmapSize
  if availableInodes < numInodesNeeded then false
  else
    let dataBitmapSize := super.data_bitmap_len * (c.UFS_BLOCK_SIZE : Int)
    let dataBitmap := readDataBitmap c d (junk 1)
    let availableDataBlocks := countBits dataBitmap dataBitmapSize
    decide (availableDataBlocks ≥ numDataBlocksNeeded
      + Int.tdiv (numDataBytesNeeded + (c.UFS_BLOCK_SIZE : Int) - 1) (c.UFS_BLOCK_SIZE : Int))

/-- A superblock for `exCfg` with 128 inodes, as many as the one block of inode
bitmap has bits: the inode table in blocks 3 to 162, the data region from block
163. -/
def exRoomySuper : super_t :=
  { inode_bitmap_addr := 1, inode_bitmap_len := 1, data_bitmap_addr := 2, data_bitmap_len := 1,
    inode_region_addr := 3, inode_region_len := 160, data_region_addr := 163,
    num_inodes := 128, num_data := 12 }

/-- A fresh image on `exRoomySuper`: only the root directory, in block 163; 127
of the 128 inodes are free. -/
def exRoomy : Disk :=
  { super := exRoomySuper
    inodeBitmap := fun k => if k = 0 then 1 else 0
    dataBitmap := fun k => if k = 0 then 1 else 0
    inodes := fun i =>
      if i = 0 then { type := 0, size := 16, direct := fun k => if k = 0 then 163 else -1 }
      else { type := 0, size := 0, direct := fun _ => -1 }
    blocks := fun n => if n = 163 then exRootBlock else fun _ => 0 }

/-! ## The HTTP service -/

/-- Modelled from the spec: the errors of the missing header `ClientError.h`
that the handlers answer with (section 6: `404` not found, `400` bad request,
`507` insufficient storage, `409` conflict). -/
inductive ClientError where
  | notFound
  | badRequest
  | insufficientStorage
  | conflict
deriving DecidableEq

/-- Modelled from the spec: the body that a handler leaves in the response,
either the bytes it passed to `setBody` or the text `what()` of an error. -/
inductive Body where
  | bytes (b : List Nat)
  | what (e : ClientError)
deriving DecidableEq

/-- Modelled from the spec: what a handler leaves in the `HTTPResponse` of the
missing header: the error whose status code it passed to `setStatus` (`none`
when it did not call `setStatus`) and the body. -/
structure HTTPResponse where
  status : Option ClientError
  body : Body
deriving DecidableEq

/-- Where the loop of a handler over the components of a path ends: at an
inode, or at the error the handler answers with. -/
inductive Resolved where
  | inode (inodeNum : Int)
  | error (e : ClientError)
deriving DecidableEq

/-- The answer `setStatus(e.status_code); setBody(e.what())` of the handlers. -/
def HTTPResponse.error (e : ClientError) : HTTPResponse :=
  { status := some e, body := Body.what e }

/-- The constant `ROOT_INODE` of the service. -/
def ROOT_INODE : Int := 0

/-- The comparison `strcmp(a, b) < 0` of two C strings, byte by byte. -/
def strcmpLt : List Nat → List Nat → Bool
  | [], [] => false
  | [], _ :: _ => true
  | _ :: _, [] => false
  | x :: xs, y :: ys => if x < y then true else if y < x then false else strcmpLt xs ys

/-- The function `cmp` of the service on two entries `(name, inum)`. -/
def cmp (a b : List Nat × Int) : Bool := strcmpLt a.1 b.1

/-- The function `parsePath`: the text of `url` after the first occurrence of
`"ds3/"`, and `none` (the result `false`) when `url` has no such occurrence.
(An `url` of fewer than `2^31` bytes, so that the index fits the `int`.) -/
def parsePath : List Nat → Option (List Nat)
  | [] => none
  | x :: r =>
    if (x :: r).take 4 = [100, 115, 51, 47] then some ((x :: r).drop 4)
    else parsePath r

/-- The components that the loop `while (getline(paths, entryName, '/'))`
yields on the rest of the stream; `cur` is the component being read, `none`
before its first character was extracted. -/
def splitPathFrom : Option (List Nat) → List Nat → List (List Nat)
  | none, [] => []
  | some w, [] => [w]
  | none, x :: r =>
    if x = 47 then [] :: splitPathFrom none r else splitPathFrom (some [x]) r
  | some w, x :: r =>
    if x = 47 then w :: splitPathFrom none r else splitPathFrom (some (w ++ [x])) r

/-- The components of a path, as the `getline` loops of the handlers read them. -/
def splitPath (paths : List Nat) : List (List Nat) := splitPathFrom none paths

/-- The loop of `get` over the components of the path, from the inode
`inodeNum`: the inode it ends at, or the error it answers with. -/
def getWalk (c : Cfg) (d : Disk) : List (List Nat) → Int → Resolved
  | [], inodeNum => Resolved.inode inodeNum
  | entryName :: rest, inodeNum =>
    let nextInode := lookup c d inodeNum entryName
    if nextInode = -c.ENOTFOUND then Resolved.error ClientError.notFound
    else if nextInode < 0 then Resolved.error ClientError.badRequest
    else getWalk c d rest nextInode

/-- The listing that `get` builds from the sorted entries of a directory. -/
def listing (c : Cfg) (d : Disk) (inode0 : inode_t) : List (List Nat × Int) → List Nat
  | [] => []
  | entry :: rest =>
    if entry.1 = [46] ∨ entry.1 = [46, 46] then listing c d inode0 rest
    else
      let entryInode := (stat c d entry.2 inode0).2
      (if entryInode.type = c.UFS_DIRECTORY then entry.1 ++ [47] else entry.1) ++ [10]
        ++ listing c d inode0 rest

/-- The handler `get` on the image `d`: the response it leaves.  `inode0` is
the content of an uninitialised `inode_t`, `junk 0` that of the uninitialised
arrays `buffer` and `entries`.  The body of a file is `setBody(buffer)` on a
`char` array, which takes the bytes before the first zero; `buffer[inode.size]`
is zero.  The `sort` is modelled by a stable sort for `cmp`, and the number of
entries is taken once, as the `size_t` quotient (it fits the `int` for every
size the engine accepts). -/
def get (c : Cfg) (junk : Nat → Int → Nat) (inode0 : inode_t) (d : Disk)
    (url : List Nat) : HTTPResponse :=
  match parsePath url with
  | none => { status := none, body := Body.bytes [] }
  | some paths =>
    match getWalk c d (splitPath paths) ROOT_INODE with
    | Resolved.error e => HTTPResponse.error e
    | Resolved.inode inodeNum =>
      let inode := (stat c d inodeNum inode0).2
      if inode.type = c.UFS_REGULAR_FILE then
        let r := read c d inodeNum (junk 0) inode.size
        if r.1 < 0 then HTTPResponse.error ClientError.badRequest
        else
          let buffer : Int → Nat := fun k => if k = inode.size then 0 else r.2 k
          { status := none
            body := Body.bytes (c_str ((List.range (inode.size + 1).toNat).map
              (fun (k : Nat) => buffer (k : Int)))) }
      else
        let numEntries := toSizeT inode.size / sizeof_dir_ent_t c
        let r := read c d inodeNum (junk 0) inode.size
        if r.1 < 0 then HTTPResponse.error ClientError.badRequest
        else
          let entries := (List.range numEntries).map
            (fun (j : Nat) => (entName c r.2 (j : Int), entInum c r.2 (j : Int)))
          { status := none
            body := Body.bytes (listing c d inode0
              (List.insertionSort (fun a b => cmp b a = false) entries)) }

/-- The loop of `put` over the components of the path, from the inode
`inodeNum` on the image `d`: the inode it ends at or the error it answers
with, and the writes of the transactions of its `create` calls, in order.  The
type passed to `create` goes through the `const bool type` of the source. -/
def putWalk (c : Cfg) (junk : Nat → Int → Nat) :
    Disk → List (List Nat) → Int → Resolved × List BlockWrite
  | _, [], inodeNum => (Resolved.inode inodeNum, [])
  | d, nextEntry :: rest, inodeNum =>
    let nextInode := lookup c d inodeNum nextEntry
    if nextInode = -c.ENOTFOUND then
      let isLast := rest.isEmpty
      let type : Bool := decide ((if isLast then c.UFS_REGULAR_FILE else c.UFS_DIRECTORY) ≠ 0)
      let r := create c junk d inodeNum (if type then 1 else 0) nextEntry
      if r.1 = -c.ENOTENOUGHSPACE then (Resolved.error ClientError.insufficientStorage, r.2)
      else if r.1 = -c.EINVALIDTYPE then (Resolved.error ClientError.conflict, r.2)
      else if r.1 < 0 then (Resolved.error ClientError.badRequest, r.2)
      else
        let w := putWalk c junk (commit c d r.2) rest r.1
        (w.1, r.2 ++ w.2)
    else if nextInode < 0 then (Resolved.error ClientError.badRequest, [])
    else putWalk c junk d rest nextInode

/-- The memory behind `content.data()`: the bytes of the body. -/
def contentData (content : List Nat) : Int → Nat := fun k => content.getD k.toNat 0

/-- The handler `put` on the image `d` with the request body `content`: the
response it leaves and the writes of its transactions, in order. -/
def put (c : Cfg) (junk : Nat → Int → Nat) (d : Disk) (url content : List Nat) :
    HTTPResponse × List BlockWrite :=
  match parsePath url with
  | none => ({ status := none, body := Body.bytes [] }, [])
  | some paths =>
    match putWalk c junk d (splitPath paths) ROOT_INODE with
    | (Resolved.error e, ws) => (HTTPResponse.error e, ws)
    | (Resolved.inode inodeNum, ws) =>
      let r := write c junk (commit c d ws) inodeNum (contentData content)
        (toInt content.length)
      if r.1 = -c.ENOTENOUGHSPACE ∨ r.1 = -c.EINVALIDSIZE then
        (HTTPResponse.error ClientError.insufficientStorage, ws ++ r.2)
      else if r.1 < 0 then (HTTPResponse.error ClientError.badRequest, ws ++ r.2)
      else ({ status := none, body := Body.bytes [] }, ws ++ r.2)

/-- The url `/ds3/f`. -/
def exUrl : List Nat := [47, 100, 115, 51, 47, 102]

/-- The image `exFresh` after `PUT /ds3/f` with the body `content`. -/
def exPut (content : List Nat) : Disk :=
  commit exCfg exFresh (put exCfg exJunk exFresh exUrl content).2

/-! # Properties -/

/-! ## Bit operations -/

theorem tdiv_natCast (i : Nat) : Int.tdiv (i : Int) 8 = ((i / 8 : Nat) : Int) := by
  rw [Int.tdiv_eq_ediv (by omega) (by omega)]; omega

theorem tmod_natCast (i : Nat) : Int.tmod (i : Int) 8 = ((i % 8 : Nat) : Int) := by
  rw [Int.tmod_eq_emod (by omega) (by omega)]; omega

theorem bitMask_natCast (i : Nat) : bitMask ((i % 8 : Nat) : Int) = 2 ^ (i % 8) := by
  unfold bitMask
  congr 1
  omega

theorem findBit_natCast (bitmap : Int → Nat) (i : Nat) :
    findBit bitmap (i : Int) = (bitmap ((i / 8 : Nat) : Int)).testBit (i % 8) := by
  unfold findBit
  rw [tdiv_natCast, tmod_natCast, bitMask_natCast, Nat.and_two_pow]
  cases h : (bitmap ((i / 8 : Nat) : Int)).testBit (i % 8) <;> simp [h]

theorem testBit_clearMask (k m : Nat) (hk : k < 8) (hm : m < 8) :
    (4294967295 - 2 ^ k).testBit m = decide (m ≠ k) := by
  interval_cases k <;> interval_cases m <;> decide

theorem findBit_createBit (bitmap : Int → Nat) (i j : Nat) :
    findBit (createBit bitmap (i : Int)) (j : Int) = (decide (j = i) || findBit bitmap (j : Int)) := by
  rw [findBit_natCast, findBit_natCast]
  unfold createBit
  rw [tdiv_natCast, tmod_natCast, bitMask_natCast]
  by_cases h : j / 8 = i / 8
  · rw [h, Function.update_same]
    have h256 : (256 : Nat) = 2 ^ 8 := by norm_num
    rw [h256, Nat.testBit_mod_two_pow, Nat.testBit_or, Nat.testBit_two_pow]
    have hj : j % 8 < 8 := Nat.mod_lt _ (by norm_num)
    by_cases hji : j = i
    · subst hji; simp [hj]
    · have : ¬ (i % 8 = j % 8) := by omega
      simp [hj, hji, this, Bool.or_comm]
  · have hne : ((j / 8 : Nat) : Int) ≠ ((i / 8 : Nat) : Int) := by omega
    rw [Function.update_noteq hne]
    have : j ≠ i := by rintro rfl; exact h rfl
    simp [this]

theorem findBit_delBit (bitmap : Int → Nat) (i j : Nat) :
    findBit (delBit bitmap (i : Int)) (j : Int) = (decide (j ≠ i) && findBit bitmap (j : Int)) := by
  rw [findBit_natCast, findBit_natCast]
  unfold delBit
  rw [tdiv_natCast, tmod_natCast, bitMask_natCast]
  by_cases h : j / 8 = i / 8
  · rw [h, Function.update_same]
    have h256 : (256 : Nat) = 2 ^ 8 := by norm_num
    have hj : j % 8 < 8 := Nat.mod_lt _ (by norm_num)
    have hi : i % 8 < 8 := Nat.mod_lt _ (by norm_num)
    rw [h256, Nat.testBit_mod_two_pow, Nat.testBit_and, testBit_clearMask _ _ hi hj]
    by_cases hji : j = i
    · subst hji; simp
    · have : ¬ (j % 8 = i % 8) := by omega
      simp [hj, hji, this, Bool.and_comm]
  · have hne : ((j / 8 : Nat) : Int) ≠ ((i / 8 : Nat) : Int) := by omega
    rw [Function.update_noteq hne]
    have : j ≠ i := by rintro rfl; exact h rfl
    simp [this]

theorem findFirstBitFrom_cases (bitmap : Int → Nat) (n i : Nat) :
    (findFirstBitFrom bitmap n i = -1 ∧
      ∀ j : Nat, i ≤ j → j < i + n → findBit bitmap (j : Int) = true) ∨
    (∃ m : Nat, findFirstBitFrom bitmap n i = (m : Int) ∧ i ≤ m ∧ m < i + n ∧
      findBit bitmap (m : Int) = false ∧
      ∀ j : Nat, i ≤ j → j < m → findBit bitmap (j : Int) = true) := by
  induction n generalizing i with
  | zero =>
    left
    refine ⟨rfl, ?_⟩
    intro j h1 h2
    omega
  | succ n ih =>
    unfold findFirstBitFrom
    by_cases hb : findBit bitmap (i : Int) = true
    · rw [if_pos hb]
      rcases ih (i + 1) with ⟨h1, h2⟩ | ⟨m, h1, h2, h3, h4, h5⟩
      · left
        refine ⟨h1, ?_⟩
        intro j hj1 hj2
        by_cases hji : j = i
        · rw [hji]; exact hb
        · exact h2 j (by omega) (by omega)
      · right
        refine ⟨m, h1, by omega, by omega, h4, ?_⟩
        intro j hj1 hj2
        by_cases hji : j = i
        · rw [hji]; exact hb
        · exact h5 j (by omega) hj2
    · rw [if_neg hb]
      right
      refine ⟨i, rfl, le_refl _, by omega, by simpa using hb, ?_⟩
      intro j hj1 hj2
      omega

theorem findFirstBit_cases (bitmap : Int → Nat) (len : Int) :
    (findFirstBit bitmap len = -1 ∧
      ∀ j : Nat, j < (len * 8).toNat → findBit bitmap (j : Int) = true) ∨
    (∃ m : Nat, findFirstBit bitmap len = (m : Int) ∧ m < (len * 8).toNat ∧
      findBit bitmap (m : Int) = false ∧
      ∀ j : Nat, j < m → findBit bitmap (j : Int) = true) := by
  unfold findFirstBit
  rcases findFirstBitFrom_cases bitmap (len * 8).toNat 0 with ⟨h1, h2⟩ | ⟨m, h1, _, h3, h4, h5⟩
  · left
    exact ⟨h1, fun j hj => h2 j (Nat.zero_le _) (by omega)⟩
  · right
    exact ⟨m, h1, by omega, h4, fun j hj => h5 j (Nat.zero_le _) hj⟩

/-! ## Error returns precede the transaction -/

theorem createEntry_writes_or_nonneg (c : Cfg) (junk : Nat → Int → Nat) (d : Disk)
    (parentInodeNumber : Int) (name : List Nat)
    (inodeBitmap dataBitmap : Int → Nat) (inodes : Int → inode_t)
    (availableInode newBlock : Int) (newEntries : Int → Nat) (h0 : 0 ≤ availableInode) :
    (createEntry c junk d parentInodeNumber name inodeBitmap dataBitmap inodes
      availableInode newBlock newEntries).2 = [] ∨
    0 ≤ (createEntry c junk d parentInodeNumber name inodeBitmap dataBitmap inodes
      availableInode newBlock newEntries).1 := by
  unfold createEntry
  dsimp only
  split
  · split
    · exact Or.inl rfl
    · exact Or.inr h0
  · exact Or.inr h0

theorem createInode_writes_or_nonneg (c : Cfg) (junk : Nat → Int → Nat) (d : Disk)
    (parentInodeNumber type : Int) (name : List Nat)
    (inodeBitmap dataBitmap : Int → Nat) (inodes : Int → inode_t) :
    (createInode c junk d parentInodeNumber type name inodeBitmap dataBitmap inodes).2 = [] ∨
    0 ≤ (createInode c junk d parentInodeNumber type name inodeBitmap dataBitmap inodes).1 := by
  unfold createInode
  dsimp only
  split
  · exact Or.inl rfl
  · rename_i h
    split
    · split
      · exact Or.inl rfl
      · exact createEntry_writes_or_nonneg _ _ _ _ _ _ _ _ _ _ _ (by omega)
    · exact createEntry_writes_or_nonneg _ _ _ _ _ _ _ _ _ _ _ (by omega)

theorem create_writes_or_nonneg (c : Cfg) (junk : Nat → Int → Nat) (d : Disk)
    (parentInodeNumber type : Int) (name : List Nat) :
    (create c junk d parentInodeNumber type name).2 = [] ∨
    0 ≤ (create c junk d parentInodeNumber type name).1 := by
  unfold create
  dsimp only
  repeat' split
  all_goals first
    | exact Or.inl rfl
    | exact createInode_writes_or_nonneg _ _ _ _ _ _ _ _ _

theorem write_writes_or_nonneg (c : Cfg) (junk : Nat → Int → Nat) (d : Disk)
    (inodeNumber : Int) (buffer : Int → Nat) (size : Int) :
    (write c junk d inodeNumber buffer size).2 = [] ∨
    0 ≤ (write c junk d inodeNumber buffer size).1 := by
  unfold write
  dsimp only
  split
  · exact Or.inl rfl
  · split
    · exact Or.inl rfl
    · rename_i h
      split
      · exact Or.inl rfl
      · split
        · exact Or.inl rfl
        · split
          · exact Or.inl rfl
          · exact Or.inr (by omega)

theorem unlink_writes_or_nonneg (c : Cfg) (junk : Nat → Int → Nat) (d : Disk)
    (parentInodeNumber : Int) (name : List Nat) :
    (unlink c junk d parentInodeNumber name).2 = [] ∨
    0 ≤ (unlink c junk d parentInodeNumber name).1 := by
  unfold unlink
  dsimp only
  split
  · exact Or.inl rfl
  · split
    · exact Or.inl rfl
    · split
      · exact Or.inl rfl
      · split
        · exact Or.inl rfl
        · split
          · exact Or.inl rfl
          · unfold unlinkEntry
            dsimp only
            split
            · exact Or.inl rfl
            · exact Or.inr (le_refl _)

/-- C5. Whenever `create`, `write` or `unlink` returns a negative result, it has
issued no write, and committing its (empty) transaction leaves the image as it
was. -/
theorem no_writes_on_error (c : Cfg) (junk : Nat → Int → Nat) (d : Disk)
    (parentInodeNumber type inodeNumber size : Int) (name : List Nat) (buffer : Int → Nat) :
    ((create c junk d parentInodeNumber type name).1 < 0 →
      (create c junk d parentInodeNumber type name).2 = [] ∧
      commit c d (create c junk d parentInodeNumber type name).2 = d) ∧
    ((write c junk d inodeNumber buffer size).1 < 0 →
      (write c junk d inodeNumber buffer size).2 = [] ∧
      commit c d (write c junk d inodeNumber buffer size).2 = d) ∧
    ((unlink c junk d parentInodeNumber name).1 < 0 →
      (unlink c junk d parentInodeNumber name).2 = [] ∧
      commit c d (unlink c junk d parentInodeNumber name).2 = d) := by
  refine ⟨fun h => ?_, fun h => ?_, fun h => ?_⟩
  · have hw : (create c junk d parentInodeNumber type name).2 = [] := by
      rcases create_writes_or_nonneg c junk d parentInodeNumber type name with h1 | h1
      · exact h1
      · omega
    exact ⟨hw, by rw [hw]; rfl⟩
  · have hw : (write c junk d inodeNumber buffer size).2 = [] := by
      rcases write_writes_or_nonneg c junk d inodeNumber buffer size with h1 | h1
      · exact h1
      · omega
    exact ⟨hw, by rw [hw]; rfl⟩
  · have hw : (unlink c junk d parentInodeNumber name).2 = [] := by
      rcases unlink_writes_or_nonneg c junk d parentInodeNumber name with h1 | h1
      · exact h1
      · omega
    exact ⟨hw, by rw [hw]; rfl⟩

theorem no_writes_on_error_witness :
    (create exCfg exJunk exFresh 0 7 [97]).1 < 0 ∧
    commit exCfg exFresh (create exCfg exJunk exFresh 0 7 [97]).2 = exFresh ∧
    (write exCfg exJunk exFresh 0 (fun _ => 0) 1).1 < 0 ∧
    commit exCfg exFresh (write exCfg exJunk exFresh 0 (fun _ => 0) 1).2 = exFresh ∧
    (unlink exCfg exJunk exFresh 0 [46]).1 < 0 ∧
    commit exCfg exFresh (unlink exCfg exJunk exFresh 0 [46]).2 = exFresh :=
  ⟨by decide,
    ((no_writes_on_error exCfg exJunk exFresh 0 7 0 1 [97] (fun _ => 0)).1 (by decide)).2,
    by decide,
    ((no_writes_on_error exCfg exJunk exFresh 0 7 0 1 [97] (fun _ => 0)).2.1 (by decide)).2,
    by decide,
    ((no_writes_on_error exCfg exJunk exFresh 0 7 0 1 [46] (fun _ => 0)).2.2 (by decide)).2⟩

/-! ## The method `read` -/

theorem ediv_emod_of_bounds (B j k : Int) (hB : 0 < B) (h1 : j * B ≤ k) (h2 : k < j * B + B) :
    k / B = j ∧ k % B = k - j * B := by
  rw [Int.ediv_emod_unique hB]
  refine ⟨by linarith, by linarith, by linarith⟩

theorem ceil_blocks (B R : Int) (hB : 0 < B) (hR : 0 < R) :
    1 ≤ (R + B - 1) / B ∧
    ((R + B - 1) / B - 1) * B + (if R % B = 0 then B else R % B) = R ∧
    0 < (if R % B = 0 then B else R % B) ∧ (if R % B = 0 then B else R % B) ≤ B := by
  have hm : B * (R / B) + R % B = R := Int.ediv_add_emod R B
  have hr0 : 0 ≤ R % B := Int.emod_nonneg _ (ne_of_gt hB)
  have hrB : R % B < B := Int.emod_lt_of_pos _ hB
  have hq0 : 0 ≤ R / B := Int.ediv_nonneg (le_of_lt hR) (le_of_lt hB)
  by_cases hr : R % B = 0
  · rw [if_pos hr]
    have hq : (R + B - 1) / B = R / B := by
      have := (Int.ediv_emod_unique (a := R + B - 1) (r := B - 1) (q := R / B) hB).2
        ⟨by linarith, by linarith, by linarith⟩
      exact this.1
    rw [hq]
    have h1 : 1 ≤ R / B := by
      by_contra hlt
      have : R / B = 0 := by omega
      rw [this] at hm
      linarith
    refine ⟨h1, by linarith, hB, le_refl _⟩
  · rw [if_neg hr]
    have hq : (R + B - 1) / B = R / B + 1 := by
      have := (Int.ediv_emod_unique (a := R + B - 1) (r := R % B - 1) (q := R / B + 1) hB).2
        ⟨by linarith, by omega, by omega⟩
      exact this.1
    rw [hq]
    refine ⟨by omega, by linarith, by omega, by omega⟩

theorem readLoop_apply (c : Cfg) (d : Disk) (inode : inode_t) (numBlocks lastBlockSize : Int)
    (hB : 0 < (c.UFS_BLOCK_SIZE : Int))
    (hL : lastBlockSize ≤ (c.UFS_BLOCK_SIZE : Int))
    (n idx : Nat) (buffer : Int → Nat) (k : Int) :
    readLoop c d inode numBlocks lastBlockSize n idx buffer k =
      if (idx : Int) * (c.UFS_BLOCK_SIZE : Int) ≤ k ∧
          k < ((idx : Int) + (n : Int)) * (c.UFS_BLOCK_SIZE : Int) ∧
          k % (c.UFS_BLOCK_SIZE : Int) <
            (if k / (c.UFS_BLOCK_SIZE : Int) = numBlocks - 1 then lastBlockSize
              else (c.UFS_BLOCK_SIZE : Int))
      then fileData c d inode k else buffer k := by
  induction n generalizing idx buffer with
  | zero =>
    unfold readLoop
    rw [if_neg]
    intro ⟨h1, h2, _⟩
    simp at h2
    linarith
  | succ n ih =>
    unfold readLoop
    rw [ih]
    set B : Int := (c.UFS_BLOCK_SIZE : Int) with hBdef
    have hcast : (((idx + 1 : Nat) : Int)) = (idx : Int) + 1 := by push_cast; rfl
    have hcast2 : (((n + 1 : Nat) : Int)) = (n : Int) + 1 := by push_cast; rfl
    rw [hcast, hcast2]
    have e1 : ((idx : Int) + 1) * B = (idx : Int) * B + B := by ring
    have e2 : ((idx : Int) + 1 + (n : Int)) * B = ((idx : Int) + ((n : Int) + 1)) * B := by ring
    rw [e2]
    have hn : 0 ≤ (n : Int) * B := mul_nonneg (by omega) (le_of_lt hB)
    have e3 : ((idx : Int) + ((n : Int) + 1)) * B = (idx : Int) * B + (n : Int) * B + B := by ring
    by_cases hk1 : ((idx : Int) + 1) * B ≤ k
    · -- beyond the block just copied
      have hmem : memcpy buffer ((idx : Int) * B) (d.blocks (inode.direct (idx : Int))) 0
          (if (idx : Int) = numBlocks - 1 then lastBlockSize else B) k = buffer k := by
        unfold memcpy
        rw [if_neg]
        intro ⟨_, h⟩
        split_ifs at h <;> linarith
      rw [hmem]
      have : (idx : Int) * B ≤ k := by linarith
      simp only [hk1, this, true_and]
    · have hk1' : k < (idx : Int) * B + B := by linarith
      rw [if_neg (fun h => hk1 h.1)]
      unfold memcpy
      by_cases hk0 : (idx : Int) * B ≤ k
      · obtain ⟨hdiv, hmod⟩ := ediv_emod_of_bounds B idx k hB hk0 hk1'
        have hlt : k < (idx : Int) * B + (n : Int) * B + B := by linarith
        rw [e3]
        simp only [hk0, hlt, true_and, hdiv, hmod]
        by_cases hb : k - (idx : Int) * B <
            (if (idx : Int) = numBlocks - 1 then lastBlockSize else B)
        · have hb' : k < (idx : Int) * B +
              (if (idx : Int) = numBlocks - 1 then lastBlockSize else B) := by linarith
          rw [if_pos hb, if_pos hb']
          unfold fileData
          rw [← hBdef, hdiv, hmod]
          congr 1
          ring
        · have hb' : ¬ k < (idx : Int) * B +
              (if (idx : Int) = numBlocks - 1 then lastBlockSize else B) := by
            intro h; exact hb (by linarith)
          rw [if_neg hb, if_neg hb']
      · rw [if_neg (fun h => hk0 h.1), if_neg (fun h => hk0 h.1)]
theorem tdiv_nonpos_of_lt (a B : Int) (hB : 0 < B) (h : a < B) : Int.tdiv a B ≤ 0 := by
  by_cases ha : 0 ≤ a
  · rw [Int.tdiv_eq_zero_of_lt ha h]
  · have : a = -(-a) := by omega
    rw [this, Int.neg_tdiv]
    have := Int.tdiv_nonneg (a := -a) (b := B) (by omega) (by omega)
    omega

theorem stat_snd (c : Cfg) (d : Disk) (i : Int) (inode : inode_t)
    (h : checkInode d.super i = true) : (stat c d i inode).2 = d.inodes i := by
  unfold stat readSuperBlock
  simp [h]

theorem checkInode_iff (super : super_t) (i : Int) :
    checkInode super i = true ↔ 0 ≤ i ∧ i < super.num_inodes := by
  unfold checkInode
  simp
  omega

theorem read_spec (c : Cfg) (d : Disk) (i : Int) (buffer : Int → Nat) (size : Int)
    (hB : 0 < c.UFS_BLOCK_SIZE) (hi : checkInode d.super i = true)
    (hs0 : 0 ≤ size) (hs1 : size ≤ MAX_FILE_SIZE c)
    (ht : (d.inodes i).type = c.UFS_REGULAR_FILE ∨ (d.inodes i).type = c.UFS_DIRECTORY) :
    (read c d i buffer size).1 = min size (d.inodes i).size ∧
    ∀ k : Int, (read c d i buffer size).2 k =
      if 0 ≤ k ∧ k < min size (d.inodes i).size then fileData c d (d.inodes i) k
      else buffer k := by
  have hB' : (0 : Int) < (c.UFS_BLOCK_SIZE : Int) := by exact_mod_cast hB
  unfold read
  simp only [readSuperBlock, hi, stat_snd c d i default hi]
  have hsz : ¬ (size > MAX_FILE_SIZE c ∨ size < 0) := by omega
  have hty : ¬ ((d.inodes i).type ≠ c.UFS_REGULAR_FILE ∧ (d.inodes i).type ≠ c.UFS_DIRECTORY) := by
    rcases ht with h | h <;> simp [h]
  simp only [hsz, hty, if_false, Bool.true_eq_false]
  refine ⟨trivial, ?_⟩
  intro k
  set R := min size (d.inodes i).size with hR
  set B : Int := (c.UFS_BLOCK_SIZE : Int) with hBdef
  by_cases hpos : 0 < R
  · have hnn : 0 ≤ R + B - 1 := by omega
    rw [Int.tdiv_eq_ediv hnn (le_of_lt hB'), Int.tmod_eq_emod (le_of_lt hpos) (le_of_lt hB')]
    obtain ⟨h1, h2, h3, h4⟩ := ceil_blocks B R hB' hpos
    rw [readLoop_apply c d (d.inodes i) _ _ hB' h4]
    set N := (R + B - 1) / B with hN
    set L := (if R % B = 0 then B else R % B) with hL
    have hNn : ((N.toNat : Nat) : Int) = N := Int.toNat_of_nonneg (by omega)
    rw [hNn]
    simp only [Nat.cast_zero, zero_mul, zero_add]
    refine if_congr ?_ rfl rfl
    rw [← hBdef]
    have hmod0 : 0 ≤ k % B := Int.emod_nonneg _ (ne_of_gt hB')
    have hmodB : k % B < B := Int.emod_lt_of_pos _ hB'
    have hdm : B * (k / B) + k % B = k := Int.ediv_add_emod k B
    constructor
    · intro ⟨hk0, h5, h6⟩
      refine ⟨hk0, ?_⟩
      have hq : k / B ≤ N - 1 := by
        by_contra hcon
        have : N ≤ k / B := by omega
        nlinarith
      by_cases hlast : k / B = N - 1
      · rw [if_pos hlast] at h6
        rw [hlast] at hdm
        nlinarith
      · have : k / B ≤ N - 2 := by omega
        nlinarith
    · intro ⟨hk0, hkR⟩
      refine ⟨hk0, ?_, ?_⟩
      · have : R ≤ N * B := by nlinarith
        linarith
      · by_cases hlast : k / B = N - 1
        · rw [if_pos hlast]
          rw [hlast] at hdm
          nlinarith
        · rw [if_neg hlast]; exact hmodB
  · have hN : Int.tdiv (R + B - 1) B ≤ 0 := tdiv_nonpos_of_lt _ _ hB' (by omega)
    have : (Int.tdiv (R + B - 1) B).toNat = 0 := by omega
    rw [this]
    unfold readLoop
    rw [if_neg]
    intro ⟨h1, h2⟩
    omega

/-- C8. For an in-range inode of type regular-file or directory and a size `n`
with `0 ≤ n ≤ MAX_FILE_SIZE`, `read` returns `min n (stat i).size`, and the
bytes of the buffer below that length are those of the concatenation of the
blocks `direct[0]`, `direct[1]`, ... of the inode, in order. -/
theorem read_result (c : Cfg) (d : Disk) (i : Int) (buffer : Int → Nat) (n : Int)
    (hB : 0 < c.UFS_BLOCK_SIZE) (hi : 0 ≤ i ∧ i < d.super.num_inodes)
    (ht : (stat c d i default).2.type = c.UFS_REGULAR_FILE ∨
      (stat c d i default).2.type = c.UFS_DIRECTORY)
    (hn : 0 ≤ n ∧ n ≤ MAX_FILE_SIZE c) :
    (read c d i buffer n).1 = min n (stat c d i default).2.size ∧
    ∀ k : Int, 0 ≤ k → k < min n (stat c d i default).2.size →
      (read c d i buffer n).2 k = fileData c d (stat c d i default).2 k := by
  have hchk : checkInode d.super i = true := (checkInode_iff _ _).2 hi
  rw [stat_snd c d i default hchk] at ht ⊢
  obtain ⟨h1, h2⟩ := read_spec c d i buffer n hB hchk hn.1 hn.2 ht
  refine ⟨h1, fun k hk0 hk1 => ?_⟩
  rw [h2 k, if_pos ⟨hk0, hk1⟩]

theorem read_result_witness :
    (read exCfg exFresh 0 (fun _ => 0) 16).1 = min 16 (stat exCfg exFresh 0 default).2.size ∧
    ∀ k : Int, 0 ≤ k → k < min 16 (stat exCfg exFresh 0 default).2.size →
      (read exCfg exFresh 0 (fun _ => 0) 16).2 k =
        fileData exCfg exFresh (stat exCfg exFresh 0 default).2 k :=
  read_result exCfg exFresh 0 (fun _ => 0) 16 (by decide) (by decide) (by decide) (by decide)

/-! ## Counting clear bits and allocating -/

theorem findBit_copyRegion (c : Cfg) (len : Int) (src dst : Int → Nat) (j : Nat)
    (h : (j : Int) < len * (c.UFS_BLOCK_SIZE : Int) * 8) :
    findBit (copyRegion c len src dst) (j : Int) = findBit src (j : Int) := by
  rw [findBit_natCast, findBit_natCast]
  unfold copyRegion
  rw [if_pos]
  constructor
  · omega
  · have : ((j / 8 : Nat) : Int) * 8 ≤ (j : Int) := by omega
    omega

theorem countBitsFrom_nonneg (bitmap : Int → Nat) (n i : Nat) :
    0 ≤ countBitsFrom bitmap n i := by
  induction n generalizing i with
  | zero => simp [countBitsFrom]
  | succ n ih =>
    unfold countBitsFrom
    have := ih (i + 1)
    split_ifs <;> omega

theorem countBitsFrom_congr (b1 b2 : Int → Nat) (n i : Nat)
    (h : ∀ j : Nat, i ≤ j → j < i + n → findBit b1 (j : Int) = findBit b2 (j : Int)) :
    countBitsFrom b1 n i = countBitsFrom b2 n i := by
  induction n generalizing i with
  | zero => simp [countBitsFrom]
  | succ n ih =>
    unfold countBitsFrom
    rw [h i (le_refl _) (by omega), ih (i + 1) (fun j h1 h2 => h j (by omega) (by omega))]

theorem countBitsFrom_eq_zero (bitmap : Int → Nat) (n i : Nat)
    (h : ∀ j : Nat, i ≤ j → j < i + n → findBit bitmap (j : Int) = true) :
    countBitsFrom bitmap n i = 0 := by
  induction n generalizing i with
  | zero => simp [countBitsFrom]
  | succ n ih =>
    unfold countBitsFrom
    rw [h i (le_refl _) (by omega), ih (i + 1) (fun j h1 h2 => h j (by omega) (by omega))]
    simp

theorem countBitsFrom_pos (bitmap : Int → Nat) (n i m : Nat)
    (h1 : i ≤ m) (h2 : m < i + n) (hm : findBit bitmap (m : Int) = false) :
    0 < countBitsFrom bitmap n i := by
  induction n generalizing i with
  | zero => omega
  | succ n ih =>
    unfold countBitsFrom
    have hnn := countBitsFrom_nonneg bitmap n (i + 1)
    by_cases hmi : m = i
    · subst hmi
      rw [hm]
      simp
      omega
    · have := ih (i + 1) (by omega) (by omega)
      split_ifs <;> omega

theorem countBitsFrom_createBit (bitmap : Int → Nat) (n i m : Nat)
    (hm : findBit bitmap (m : Int) = false) :
    countBitsFrom (createBit bitmap (m : Int)) n i =
      countBitsFrom bitmap n i - (if i ≤ m ∧ m < i + n then 1 else 0) := by
  induction n generalizing i with
  | zero =>
    have : ¬ (i ≤ m ∧ m < i + 0) := by omega
    simp [countBitsFrom, this]
  | succ n ih =>
    unfold countBitsFrom
    rw [ih (i + 1), findBit_createBit]
    by_cases hmi : i = m
    · subst hmi
      have h1 : ¬ (i + 1 ≤ i ∧ i < i + 1 + n) := by omega
      have h2 : (i ≤ i ∧ i < i + (n + 1)) := by omega
      simp [hm, h1, h2]
    · have e : (i + 1 ≤ m ∧ m < i + 1 + n) ↔ (i ≤ m ∧ m < i + (n + 1)) := by omega
      simp only [hmi, decide_False, Bool.false_or, e]
      omega

theorem countBitsFrom_delBit (bitmap : Int → Nat) (n i m : Nat)
    (hm : findBit bitmap (m : Int) = true) :
    countBitsFrom (delBit bitmap (m : Int)) n i =
      countBitsFrom bitmap n i + (if i ≤ m ∧ m < i + n then 1 else 0) := by
  induction n generalizing i with
  | zero =>
    have : ¬ (i ≤ m ∧ m < i + 0) := by omega
    rw [if_neg this]
    simp [countBitsFrom]
  | succ n ih =>
    unfold countBitsFrom
    rw [ih (i + 1), findBit_delBit]
    by_cases hmi : i = m
    · subst hmi
      have h1 : ¬ (i + 1 ≤ i ∧ i < i + 1 + n) := by omega
      have h2 : (i ≤ i ∧ i < i + (n + 1)) := by omega
      simp [hm, h1, h2]
      omega
    · have e : (i + 1 ≤ m ∧ m < i + 1 + n) ↔ (i ≤ m ∧ m < i + (n + 1)) := by omega
      simp only [ne_eq, hmi, not_false_eq_true, decide_True, Bool.true_and, e]
      omega

/-- One round of the allocation loops: either no bit below `num_data` is clear,
or the bit found is the lowest clear one and lies below `num_data`. -/
theorem findFirstBit_alloc (bitmap : Int → Nat) (len : Int) (N : Nat)
    (hN : N ≤ (len * 8).toNat) :
    ((findFirstBit bitmap len < 0 ∨ findFirstBit bitmap len ≥ (N : Int)) ∧
      countBitsFrom bitmap N 0 = 0) ∨
    (∃ m : Nat, findFirstBit bitmap len = (m : Int) ∧ m < N ∧
      findBit bitmap (m : Int) = false ∧
      ∀ j : Nat, j < m → findBit bitmap (j : Int) = true) := by
  rcases findFirstBit_cases bitmap len with ⟨h1, h2⟩ | ⟨m, h1, h2, h3, h4⟩
  · left
    refine ⟨Or.inl (by omega), countBitsFrom_eq_zero _ _ _ (fun j _ hj => h2 j (by omega))⟩
  · by_cases hmN : m < N
    · right
      exact ⟨m, h1, hmN, h3, h4⟩
    · left
      refine ⟨Or.inr (by omega), countBitsFrom_eq_zero _ _ _ (fun j _ hj => h4 j (by omega))⟩

theorem allocBlocks_eq_none_iff (c : Cfg) (superBlock : super_t) (curBlocks : Int)
    (hN0 : 0 ≤ superBlock.num_data)
    (hN : superBlock.num_data ≤ superBlock.data_bitmap_len * (c.UFS_BLOCK_SIZE : Int) * 8)
    (n i : Nat) (dataBitmap : Int → Nat) (direct : Int → Int) :
    allocBlocks c superBlock curBlocks n i dataBitmap direct = none ↔
      countBitsFrom dataBitmap superBlock.num_data.toNat 0 < (n : Int) := by
  induction n generalizing i dataBitmap direct with
  | zero =>
    unfold allocBlocks
    have := countBitsFrom_nonneg dataBitmap superBlock.num_data.toNat 0
    simp
    omega
  | succ n ih =>
    unfold allocBlocks
    dsimp only
    have hN' : superBlock.num_data.toNat ≤
        (superBlock.data_bitmap_len * (c.UFS_BLOCK_SIZE : Int) * 8).toNat := by omega
    rcases findFirstBit_alloc dataBitmap _ _ hN' with ⟨h1, h2⟩ | ⟨m, h1, h2, h3, h4⟩
    · have h1' : findFirstBit dataBitmap (superBlock.data_bitmap_len * (c.UFS_BLOCK_SIZE : Int)) < 0 ∨
          findFirstBit dataBitmap (superBlock.data_bitmap_len * (c.UFS_BLOCK_SIZE : Int))
            ≥ superBlock.num_data := by
        rcases h1 with h | h
        · exact Or.inl h
        · exact Or.inr (by omega)
      rw [if_pos h1', h2]
      simp
    · have h1' : ¬ (findFirstBit dataBitmap (superBlock.data_bitmap_len * (c.UFS_BLOCK_SIZE : Int)) < 0 ∨
          findFirstBit dataBitmap (superBlock.data_bitmap_len * (c.UFS_BLOCK_SIZE : Int))
            ≥ superBlock.num_data) := by
        rw [h1]; omega
      rw [if_neg h1', ih, h1, countBitsFrom_createBit _ _ _ _ h3]
      have : (0 ≤ m ∧ m < 0 + superBlock.num_data.toNat) := by omega
      rw [if_pos this]
      push_cast
      omega

/-! ## `write` without space -/

theorem divide_le_of_le_mul (n B D : Int) (hB : 0 < B) (hn0 : 0 ≤ n) (hn : n ≤ D * B) :
    divide n B ≤ D := by
  unfold divide
  rw [Int.tdiv_eq_ediv (by omega) (le_of_lt hB)]
  have : (n + B - 1) / B < D + 1 := Int.ediv_lt_of_lt_mul hB (by linarith)
  omega

theorem countBits_readDataBitmap (c : Cfg) (d : Disk) (buf : Int → Nat)
    (hN : d.super.num_data ≤ d.super.data_bitmap_len * (c.UFS_BLOCK_SIZE : Int) * 8) :
    countBitsFrom (readDataBitmap c d buf) d.super.num_data.toNat 0 =
      countBits d.dataBitmap d.super.num_data := by
  unfold countBits readDataBitmap
  apply countBitsFrom_congr
  intro j _ hj
  exact findBit_copyRegion c _ _ _ j (by omega)

theorem write_eq_nospace_iff (c : Cfg) (junk : Nat → Int → Nat) (d : Disk) (i : Int)
    (buffer : Int → Nat) (n : Int)
    (hB : 0 < c.UFS_BLOCK_SIZE) (hE : 0 < c.ENOTENOUGHSPACE)
    (hgeo : 0 ≤ d.super.num_data ∧
      d.super.num_data ≤ d.super.data_bitmap_len * (c.UFS_BLOCK_SIZE : Int) * 8)
    (hi : 0 ≤ i ∧ i < d.super.num_inodes) (hn : 0 ≤ n ∧ n ≤ MAX_FILE_SIZE c)
    (ht : (d.inodes i).type = c.UFS_REGULAR_FILE)
    (hrc : divide (d.inodes i).size (c.UFS_BLOCK_SIZE : Int) < divide n (c.UFS_BLOCK_SIZE : Int)) :
    (write c junk d i buffer n).1 = -c.ENOTENOUGHSPACE ↔
      countBits d.dataBitmap d.super.num_data <
        divide n (c.UFS_BLOCK_SIZE : Int) - divide (d.inodes i).size (c.UFS_BLOCK_SIZE : Int) := by
  have hB' : (0 : Int) < (c.UFS_BLOCK_SIZE : Int) := by exact_mod_cast hB
  have hchk : checkInode d.super i = true := (checkInode_iff _ _).2 hi
  have hr : ¬ divide n (c.UFS_BLOCK_SIZE : Int) > (c.DIRECT_PTRS : Int) := by
    have := divide_le_of_le_mul n _ (c.DIRECT_PTRS : Int) hB' hn.1 (by unfold MAX_FILE_SIZE at hn; exact hn.2)
    omega
  unfold write
  simp only [readSuperBlock, readInodeRegion, hchk, Bool.true_eq_false, if_false]
  rw [if_neg (by omega), if_neg (by simp [ht]), if_neg hr]
  have hmax : (max 0 (divide n (c.UFS_BLOCK_SIZE : Int) -
      divide (d.inodes i).size (c.UFS_BLOCK_SIZE : Int))).toNat =
      (divide n (c.UFS_BLOCK_SIZE : Int) -
        divide (d.inodes i).size (c.UFS_BLOCK_SIZE : Int)).toNat := by
    rw [max_eq_right (by omega)]
  rw [hmax]
  have key := allocBlocks_eq_none_iff c d.super (divide (d.inodes i).size (c.UFS_BLOCK_SIZE : Int))
    hgeo.1 hgeo.2 (divide n (c.UFS_BLOCK_SIZE : Int) -
        divide (d.inodes i).size (c.UFS_BLOCK_SIZE : Int)).toNat 0
    (readDataBitmap c d (junk 0)) (d.inodes i).direct
  rw [countBits_readDataBitmap c d _ hgeo.2, Int.toNat_of_nonneg (by omega)] at key
  rw [← key]
  split
  · rename_i h
    simp [h]
  · rename_i bm dir h
    simp only [h]
    constructor
    · intro h2; omega
    · intro h2; exact absurd h2 (by simp)

/-- C10. For an in-range regular-file inode and a valid size that needs more
blocks than the inode holds (`r > c`), `write` returns `-ENOTENOUGHSPACE` if
and only if fewer than `r - c` bits are clear in the data bitmap within
`[0, num_data)`; in that case it issues no write and the image is unchanged.
In particular it returns `-ENOTENOUGHSPACE` when every bit of `[0, num_data)`
is set. -/
theorem write_out_of_space (c : Cfg) (junk : Nat → Int → Nat) (d : Disk) (i : Int)
    (buffer : Int → Nat) (n : Int)
    (hB : 0 < c.UFS_BLOCK_SIZE) (hE : 0 < c.ENOTENOUGHSPACE)
    (hgeo : 0 ≤ d.super.num_data ∧
      d.super.num_data ≤ d.super.data_bitmap_len * (c.UFS_BLOCK_SIZE : Int) * 8)
    (hi : 0 ≤ i ∧ i < d.super.num_inodes) (hn : 0 ≤ n ∧ n ≤ MAX_FILE_SIZE c)
    (ht : (d.inodes i).type = c.UFS_REGULAR_FILE)
    (hrc : divide (d.inodes i).size (c.UFS_BLOCK_SIZE : Int) < divide n (c.UFS_BLOCK_SIZE : Int)) :
    ((write c junk d i buffer n).1 = -c.ENOTENOUGHSPACE ↔
      countBits d.dataBitmap d.super.num_data <
        divide n (c.UFS_BLOCK_SIZE : Int) - divide (d.inodes i).size (c.UFS_BLOCK_SIZE : Int)) ∧
    ((write c junk d i buffer n).1 = -c.ENOTENOUGHSPACE →
      (write c junk d i buffer n).2 = [] ∧ commit c d (write c junk d i buffer n).2 = d) ∧
    ((∀ j : Nat, j < d.super.num_data.toNat → findBit d.dataBitmap (j : Int) = true) →
      (write c junk d i buffer n).1 = -c.ENOTENOUGHSPACE) := by
  have hiff := write_eq_nospace_iff c junk d i buffer n hB hE hgeo hi hn ht hrc
  refine ⟨hiff, fun h => ?_, fun h => ?_⟩
  · have hw : (write c junk d i buffer n).2 = [] := by
      rcases write_writes_or_nonneg c junk d i buffer n with h1 | h1
      · exact h1
      · omega
    exact ⟨hw, by rw [hw]; rfl⟩
  · rw [hiff]
    have : countBits d.dataBitmap d.super.num_data = 0 := by
      unfold countBits
      exact countBitsFrom_eq_zero _ _ _ (fun j _ hj => h j (by omega))
    omega

theorem write_out_of_space_witness :
    (write exCfg exJunk exFullFile 1 (fun _ => 65) 1).1 = -exCfg.ENOTENOUGHSPACE ∧
    commit exCfg exFullFile (write exCfg exJunk exFullFile 1 (fun _ => 65) 1).2 = exFullFile :=
  ⟨(write_out_of_space exCfg exJunk exFullFile 1 (fun _ => 65) 1 (by decide) (by decide)
      (by decide) (by decide) (by decide) (by decide) (by decide)).2.2 (by decide),
    ((write_out_of_space exCfg exJunk exFullFile 1 (fun _ => 65) 1 (by decide) (by decide)
      (by decide) (by decide) (by decide) (by decide) (by decide)).2.1 (by decide)).2⟩

/-! ## Directory entries in memory -/

theorem toSizeT_of_nonneg (x : Int) (h0 : 0 ≤ x) (h1 : x < 18446744073709551616) :
    toSizeT x = x.toNat := by
  unfold toSizeT
  rw [Int.emod_eq_of_lt h0 h1]

theorem toInt_of_lt (n : Nat) (h : n < 2147483648) : toInt n = (n : Int) := by
  unfold toInt
  have : n % 4294967296 = n := Nat.mod_eq_of_lt (by omega)
  rw [this, if_pos h]

theorem sizeof_dir_ent_t_pos (c : Cfg) : 0 < sizeof_dir_ent_t c := by
  unfold sizeof_dir_ent_t; omega

/-- The entry count `size / sizeof(dir_ent_t)` as `create` and `unlink` compute
it, for a size in the range of a non-negative `int`. -/
theorem numEntries_eq (c : Cfg) (size : Int) (h0 : 0 ≤ size) (h1 : size < 2147483648) :
    toInt (toSizeT size / sizeof_dir_ent_t c) = size / (sizeof_dir_ent_t c : Int) ∧
    0 ≤ size / (sizeof_dir_ent_t c : Int) ∧
    size / (sizeof_dir_ent_t c : Int) * (sizeof_dir_ent_t c : Int) ≤ size := by
  have hE := sizeof_dir_ent_t_pos c
  have hE' : (0 : Int) < (sizeof_dir_ent_t c : Int) := by exact_mod_cast hE
  rw [toSizeT_of_nonneg size h0 (by omega)]
  have hle : size.toNat / sizeof_dir_ent_t c ≤ size.toNat := Nat.div_le_self _ _
  rw [toInt_of_lt _ (by omega)]
  have hc : ((size.toNat / sizeof_dir_ent_t c : Nat) : Int) = size / (sizeof_dir_ent_t c : Int) := by
    rw [Int.natCast_div, Int.toNat_of_nonneg h0]
  refine ⟨hc, Int.ediv_nonneg h0 (le_of_lt hE'), ?_⟩
  exact Int.ediv_mul_le _ (ne_of_gt hE')

theorem entName_congr (c : Cfg) (m1 m2 : Int → Nat) (i : Int)
    (h : ∀ k : Int, i * (sizeof_dir_ent_t c : Int) ≤ k →
      k < i * (sizeof_dir_ent_t c : Int) + (c.DIR_ENT_NAME_SIZE : Int) → m1 k = m2 k) :
    entName c m1 i = entName c m2 i := by
  unfold entName
  have hm : ∀ k ∈ List.range c.DIR_ENT_NAME_SIZE,
      (fun k : Nat => m1 (i * (sizeof_dir_ent_t c : Int) + (k : Int))) k =
      (fun k : Nat => m2 (i * (sizeof_dir_ent_t c : Int) + (k : Int))) k := by
    intro k hk
    rw [List.mem_range] at hk
    exact h _ (by omega) (by omega)
  rw [List.map_congr_left hm]

theorem entInum_congr (c : Cfg) (m1 m2 : Int → Nat) (i : Int)
    (h : ∀ k : Int, i * (sizeof_dir_ent_t c : Int) + (c.DIR_ENT_NAME_SIZE : Int) ≤ k →
      k < i * (sizeof_dir_ent_t c : Int) + (sizeof_dir_ent_t c : Int) → m1 k = m2 k) :
    entInum c m1 i = entInum c m2 i := by
  have hE : (sizeof_dir_ent_t c : Int) = (c.DIR_ENT_NAME_SIZE : Int) + 4 := by
    unfold sizeof_dir_ent_t; push_cast; rfl
  unfold entInum readInt
  rw [h _ (by omega) (by omega), h _ (by omega) (by omega), h _ (by omega) (by omega),
    h _ (by omega) (by omega)]

theorem findEntry_congr (c : Cfg) (m1 m2 : Int → Nat) (name : List Nat) (n i : Nat)
    (h : ∀ j : Nat, i ≤ j → j < i + n → entName c m1 (j : Int) = entName c m2 (j : Int)) :
    findEntry c m1 name n i = findEntry c m2 name n i := by
  induction n generalizing i with
  | zero => simp [findEntry]
  | succ n ih =>
    unfold findEntry
    rw [h i (le_refl _) (by omega), ih (i + 1) (fun j h1 h2 => h j (by omega) (by omega))]

theorem findEntry_eq_some_iff (c : Cfg) (mem : Int → Nat) (name : List Nat) (n i m : Nat) :
    findEntry c mem name n i = some m ↔
      (i ≤ m ∧ m < i + n ∧ entName c mem (m : Int) = name ∧
        ∀ j : Nat, i ≤ j → j < m → entName c mem (j : Int) ≠ name) := by
  induction n generalizing i with
  | zero =>
    simp [findEntry]
    intro h1 h2
    omega
  | succ n ih =>
    unfold findEntry
    by_cases h : entName c mem (i : Int) = name
    · rw [if_pos h]
      constructor
      · intro hm
        have : i = m := by simpa using hm
        subst this
        exact ⟨le_refl _, by omega, h, fun j h1 h2 => by omega⟩
      · intro ⟨h1, h2, h3, h4⟩
        by_cases him : i = m
        · rw [him]
        · exact absurd h (h4 i (le_refl _) (by omega))
    · rw [if_neg h, ih]
      constructor
      · intro ⟨h1, h2, h3, h4⟩
        refine ⟨by omega, by omega, h3, ?_⟩
        intro j hj1 hj2
        by_cases hji : j = i
        · rw [hji]; exact h
        · exact h4 j (by omega) hj2
      · intro ⟨h1, h2, h3, h4⟩
        have him : i ≠ m := by
          intro him; rw [him] at h; exact h h3
        exact ⟨by omega, by omega, h3, fun j hj1 hj2 => h4 j (by omega) hj2⟩

theorem findEntry_eq_none_iff (c : Cfg) (mem : Int → Nat) (name : List Nat) (n i : Nat) :
    findEntry c mem name n i = none ↔
      ∀ j : Nat, i ≤ j → j < i + n → entName c mem (j : Int) ≠ name := by
  induction n generalizing i with
  | zero =>
    simp [findEntry]
    intro j h1 h2
    omega
  | succ n ih =>
    unfold findEntry
    by_cases h : entName c mem (i : Int) = name
    · rw [if_pos h]
      simp
      exact ⟨i, le_refl _, by omega, h⟩
    · rw [if_neg h, ih]
      constructor
      · intro h1 j hj1 hj2
        by_cases hji : j = i
        · rw [hji]; exact h
        · exact h1 j (by omega) (by omega)
      · intro h1 j hj1 hj2
        exact h1 j (by omega) (by omega)

/-! ## `create` on a name that exists -/

/-- The array `parentEntries` that `create` fills with `read` holds the first
`size / sizeof(dir_ent_t)` entries of the directory data. -/
theorem create_parentEntries (c : Cfg) (d : Disk) (p : Int) (buf : Int → Nat)
    (hB : 0 < c.UFS_BLOCK_SIZE) (hM : MAX_FILE_SIZE c < 2147483648)
    (hp : 0 ≤ p ∧ p < d.super.num_inodes)
    (hdir : (d.inodes p).type = c.UFS_DIRECTORY)
    (hsz : 0 ≤ (d.inodes p).size ∧ (d.inodes p).size ≤ MAX_FILE_SIZE c) :
    ∀ k : Int, 0 ≤ k →
      k < (d.inodes p).size / (sizeof_dir_ent_t c : Int) * (sizeof_dir_ent_t c : Int) →
      (read c d p buf (toInt (toSizeT (toInt (toSizeT (d.inodes p).size / sizeof_dir_ent_t c))
        * sizeof_dir_ent_t c))).2 k = fileData c d (d.inodes p) k := by
  intro k hk0 hk1
  obtain ⟨h1, h2, h3⟩ := numEntries_eq c (d.inodes p).size hsz.1 (by omega)
  rw [h1]
  have hE := sizeof_dir_ent_t_pos c
  have e1 : toSizeT ((d.inodes p).size / (sizeof_dir_ent_t c : Int)) =
      ((d.inodes p).size / (sizeof_dir_ent_t c : Int)).toNat :=
    toSizeT_of_nonneg _ h2 (by
      have : (d.inodes p).size / (sizeof_dir_ent_t c : Int) ≤ (d.inodes p).size :=
        Int.ediv_le_self _ hsz.1
      omega)
  rw [e1]
  have e2 : ((((d.inodes p).size / (sizeof_dir_ent_t c : Int)).toNat * sizeof_dir_ent_t c : Nat) : Int)
      = (d.inodes p).size / (sizeof_dir_ent_t c : Int) * (sizeof_dir_ent_t c : Int) := by
    push_cast
    rw [Int.toNat_of_nonneg h2]
  have e3 : ((d.inodes p).size / (sizeof_dir_ent_t c : Int)).toNat * sizeof_dir_ent_t c
      < 2147483648 := by
    have : ((((d.inodes p).size / (sizeof_dir_ent_t c : Int)).toNat * sizeof_dir_ent_t c : Nat) : Int)
        < 2147483648 := by rw [e2]; omega
    exact_mod_cast this
  rw [toInt_of_lt _ e3, e2]
  have hchk : checkInode d.super p = true := (checkInode_iff _ _).2 hp
  have hnn : 0 ≤ (d.inodes p).size / (sizeof_dir_ent_t c : Int) * (sizeof_dir_ent_t c : Int) :=
    mul_nonneg h2 (by omega)
  obtain ⟨_, hr⟩ := read_spec c d p buf _ hB hchk hnn (by omega) (Or.inr hdir)
  rw [hr k, if_pos ⟨hk0, by rw [min_eq_left h3]; exact hk1⟩]

/-- An entry index below `n` lies, with its whole slot, below `n * sizeof(dir_ent_t)`. -/
theorem slot_bounds (E N : Int) (j n k : Int) (hE : E = N + 4) (hN : 0 ≤ N) (hj0 : 0 ≤ j) (hjn : j < n)
    (h1 : j * E ≤ k) (h2 : k < j * E + E) : 0 ≤ k ∧ k < n * E := by
  constructor
  · have : 0 ≤ j * E := mul_nonneg hj0 (by omega)
    omega
  · have : (j + 1) * E ≤ n * E := by
      apply mul_le_mul_of_nonneg_right (by omega) (by omega)
    have e : (j + 1) * E = j * E + E := by ring
    omega

theorem create_existing (c : Cfg) (junk : Nat → Int → Nat) (d : Disk) (p t : Int)
    (name : List Nat) (i : Nat)
    (hB : 0 < c.UFS_BLOCK_SIZE) (hM : MAX_FILE_SIZE c < 2147483648)
    (hp : 0 ≤ p ∧ p < d.super.num_inodes)
    (hlen : name.length < c.DIR_ENT_NAME_SIZE)
    (ht : t = c.UFS_DIRECTORY ∨ t = c.UFS_REGULAR_FILE)
    (hdir : (d.inodes p).type = c.UFS_DIRECTORY)
    (hsz : 0 ≤ (d.inodes p).size ∧ (d.inodes p).size < MAX_FILE_SIZE c)
    (hi : (i : Int) < (d.inodes p).size / (sizeof_dir_ent_t c : Int))
    (hname : entName c (fileData c d (d.inodes p)) (i : Int) = name)
    (hfirst : ∀ j : Nat, j < i → entName c (fileData c d (d.inodes p)) (j : Int) ≠ name) :
    create c junk d p t name =
      (if (d.inodes (entInum c (fileData c d (d.inodes p)) (i : Int))).type = t then (0, [])
        else (-c.EINVALIDTYPE, [])) := by
  have hchk : checkInode d.super p = true := (checkInode_iff _ _).2 hp
  have hE : (sizeof_dir_ent_t c : Int) = (c.DIR_ENT_NAME_SIZE : Int) + 4 := by
    unfold sizeof_dir_ent_t; push_cast; rfl
  obtain ⟨h1, h2, h3⟩ := numEntries_eq c (d.inodes p).size hsz.1 (by omega)
  have hpe := create_parentEntries c d p (junk 0) hB hM hp hdir ⟨hsz.1, by omega⟩
  unfold create
  simp only [readSuperBlock, readInodeRegion, hchk, Bool.not_true, Bool.false_eq_true, if_false]
  rw [if_neg (by simp [hlen]), if_neg (by rcases ht with h | h <;> simp [h]),
    if_neg (by simp [hdir]), if_neg (by unfold MAX_FILE_SIZE at hsz; intro h; rw [h] at hsz; linarith [hsz.2, mul_comm (c.UFS_BLOCK_SIZE : Int) (c.DIRECT_PTRS : Int)])]
  have hfe : findEntry c (read c d p (junk 0)
      (toInt (toSizeT (toInt (toSizeT (d.inodes p).size / sizeof_dir_ent_t c))
        * sizeof_dir_ent_t c))).2 name
      (toInt (toSizeT (d.inodes p).size / sizeof_dir_ent_t c)).toNat 0 = some i := by
    rw [findEntry_congr c _ (fileData c d (d.inodes p)) name _ 0, findEntry_eq_some_iff]
    · refine ⟨Nat.zero_le _, ?_, hname, fun j _ hj => hfirst j hj⟩
      rw [h1]; omega
    · intro j _ hj
      rw [h1] at hj
      apply entName_congr
      intro k hk1 hk2
      have := slot_bounds (sizeof_dir_ent_t c : Int) (c.DIR_ENT_NAME_SIZE : Int) (j : Int)
        ((d.inodes p).size / (sizeof_dir_ent_t c : Int)) k hE (by omega) (by omega) (by omega)
        hk1 (by omega)
      exact hpe k this.1 this.2
  rw [hfe]
  dsimp only
  have hin : entInum c (read c d p (junk 0)
      (toInt (toSizeT (toInt (toSizeT (d.inodes p).size / sizeof_dir_ent_t c))
        * sizeof_dir_ent_t c))).2 (i : Int) = entInum c (fileData c d (d.inodes p)) (i : Int) := by
    apply entInum_congr
    intro k hk1 hk2
    have := slot_bounds (sizeof_dir_ent_t c : Int) (c.DIR_ENT_NAME_SIZE : Int) (i : Int)
      ((d.inodes p).size / (sizeof_dir_ent_t c : Int)) k hE (by omega) (by omega) hi
      (by omega) hk2
    exact hpe k this.1 this.2
  simp only [hin]

/-- C4, as amended. For an in-range directory `p` whose size is non-negative
and below `DIRECT_PTRS * block_size`, a valid type `t` and a name `n` shorter
than `DIR_ENT_NAME_SIZE`: if entry `i` is the first of the directory's
`size / sizeof(dir_ent_t)` entries named `n`, then `create(p, t, n)` returns 0
when the inode of that entry has type `t` and `-EINVALIDTYPE` when it has not,
and in both cases issues no write. -/
theorem create_on_existing_name (c : Cfg) (junk : Nat → Int → Nat) (d : Disk) (p t : Int)
    (name : List Nat) (i : Nat)
    (hB : 0 < c.UFS_BLOCK_SIZE) (hM : MAX_FILE_SIZE c < 2147483648)
    (hp : 0 ≤ p ∧ p < d.super.num_inodes)
    (hlen : name.length < c.DIR_ENT_NAME_SIZE)
    (ht : t = c.UFS_DIRECTORY ∨ t = c.UFS_REGULAR_FILE)
    (hdir : (d.inodes p).type = c.UFS_DIRECTORY)
    (hsz : 0 ≤ (d.inodes p).size ∧ (d.inodes p).size < MAX_FILE_SIZE c)
    (hi : (i : Int) < (d.inodes p).size / (sizeof_dir_ent_t c : Int))
    (hname : entName c (fileData c d (d.inodes p)) (i : Int) = name)
    (hfirst : ∀ j : Nat, j < i → entName c (fileData c d (d.inodes p)) (j : Int) ≠ name) :
    (create c junk d p t name).2 = [] ∧
    commit c d (create c junk d p t name).2 = d ∧
    ((d.inodes (entInum c (fileData c d (d.inodes p)) (i : Int))).type = t →
      (create c junk d p t name).1 = 0) ∧
    ((d.inodes (entInum c (fileData c d (d.inodes p)) (i : Int))).type ≠ t →
      (create c junk d p t name).1 = -c.EINVALIDTYPE) := by
  rw [create_existing c junk d p t name i hB hM hp hlen ht hdir hsz hi hname hfirst]
  refine ⟨?_, ?_, ?_, ?_⟩
  · split <;> rfl
  · split <;> rfl
  · intro h; rw [if_pos h]
  · intro h; rw [if_neg h]

theorem create_on_existing_name_witness :
    (create exCfg exJunk exWithFile 0 1 [102]).2 = [] ∧
    commit exCfg exWithFile (create exCfg exJunk exWithFile 0 1 [102]).2 = exWithFile ∧
    ((exWithFile.inodes (entInum exCfg (fileData exCfg exWithFile (exWithFile.inodes 0))
        ((2 : Nat) : Int))).type = 1 →
      (create exCfg exJunk exWithFile 0 1 [102]).1 = 0) ∧
    ((exWithFile.inodes (entInum exCfg (fileData exCfg exWithFile (exWithFile.inodes 0))
        ((2 : Nat) : Int))).type ≠ 1 →
      (create exCfg exJunk exWithFile 0 1 [102]).1 = -exCfg.EINVALIDTYPE) :=
  create_on_existing_name exCfg exJunk exWithFile 0 1 [102] 2 (by decide) (by decide)
    (by decide) (by decide) (by decide) (by decide) (by decide) (by decide) (by decide)
    (by decide)

/-- C4, counterexample. The root directory of `exFullDir` is full (its size is
`DIRECT_PTRS * block_size`) and its entry 2 is named `a` and refers to a
regular file; `create(0, regular-file, "a")` returns `-ENOTENOUGHSPACE`, not 0. -/
theorem create_existing_name_full_directory :
    (exFullDir.inodes 0).type = exCfg.UFS_DIRECTORY ∧
    (exFullDir.inodes 0).size = MAX_FILE_SIZE exCfg ∧
    entName exCfg (fileData exCfg exFullDir (exFullDir.inodes 0)) 2 = [97] ∧
    (exFullDir.inodes (entInum exCfg (fileData exCfg exFullDir (exFullDir.inodes 0)) 2)).type
      = exCfg.UFS_REGULAR_FILE ∧
    (create exCfg exJunk exFullDir 0 exCfg.UFS_REGULAR_FILE [97]).1 = -exCfg.ENOTENOUGHSPACE ∧
    (create exCfg exJunk exFullDir 0 exCfg.UFS_REGULAR_FILE [97]).1 ≠ 0 := by
  decide

/-! ## `lookup` past the end of a directory -/

/-- C3, failing input. In `exStale` inode 1 is an in-use directory of two
entries, `.` and `..`, which fill its only block; its slot `direct[1]` still
holds the number of a block of the file that owned the inode before.  `lookup`
reads that block and returns inode 0 for the name `x`, which no entry of the
directory carries. -/
theorem lookup_reads_stale_block :
    (create exCfg exJunk (exUnlink (exWrite (exCreate exFresh 0 1 [102]) 1 exStaleBuffer 32)
      0 [102]) 0 0 [100]).1 = 1 ∧
    findBit exStale.inodeBitmap 1 = true ∧
    (exStale.inodes 1).type = exCfg.UFS_DIRECTORY ∧
    (exStale.inodes 1).size = 2 * (sizeof_dir_ent_t exCfg : Int) ∧
    (∀ j : Nat, j < 2 → entName exCfg (fileData exCfg exStale (exStale.inodes 1)) (j : Int)
      ≠ [120]) ∧
    (exStale.inodes 1).direct 1 = 7 ∧
    lookup exCfg exStale 1 [120] = 0 ∧
    lookup exCfg exStale 1 [120] ≠ -exCfg.ENOTFOUND := by
  decide

/-! ## The allocation and release loops of `write` -/

theorem allocBlocks_spec (c : Cfg) (superBlock : super_t) (curBlocks : Int)
    (hN : superBlock.num_data ≤ superBlock.data_bitmap_len * (c.UFS_BLOCK_SIZE : Int) * 8)
    (n i : Nat) (bm : Int → Nat) (dir : Int → Int) (bm' : Int → Nat) (dir' : Int → Int)
    (h : allocBlocks c superBlock curBlocks n i bm dir = some (bm', dir')) :
    (∀ k : Int, (k < curBlocks + (i : Int) ∨ curBlocks + (i : Int) + (n : Int) ≤ k) →
      dir' k = dir k) ∧
    (∀ t : Nat, t < n → ∃ m : Nat, m < superBlock.num_data.toNat ∧
      dir' (curBlocks + (i : Int) + (t : Int)) = superBlock.data_region_addr + (m : Int) ∧
      findBit bm (m : Int) = false) ∧
    (∀ t t' : Nat, t < n → t' < n →
      dir' (curBlocks + (i : Int) + (t : Int)) = dir' (curBlocks + (i : Int) + (t' : Int)) →
      t = t') ∧
    (∀ j : Nat, findBit bm' (j : Int) = true ↔
      (findBit bm (j : Int) = true ∨ ∃ t : Nat, t < n ∧
        dir' (curBlocks + (i : Int) + (t : Int)) = superBlock.data_region_addr + (j : Int))) ∧
    countBitsFrom bm' superBlock.num_data.toNat 0 =
      countBitsFrom bm superBlock.num_data.toNat 0 - (n : Int) := by
  induction n generalizing i bm dir with
  | zero =>
    unfold allocBlocks at h
    simp only [Option.some.injEq, Prod.mk.injEq] at h
    obtain ⟨rfl, rfl⟩ := h
    refine ⟨fun _ _ => rfl, fun t ht => by omega, fun t t' ht => by omega, fun j => ?_, by simp⟩
    constructor
    · intro hj; exact Or.inl hj
    · rintro (hj | ⟨t, ht, _⟩)
      · exact hj
      · omega
  | succ n ih =>
    unfold allocBlocks at h
    dsimp only at h
    have hN' : superBlock.num_data.toNat ≤
        (superBlock.data_bitmap_len * (c.UFS_BLOCK_SIZE : Int) * 8).toNat := by omega
    rcases findFirstBit_alloc bm _ _ hN' with ⟨h1, _⟩ | ⟨m0, h1, h2, h3, _⟩
    · have h1' : findFirstBit bm (superBlock.data_bitmap_len * (c.UFS_BLOCK_SIZE : Int)) < 0 ∨
          findFirstBit bm (superBlock.data_bitmap_len * (c.UFS_BLOCK_SIZE : Int))
            ≥ superBlock.num_data := by
        rcases h1 with h | h
        · exact Or.inl h
        · exact Or.inr (by omega)
      rw [if_pos h1'] at h
      exact absurd h (by simp)
    · have h1' : ¬ (findFirstBit bm (superBlock.data_bitmap_len * (c.UFS_BLOCK_SIZE : Int)) < 0 ∨
          findFirstBit bm (superBlock.data_bitmap_len * (c.UFS_BLOCK_SIZE : Int))
            ≥ superBlock.num_data) := by
        rw [h1]; omega
      rw [if_neg h1', h1] at h
      obtain ⟨A1, A2, A3, A4, A5⟩ := ih (i + 1) _ _ h
      have hm0set : findBit (createBit bm (m0 : Int)) (m0 : Int) = true := by
        rw [findBit_createBit]; simp
      have hd0 : dir' (curBlocks + (i : Int)) = superBlock.data_region_addr + (m0 : Int) := by
        rw [A1 _ (Or.inl (by push_cast; omega))]
        simp [bit2Block, Function.update_same]
        ring
      have hidx : ∀ s : Nat, curBlocks + ((i + 1 : Nat) : Int) + (s : Int) =
          curBlocks + (i : Int) + ((s + 1 : Nat) : Int) := by
        intro s; push_cast; ring
      refine ⟨?_, ?_, ?_, ?_, ?_⟩
      · intro k hk
        rw [A1 k (by push_cast at hk ⊢; omega)]
        rw [Function.update_noteq]
        push_cast at hk
        omega
      · intro t ht
        rcases t with _ | s
        · refine ⟨m0, h2, ?_, h3⟩
          simpa using hd0
        · obtain ⟨m, hm1, hm2, hm3⟩ := A2 s (by omega)
          refine ⟨m, hm1, ?_, ?_⟩
          · rw [← hidx s]; exact hm2
          · rw [findBit_createBit] at hm3
            simp only [Bool.or_eq_false_iff] at hm3
            exact hm3.2
      · intro t t' ht ht' heq
        rcases t with _ | s <;> rcases t' with _ | s'
        · rfl
        · exfalso
          obtain ⟨m, _, hm2, hm3⟩ := A2 s' (by omega)
          rw [← hidx s', hm2] at heq
          simp only [Nat.cast_zero, add_zero] at heq
          rw [hd0] at heq
          have : m = m0 := by omega
          rw [this, hm0set] at hm3
          exact absurd hm3 (by simp)
        · exfalso
          obtain ⟨m, _, hm2, hm3⟩ := A2 s (by omega)
          rw [← hidx s, hm2] at heq
          simp only [Nat.cast_zero, add_zero] at heq
          rw [hd0] at heq
          have : m = m0 := by omega
          rw [this, hm0set] at hm3
          exact absurd hm3 (by simp)
        · rw [← hidx s, ← hidx s'] at heq
          have := A3 s s' (by omega) (by omega) heq
          omega
      · intro j
        rw [A4 j, findBit_createBit]
        constructor
        · rintro (hj | ⟨t, ht, hdt⟩)
          · simp only [Bool.or_eq_true, decide_eq_true_eq] at hj
            rcases hj with hj | hj
            · right
              refine ⟨0, by omega, ?_⟩
              rw [hj]; simpa using hd0
            · exact Or.inl hj
          · right
            exact ⟨t + 1, by omega, by rw [← hidx t]; exact hdt⟩
        · rintro (hj | ⟨t, ht, hdt⟩)
          · left; simp [hj]
          · rcases t with _ | s
            · left
              simp only [Nat.cast_zero, add_zero] at hdt
              rw [hd0] at hdt
              have : j = m0 := by omega
              simp [this]
            · right
              exact ⟨s, by omega, by rw [hidx s]; exact hdt⟩
      · rw [A5, countBitsFrom_createBit _ _ _ _ h3]
        have : (0 ≤ m0 ∧ m0 < 0 + superBlock.num_data.toNat) := by omega
        rw [if_pos this]
        push_cast
        omega

theorem freeBlocks_spec (superBlock : super_t) (dir : Int → Int) (curBlocks : Int)
    (n i : Nat) (bm : Int → Nat)
    (hv : ∀ t : Nat, i ≤ t → t < i + n →
      ∃ m : Nat, dir (curBlocks - (t : Int)) = superBlock.data_region_addr + (m : Int)) :
    ∀ j : Nat, findBit (freeBlocks superBlock dir curBlocks n i bm) (j : Int) = true ↔
      (findBit bm (j : Int) = true ∧ ∀ t : Nat, i ≤ t → t < i + n →
        dir (curBlocks - (t : Int)) ≠ superBlock.data_region_addr + (j : Int)) := by
  induction n generalizing i bm with
  | zero =>
    intro j
    unfold freeBlocks
    constructor
    · intro h; exact ⟨h, fun t h1 h2 => by omega⟩
    · intro h; exact h.1
  | succ n ih =>
    intro j
    unfold freeBlocks
    obtain ⟨m, hm⟩ := hv i (le_refl _) (by omega)
    have hb : block2Bit superBlock (dir (curBlocks - (i : Int))) = (m : Int) := by
      unfold block2Bit; omega
    rw [hb, ih (i + 1) _ (fun t h1 h2 => hv t (by omega) (by omega)), findBit_delBit]
    constructor
    · intro ⟨h1, h2⟩
      simp only [ne_eq, Bool.and_eq_true, decide_eq_true_eq] at h1
      refine ⟨h1.2, ?_⟩
      intro t ht1 ht2
      by_cases hti : t = i
      · rw [hti, hm]; omega
      · exact h2 t (by omega) (by omega)
    · intro ⟨h1, h2⟩
      refine ⟨?_, fun t ht1 ht2 => h2 t (by omega) (by omega)⟩
      have := h2 i (le_refl _) (by omega)
      rw [hm] at this
      have hne : j ≠ m := by omega
      simp [hne, h1]

theorem freeBlocks_count (superBlock : super_t) (dir : Int → Int) (curBlocks : Int)
    (N n i : Nat) (bm : Int → Nat)
    (hv : ∀ t : Nat, i ≤ t → t < i + n →
      ∃ m : Nat, m < N ∧ dir (curBlocks - (t : Int)) = superBlock.data_region_addr + (m : Int)
        ∧ findBit bm (m : Int) = true)
    (hinj : ∀ t t' : Nat, i ≤ t → t < i + n → i ≤ t' → t' < i + n →
      dir (curBlocks - (t : Int)) = dir (curBlocks - (t' : Int)) → t = t') :
    countBitsFrom (freeBlocks superBlock dir curBlocks n i bm) N 0 =
      countBitsFrom bm N 0 + (n : Int) := by
  induction n generalizing i bm with
  | zero => simp [freeBlocks]
  | succ n ih =>
    unfold freeBlocks
    obtain ⟨m, hmN, hm, hmset⟩ := hv i (le_refl _) (by omega)
    have hb : block2Bit superBlock (dir (curBlocks - (i : Int))) = (m : Int) := by
      unfold block2Bit; omega
    rw [hb, ih (i + 1), countBitsFrom_delBit _ _ _ _ hmset]
    · have : (0 ≤ m ∧ m < 0 + N) := by omega
      rw [if_pos this]
      push_cast
      omega
    · intro t ht1 ht2
      obtain ⟨m', hm'N, hm', hm'set⟩ := hv t (by omega) (by omega)
      refine ⟨m', hm'N, hm', ?_⟩
      rw [findBit_delBit]
      have hne : m' ≠ m := by
        intro heq
        have := hinj t i (by omega) (by omega) (le_refl _) (by omega) (by rw [hm', hm, heq])
        omega
      simp [hne, hm'set]
    · intro t t' h1 h2 h3 h4 heq
      exact hinj t t' (by omega) (by omega) (by omega) (by omega) heq

/-! ## The transaction of `write` -/

theorem commit_append (c : Cfg) (d : Disk) (a b : List BlockWrite) :
    commit c d (a ++ b) = commit c (commit c d a) b := by
  unfold commit
  rw [List.foldl_append]

theorem commit_cons (c : Cfg) (d : Disk) (w : BlockWrite) (ws : List BlockWrite) :
    commit c d (w :: ws) = commit c (Disk.apply c d w) ws := rfl

theorem commit_nil (c : Cfg) (d : Disk) : commit c d [] = d := rfl

/-- The effect of a run of `writeBlock` calls: the regions are untouched, a
block that is not written keeps its bytes, and a block written once holds what
was written. -/
theorem commit_blocks (c : Cfg) (f : Nat → Int) (g : Nat → Int → Nat) (r : Nat) (d : Disk) :
    (commit c d ((List.range r).map (fun (k : Nat) => BlockWrite.block (f k) (g k)))).super
      = d.super ∧
    (commit c d ((List.range r).map (fun (k : Nat) => BlockWrite.block (f k) (g k)))).inodes
      = d.inodes ∧
    (commit c d ((List.range r).map (fun (k : Nat) => BlockWrite.block (f k) (g k)))).inodeBitmap
      = d.inodeBitmap ∧
    (commit c d ((List.range r).map (fun (k : Nat) => BlockWrite.block (f k) (g k)))).dataBitmap
      = d.dataBitmap ∧
    (∀ b : Int, (∀ k : Nat, k < r → f k ≠ b) →
      (commit c d ((List.range r).map (fun (k : Nat) => BlockWrite.block (f k) (g k)))).blocks b
        = d.blocks b) ∧
    (∀ k : Nat, k < r → (∀ k' : Nat, k' < r → f k' = f k → k' = k) →
      ∀ x : Int, 0 ≤ x → x < (c.UFS_BLOCK_SIZE : Int) →
      (commit c d ((List.range r).map (fun (k : Nat) => BlockWrite.block (f k) (g k)))).blocks (f k) x
        = g k x) := by
  induction r with
  | zero =>
    exact ⟨rfl, rfl, rfl, rfl, fun _ _ => rfl, fun k hk => by omega⟩
  | succ r ih =>
    obtain ⟨h1, h2, h3, h4, h5, h6⟩ := ih
    rw [List.range_succ, List.map_append, commit_append]
    simp only [List.map_cons, List.map_nil, commit_cons, commit_nil, Disk.apply]
    refine ⟨h1, h2, h3, h4, ?_, ?_⟩
    · intro b hb
      rw [Function.update_noteq (fun h => hb r (by omega) h.symm)]
      exact h5 b (fun k hk => hb k (by omega))
    · intro k hk hinj x hx0 hx1
      by_cases hkr : k = r
      · rw [hkr, Function.update_same]
        unfold memcpy
        rw [if_pos ⟨hx0, by omega⟩]
        congr 1
        omega
      · have hne : f k ≠ f r := by
          intro h
          have := hinj r (by omega) h.symm
          omega
        rw [Function.update_noteq hne]
        exact h6 k (by omega) (fun k' hk' h => hinj k' (by omega) h) x hx0 hx1

theorem write_eq_of_alloc (c : Cfg) (junk : Nat → Int → Nat) (d : Disk) (i : Int)
    (buffer : Int → Nat) (n : Int)
    (hB : 0 < c.UFS_BLOCK_SIZE)
    (hi : 0 ≤ i ∧ i < d.super.num_inodes) (hn : 0 ≤ n ∧ n ≤ MAX_FILE_SIZE c)
    (ht : (d.inodes i).type = c.UFS_REGULAR_FILE)
    (bm' : Int → Nat) (dir' : Int → Int)
    (h : allocBlocks c d.super (numBlocks c (d.inodes i))
      (max 0 (divide n (c.UFS_BLOCK_SIZE : Int) - numBlocks c (d.inodes i))).toNat 0
      (readDataBitmap c d (junk 0)) (d.inodes i).direct = some (bm', dir')) :
    write c junk d i buffer n =
      (n, [BlockWrite.inodeRegion (Function.update d.inodes i
            { type := (d.inodes i).type, size := n, direct := dir' }),
          BlockWrite.dataBitmap (freeBlocks d.super dir' (numBlocks c (d.inodes i))
            (max 0 (numBlocks c (d.inodes i) - divide n (c.UFS_BLOCK_SIZE : Int))).toNat 1 bm')]
        ++ (List.range (divide n (c.UFS_BLOCK_SIZE : Int)).toNat).map (fun (k : Nat) =>
            BlockWrite.block (dir' (k : Int))
              (writeContent c junk buffer (divide n (c.UFS_BLOCK_SIZE : Int))
                (Int.tmod (n - 1) (c.UFS_BLOCK_SIZE : Int) + 1) k))) := by
  have hB' : (0 : Int) < (c.UFS_BLOCK_SIZE : Int) := by exact_mod_cast hB
  have hchk : checkInode d.super i = true := (checkInode_iff _ _).2 hi
  have hr : ¬ divide n (c.UFS_BLOCK_SIZE : Int) > (c.DIRECT_PTRS : Int) := by
    have := divide_le_of_le_mul n _ (c.DIRECT_PTRS : Int) hB' hn.1
      (by unfold MAX_FILE_SIZE at hn; exact hn.2)
    omega
  unfold numBlocks at h ⊢
  unfold write
  simp only [readSuperBlock, readInodeRegion, hchk, Bool.true_eq_false, if_false]
  rw [if_neg (by omega), if_neg (by simp [ht]), if_neg hr, h]

theorem write_alloc_of_nonneg (c : Cfg) (junk : Nat → Int → Nat) (d : Disk) (i : Int)
    (buffer : Int → Nat) (n : Int)
    (hB : 0 < c.UFS_BLOCK_SIZE) (hE : 0 < c.ENOTENOUGHSPACE)
    (hi : 0 ≤ i ∧ i < d.super.num_inodes) (hn : 0 ≤ n ∧ n ≤ MAX_FILE_SIZE c)
    (ht : (d.inodes i).type = c.UFS_REGULAR_FILE)
    (hs : 0 ≤ (write c junk d i buffer n).1) :
    ∃ bm' dir', allocBlocks c d.super (numBlocks c (d.inodes i))
      (max 0 (divide n (c.UFS_BLOCK_SIZE : Int) - numBlocks c (d.inodes i))).toNat 0
      (readDataBitmap c d (junk 0)) (d.inodes i).direct = some (bm', dir') := by
  have hB' : (0 : Int) < (c.UFS_BLOCK_SIZE : Int) := by exact_mod_cast hB
  have hchk : checkInode d.super i = true := (checkInode_iff _ _).2 hi
  have hr : ¬ divide n (c.UFS_BLOCK_SIZE : Int) > (c.DIRECT_PTRS : Int) := by
    have := divide_le_of_le_mul n _ (c.DIRECT_PTRS : Int) hB' hn.1
      (by unfold MAX_FILE_SIZE at hn; exact hn.2)
    omega
  unfold numBlocks
  have hsz : ¬ (n < 0 ∨ n > MAX_FILE_SIZE c) := by omega
  have hty : ¬ ((d.inodes i).type ≠ c.UFS_REGULAR_FILE) := by simp [ht]
  unfold write at hs
  simp only [readSuperBlock, readInodeRegion, hchk, Bool.true_eq_false, if_false, hsz, hty, hr]
    at hs
  cases hal : allocBlocks c d.super (divide (d.inodes i).size (c.UFS_BLOCK_SIZE : Int))
      (max 0 (divide n (c.UFS_BLOCK_SIZE : Int) -
        divide (d.inodes i).size (c.UFS_BLOCK_SIZE : Int))).toNat 0
      (readDataBitmap c d (junk 0)) (d.inodes i).direct with
  | none =>
    rw [hal] at hs
    simp only at hs
    omega
  | some p => exact ⟨p.1, p.2, rfl⟩

theorem divide_nonneg (a B : Int) (hB : 0 < B) (ha : 0 ≤ a) : 0 ≤ divide a B := by
  unfold divide
  exact Int.tdiv_nonneg (by omega) (le_of_lt hB)

theorem findBit_readDataBitmap (c : Cfg) (d : Disk) (buf : Int → Nat) (j : Nat)
    (hN : d.super.num_data ≤ d.super.data_bitmap_len * (c.UFS_BLOCK_SIZE : Int) * 8)
    (hj : j < d.super.num_data.toNat) :
    findBit (readDataBitmap c d buf) (j : Int) = findBit d.dataBitmap (j : Int) := by
  unfold readDataBitmap
  exact findBit_copyRegion c _ _ _ j (by omega)

/-- The direct pointers after the allocation loop of `write`, for an inode whose
first `ceil(size / block_size)` pointers are distinct blocks of the data region
with their bits set: the old pointers are kept, and the first
`max(c, r)` pointers are distinct blocks of the data region. -/
theorem write_pointers (c : Cfg) (d : Disk) (i : Int) (n : Int) (buf : Int → Nat)
    (hB : 0 < c.UFS_BLOCK_SIZE)
    (hN : d.super.num_data ≤ d.super.data_bitmap_len * (c.UFS_BLOCK_SIZE : Int) * 8)
    (hsz : 0 ≤ (d.inodes i).size)
    (hvalid : ∀ k : Nat, (k : Int) < numBlocks c (d.inodes i) →
      ∃ m : Nat, m < d.super.num_data.toNat ∧
        (d.inodes i).direct (k : Int) = d.super.data_region_addr + (m : Int) ∧
        findBit d.dataBitmap (m : Int) = true)
    (hdist : ∀ k k' : Nat, (k : Int) < numBlocks c (d.inodes i) →
      (k' : Int) < numBlocks c (d.inodes i) →
      (d.inodes i).direct (k : Int) = (d.inodes i).direct (k' : Int) → k = k')
    (bm' : Int → Nat) (dir' : Int → Int)
    (h : allocBlocks c d.super (numBlocks c (d.inodes i))
      (max 0 (divide n (c.UFS_BLOCK_SIZE : Int) - numBlocks c (d.inodes i))).toNat 0
      (readDataBitmap c d buf) (d.inodes i).direct = some (bm', dir')) :
    (∀ k : Int, k < numBlocks c (d.inodes i) → dir' k = (d.inodes i).direct k) ∧
    (∀ k : Nat, (k : Int) < max (numBlocks c (d.inodes i)) (divide n (c.UFS_BLOCK_SIZE : Int)) →
      ∃ m : Nat, m < d.super.num_data.toNat ∧
        dir' (k : Int) = d.super.data_region_addr + (m : Int) ∧
        (findBit d.dataBitmap (m : Int) = true ↔ (k : Int) < numBlocks c (d.inodes i))) ∧
    (∀ k k' : Nat,
      (k : Int) < max (numBlocks c (d.inodes i)) (divide n (c.UFS_BLOCK_SIZE : Int)) →
      (k' : Int) < max (numBlocks c (d.inodes i)) (divide n (c.UFS_BLOCK_SIZE : Int)) →
      dir' (k : Int) = dir' (k' : Int) → k = k') := by
  have hB' : (0 : Int) < (c.UFS_BLOCK_SIZE : Int) := by exact_mod_cast hB
  have hc0 : 0 ≤ numBlocks c (d.inodes i) := divide_nonneg _ _ hB' hsz
  obtain ⟨A1, A2, A3, _, _⟩ := allocBlocks_spec c d.super _ hN _ _ _ _ _ _ h
  set c0 := numBlocks c (d.inodes i) with hc0def
  set r := divide n (c.UFS_BLOCK_SIZE : Int) with hrdef
  have hold : ∀ k : Int, k < c0 → dir' k = (d.inodes i).direct k := by
    intro k hk
    exact A1 k (Or.inl (by simpa using hk))
  have hnew : ∀ k : Nat, c0 ≤ (k : Int) → (k : Int) < r →
      ∃ m : Nat, m < d.super.num_data.toNat ∧
        dir' (k : Int) = d.super.data_region_addr + (m : Int) ∧
        findBit d.dataBitmap (m : Int) = false := by
    intro k hk1 hk2
    have ht : ((k : Int) - c0).toNat < (max 0 (r - c0)).toNat := by
      rw [max_eq_right (by omega)]; omega
    obtain ⟨m, hm1, hm2, hm3⟩ := A2 ((k : Int) - c0).toNat ht
    refine ⟨m, hm1, ?_, ?_⟩
    · have e : c0 + ((0 : Nat) : Int) + ((((k : Int) - c0).toNat : Nat) : Int) = (k : Int) := by
        rw [Int.toNat_of_nonneg (by omega)]; simp
      rw [e] at hm2
      exact hm2
    · rw [← findBit_readDataBitmap c d buf m hN hm1]; exact hm3
  have hall : ∀ k : Nat, (k : Int) < max c0 r →
      ∃ m : Nat, m < d.super.num_data.toNat ∧
        dir' (k : Int) = d.super.data_region_addr + (m : Int) ∧
        (findBit d.dataBitmap (m : Int) = true ↔ (k : Int) < c0) := by
    intro k hk
    by_cases hkc : (k : Int) < c0
    · obtain ⟨m, hm1, hm2, hm3⟩ := hvalid k hkc
      exact ⟨m, hm1, by rw [hold _ hkc]; exact hm2, by simp [hm3, hkc]⟩
    · have hkr : (k : Int) < r := by
        by_contra hcon
        have : max c0 r ≤ (k : Int) := max_le (by omega) (by omega)
        omega
      obtain ⟨m, hm1, hm2, hm3⟩ := hnew k (by omega) hkr
      exact ⟨m, hm1, hm2, by simp [hm3, hkc]⟩
  refine ⟨hold, hall, ?_⟩
  intro k k' hk hk' heq
  obtain ⟨m, _, hm2, hm3⟩ := hall k hk
  obtain ⟨m', _, hm2', hm3'⟩ := hall k' hk'
  have hmm : m = m' := by
    rw [hm2, hm2'] at heq; omega
  subst hmm
  by_cases hkc : (k : Int) < c0
  · have hkc' : (k' : Int) < c0 := hm3'.1 (hm3.2 hkc)
    apply hdist k k' hkc hkc'
    rw [← hold _ hkc, ← hold _ hkc']; exact heq
  · have hkc' : ¬ (k' : Int) < c0 := fun h' => hkc (hm3.1 (hm3'.2 h'))
    have hkr : (k : Int) < r := by
      by_contra hcon
      have : max c0 r ≤ (k : Int) := max_le (by omega) (by omega)
      omega
    have hkr' : (k' : Int) < r := by
      by_contra hcon
      have : max c0 r ≤ (k' : Int) := max_le (by omega) (by omega)
      omega
    have ht : ((k : Int) - c0).toNat < (max 0 (r - c0)).toNat := by
      rw [max_eq_right (by omega)]; omega
    have ht' : ((k' : Int) - c0).toNat < (max 0 (r - c0)).toNat := by
      rw [max_eq_right (by omega)]; omega
    have e : c0 + ((0 : Nat) : Int) + ((((k : Int) - c0).toNat : Nat) : Int) = (k : Int) := by
      rw [Int.toNat_of_nonneg (by omega)]; simp
    have e' : c0 + ((0 : Nat) : Int) + ((((k' : Int) - c0).toNat : Nat) : Int) = (k' : Int) := by
      rw [Int.toNat_of_nonneg (by omega)]; simp
    have := A3 _ _ ht ht' (by rw [e, e']; exact heq)
    omega

/-! ## Writing, then reading -/

/-- What the invariants of section 3 say about one inode in use. -/
theorem inode_of_inv (c : Cfg) (d : Disk) (i : Int)
    (hB : 0 < c.UFS_BLOCK_SIZE)
    (hS : SizeInv c d) (hV : BlocksValid c d) (hD : BlocksDistinct c d)
    (hi : 0 ≤ i ∧ i < d.super.num_inodes) (hlive : inUse d i) :
    (0 ≤ (d.inodes i).size ∧ (d.inodes i).size ≤ MAX_FILE_SIZE c) ∧
    (∀ k : Nat, (k : Int) < numBlocks c (d.inodes i) →
      ∃ m : Nat, m < d.super.num_data.toNat ∧
        (d.inodes i).direct (k : Int) = d.super.data_region_addr + (m : Int) ∧
        findBit d.dataBitmap (m : Int) = true) ∧
    (∀ k k' : Nat, (k : Int) < numBlocks c (d.inodes i) →
      (k' : Int) < numBlocks c (d.inodes i) →
      (d.inodes i).direct (k : Int) = (d.inodes i).direct (k' : Int) → k = k') := by
  have hB' : (0 : Int) < (c.UFS_BLOCK_SIZE : Int) := by exact_mod_cast hB
  have hiN : ((i.toNat : Nat) : Int) = i := Int.toNat_of_nonneg hi.1
  have hlt : i.toNat < d.super.num_inodes.toNat := by omega
  have hlive' : inUse d ((i.toNat : Nat) : Int) := by rw [hiN]; exact hlive
  have hsz := hS i.toNat hlt hlive'
  rw [hiN] at hsz
  have hnb : numBlocks c (d.inodes i) ≤ (c.DIRECT_PTRS : Int) :=
    divide_le_of_le_mul _ _ _ hB' hsz.1 (by unfold MAX_FILE_SIZE at hsz; exact hsz.2)
  have hslot : ∀ k : Nat, (k : Int) < numBlocks c (d.inodes i) → liveSlot c d i.toNat k := by
    intro k hk
    refine ⟨hlt, hlive', by omega, ?_⟩
    rw [hiN]; exact hk
  refine ⟨hsz, ?_, ?_⟩
  · intro k hk
    have := hV i.toNat hlt k (by omega) (hslot k hk)
    rw [hiN] at this
    exact this
  · intro k k' hk hk' heq
    have := hD i.toNat hlt k (by omega) (hslot k hk) i.toNat hlt k' (by omega) (hslot k' hk')
      (by rw [hiN]; exact heq)
    exact this.2

theorem divide_eq_pred_div (n B : Int) (hB : 0 < B) (hn : 1 ≤ n) :
    divide n B = (n - 1) / B + 1 ∧ Int.tmod (n - 1) B = (n - 1) % B := by
  unfold divide
  rw [Int.tdiv_eq_ediv (by omega) (le_of_lt hB), Int.tmod_eq_emod (by omega) (le_of_lt hB)]
  refine ⟨?_, rfl⟩
  have : n + B - 1 = (n - 1) + 1 * B := by ring
  rw [this, Int.add_mul_ediv_right _ _ (ne_of_gt hB)]

/-- C1. On an image that satisfies the layout and invariants 2 and 7 of section
3, for an in-use regular-file inode `i` and a buffer `b` of `n` bytes with
`0 ≤ n ≤ MAX_FILE_SIZE`: if `write(i, b, n)` succeeds it returns `n`, and
`read(i, out, n)` on the committed image returns `n` and leaves the first `n`
bytes of `b` in `out`. -/
theorem write_read_round_trip (c : Cfg) (junk : Nat → Int → Nat) (d : Disk) (i : Int)
    (b out : Int → Nat) (n : Int)
    (hB : 0 < c.UFS_BLOCK_SIZE) (hE : 0 < c.ENOTENOUGHSPACE)
    (hL : Layout c d) (hS : SizeInv c d) (hV : BlocksValid c d) (hD : BlocksDistinct c d)
    (hi : 0 ≤ i ∧ i < d.super.num_inodes) (hlive : inUse d i)
    (ht : (d.inodes i).type = c.UFS_REGULAR_FILE)
    (hn : 0 ≤ n ∧ n ≤ MAX_FILE_SIZE c)
    (hs : 0 ≤ (write c junk d i b n).1) :
    (write c junk d i b n).1 = n ∧
    (read c (commit c d (write c junk d i b n).2) i out n).1 = n ∧
    ∀ k : Int, 0 ≤ k → k < n →
      (read c (commit c d (write c junk d i b n).2) i out n).2 k = b k := by
  have hB' : (0 : Int) < (c.UFS_BLOCK_SIZE : Int) := by exact_mod_cast hB
  obtain ⟨hsz, hvalid, hdist⟩ := inode_of_inv c d i hB hS hV hD hi hlive
  obtain ⟨bm', dir', hal⟩ := write_alloc_of_nonneg c junk d i b n hB hE hi hn ht hs
  obtain ⟨_, P2, P3⟩ := write_pointers c d i n (junk 0) hB hL.2.2.2.2.2 hsz.1 hvalid hdist bm' dir' hal
  rw [write_eq_of_alloc c junk d i b n hB hi hn ht bm' dir' hal]
  refine ⟨rfl, ?_⟩
  dsimp only
  rw [commit_append]
  set r := divide n (c.UFS_BLOCK_SIZE : Int) with hr
  have hr0 : 0 ≤ r := divide_nonneg _ _ hB' hn.1
  set d1 := commit c d [BlockWrite.inodeRegion (Function.update d.inodes i
      { type := (d.inodes i).type, size := n, direct := dir' }),
    BlockWrite.dataBitmap (freeBlocks d.super dir' (numBlocks c (d.inodes i))
      (max 0 (numBlocks c (d.inodes i) - r)).toNat 1 bm')] with hd1
  obtain ⟨Q1, Q2, _, _, _, Q6⟩ := commit_blocks c (fun k : Nat => dir' (k : Int))
    (fun k : Nat => writeContent c junk b r (Int.tmod (n - 1) (c.UFS_BLOCK_SIZE : Int) + 1) k)
    r.toNat d1
  set d' := commit c d1 ((List.range r.toNat).map (fun (k : Nat) =>
      BlockWrite.block (dir' (k : Int))
        (writeContent c junk b r (Int.tmod (n - 1) (c.UFS_BLOCK_SIZE : Int) + 1) k))) with hd'
  have hsuper : d'.super = d.super := by rw [Q1]; rfl
  have hino : d'.inodes i = { type := (d.inodes i).type, size := n, direct := dir' } := by
    rw [Q2]
    show (if 0 ≤ i ∧ i < d.super.num_inodes then _ else _) = _
    rw [if_pos hi, Function.update_same]
  have hchk : checkInode d'.super i = true := by
    rw [hsuper]; exact (checkInode_iff _ _).2 hi
  obtain ⟨R1, R2⟩ := read_spec c d' i out n hB hchk hn.1 hn.2 (by rw [hino]; exact Or.inl ht)
  rw [hino] at R1 R2
  simp only [min_self] at R1 R2
  refine ⟨R1, ?_⟩
  intro k hk0 hkn
  rw [R2 k, if_pos ⟨hk0, hkn⟩]
  unfold fileData
  dsimp only
  obtain ⟨hrdiv, hlast⟩ := divide_eq_pred_div n _ hB' (by omega)
  have hq0 : 0 ≤ k / (c.UFS_BLOCK_SIZE : Int) := Int.ediv_nonneg hk0 (le_of_lt hB')
  have hqle : k / (c.UFS_BLOCK_SIZE : Int) ≤ (n - 1) / (c.UFS_BLOCK_SIZE : Int) :=
    Int.ediv_le_ediv hB' (by omega)
  have hqr : k / (c.UFS_BLOCK_SIZE : Int) < r := by rw [hr, hrdiv]; omega
  have hqN : (((k / (c.UFS_BLOCK_SIZE : Int)).toNat : Nat) : Int) = k / (c.UFS_BLOCK_SIZE : Int) :=
    Int.toNat_of_nonneg hq0
  have hblk := Q6 (k / (c.UFS_BLOCK_SIZE : Int)).toNat (by omega) (by
    intro k' hk' heq
    exact P3 k' _ (by rw [lt_max_iff]; right; omega) (by rw [lt_max_iff]; right; omega) heq)
  have hmod0 : 0 ≤ k % (c.UFS_BLOCK_SIZE : Int) := Int.emod_nonneg _ (ne_of_gt hB')
  have hmodB : k % (c.UFS_BLOCK_SIZE : Int) < (c.UFS_BLOCK_SIZE : Int) := Int.emod_lt_of_pos _ hB'
  have hblk' := hblk (k % (c.UFS_BLOCK_SIZE : Int)) hmod0 hmodB
  rw [hqN] at hblk'
  rw [hblk']
  unfold writeContent memcpy
  rw [hqN]
  have hdm : (c.UFS_BLOCK_SIZE : Int) * (k / (c.UFS_BLOCK_SIZE : Int)) + k % (c.UFS_BLOCK_SIZE : Int) = k :=
    Int.ediv_add_emod k _
  have hdm' : (c.UFS_BLOCK_SIZE : Int) * ((n - 1) / (c.UFS_BLOCK_SIZE : Int))
      + (n - 1) % (c.UFS_BLOCK_SIZE : Int) = n - 1 := Int.ediv_add_emod (n - 1) _
  rw [if_pos]
  · congr 1
    linarith
  · refine ⟨hmod0, ?_⟩
    by_cases hlq : k / (c.UFS_BLOCK_SIZE : Int) = r - 1
    · rw [if_pos hlq, hlast]
      have : k / (c.UFS_BLOCK_SIZE : Int) = (n - 1) / (c.UFS_BLOCK_SIZE : Int) := by
        rw [hlq, hr, hrdiv]; ring
      rw [this] at hdm
      linarith
    · rw [if_neg hlq]; linarith

theorem write_read_round_trip_witness :
    (write exCfg exJunk exWithFile 1 exHi 2).1 = 2 ∧
    (read exCfg (commit exCfg exWithFile (write exCfg exJunk exWithFile 1 exHi 2).2) 1
      (fun _ => 0) 2).1 = 2 ∧
    ∀ k : Int, 0 ≤ k → k < 2 →
      (read exCfg (commit exCfg exWithFile (write exCfg exJunk exWithFile 1 exHi 2).2) 1
        (fun _ => 0) 2).2 k = exHi k :=
  write_read_round_trip exCfg exJunk exWithFile 1 exHi (fun _ => 0) 2 (by decide) (by decide)
    (by decide) (by decide) (by decide) (by decide) (by decide) (by decide) (by decide)
    (by decide) (by decide)

/-! ## Block accounting of `write` -/

/-- The image after the transaction of a successful `write`, region by region. -/
theorem write_commit (c : Cfg) (junk : Nat → Int → Nat) (d : Disk) (i : Int)
    (buffer : Int → Nat) (n : Int)
    (hB : 0 < c.UFS_BLOCK_SIZE)
    (hi : 0 ≤ i ∧ i < d.super.num_inodes) (hn : 0 ≤ n ∧ n ≤ MAX_FILE_SIZE c)
    (ht : (d.inodes i).type = c.UFS_REGULAR_FILE)
    (bm' : Int → Nat) (dir' : Int → Int)
    (h : allocBlocks c d.super (numBlocks c (d.inodes i))
      (max 0 (divide n (c.UFS_BLOCK_SIZE : Int) - numBlocks c (d.inodes i))).toNat 0
      (readDataBitmap c d (junk 0)) (d.inodes i).direct = some (bm', dir')) :
    (write c junk d i buffer n).1 = n ∧
    (commit c d (write c junk d i buffer n).2).super = d.super ∧
    (commit c d (write c junk d i buffer n).2).inodeBitmap = d.inodeBitmap ∧
    (commit c d (write c junk d i buffer n).2).inodes i =
      { type := (d.inodes i).type, size := n, direct := dir' } ∧
    (∀ i' : Int, i' ≠ i → (commit c d (write c junk d i buffer n).2).inodes i' = d.inodes i') ∧
    (commit c d (write c junk d i buffer n).2).dataBitmap =
      copyRegion c d.super.data_bitmap_len
        (freeBlocks d.super dir' (numBlocks c (d.inodes i))
          (max 0 (numBlocks c (d.inodes i) - divide n (c.UFS_BLOCK_SIZE : Int))).toNat 1 bm')
        d.dataBitmap ∧
    (∀ b : Int, (∀ k : Nat, (k : Int) < divide n (c.UFS_BLOCK_SIZE : Int) → dir' (k : Int) ≠ b) →
      (commit c d (write c junk d i buffer n).2).blocks b = d.blocks b) := by
  have hB' : (0 : Int) < (c.UFS_BLOCK_SIZE : Int) := by exact_mod_cast hB
  rw [write_eq_of_alloc c junk d i buffer n hB hi hn ht bm' dir' h]
  dsimp only
  rw [commit_append]
  obtain ⟨Q1, Q2, Q3, Q4, Q5, _⟩ := commit_blocks c (fun k : Nat => dir' (k : Int))
    (fun k : Nat => writeContent c junk buffer (divide n (c.UFS_BLOCK_SIZE : Int))
      (Int.tmod (n - 1) (c.UFS_BLOCK_SIZE : Int) + 1) k)
    (divide n (c.UFS_BLOCK_SIZE : Int)).toNat
    (commit c d [BlockWrite.inodeRegion (Function.update d.inodes i
      { type := (d.inodes i).type, size := n, direct := dir' }),
    BlockWrite.dataBitmap (freeBlocks d.super dir' (numBlocks c (d.inodes i))
      (max 0 (numBlocks c (d.inodes i) - divide n (c.UFS_BLOCK_SIZE : Int))).toNat 1 bm')])
  refine ⟨rfl, ?_, ?_, ?_, ?_, ?_, ?_⟩
  · rw [Q1]; rfl
  · rw [Q3]; rfl
  · rw [Q2]
    show (if 0 ≤ i ∧ i < d.super.num_inodes then _ else _) = _
    rw [if_pos hi, Function.update_same]
  · intro i' hi'
    rw [Q2]
    show (if 0 ≤ i' ∧ i' < d.super.num_inodes then _ else _) = _
    split
    · rw [Function.update_noteq hi']
    · rfl
  · rw [Q4]; rfl
  · intro b hb
    rw [Q5 b (fun k hk => hb k (by omega))]
    rfl

/-- The data bitmap after a `write` that needs at least as many blocks as the
inode holds. -/
theorem write_bitmap_grow (c : Cfg) (d : Disk) (i : Int) (n : Int) (buf : Int → Nat)
    (hN : d.super.num_data ≤ d.super.data_bitmap_len * (c.UFS_BLOCK_SIZE : Int) * 8)
    (hc0 : 0 ≤ numBlocks c (d.inodes i))
    (hcr : numBlocks c (d.inodes i) ≤ divide n (c.UFS_BLOCK_SIZE : Int))
    (bm' : Int → Nat) (dir' : Int → Int)
    (h : allocBlocks c d.super (numBlocks c (d.inodes i))
      (max 0 (divide n (c.UFS_BLOCK_SIZE : Int) - numBlocks c (d.inodes i))).toNat 0
      (readDataBitmap c d buf) (d.inodes i).direct = some (bm', dir')) :
    (∀ j : Nat, j < d.super.num_data.toNat →
      (findBit (copyRegion c d.super.data_bitmap_len
        (freeBlocks d.super dir' (numBlocks c (d.inodes i))
          (max 0 (numBlocks c (d.inodes i) - divide n (c.UFS_BLOCK_SIZE : Int))).toNat 1 bm')
        d.dataBitmap) (j : Int) = true ↔
      (findBit d.dataBitmap (j : Int) = true ∨ ∃ k : Nat,
        numBlocks c (d.inodes i) ≤ (k : Int) ∧ (k : Int) < divide n (c.UFS_BLOCK_SIZE : Int) ∧
        dir' (k : Int) = d.super.data_region_addr + (j : Int)))) ∧
    countBits (copyRegion c d.super.data_bitmap_len
        (freeBlocks d.super dir' (numBlocks c (d.inodes i))
          (max 0 (numBlocks c (d.inodes i) - divide n (c.UFS_BLOCK_SIZE : Int))).toNat 1 bm')
        d.dataBitmap) d.super.num_data =
      countBits d.dataBitmap d.super.num_data -
        (divide n (c.UFS_BLOCK_SIZE : Int) - numBlocks c (d.inodes i)) := by
  obtain ⟨_, _, _, A4, A5⟩ := allocBlocks_spec c d.super _ hN _ _ _ _ _ _ h
  set c0 := numBlocks c (d.inodes i) with hc0def
  set r := divide n (c.UFS_BLOCK_SIZE : Int) with hrdef
  have hz : (max 0 (c0 - r)).toNat = 0 := by
    rw [max_eq_left (by omega)]; rfl
  rw [hz]
  have hfree : freeBlocks d.super dir' c0 0 1 bm' = bm' := rfl
  rw [hfree]
  constructor
  · intro j hj
    rw [findBit_copyRegion c _ _ _ j (by omega), A4 j, findBit_readDataBitmap c d buf j hN hj]
    constructor
    · rintro (h1 | ⟨t, ht, hdt⟩)
      · exact Or.inl h1
      · right
        rw [max_eq_right (by omega)] at ht
        have e : (((c0 + (t : Int)).toNat : Nat) : Int) = c0 + (t : Int) :=
          Int.toNat_of_nonneg (by omega)
        refine ⟨(c0 + (t : Int)).toNat, by omega, by omega, ?_⟩
        rw [e]
        simpa using hdt
    · rintro (h1 | ⟨k, hk1, hk2, hdk⟩)
      · exact Or.inl h1
      · right
        refine ⟨((k : Int) - c0).toNat, ?_, ?_⟩
        · rw [max_eq_right (by omega)]; omega
        · have e : c0 + ((0 : Nat) : Int) + ((((k : Int) - c0).toNat : Nat) : Int) = (k : Int) := by
            rw [Int.toNat_of_nonneg (by omega)]; simp
          rw [e]; exact hdk
  · unfold countBits
    rw [countBitsFrom_congr _ bm' _ 0 (fun j _ hj => findBit_copyRegion c _ _ _ j (by omega)),
      A5, countBits_readDataBitmap c d buf hN]
    unfold countBits
    rw [max_eq_right (by omega), Int.toNat_of_nonneg (by omega)]

/-- The data bitmap after a `write` that needs fewer blocks than the inode
holds. -/
theorem write_bitmap_shrink (c : Cfg) (d : Disk) (i : Int) (n : Int) (buf : Int → Nat)
    (hN : d.super.num_data ≤ d.super.data_bitmap_len * (c.UFS_BLOCK_SIZE : Int) * 8)
    (hr0 : 0 ≤ divide n (c.UFS_BLOCK_SIZE : Int))
    (hcr : divide n (c.UFS_BLOCK_SIZE : Int) < numBlocks c (d.inodes i))
    (hvalid : ∀ k : Nat, (k : Int) < numBlocks c (d.inodes i) →
      ∃ m : Nat, m < d.super.num_data.toNat ∧
        (d.inodes i).direct (k : Int) = d.super.data_region_addr + (m : Int) ∧
        findBit d.dataBitmap (m : Int) = true)
    (hdist : ∀ k k' : Nat, (k : Int) < numBlocks c (d.inodes i) →
      (k' : Int) < numBlocks c (d.inodes i) →
      (d.inodes i).direct (k : Int) = (d.inodes i).direct (k' : Int) → k = k')
    (bm' : Int → Nat) (dir' : Int → Int)
    (h : allocBlocks c d.super (numBlocks c (d.inodes i))
      (max 0 (divide n (c.UFS_BLOCK_SIZE : Int) - numBlocks c (d.inodes i))).toNat 0
      (readDataBitmap c d buf) (d.inodes i).direct = some (bm', dir')) :
    dir' = (d.inodes i).direct ∧
    (∀ j : Nat, j < d.super.num_data.toNat →
      (findBit (copyRegion c d.super.data_bitmap_len
        (freeBlocks d.super dir' (numBlocks c (d.inodes i))
          (max 0 (numBlocks c (d.inodes i) - divide n (c.UFS_BLOCK_SIZE : Int))).toNat 1 bm')
        d.dataBitmap) (j : Int) = true ↔
      (findBit d.dataBitmap (j : Int) = true ∧ ∀ k : Nat,
        divide n (c.UFS_BLOCK_SIZE : Int) ≤ (k : Int) → (k : Int) < numBlocks c (d.inodes i) →
        (d.inodes i).direct (k : Int) ≠ d.super.data_region_addr + (j : Int)))) ∧
    countBits (copyRegion c d.super.data_bitmap_len
        (freeBlocks d.super dir' (numBlocks c (d.inodes i))
          (max 0 (numBlocks c (d.inodes i) - divide n (c.UFS_BLOCK_SIZE : Int))).toNat 1 bm')
        d.dataBitmap) d.super.num_data =
      countBits d.dataBitmap d.super.num_data -
        (divide n (c.UFS_BLOCK_SIZE : Int) - numBlocks c (d.inodes i)) := by
  set c0 := numBlocks c (d.inodes i) with hc0def
  set r := divide n (c.UFS_BLOCK_SIZE : Int) with hrdef
  have hz : (max 0 (r - c0)).toNat = 0 := by
    rw [max_eq_left (by omega)]; rfl
  rw [hz] at h
  unfold allocBlocks at h
  simp only [Option.some.injEq, Prod.mk.injEq] at h
  obtain ⟨rfl, rfl⟩ := h
  have hnd : (max 0 (c0 - r)).toNat = (c0 - r).toNat := by rw [max_eq_right (by omega)]
  rw [hnd]
  have hidx : ∀ t : Nat, 1 ≤ t → t < 1 + (c0 - r).toNat →
      (((c0 - (t : Int)).toNat : Nat) : Int) = c0 - (t : Int) ∧
      r ≤ c0 - (t : Int) ∧ c0 - (t : Int) < c0 := by
    intro t h1 h2
    refine ⟨Int.toNat_of_nonneg (by omega), by omega, by omega⟩
  have hv1 : ∀ t : Nat, 1 ≤ t → t < 1 + (c0 - r).toNat →
      ∃ m : Nat, m < d.super.num_data.toNat ∧
        (d.inodes i).direct (c0 - (t : Int)) = d.super.data_region_addr + (m : Int) ∧
        findBit (readDataBitmap c d buf) (m : Int) = true := by
    intro t h1 h2
    obtain ⟨e, _, e3⟩ := hidx t h1 h2
    obtain ⟨m, hm1, hm2, hm3⟩ := hvalid (c0 - (t : Int)).toNat (by rw [e]; exact e3)
    rw [e] at hm2
    exact ⟨m, hm1, hm2, by rw [findBit_readDataBitmap c d buf m hN hm1]; exact hm3⟩
  have hinj1 : ∀ t t' : Nat, 1 ≤ t → t < 1 + (c0 - r).toNat → 1 ≤ t' → t' < 1 + (c0 - r).toNat →
      (d.inodes i).direct (c0 - (t : Int)) = (d.inodes i).direct (c0 - (t' : Int)) → t = t' := by
    intro t t' h1 h2 h1' h2' heq
    obtain ⟨e, _, e3⟩ := hidx t h1 h2
    obtain ⟨e', _, e3'⟩ := hidx t' h1' h2'
    have := hdist (c0 - (t : Int)).toNat (c0 - (t' : Int)).toNat (by rw [e]; exact e3)
      (by rw [e']; exact e3') (by rw [e, e']; exact heq)
    omega
  refine ⟨rfl, ?_, ?_⟩
  · intro j hj
    rw [findBit_copyRegion c _ _ _ j (by omega),
      freeBlocks_spec d.super _ c0 _ 1 _ (fun t h1 h2 => by
        obtain ⟨m, _, hm, _⟩ := hv1 t h1 h2
        exact ⟨m, hm⟩) j,
      findBit_readDataBitmap c d buf j hN hj]
    constructor
    · intro ⟨h1, h2⟩
      refine ⟨h1, ?_⟩
      intro k hk1 hk2
      have := h2 (c0 - (k : Int)).toNat (by omega) (by omega)
      rw [Int.toNat_of_nonneg (by omega)] at this
      simpa using this
    · intro ⟨h1, h2⟩
      refine ⟨h1, ?_⟩
      intro t ht1 ht2
      obtain ⟨e, e2, e3⟩ := hidx t ht1 ht2
      have := h2 (c0 - (t : Int)).toNat (by rw [e]; exact e2) (by rw [e]; exact e3)
      rw [e] at this
      exact this
  · unfold countBits
    rw [countBitsFrom_congr _ (freeBlocks d.super (d.inodes i).direct c0 (c0 - r).toNat 1
        (readDataBitmap c d buf)) _ 0 (fun j _ hj => findBit_copyRegion c _ _ _ j (by omega)),
      freeBlocks_count d.super _ c0 _ _ 1 _ hv1 hinj1, countBits_readDataBitmap c d buf hN]
    unfold countBits
    rw [Int.toNat_of_nonneg (by omega)]
    ring

/-- C9. On an image that satisfies the layout and invariants 2 and 7 of section
3, for an in-use regular-file inode with old block count
`c = ceil(old_size / block_size)` and a successful write of `n` bytes with
`r = ceil(n / block_size)`: afterwards `stat(i).size = n`, `direct[0..min(c,r))`
is unchanged, the bits of `direct[0..r)` are all set, the bits of the old
`direct[r..c)` are all clear, and the number of set bits of the data bitmap
below `num_data` has changed by exactly `r - c`. -/
theorem write_block_accounting (c : Cfg) (junk : Nat → Int → Nat) (d : Disk) (i : Int)
    (b : Int → Nat) (n : Int)
    (hB : 0 < c.UFS_BLOCK_SIZE) (hE : 0 < c.ENOTENOUGHSPACE)
    (hL : Layout c d) (hS : SizeInv c d) (hV : BlocksValid c d) (hD : BlocksDistinct c d)
    (hi : 0 ≤ i ∧ i < d.super.num_inodes) (hlive : inUse d i)
    (ht : (d.inodes i).type = c.UFS_REGULAR_FILE)
    (hn : 0 ≤ n ∧ n ≤ MAX_FILE_SIZE c)
    (hs : 0 ≤ (write c junk d i b n).1) :
    (stat c (commit c d (write c junk d i b n).2) i default).2.size = n ∧
    (∀ k : Nat, (k : Int) < min (numBlocks c (d.inodes i)) (divide n (c.UFS_BLOCK_SIZE : Int)) →
      (stat c (commit c d (write c junk d i b n).2) i default).2.direct (k : Int)
        = (d.inodes i).direct (k : Int)) ∧
    (∀ k : Nat, (k : Int) < divide n (c.UFS_BLOCK_SIZE : Int) →
      findBit (commit c d (write c junk d i b n).2).dataBitmap
        (block2Bit (commit c d (write c junk d i b n).2).super
          ((stat c (commit c d (write c junk d i b n).2) i default).2.direct (k : Int))) = true) ∧
    (∀ k : Nat, divide n (c.UFS_BLOCK_SIZE : Int) ≤ (k : Int) →
      (k : Int) < numBlocks c (d.inodes i) →
      findBit (commit c d (write c junk d i b n).2).dataBitmap
        (block2Bit (commit c d (write c junk d i b n).2).super
          ((d.inodes i).direct (k : Int))) = false) ∧
    (d.super.num_data - countBits (commit c d (write c junk d i b n).2).dataBitmap d.super.num_data)
      - (d.super.num_data - countBits d.dataBitmap d.super.num_data)
      = divide n (c.UFS_BLOCK_SIZE : Int) - numBlocks c (d.inodes i) := by
  have hB' : (0 : Int) < (c.UFS_BLOCK_SIZE : Int) := by exact_mod_cast hB
  obtain ⟨hsz, hvalid, hdist⟩ := inode_of_inv c d i hB hS hV hD hi hlive
  obtain ⟨bm', dir', hal⟩ := write_alloc_of_nonneg c junk d i b n hB hE hi hn ht hs
  obtain ⟨P1, P2, P3⟩ := write_pointers c d i n (junk 0) hB hL.2.2.2.2.2 hsz.1 hvalid hdist bm' dir' hal
  obtain ⟨_, W2, _, W4, _, W6, _⟩ := write_commit c junk d i b n hB hi hn ht bm' dir' hal
  have hchk : checkInode (commit c d (write c junk d i b n).2).super i = true := by
    rw [W2]; exact (checkInode_iff _ _).2 hi
  rw [stat_snd c _ i default hchk, W4, W2, W6]
  dsimp only
  have hc0 : 0 ≤ numBlocks c (d.inodes i) := divide_nonneg _ _ hB' hsz.1
  have hr0 : 0 ≤ divide n (c.UFS_BLOCK_SIZE : Int) := divide_nonneg _ _ hB' hn.1
  set c0 := numBlocks c (d.inodes i) with hc0def
  set r := divide n (c.UFS_BLOCK_SIZE : Int) with hrdef
  refine ⟨rfl, fun k hk => P1 _ (lt_of_lt_of_le hk (min_le_left _ _)), ?_⟩
  by_cases hcr : c0 ≤ r
  · obtain ⟨G1, G2⟩ := write_bitmap_grow c d i n (junk 0) hL.2.2.2.2.2 hc0 hcr bm' dir' hal
    refine ⟨?_, ?_, ?_⟩
    · intro k hk
      obtain ⟨m, hm1, hm2, hm3⟩ := P2 k (by rw [lt_max_iff]; right; exact hk)
      have hb : block2Bit d.super (dir' (k : Int)) = (m : Int) := by unfold block2Bit; omega
      rw [hb, G1 m hm1]
      by_cases hkc : (k : Int) < c0
      · exact Or.inl (hm3.2 hkc)
      · exact Or.inr ⟨k, by omega, hk, hm2⟩
    · intro k hk1 hk2
      omega
    · rw [G2]; ring
  · obtain ⟨S0, S1, S2⟩ := write_bitmap_shrink c d i n (junk 0) hL.2.2.2.2.2 hr0 (by omega)
      hvalid hdist bm' dir' hal
    refine ⟨?_, ?_, ?_⟩
    · intro k hk
      obtain ⟨m, hm1, hm2, hm3⟩ := hvalid k (by omega)
      have hb : block2Bit d.super (dir' (k : Int)) = (m : Int) := by
        rw [S0]; unfold block2Bit; omega
      rw [hb, S1 m hm1]
      refine ⟨hm3, ?_⟩
      intro k' hk'1 hk'2 heq
      have := hdist k' k hk'2 (by omega) (by rw [heq, hm2])
      omega
    · intro k hk1 hk2
      obtain ⟨m, hm1, hm2, hm3⟩ := hvalid k hk2
      have hb : block2Bit d.super ((d.inodes i).direct (k : Int)) = (m : Int) := by
        unfold block2Bit; omega
      rw [hb]
      by_contra hcon
      have hset : findBit (copyRegion c d.super.data_bitmap_len
          (freeBlocks d.super dir' c0 (max 0 (c0 - r)).toNat 1 bm') d.dataBitmap) (m : Int) = true := by
        simpa using hcon
      exact ((S1 m hm1).1 hset).2 k hk1 hk2 hm2
    · rw [S2]; ring

theorem write_block_accounting_witness :
    (stat exCfg (commit exCfg exWithFile (write exCfg exJunk exWithFile 1 exHi 2).2) 1
      default).2.size = 2 ∧
    (exWithFile.super.num_data
        - countBits (commit exCfg exWithFile (write exCfg exJunk exWithFile 1 exHi 2).2).dataBitmap
          exWithFile.super.num_data)
      - (exWithFile.super.num_data - countBits exWithFile.dataBitmap exWithFile.super.num_data)
      = divide 2 (exCfg.UFS_BLOCK_SIZE : Int) - numBlocks exCfg (exWithFile.inodes 1) :=
  ⟨(write_block_accounting exCfg exJunk exWithFile 1 exHi 2 (by decide) (by decide)
      (by decide) (by decide) (by decide) (by decide) (by decide) (by decide) (by decide)
      (by decide) (by decide)).1,
    (write_block_accounting exCfg exJunk exWithFile 1 exHi 2 (by decide) (by decide)
      (by decide) (by decide) (by decide) (by decide) (by decide) (by decide) (by decide)
      (by decide) (by decide)).2.2.2.2⟩

/-! ## Writing directory entries in memory -/

theorem readInt_writeInt (mem : Int → Nat) (off v : Int)
    (h0 : -2147483648 ≤ v) (h1 : v < 2147483648) :
    readInt (writeInt mem off v) off = v := by
  unfold readInt writeInt
  have e1 : off + 1 ≠ off := by omega
  have e2 : off + 2 ≠ off := by omega
  have e3 : off + 3 ≠ off := by omega
  have e4 : off + 2 ≠ off + 1 := by omega
  have e5 : off + 3 ≠ off + 1 := by omega
  have e6 : off + 3 ≠ off + 2 := by omega
  simp only [if_true, e1, e2, e3, e4, e5, e6, if_false]
  unfold toInt
  split_ifs <;> omega

theorem writeInt_apply_of_outside (mem : Int → Nat) (off v k : Int)
    (h : k < off ∨ off + 4 ≤ k) : writeInt mem off v k = mem k := by
  unfold writeInt
  rw [if_neg (by omega), if_neg (by omega), if_neg (by omega), if_neg (by omega)]

theorem strcpy_apply_of_outside (mem : Int → Nat) (off : Int) (s : List Nat) (k : Int)
    (h : k < off ∨ off + (c_str s).length < k) : strcpy mem off s k = mem k := by
  unfold strcpy
  rw [if_neg (by omega), if_neg (by omega)]

theorem c_str_length_le (s : List Nat) : (c_str s).length ≤ s.length := by
  unfold c_str
  exact (List.takeWhile_sublist _).length_le

theorem c_str_of_no_zero (s : List Nat) (h : 0 ∉ s) : c_str s = s := by
  unfold c_str
  rw [List.takeWhile_eq_self_iff]
  intro x hx
  simp only [ne_eq, decide_not, Bool.not_eq_true', decide_eq_false_iff_not]
  intro h0
  rw [h0] at hx
  exact h hx

theorem c_str_no_zero (s : List Nat) : 0 ∉ c_str s := by
  unfold c_str
  intro h
  have := List.mem_takeWhile_imp h
  simp at this

/-- A name field that holds the bytes of `s`, then a zero, reads back as `s`. -/
theorem c_str_field (f : Nat → Nat) (N : Nat) (s : List Nat) (hs : 0 ∉ s) (hlen : s.length < N)
    (h1 : ∀ k : Nat, k < s.length → f k = s.getD k 0) (h2 : f s.length = 0) :
    c_str ((List.range N).map f) = s := by
  have hN : N = s.length + (1 + (N - s.length - 1)) := by omega
  rw [hN, List.range_add, List.map_append]
  have hfirst : (List.range s.length).map f = s := by
    apply List.ext_getElem
    · simp
    · intro n hn1 hn2
      rw [List.getElem_map, List.getElem_range, h1 n hn2, List.getD_eq_getElem _ _ hn2]
  rw [hfirst, Nat.add_comm 1, List.range_succ_eq_map]
  unfold c_str
  rw [List.takeWhile_append_of_pos]
  · simp [h2]
  · intro a ha
    have : a ≠ 0 := by
      intro h0; rw [h0] at ha; exact hs ha
    simpa using this

theorem entName_setName (c : Cfg) (mem : Int → Nat) (i : Int) (s : List Nat)
    (hlen : (c_str s).length < c.DIR_ENT_NAME_SIZE) :
    entName c (setName c mem i s) i = c_str s := by
  unfold entName setName
  apply c_str_field _ _ _ (c_str_no_zero s) hlen
  · intro k hk
    unfold strcpy
    rw [if_pos (by omega)]
    congr 1
    omega
  · unfold strcpy
    rw [if_neg (by omega), if_pos rfl]

theorem setName_apply_of_outside (c : Cfg) (mem : Int → Nat) (i : Int) (s : List Nat) (k : Int)
    (hlen : (c_str s).length < c.DIR_ENT_NAME_SIZE)
    (h : k < i * (sizeof_dir_ent_t c : Int) ∨
      i * (sizeof_dir_ent_t c : Int) + (c.DIR_ENT_NAME_SIZE : Int) ≤ k) :
    setName c mem i s k = mem k := by
  unfold setName
  apply strcpy_apply_of_outside
  omega

theorem setInum_apply_of_outside (c : Cfg) (mem : Int → Nat) (i v : Int) (k : Int)
    (h : k < i * (sizeof_dir_ent_t c : Int) + (c.DIR_ENT_NAME_SIZE : Int) ∨
      i * (sizeof_dir_ent_t c : Int) + (sizeof_dir_ent_t c : Int) ≤ k) :
    setInum c mem i v k = mem k := by
  have hE : (sizeof_dir_ent_t c : Int) = (c.DIR_ENT_NAME_SIZE : Int) + 4 := by
    unfold sizeof_dir_ent_t; push_cast; rfl
  unfold setInum
  apply writeInt_apply_of_outside
  omega

theorem entInum_setInum (c : Cfg) (mem : Int → Nat) (i v : Int)
    (h0 : -2147483648 ≤ v) (h1 : v < 2147483648) :
    entInum c (setInum c mem i v) i = v := by
  unfold entInum setInum
  exact readInt_writeInt _ _ _ h0 h1

theorem entName_setInum (c : Cfg) (mem : Int → Nat) (i j v : Int) :
    entName c (setInum c mem i v) j = entName c mem j := by
  apply entName_congr
  intro k hk1 hk2
  apply setInum_apply_of_outside
  have hE : (sizeof_dir_ent_t c : Int) = (c.DIR_ENT_NAME_SIZE : Int) + 4 := by
    unfold sizeof_dir_ent_t; push_cast; rfl
  have hN : (0 : Int) ≤ (c.DIR_ENT_NAME_SIZE : Int) := by omega
  rcases lt_trichotomy i j with hij | hij | hij
  · right
    have : (i + 1) * (sizeof_dir_ent_t c : Int) ≤ j * (sizeof_dir_ent_t c : Int) :=
      mul_le_mul_of_nonneg_right (by omega) (by omega)
    nlinarith
  · left; rw [hij]; omega
  · left
    have : (j + 1) * (sizeof_dir_ent_t c : Int) ≤ i * (sizeof_dir_ent_t c : Int) :=
      mul_le_mul_of_nonneg_right (by omega) (by omega)
    nlinarith

theorem entInum_setName (c : Cfg) (mem : Int → Nat) (i j : Int) (s : List Nat)
    (hlen : (c_str s).length < c.DIR_ENT_NAME_SIZE) :
    entInum c (setName c mem i s) j = entInum c mem j := by
  apply entInum_congr
  intro k hk1 hk2
  apply setName_apply_of_outside _ _ _ _ _ hlen
  have hE : (sizeof_dir_ent_t c : Int) = (c.DIR_ENT_NAME_SIZE : Int) + 4 := by
    unfold sizeof_dir_ent_t; push_cast; rfl
  have hN : (0 : Int) ≤ (c.DIR_ENT_NAME_SIZE : Int) := by omega
  rcases lt_trichotomy i j with hij | hij | hij
  · right
    have : (i + 1) * (sizeof_dir_ent_t c : Int) ≤ j * (sizeof_dir_ent_t c : Int) :=
      mul_le_mul_of_nonneg_right (by omega) (by omega)
    nlinarith
  · right; rw [hij]; omega
  · left
    have : (j + 1) * (sizeof_dir_ent_t c : Int) ≤ i * (sizeof_dir_ent_t c : Int) :=
      mul_le_mul_of_nonneg_right (by omega) (by omega)
    nlinarith

theorem entInum_setInum_of_ne (c : Cfg) (mem : Int → Nat) (i j v : Int) (hij : i ≠ j) :
    entInum c (setInum c mem i v) j = entInum c mem j := by
  apply entInum_congr
  intro k hk1 hk2
  apply setInum_apply_of_outside
  have hE : (sizeof_dir_ent_t c : Int) = (c.DIR_ENT_NAME_SIZE : Int) + 4 := by
    unfold sizeof_dir_ent_t; push_cast; rfl
  have hN : (0 : Int) ≤ (c.DIR_ENT_NAME_SIZE : Int) := by omega
  rcases lt_or_gt_of_ne hij with hij | hij
  · right
    have : (i + 1) * (sizeof_dir_ent_t c : Int) ≤ j * (sizeof_dir_ent_t c : Int) :=
      mul_le_mul_of_nonneg_right (by omega) (by omega)
    nlinarith
  · left
    have : (j + 1) * (sizeof_dir_ent_t c : Int) ≤ i * (sizeof_dir_ent_t c : Int) :=
      mul_le_mul_of_nonneg_right (by omega) (by omega)
    nlinarith

theorem entName_setName_of_ne (c : Cfg) (mem : Int → Nat) (i j : Int) (s : List Nat)
    (hlen : (c_str s).length < c.DIR_ENT_NAME_SIZE) (hij : i ≠ j) :
    entName c (setName c mem i s) j = entName c mem j := by
  apply entName_congr
  intro k hk1 hk2
  apply setName_apply_of_outside _ _ _ _ _ hlen
  have hE : (sizeof_dir_ent_t c : Int) = (c.DIR_ENT_NAME_SIZE : Int) + 4 := by
    unfold sizeof_dir_ent_t; push_cast; rfl
  have hN : (0 : Int) ≤ (c.DIR_ENT_NAME_SIZE : Int) := by omega
  rcases lt_or_gt_of_ne hij with hij | hij
  · right
    have : (i + 1) * (sizeof_dir_ent_t c : Int) ≤ j * (sizeof_dir_ent_t c : Int) :=
      mul_le_mul_of_nonneg_right (by omega) (by omega)
    nlinarith
  · left
    have : (j + 1) * (sizeof_dir_ent_t c : Int) ≤ i * (sizeof_dir_ent_t c : Int) :=
      mul_le_mul_of_nonneg_right (by omega) (by omega)
    nlinarith

theorem vacate_apply_of_outside (c : Cfg) (n i : Nat) (mem : Int → Nat) (k : Int)
    (h : k < (i : Int) * (sizeof_dir_ent_t c : Int) ∨
      ((i : Int) + (n : Int)) * (sizeof_dir_ent_t c : Int) ≤ k) :
    vacate c n i mem k = mem k := by
  have hE : (sizeof_dir_ent_t c : Int) = (c.DIR_ENT_NAME_SIZE : Int) + 4 := by
    unfold sizeof_dir_ent_t; push_cast; rfl
  have hN : (0 : Int) ≤ (c.DIR_ENT_NAME_SIZE : Int) := by omega
  induction n generalizing i mem with
  | zero => rfl
  | succ n ih =>
    unfold vacate
    have e1 : (((i + 1 : Nat) : Int)) * (sizeof_dir_ent_t c : Int) =
        (i : Int) * (sizeof_dir_ent_t c : Int) + (sizeof_dir_ent_t c : Int) := by
      push_cast; ring
    have e2 : (((i + 1 : Nat) : Int) + (n : Int)) * (sizeof_dir_ent_t c : Int) =
        ((i : Int) + ((n + 1 : Nat) : Int)) * (sizeof_dir_ent_t c : Int) := by
      push_cast; ring
    have e3 : ((i : Int) + ((n + 1 : Nat) : Int)) * (sizeof_dir_ent_t c : Int) =
        (i : Int) * (sizeof_dir_ent_t c : Int) + (sizeof_dir_ent_t c : Int)
          + (n : Int) * (sizeof_dir_ent_t c : Int) := by
      push_cast; ring
    have hn0 : 0 ≤ (n : Int) * (sizeof_dir_ent_t c : Int) := mul_nonneg (by omega) (by omega)
    rw [ih (i + 1) _ (by rw [e1, e2]; omega)]
    apply setInum_apply_of_outside
    omega

theorem entName_vacate (c : Cfg) (n i : Nat) (mem : Int → Nat) (j : Int) :
    entName c (vacate c n i mem) j = entName c mem j := by
  induction n generalizing i mem with
  | zero => rfl
  | succ n ih =>
    unfold vacate
    rw [ih, entName_setInum]

theorem entInum_vacate (c : Cfg) (n i : Nat) (mem : Int → Nat) (j : Nat) :
    entInum c (vacate c n i mem) (j : Int) =
      if i ≤ j ∧ j < i + n then -1 else entInum c mem (j : Int) := by
  induction n generalizing i mem with
  | zero =>
    rw [if_neg (by omega)]
    rfl
  | succ n ih =>
    unfold vacate
    rw [ih]
    by_cases hji : j = i
    · subst hji
      rw [if_neg (by omega), if_pos (by omega)]
      exact entInum_setInum c mem _ (-1) (by omega) (by omega)
    · rw [entInum_setInum_of_ne c mem _ _ _ (by omega)]
      by_cases h : i + 1 ≤ j ∧ j < i + 1 + n
      · rw [if_pos h, if_pos (by omega)]
      · rw [if_neg h, if_neg (by omega)]

/-! ## The scan of `lookup` -/

theorem entName_congr_shift (c : Cfg) (m1 m2 : Int → Nat) (i j : Int)
    (h : ∀ k : Nat, k < c.DIR_ENT_NAME_SIZE →
      m1 (i * (sizeof_dir_ent_t c : Int) + (k : Int)) = m2 (j * (sizeof_dir_ent_t c : Int) + (k : Int))) :
    entName c m1 i = entName c m2 j := by
  unfold entName
  have hm : ∀ k ∈ List.range c.DIR_ENT_NAME_SIZE,
      (fun k : Nat => m1 (i * (sizeof_dir_ent_t c : Int) + (k : Int))) k =
      (fun k : Nat => m2 (j * (sizeof_dir_ent_t c : Int) + (k : Int))) k := by
    intro k hk
    rw [List.mem_range] at hk
    exact h k hk
  rw [List.map_congr_left hm]

theorem entInum_congr_shift (c : Cfg) (m1 m2 : Int → Nat) (i j : Int)
    (h : ∀ k : Int, (c.DIR_ENT_NAME_SIZE : Int) ≤ k → k < (sizeof_dir_ent_t c : Int) →
      m1 (i * (sizeof_dir_ent_t c : Int) + k) = m2 (j * (sizeof_dir_ent_t c : Int) + k)) :
    entInum c m1 i = entInum c m2 j := by
  have hE : (sizeof_dir_ent_t c : Int) = (c.DIR_ENT_NAME_SIZE : Int) + 4 := by
    unfold sizeof_dir_ent_t; push_cast; rfl
  unfold entInum readInt
  have a0 := h (c.DIR_ENT_NAME_SIZE : Int) (by omega) (by omega)
  have a1 := h ((c.DIR_ENT_NAME_SIZE : Int) + 1) (by omega) (by omega)
  have a2 := h ((c.DIR_ENT_NAME_SIZE : Int) + 2) (by omega) (by omega)
  have a3 := h ((c.DIR_ENT_NAME_SIZE : Int) + 3) (by omega) (by omega)
  simp only [← add_assoc] at a1 a2 a3
  rw [a0, a1, a2, a3]

/-- Byte `k` of slot `s` of block `bi` of the directory data, when a block holds
a whole number `P` of entries. -/
theorem fileData_slot (c : Cfg) (d : Disk) (inode : inode_t) (P bi s : Nat) (k : Int)
    (hP : c.UFS_BLOCK_SIZE = P * sizeof_dir_ent_t c) (hs : s < P)
    (hk0 : 0 ≤ k) (hk1 : k < (sizeof_dir_ent_t c : Int)) :
    fileData c d inode (((bi * P + s : Nat) : Int) * (sizeof_dir_ent_t c : Int) + k) =
      d.blocks (inode.direct (bi : Int)) ((s : Int) * (sizeof_dir_ent_t c : Int) + k) := by
  have hE := sizeof_dir_ent_t_pos c
  have hB : (c.UFS_BLOCK_SIZE : Int) = (P : Int) * (sizeof_dir_ent_t c : Int) := by
    rw [hP]; push_cast; rfl
  have hBpos : (0 : Int) < (c.UFS_BLOCK_SIZE : Int) := by
    rw [hB]; exact mul_pos (by omega) (by omega)
  have hsE : ((s : Int) + 1) * (sizeof_dir_ent_t c : Int) ≤ (P : Int) * (sizeof_dir_ent_t c : Int) :=
    mul_le_mul_of_nonneg_right (by omega) (by omega)
  have hs0 : 0 ≤ (s : Int) * (sizeof_dir_ent_t c : Int) := mul_nonneg (by omega) (by omega)
  have e : ((bi * P + s : Nat) : Int) * (sizeof_dir_ent_t c : Int) + k =
      (bi : Int) * (c.UFS_BLOCK_SIZE : Int) + ((s : Int) * (sizeof_dir_ent_t c : Int) + k) := by
    rw [hB]; push_cast; ring
  obtain ⟨h1, h2⟩ := ediv_emod_of_bounds (c.UFS_BLOCK_SIZE : Int) (bi : Int)
    (((bi * P + s : Nat) : Int) * (sizeof_dir_ent_t c : Int) + k) hBpos
    (by rw [e]; omega) (by rw [e, hB]; nlinarith)
  unfold fileData
  rw [h1, h2, e]
  congr 1
  ring

theorem entName_fileData (c : Cfg) (d : Disk) (inode : inode_t) (P bi s : Nat)
    (hP : c.UFS_BLOCK_SIZE = P * sizeof_dir_ent_t c) (hs : s < P) :
    entName c (fileData c d inode) ((bi * P + s : Nat) : Int) =
      entName c (d.blocks (inode.direct (bi : Int))) (s : Int) := by
  apply entName_congr_shift
  intro k hk
  have hE : sizeof_dir_ent_t c = c.DIR_ENT_NAME_SIZE + 4 := rfl
  exact fileData_slot c d inode P bi s (k : Int) hP hs (by omega) (by omega)

theorem entInum_fileData (c : Cfg) (d : Disk) (inode : inode_t) (P bi s : Nat)
    (hP : c.UFS_BLOCK_SIZE = P * sizeof_dir_ent_t c) (hs : s < P) :
    entInum c (fileData c d inode) ((bi * P + s : Nat) : Int) =
      entInum c (d.blocks (inode.direct (bi : Int))) (s : Int) := by
  apply entInum_congr_shift
  intro k hk0 hk1
  exact fileData_slot c d inode P bi s k hP hs (by omega) hk1

theorem lookupBlock_none (c : Cfg) (blk : Int → Nat) (name : List Nat) (n j : Nat)
    (h : ∀ s : Nat, j ≤ s → s < j + n →
      entInum c blk (s : Int) ≠ -1 ∧ entName c blk (s : Int) ≠ name) :
    lookupBlock c blk name n j = none := by
  induction n generalizing j with
  | zero => rfl
  | succ n ih =>
    unfold lookupBlock
    obtain ⟨h1, h2⟩ := h j (le_refl _) (by omega)
    rw [if_neg h1, if_neg h2]
    exact ih (j + 1) (fun s hs1 hs2 => h s (by omega) (by omega))

theorem lookupBlock_found (c : Cfg) (blk : Int → Nat) (name : List Nat) (n j s0 : Nat)
    (hs0 : j ≤ s0 ∧ s0 < j + n)
    (h : ∀ s : Nat, j ≤ s → s < s0 →
      entInum c blk (s : Int) ≠ -1 ∧ entName c blk (s : Int) ≠ name)
    (h1 : entInum c blk (s0 : Int) ≠ -1) (h2 : entName c blk (s0 : Int) = name) :
    lookupBlock c blk name n j = some (entInum c blk (s0 : Int)) := by
  induction n generalizing j with
  | zero => omega
  | succ n ih =>
    unfold lookupBlock
    by_cases hj : j = s0
    · subst hj
      rw [if_neg h1, if_pos h2]
    · obtain ⟨h3, h4⟩ := h j (le_refl _) (by omega)
      rw [if_neg h3, if_neg h4]
      exact ih (j + 1) (by omega) (fun s hs1 hs2 => h s (by omega) hs2)

/-- The scan of `lookup` returns the `inum` of entry `e` of the directory data
when that entry carries the name, no entry before it does, the entries up to
it are live, and the direct slots up to its block are not `-1`. -/
theorem lookupLoop_found (c : Cfg) (d : Disk) (inode : inode_t) (name : List Nat) (P e : Nat)
    (hP : c.UFS_BLOCK_SIZE = P * sizeof_dir_ent_t c) (hP0 : 0 < P)
    (hdir : ∀ bi : Nat, bi ≤ e / P → inode.direct (bi : Int) ≠ -1)
    (hskip : ∀ j : Nat, j < e →
      entInum c (fileData c d inode) (j : Int) ≠ -1 ∧ entName c (fileData c d inode) (j : Int) ≠ name)
    (h1 : entInum c (fileData c d inode) (e : Int) ≠ -1)
    (h2 : entName c (fileData c d inode) (e : Int) = name)
    (n i : Nat) (hi : i ≤ e / P) (hn : e / P < i + n) :
    lookupLoop c d inode name n i = entInum c (fileData c d inode) (e : Int) := by
  have hEPB : ENTRIES_IN_BLOCK c = P := by
    unfold ENTRIES_IN_BLOCK
    rw [hP]
    exact Nat.mul_div_cancel _ (sizeof_dir_ent_t_pos c)
  induction n generalizing i with
  | zero => omega
  | succ n ih =>
    unfold lookupLoop
    rw [if_neg (hdir i hi), hEPB]
    by_cases hie : i = e / P
    · have he : e = i * P + e % P := by
        rw [hie]; exact (Nat.div_add_mod' e P).symm
      have hmod : e % P < P := Nat.mod_lt _ hP0
      have hf := lookupBlock_found c (d.blocks (inode.direct (i : Int))) name P 0 (e % P)
        (by omega)
        (fun s _ hs => by
          have hj := hskip (i * P + s) (by omega)
          rw [entName_fileData c d inode P i s hP (by omega),
            entInum_fileData c d inode P i s hP (by omega)] at hj
          exact hj)
        (by
          rw [← entInum_fileData c d inode P i (e % P) hP hmod, ← he]; exact h1)
        (by
          rw [← entName_fileData c d inode P i (e % P) hP hmod, ← he]; exact h2)
      rw [hf]
      dsimp only
      rw [← entInum_fileData c d inode P i (e % P) hP hmod, ← he]
    · have hlt : i < e / P := by omega
      have hnone := lookupBlock_none c (d.blocks (inode.direct (i : Int))) name P 0
        (fun s _ hs => by
          have hmul : (i + 1) * P ≤ e / P * P := Nat.mul_le_mul_right _ (by omega)
          have hle : e / P * P ≤ e := Nat.div_mul_le_self e P
          have hj := hskip (i * P + s) (by nlinarith)
          rw [entName_fileData c d inode P i s hP (by omega),
            entInum_fileData c d inode P i s hP (by omega)] at hj
          exact hj)
      rw [hnone]
      exact ih (i + 1) (by omega) (by omega)

/-! ## The steps of `create` -/

theorem lookup_eq_of_entry (c : Cfg) (d : Disk) (p : Int) (name : List Nat) (P e : Nat)
    (hp : 0 ≤ p ∧ p < d.super.num_inodes)
    (hdir : (d.inodes p).type = c.UFS_DIRECTORY)
    (hP : c.UFS_BLOCK_SIZE = P * sizeof_dir_ent_t c) (hP0 : 0 < P)
    (he : e < c.DIRECT_PTRS * P)
    (hptr : ∀ bi : Nat, bi ≤ e / P → (d.inodes p).direct (bi : Int) ≠ -1)
    (hskip : ∀ j : Nat, j < e →
      entInum c (fileData c d (d.inodes p)) (j : Int) ≠ -1 ∧
      entName c (fileData c d (d.inodes p)) (j : Int) ≠ name)
    (h1 : entInum c (fileData c d (d.inodes p)) (e : Int) ≠ -1)
    (h2 : entName c (fileData c d (d.inodes p)) (e : Int) = name) :
    lookup c d p name = entInum c (fileData c d (d.inodes p)) (e : Int) := by
  have hchk : checkInode d.super p = true := (checkInode_iff _ _).2 hp
  unfold lookup
  simp only [readSuperBlock, hchk, Bool.true_eq_false, if_false, stat_snd c d p default hchk]
  rw [if_neg (by simp [hdir])]
  exact lookupLoop_found c d (d.inodes p) name P e hP hP0 hptr hskip h1 h2 c.DIRECT_PTRS 0
    (Nat.zero_le _) (by
      rw [Nat.zero_add]
      exact (Nat.div_lt_iff_lt_mul hP0).2 he)

theorem create_absent (c : Cfg) (junk : Nat → Int → Nat) (d : Disk) (p t : Int)
    (name : List Nat)
    (hB : 0 < c.UFS_BLOCK_SIZE) (hM : MAX_FILE_SIZE c < 2147483648)
    (hp : 0 ≤ p ∧ p < d.super.num_inodes)
    (hlen : name.length < c.DIR_ENT_NAME_SIZE)
    (ht : t = c.UFS_DIRECTORY ∨ t = c.UFS_REGULAR_FILE)
    (hdir : (d.inodes p).type = c.UFS_DIRECTORY)
    (hsz : 0 ≤ (d.inodes p).size ∧ (d.inodes p).size < MAX_FILE_SIZE c)
    (habs : ∀ j : Nat, (j : Int) < (d.inodes p).size / (sizeof_dir_ent_t c : Int) →
      entName c (fileData c d (d.inodes p)) (j : Int) ≠ name) :
    create c junk d p t name =
      createInode c junk d p t name (readInodeBitmap c d (junk 3))
        (readDataBitmap c d (junk 4)) d.inodes := by
  have hchk : checkInode d.super p = true := (checkInode_iff _ _).2 hp
  have hE : (sizeof_dir_ent_t c : Int) = (c.DIR_ENT_NAME_SIZE : Int) + 4 := by
    unfold sizeof_dir_ent_t; push_cast; rfl
  obtain ⟨h1, h2, h3⟩ := numEntries_eq c (d.inodes p).size hsz.1 (by omega)
  have hpe := create_parentEntries c d p (junk 0) hB hM hp hdir ⟨hsz.1, by omega⟩
  unfold create
  simp only [readSuperBlock, readInodeRegion, hchk, Bool.not_true, Bool.false_eq_true, if_false]
  rw [if_neg (by simp [hlen]), if_neg (by rcases ht with h | h <;> simp [h]),
    if_neg (by simp [hdir]), if_neg (by unfold MAX_FILE_SIZE at hsz; intro h; rw [h] at hsz; linarith [hsz.2, mul_comm (c.UFS_BLOCK_SIZE : Int) (c.DIRECT_PTRS : Int)])]
  have hfe : findEntry c (read c d p (junk 0)
      (toInt (toSizeT (toInt (toSizeT (d.inodes p).size / sizeof_dir_ent_t c))
        * sizeof_dir_ent_t c))).2 name
      (toInt (toSizeT (d.inodes p).size / sizeof_dir_ent_t c)).toNat 0 = none := by
    rw [findEntry_congr c _ (fileData c d (d.inodes p)) name _ 0, findEntry_eq_none_iff]
    · intro j _ hj
      rw [h1] at hj
      exact habs j (by omega)
    · intro j _ hj
      rw [h1] at hj
      apply entName_congr
      intro k hk1 hk2
      have := slot_bounds (sizeof_dir_ent_t c : Int) (c.DIR_ENT_NAME_SIZE : Int) (j : Int)
        ((d.inodes p).size / (sizeof_dir_ent_t c : Int)) k hE (by omega) (by omega) (by omega)
        hk1 (by omega)
      exact hpe k this.1 this.2
  rw [hfe]

/-- The allocation step of `create`, when it does not fail: the inode taken is
the lowest clear bit of the inode bitmap, and a directory takes the lowest clear
bit of the data bitmap for its first block. -/
theorem createInode_nonneg (c : Cfg) (junk : Nat → Int → Nat) (d : Disk)
    (p t : Int) (name : List Nat) (ibm dbm : Int → Nat) (inodes : Int → inode_t)
    (hE : 0 < c.ENOTENOUGHSPACE)
    (hN : d.super.num_data ≤ d.super.data_bitmap_len * (c.UFS_BLOCK_SIZE : Int) * 8)
    (hs : 0 ≤ (createInode c junk d p t name ibm dbm inodes).1) :
    ∃ a : Nat, findFirstBit ibm (d.super.data_bitmap_len * (c.UFS_BLOCK_SIZE : Int)) = (a : Int) ∧
      (a : Int) < d.super.num_inodes ∧ findBit ibm (a : Int) = false ∧
      (∀ j : Nat, j < a → findBit ibm (j : Int) = true) ∧
      ((t = c.UFS_DIRECTORY ∧ ∃ m : Nat,
          findFirstBit dbm (d.super.data_bitmap_len * (c.UFS_BLOCK_SIZE : Int)) = (m : Int) ∧
          m < d.super.num_data.toNat ∧ findBit dbm (m : Int) = false ∧
          (∀ j : Nat, j < m → findBit dbm (j : Int) = true) ∧
          createInode c junk d p t name ibm dbm inodes =
            createEntry c junk d p name (createBit ibm (a : Int)) (createBit dbm (m : Int))
              (Function.update inodes (a : Int)
                { type := t, size := 2 * (sizeof_dir_ent_t c : Int),
                  direct := Function.update (inodes (a : Int)).direct 0
                    (d.super.data_region_addr + (m : Int)) })
              (a : Int) (d.super.data_region_addr + (m : Int))
              (newDirEntries c junk (a : Int) p)) ∨
        (t ≠ c.UFS_DIRECTORY ∧
          createInode c junk d p t name ibm dbm inodes =
            createEntry c junk d p name (createBit ibm (a : Int)) dbm
              (Function.update inodes (a : Int)
                { type := t, size := 0, direct := (inodes (a : Int)).direct })
              (a : Int) (-1) (junk 1))) := by
  unfold createInode at hs ⊢
  simp only [readSuperBlock] at hs ⊢
  rcases findFirstBit_cases ibm (d.super.data_bitmap_len * (c.UFS_BLOCK_SIZE : Int))
    with ⟨h1, _⟩ | ⟨a, h1, _, h3, h4⟩
  · rw [h1] at hs
    simp only [Int.reduceNeg, Left.neg_neg_iff, zero_lt_one, true_or, ↓reduceIte] at hs
    omega
  · rw [h1] at hs ⊢
    by_cases hcond : (a : Int) < 0 ∨ (a : Int) ≥ d.super.num_inodes
    · rw [if_pos hcond] at hs
      simp only at hs
      omega
    · rw [if_neg hcond] at hs
      rw [if_neg hcond]
      refine ⟨a, rfl, by omega, h3, h4, ?_⟩
      by_cases htd : t = c.UFS_DIRECTORY
      · left
        rw [if_pos htd] at hs
        rw [if_pos htd]
        refine ⟨htd, ?_⟩
        have hN' : d.super.num_data.toNat ≤
            (d.super.data_bitmap_len * (c.UFS_BLOCK_SIZE : Int) * 8).toNat := by omega
        rcases findFirstBit_alloc dbm (d.super.data_bitmap_len * (c.UFS_BLOCK_SIZE : Int)) _ hN'
          with ⟨g1, _⟩ | ⟨m, g1, g2, g3, g4⟩
        · have g1' : findFirstBit dbm (d.super.data_bitmap_len * (c.UFS_BLOCK_SIZE : Int)) < 0 ∨
              findFirstBit dbm (d.super.data_bitmap_len * (c.UFS_BLOCK_SIZE : Int))
                ≥ d.super.num_data := by
            rcases g1 with g | g
            · exact Or.inl g
            · exact Or.inr (by omega)
          rw [if_pos g1'] at hs
          simp only at hs
          omega
        · have g1' : ¬ ((m : Int) < 0 ∨ (m : Int) ≥ d.super.num_data) := by omega
          refine ⟨m, g1, g2, g3, g4, ?_⟩
          rw [g1, if_neg g1']
          simp only [Function.update_same, Function.update_idem, bit2Block,
            add_comm (m : Int) d.super.data_region_addr]
          rfl
      · right
        rw [if_neg htd]
        refine ⟨htd, ?_⟩
        simp only [Function.update_same, Function.update_idem]

theorem commit_createWrites (c : Cfg) (d : Disk) (ibm dbm : Int → Nat) (inodes : Int → inode_t)
    (eb : Int) (ent : Int → Nat) (nb : Int) (nent : Int → Nat) :
    (commit c d (createWrites ibm dbm inodes eb ent nb nent)).super = d.super ∧
    (commit c d (createWrites ibm dbm inodes eb ent nb nent)).inodeBitmap =
      copyRegion c d.super.inode_bitmap_len ibm d.inodeBitmap ∧
    (commit c d (createWrites ibm dbm inodes eb ent nb nent)).dataBitmap =
      copyRegion c d.super.data_bitmap_len dbm d.dataBitmap ∧
    (commit c d (createWrites ibm dbm inodes eb ent nb nent)).inodes =
      (fun i => if 0 ≤ i ∧ i < d.super.num_inodes then inodes i else d.inodes i) ∧
    (∀ b : Int, b ≠ eb → (nb = -1 ∨ b ≠ nb) →
      (commit c d (createWrites ibm dbm inodes eb ent nb nent)).blocks b = d.blocks b) ∧
    ((nb = -1 ∨ eb ≠ nb) → ∀ x : Int, 0 ≤ x → x < (c.UFS_BLOCK_SIZE : Int) →
      (commit c d (createWrites ibm dbm inodes eb ent nb nent)).blocks eb x = ent x) ∧
    (nb ≠ -1 → ∀ x : Int, 0 ≤ x → x < (c.UFS_BLOCK_SIZE : Int) →
      (commit c d (createWrites ibm dbm inodes eb ent nb nent)).blocks nb x = nent x) := by
  unfold createWrites
  by_cases hnb : nb = -1
  · rw [if_neg (by simp [hnb])]
    simp only [List.append_nil, commit_cons, commit_nil, Disk.apply]
    refine ⟨trivial, trivial, trivial, trivial, ?_, ?_, fun h => absurd hnb h⟩
    · intro b hb _
      rw [Function.update_noteq hb]
    · intro _ x hx0 hx1
      rw [Function.update_same]
      unfold memcpy
      rw [if_pos ⟨hx0, by omega⟩]
      congr 1
      omega
  · rw [if_pos hnb]
    simp only [List.cons_append, List.nil_append, commit_cons, commit_nil, Disk.apply]
    refine ⟨trivial, trivial, trivial, trivial, ?_, ?_, ?_⟩
    · intro b hb hb2
      have hb3 : b ≠ nb := by
        rcases hb2 with h | h
        · exact absurd h hnb
        · exact h
      rw [Function.update_noteq hb3, Function.update_noteq hb]
    · intro h x hx0 hx1
      have h2 : eb ≠ nb := by
        rcases h with h | h
        · exact absurd h hnb
        · exact h
      rw [Function.update_noteq h2, Function.update_same]
      unfold memcpy
      rw [if_pos ⟨hx0, by omega⟩]
      congr 1
      omega
    · intro _ x hx0 hx1
      rw [Function.update_same]
      unfold memcpy
      rw [if_pos ⟨hx0, by omega⟩]
      congr 1
      omega

/-- The tail of `create` when the parent needs a new block. -/
theorem createEntry_new_block (c : Cfg) (junk : Nat → Int → Nat) (d : Disk)
    (p : Int) (name : List Nat) (ibm dbm : Int → Nat) (inodes : Int → inode_t)
    (a nb : Int) (nent : Int → Nat)
    (hB : 0 < c.UFS_BLOCK_SIZE) (hE : 0 < c.ENOTENOUGHSPACE)
    (hsz : 0 ≤ (inodes p).size)
    (hsz2 : (inodes p).size + (sizeof_dir_ent_t c : Int) < 2147483648)
    (hmod : (inodes p).size % (c.UFS_BLOCK_SIZE : Int) = 0)
    (hs : 0 ≤ (createEntry c junk d p name ibm dbm inodes a nb nent).1) :
    -1 ≤ findFirstBit dbm (d.super.data_bitmap_len * (c.UFS_BLOCK_SIZE : Int)) ∧
    findFirstBit dbm (d.super.data_bitmap_len * (c.UFS_BLOCK_SIZE : Int)) < d.super.num_data ∧
    createEntry c junk d p name ibm dbm inodes a nb nent =
      (a, createWrites ibm
        (createBit dbm (findFirstBit dbm (d.super.data_bitmap_len * (c.UFS_BLOCK_SIZE : Int))))
        (Function.update inodes p
          { type := (inodes p).type,
            size := (inodes p).size + (sizeof_dir_ent_t c : Int),
            direct := Function.update (inodes p).direct
              ((inodes p).size / (c.UFS_BLOCK_SIZE : Int))
              (d.super.data_region_addr +
                findFirstBit dbm (d.super.data_bitmap_len * (c.UFS_BLOCK_SIZE : Int))) })
        (d.super.data_region_addr +
          findFirstBit dbm (d.super.data_bitmap_len * (c.UFS_BLOCK_SIZE : Int)))
        (newParentEntries c junk a name) nb nent) := by
  have hB' : (0 : Int) < (c.UFS_BLOCK_SIZE : Int) := by exact_mod_cast hB
  have hmod' : Int.tmod (inodes p).size (c.UFS_BLOCK_SIZE : Int) = 0 := by
    rw [Int.tmod_eq_emod hsz (le_of_lt hB')]; exact hmod
  have hdiv' : Int.tdiv (inodes p).size (c.UFS_BLOCK_SIZE : Int) =
      (inodes p).size / (c.UFS_BLOCK_SIZE : Int) := Int.tdiv_eq_ediv hsz (le_of_lt hB')
  have hsize : toInt (toSizeT (inodes p).size + sizeof_dir_ent_t c) =
      (inodes p).size + (sizeof_dir_ent_t c : Int) := by
    rw [toSizeT_of_nonneg _ hsz (by omega), toInt_of_lt _ (by omega)]
    push_cast
    rw [Int.toNat_of_nonneg hsz]
  unfold createEntry at hs ⊢
  simp only [readSuperBlock, hmod', if_true, hdiv', hsize] at hs ⊢
  by_cases hcond : findFirstBit dbm (d.super.data_bitmap_len * (c.UFS_BLOCK_SIZE : Int)) < -1 ∨
      findFirstBit dbm (d.super.data_bitmap_len * (c.UFS_BLOCK_SIZE : Int)) ≥ d.super.num_data
  · rw [if_pos hcond] at hs
    simp only at hs
    omega
  · rw [if_neg hcond]
    refine ⟨by omega, by omega, ?_⟩
    simp only [bit2Block, add_comm (findFirstBit dbm _) d.super.data_region_addr]
    rfl

/-- The tail of `create` when the last block of the parent has a free slot. -/
theorem createEntry_last_block (c : Cfg) (junk : Nat → Int → Nat) (d : Disk)
    (p : Int) (name : List Nat) (ibm dbm : Int → Nat) (inodes : Int → inode_t)
    (a nb : Int) (nent : Int → Nat)
    (hB : 0 < c.UFS_BLOCK_SIZE)
    (hsz : 0 ≤ (inodes p).size)
    (hsz2 : (inodes p).size + (sizeof_dir_ent_t c : Int) < 2147483648)
    (hmod : (inodes p).size % (c.UFS_BLOCK_SIZE : Int) ≠ 0) :
    createEntry c junk d p name ibm dbm inodes a nb nent =
      (a, createWrites ibm dbm
        (Function.update inodes p
          { type := (inodes p).type,
            size := (inodes p).size + (sizeof_dir_ent_t c : Int),
            direct := (inodes p).direct })
        ((inodes p).direct ((inodes p).size / (c.UFS_BLOCK_SIZE : Int)))
        (setName c (setInum c
          (d.blocks ((inodes p).direct ((inodes p).size / (c.UFS_BLOCK_SIZE : Int))))
          ((inodes p).size % (c.UFS_BLOCK_SIZE : Int) / (sizeof_dir_ent_t c : Int)) a)
          ((inodes p).size % (c.UFS_BLOCK_SIZE : Int) / (sizeof_dir_ent_t c : Int)) name)
        nb nent) := by
  have hB' : (0 : Int) < (c.UFS_BLOCK_SIZE : Int) := by exact_mod_cast hB
  have hES := sizeof_dir_ent_t_pos c
  have hmod' : Int.tmod (inodes p).size (c.UFS_BLOCK_SIZE : Int) =
      (inodes p).size % (c.UFS_BLOCK_SIZE : Int) := Int.tmod_eq_emod hsz (le_of_lt hB')
  have hm0 : 0 ≤ (inodes p).size % (c.UFS_BLOCK_SIZE : Int) := Int.emod_nonneg _ (ne_of_gt hB')
  have hmB : (inodes p).size % (c.UFS_BLOCK_SIZE : Int) < (c.UFS_BLOCK_SIZE : Int) :=
    Int.emod_lt_of_pos _ hB'
  have hdm : (c.UFS_BLOCK_SIZE : Int) * ((inodes p).size / (c.UFS_BLOCK_SIZE : Int))
      + (inodes p).size % (c.UFS_BLOCK_SIZE : Int) = (inodes p).size := Int.ediv_add_emod _ _
  have hq0 : 0 ≤ (inodes p).size / (c.UFS_BLOCK_SIZE : Int) := Int.ediv_nonneg hsz (le_of_lt hB')
  have hle : (inodes p).size % (c.UFS_BLOCK_SIZE : Int) ≤ (inodes p).size := by nlinarith
  have hdivide : divide (inodes p).size (c.UFS_BLOCK_SIZE : Int) - 1 =
      (inodes p).size / (c.UFS_BLOCK_SIZE : Int) := by
    unfold divide
    rw [Int.tdiv_eq_ediv (by omega) (le_of_lt hB')]
    have := (Int.ediv_emod_unique (a := (inodes p).size + (c.UFS_BLOCK_SIZE : Int) - 1)
      (r := (inodes p).size % (c.UFS_BLOCK_SIZE : Int) - 1)
      (q := (inodes p).size / (c.UFS_BLOCK_SIZE : Int) + 1) hB').2
      ⟨by linarith, by omega, by omega⟩
    rw [this.1]; ring
  have hsize : toInt (toSizeT (inodes p).size + sizeof_dir_ent_t c) =
      (inodes p).size + (sizeof_dir_ent_t c : Int) := by
    rw [toSizeT_of_nonneg _ hsz (by omega), toInt_of_lt _ (by omega)]
    push_cast
    rw [Int.toNat_of_nonneg hsz]
  have hidx : toInt (toSizeT ((inodes p).size % (c.UFS_BLOCK_SIZE : Int)) / sizeof_dir_ent_t c) =
      (inodes p).size % (c.UFS_BLOCK_SIZE : Int) / (sizeof_dir_ent_t c : Int) :=
    (numEntries_eq c _ hm0 (by omega)).1
  unfold createEntry
  simp only [readSuperBlock, hmod', hmod, if_false, hdivide, hsize, hidx]
  rfl

theorem divide_of_emod_zero (a B : Int) (hB : 0 < B) (ha : 0 ≤ a) (h : a % B = 0) :
    divide a B = a / B := by
  unfold divide
  rw [Int.tdiv_eq_ediv (by omega) (le_of_lt hB)]
  have hdm : B * (a / B) + a % B = a := Int.ediv_add_emod a B
  have := (Int.ediv_emod_unique (a := a + B - 1) (r := B - 1) (q := a / B) hB).2
    ⟨by linarith, by omega, by omega⟩
  exact this.1

theorem divide_of_emod_ne_zero (a B : Int) (hB : 0 < B) (ha : 0 ≤ a) (h : a % B ≠ 0) :
    divide a B = a / B + 1 := by
  unfold divide
  rw [Int.tdiv_eq_ediv (by omega) (le_of_lt hB)]
  have hdm : B * (a / B) + a % B = a := Int.ediv_add_emod a B
  have hm0 : 0 ≤ a % B := Int.emod_nonneg _ (ne_of_gt hB)
  have hmB : a % B < B := Int.emod_lt_of_pos _ hB
  have := (Int.ediv_emod_unique (a := a + B - 1) (r := a % B - 1) (q := a / B + 1) hB).2
    ⟨by linarith, by omega, by omega⟩
  exact this.1

/-- Slot `s` of a block lies inside the block when the block holds `P` slots. -/
theorem slot_in_block (c : Cfg) (P s : Nat) (k : Int)
    (hP : c.UFS_BLOCK_SIZE = P * sizeof_dir_ent_t c) (hs : s < P)
    (h1 : (s : Int) * (sizeof_dir_ent_t c : Int) ≤ k)
    (h2 : k < (s : Int) * (sizeof_dir_ent_t c : Int) + (sizeof_dir_ent_t c : Int)) :
    0 ≤ k ∧ k < (c.UFS_BLOCK_SIZE : Int) := by
  have hE := sizeof_dir_ent_t_pos c
  have hB : (c.UFS_BLOCK_SIZE : Int) = (P : Int) * (sizeof_dir_ent_t c : Int) := by
    rw [hP]; push_cast; rfl
  have hsE : ((s : Int) + 1) * (sizeof_dir_ent_t c : Int) ≤ (P : Int) * (sizeof_dir_ent_t c : Int) :=
    mul_le_mul_of_nonneg_right (by omega) (by omega)
  have hs0 : 0 ≤ (s : Int) * (sizeof_dir_ent_t c : Int) := mul_nonneg (by omega) (by omega)
  constructor
  · omega
  · rw [hB]; nlinarith

theorem entName_block_congr (c : Cfg) (b1 b2 : Int → Nat) (P s : Nat)
    (hP : c.UFS_BLOCK_SIZE = P * sizeof_dir_ent_t c) (hs : s < P)
    (h : ∀ x : Int, 0 ≤ x → x < (c.UFS_BLOCK_SIZE : Int) → b1 x = b2 x) :
    entName c b1 (s : Int) = entName c b2 (s : Int) := by
  have hE : (sizeof_dir_ent_t c : Int) = (c.DIR_ENT_NAME_SIZE : Int) + 4 := by
    unfold sizeof_dir_ent_t; push_cast; rfl
  apply entName_congr
  intro k hk1 hk2
  obtain ⟨h1, h2⟩ := slot_in_block c P s k hP hs hk1 (by omega)
  exact h k h1 h2

theorem entInum_block_congr (c : Cfg) (b1 b2 : Int → Nat) (P s : Nat)
    (hP : c.UFS_BLOCK_SIZE = P * sizeof_dir_ent_t c) (hs : s < P)
    (h : ∀ x : Int, 0 ≤ x → x < (c.UFS_BLOCK_SIZE : Int) → b1 x = b2 x) :
    entInum c b1 (s : Int) = entInum c b2 (s : Int) := by
  have hE : (sizeof_dir_ent_t c : Int) = (c.DIR_ENT_NAME_SIZE : Int) + 4 := by
    unfold sizeof_dir_ent_t; push_cast; rfl
  apply entInum_congr
  intro k hk1 hk2
  obtain ⟨h1, h2⟩ := slot_in_block c P s k hP hs (by omega) hk2
  exact h k h1 h2

theorem entName_newParentEntries (c : Cfg) (junk : Nat → Int → Nat) (a : Int) (name : List Nat)
    (hlen : name.length < c.DIR_ENT_NAME_SIZE) :
    entName c (newParentEntries c junk a name) ((0 : Nat) : Int) = c_str name := by
  unfold newParentEntries
  have hl : (c_str name).length < c.DIR_ENT_NAME_SIZE :=
    lt_of_le_of_lt (c_str_length_le name) hlen
  rw [entName_vacate]
  simp only [Nat.cast_zero]
  rw [entName_setName c _ _ _ hl]

theorem entInum_newParentEntries (c : Cfg) (junk : Nat → Int → Nat) (a : Int) (name : List Nat)
    (hlen : name.length < c.DIR_ENT_NAME_SIZE)
    (ha : 0 ≤ a ∧ a < 2147483648) :
    entInum c (newParentEntries c junk a name) ((0 : Nat) : Int) = a := by
  unfold newParentEntries
  have hl : (c_str name).length < c.DIR_ENT_NAME_SIZE :=
    lt_of_le_of_lt (c_str_length_le name) hlen
  rw [entInum_vacate, if_neg (by omega)]
  simp only [Nat.cast_zero]
  rw [entInum_setName c _ _ _ _ hl, entInum_setInum c _ _ _ (by omega) ha.2]

theorem createEntry_appends_new (c : Cfg) (junk : Nat → Int → Nat) (d : Disk)
    (p : Int) (name : List Nat) (ibm dbm : Int → Nat) (inodes : Int → inode_t)
    (a nb : Int) (nent : Int → Nat) (P : Nat)
    (hP : c.UFS_BLOCK_SIZE = P * sizeof_dir_ent_t c) (hP0 : 0 < P)
    (hE : 0 < c.ENOTENOUGHSPACE) (hL : Layout c d)
    (hp : 0 ≤ p ∧ p < d.super.num_inodes)
    (hino : inodes p = d.inodes p)
    (hsz : 0 ≤ (d.inodes p).size)
    (hsz2 : (d.inodes p).size + (sizeof_dir_ent_t c : Int) < 2147483648)
    (hmod : (d.inodes p).size % (c.UFS_BLOCK_SIZE : Int) = 0)
    (hvalid : ∀ k : Nat, (k : Int) < numBlocks c (d.inodes p) →
      ∃ m : Nat, m < d.super.num_data.toNat ∧
        (d.inodes p).direct (k : Int) = d.super.data_region_addr + (m : Int) ∧
        findBit d.dataBitmap (m : Int) = true)
    (hdbm : ∀ j : Nat, j < d.super.num_data.toNat → findBit dbm (j : Int) = false →
      findBit d.dataBitmap (j : Int) = false)
    (hnb : nb = -1 ∨ ∃ m : Nat, m < d.super.num_data.toNat ∧
      nb = d.super.data_region_addr + (m : Int) ∧
      findBit d.dataBitmap (m : Int) = false ∧ findBit dbm (m : Int) = true)
    (ha : 0 ≤ a ∧ a < 2147483648)
    (hlen : name.length < c.DIR_ENT_NAME_SIZE)
    (hs : 0 ≤ (createEntry c junk d p name ibm dbm inodes a nb nent).1)
    (hreg : ∀ b content, BlockWrite.block b content ∈
      (createEntry c junk d p name ibm dbm inodes a nb nent).2 → d.super.data_region_addr ≤ b) :
    (createEntry c junk d p name ibm dbm inodes a nb nent).1 = a ∧
    Appended c d (commit c d (createEntry c junk d p name ibm dbm inodes a nb nent).2) p a (c_str name) := by
  have hB : 0 < c.UFS_BLOCK_SIZE := by
    rw [hP]; exact Nat.mul_pos hP0 (sizeof_dir_ent_t_pos c)
  have hB' : (0 : Int) < (c.UFS_BLOCK_SIZE : Int) := by exact_mod_cast hB
  have hES := sizeof_dir_ent_t_pos c
  have hBE : (c.UFS_BLOCK_SIZE : Int) = (P : Int) * (sizeof_dir_ent_t c : Int) := by
    rw [hP]; push_cast; rfl
  rw [← hino] at hsz hsz2 hmod
  obtain ⟨he1, he2, heq⟩ := createEntry_new_block c junk d p name ibm dbm inodes a nb nent
    hB hE hsz hsz2 hmod hs
  rw [hino] at hsz hsz2 hmod heq
  rw [heq] at hreg ⊢
  dsimp only at hreg ⊢
  refine ⟨rfl, ?_⟩
  -- the bit found for the entry block
  have hge : 0 ≤ findFirstBit dbm (d.super.data_bitmap_len * (c.UFS_BLOCK_SIZE : Int)) := by
    have := hreg (d.super.data_region_addr +
      findFirstBit dbm (d.super.data_bitmap_len * (c.UFS_BLOCK_SIZE : Int)))
      (newParentEntries c junk a name) (by simp [createWrites])
    omega
  rcases findFirstBit_cases dbm (d.super.data_bitmap_len * (c.UFS_BLOCK_SIZE : Int))
    with ⟨h1, _⟩ | ⟨m', h1, _, h3, _⟩
  · omega
  rw [h1] at he2 ⊢
  have hm'N : m' < d.super.num_data.toNat := by omega
  have hm'clear : findBit d.dataBitmap (m' : Int) = false := hdbm m' hm'N h3
  have hnbeb : nb = -1 ∨ d.super.data_region_addr + (m' : Int) ≠ nb := by
    rcases hnb with h | ⟨m, _, hm2, _, hm4⟩
    · exact Or.inl h
    · right
      intro hcon
      have : m' = m := by omega
      rw [this, hm4] at h3
      exact absurd h3 (by simp)
  obtain ⟨C1, _, _, C4, C5, C6, _⟩ := commit_createWrites c d ibm
    (createBit dbm (m' : Int))
    (Function.update inodes p
      { type := (d.inodes p).type, size := (d.inodes p).size + (sizeof_dir_ent_t c : Int),
        direct := Function.update (d.inodes p).direct
          ((d.inodes p).size / (c.UFS_BLOCK_SIZE : Int))
          (d.super.data_region_addr + (m' : Int)) })
    (d.super.data_region_addr + (m' : Int)) (newParentEntries c junk a name) nb nent
  have hpar : (commit c d (createWrites ibm (createBit dbm (m' : Int))
      (Function.update inodes p
        { type := (d.inodes p).type, size := (d.inodes p).size + (sizeof_dir_ent_t c : Int),
          direct := Function.update (d.inodes p).direct
            ((d.inodes p).size / (c.UFS_BLOCK_SIZE : Int))
            (d.super.data_region_addr + (m' : Int)) })
      (d.super.data_region_addr + (m' : Int)) (newParentEntries c junk a name) nb nent)).inodes p =
      { type := (d.inodes p).type, size := (d.inodes p).size + (sizeof_dir_ent_t c : Int),
        direct := Function.update (d.inodes p).direct
          ((d.inodes p).size / (c.UFS_BLOCK_SIZE : Int))
          (d.super.data_region_addr + (m' : Int)) } := by
    rw [C4]
    dsimp only
    rw [if_pos hp, Function.update_same]
  set q := (d.inodes p).size / (c.UFS_BLOCK_SIZE : Int) with hq
  have hq0 : 0 ≤ q := Int.ediv_nonneg hsz (le_of_lt hB')
  have hdm : (c.UFS_BLOCK_SIZE : Int) * q + (d.inodes p).size % (c.UFS_BLOCK_SIZE : Int)
      = (d.inodes p).size := Int.ediv_add_emod _ _
  have hnum : numBlocks c (d.inodes p) = q := divide_of_emod_zero _ _ hB' hsz hmod
  -- old blocks keep their bytes
  have hold : ∀ bi : Nat, (bi : Int) < q →
      (commit c d (createWrites ibm (createBit dbm (m' : Int))
      (Function.update inodes p
        { type := (d.inodes p).type, size := (d.inodes p).size + (sizeof_dir_ent_t c : Int),
          direct := Function.update (d.inodes p).direct q
            (d.super.data_region_addr + (m' : Int)) })
      (d.super.data_region_addr + (m' : Int)) (newParentEntries c junk a name) nb nent)).blocks
        ((d.inodes p).direct (bi : Int)) = d.blocks ((d.inodes p).direct (bi : Int)) := by
    intro bi hbi
    obtain ⟨mb, _, hmb2, hmb3⟩ := hvalid bi (by rw [hnum]; exact hbi)
    apply C5
    · rw [hmb2]
      intro hcon
      have : mb = m' := by omega
      rw [this, hm'clear] at hmb3
      exact absurd hmb3 (by simp)
    · rcases hnb with h | ⟨m, _, hm2, hm3, _⟩
      · exact Or.inl h
      · right
        rw [hmb2, hm2]
        intro hcon
        have : mb = m := by omega
        rw [this, hm3] at hmb3
        exact absurd hmb3 (by simp)
  have hszE : (d.inodes p).size / (sizeof_dir_ent_t c : Int) = ((q.toNat * P + 0 : Nat) : Int) := by
    push_cast
    rw [Int.toNat_of_nonneg hq0]
    have : (d.inodes p).size = (q * (P : Int)) * (sizeof_dir_ent_t c : Int) := by
      rw [← hdm, hmod, hBE]; ring
    rw [this, Int.mul_ediv_cancel _ (by omega : (sizeof_dir_ent_t c : Int) ≠ 0)]
    ring
  have hqN : ((q.toNat : Nat) : Int) = q := Int.toNat_of_nonneg hq0
  refine ⟨C1, by rw [hpar], by rw [hpar], ?_, ?_, ?_, ?_⟩
  · intro k hk0 hk1
    unfold fileData
    rw [hpar]
    dsimp only
    have hkq : k / (c.UFS_BLOCK_SIZE : Int) < q := by
      apply Int.ediv_lt_of_lt_mul hB'
      rw [hmod] at hdm
      linarith
    have hk0' : 0 ≤ k / (c.UFS_BLOCK_SIZE : Int) := Int.ediv_nonneg hk0 (le_of_lt hB')
    rw [Function.update_noteq (by omega)]
    have := hold (k / (c.UFS_BLOCK_SIZE : Int)).toNat (by rw [Int.toNat_of_nonneg hk0']; exact hkq)
    rw [Int.toNat_of_nonneg hk0'] at this
    rw [this]
  · rw [hszE, entName_fileData c _ _ P q.toNat 0 hP hP0, hpar]
    dsimp only
    rw [hqN, Function.update_same,
      entName_block_congr c _ (newParentEntries c junk a name) P 0 hP hP0 (C6 hnbeb)]
    exact entName_newParentEntries c junk a name hlen
  · rw [hszE, entInum_fileData c _ _ P q.toNat 0 hP hP0, hpar]
    dsimp only
    rw [hqN, Function.update_same,
      entInum_block_congr c _ (newParentEntries c junk a name) P 0 hP hP0 (C6 hnbeb)]
    exact entInum_newParentEntries c junk a name hlen ha
  · intro bi hbi
    rw [hpar]
    dsimp only
    by_cases hbq : (bi : Int) = q
    · rw [hbq, Function.update_same]
      have := hL.1
      omega
    · rw [Function.update_noteq hbq]
      obtain ⟨mb, _, hmb2, _⟩ := hvalid bi (by rw [hnum]; omega)
      rw [hmb2]
      have := hL.1
      omega

theorem createEntry_appends_last (c : Cfg) (junk : Nat → Int → Nat) (d : Disk)
    (p : Int) (name : List Nat) (ibm dbm : Int → Nat) (inodes : Int → inode_t)
    (a nb : Int) (nent : Int → Nat) (P : Nat)
    (hP : c.UFS_BLOCK_SIZE = P * sizeof_dir_ent_t c) (hP0 : 0 < P)
    (hL : Layout c d)
    (hp : 0 ≤ p ∧ p < d.super.num_inodes)
    (hino : inodes p = d.inodes p)
    (hsz : 0 ≤ (d.inodes p).size)
    (hsz2 : (d.inodes p).size + (sizeof_dir_ent_t c : Int) < 2147483648)
    (hmodE : (d.inodes p).size % (sizeof_dir_ent_t c : Int) = 0)
    (hmod : (d.inodes p).size % (c.UFS_BLOCK_SIZE : Int) ≠ 0)
    (hvalid : ∀ k : Nat, (k : Int) < numBlocks c (d.inodes p) →
      ∃ m : Nat, m < d.super.num_data.toNat ∧
        (d.inodes p).direct (k : Int) = d.super.data_region_addr + (m : Int) ∧
        findBit d.dataBitmap (m : Int) = true)
    (hdist : ∀ k k' : Nat, (k : Int) < numBlocks c (d.inodes p) →
      (k' : Int) < numBlocks c (d.inodes p) →
      (d.inodes p).direct (k : Int) = (d.inodes p).direct (k' : Int) → k = k')
    (hnb : nb = -1 ∨ ∃ m : Nat, m < d.super.num_data.toNat ∧
      nb = d.super.data_region_addr + (m : Int) ∧
      findBit d.dataBitmap (m : Int) = false ∧ findBit dbm (m : Int) = true)
    (ha : 0 ≤ a ∧ a < 2147483648)
    (hlen : name.length < c.DIR_ENT_NAME_SIZE) :
    (createEntry c junk d p name ibm dbm inodes a nb nent).1 = a ∧
    Appended c d (commit c d (createEntry c junk d p name ibm dbm inodes a nb nent).2) p a (c_str name) := by
  have hB : 0 < c.UFS_BLOCK_SIZE := by
    rw [hP]; exact Nat.mul_pos hP0 (sizeof_dir_ent_t_pos c)
  have hB' : (0 : Int) < (c.UFS_BLOCK_SIZE : Int) := by exact_mod_cast hB
  have hES := sizeof_dir_ent_t_pos c
  have hE : (sizeof_dir_ent_t c : Int) = (c.DIR_ENT_NAME_SIZE : Int) + 4 := by
    unfold sizeof_dir_ent_t; push_cast; rfl
  have hBE : (c.UFS_BLOCK_SIZE : Int) = (P : Int) * (sizeof_dir_ent_t c : Int) := by
    rw [hP]; push_cast; rfl
  have hl : (c_str name).length < c.DIR_ENT_NAME_SIZE :=
    lt_of_le_of_lt (c_str_length_le name) hlen
  rw [← hino] at hsz hsz2 hmod
  have heq := createEntry_last_block c junk d p name ibm dbm inodes a nb nent hB hsz hsz2 hmod
  rw [hino] at hsz hsz2 hmod heq
  rw [heq]
  dsimp only
  refine ⟨rfl, ?_⟩
  set q := (d.inodes p).size / (c.UFS_BLOCK_SIZE : Int) with hq
  set s := (d.inodes p).size % (c.UFS_BLOCK_SIZE : Int) / (sizeof_dir_ent_t c : Int) with hs
  have hq0 : 0 ≤ q := Int.ediv_nonneg hsz (le_of_lt hB')
  have hdm : (c.UFS_BLOCK_SIZE : Int) * q + (d.inodes p).size % (c.UFS_BLOCK_SIZE : Int)
      = (d.inodes p).size := Int.ediv_add_emod _ _
  have hm0 : 0 ≤ (d.inodes p).size % (c.UFS_BLOCK_SIZE : Int) := Int.emod_nonneg _ (ne_of_gt hB')
  have hmB : (d.inodes p).size % (c.UFS_BLOCK_SIZE : Int) < (c.UFS_BLOCK_SIZE : Int) :=
    Int.emod_lt_of_pos _ hB'
  have hnum : numBlocks c (d.inodes p) = q + 1 := divide_of_emod_ne_zero _ _ hB' hsz hmod
  -- the slot of the new entry
  have hu : (sizeof_dir_ent_t c : Int) * ((d.inodes p).size / (sizeof_dir_ent_t c : Int))
      = (d.inodes p).size := by
    have := Int.ediv_add_emod (d.inodes p).size (sizeof_dir_ent_t c : Int)
    rw [hmodE] at this
    linarith
  have hrem : (d.inodes p).size % (c.UFS_BLOCK_SIZE : Int) =
      (sizeof_dir_ent_t c : Int) * ((d.inodes p).size / (sizeof_dir_ent_t c : Int) - (P : Int) * q) := by
    have : (d.inodes p).size % (c.UFS_BLOCK_SIZE : Int) =
        (d.inodes p).size - (c.UFS_BLOCK_SIZE : Int) * q := by linarith
    rw [this, hBE]
    nth_rewrite 1 [← hu]
    ring
  have hsval : s = (d.inodes p).size / (sizeof_dir_ent_t c : Int) - (P : Int) * q := by
    rw [hs, hrem, Int.mul_ediv_cancel_left _ (by omega : (sizeof_dir_ent_t c : Int) ≠ 0)]
  have hsE : s * (sizeof_dir_ent_t c : Int) = (d.inodes p).size % (c.UFS_BLOCK_SIZE : Int) := by
    rw [hrem, hsval]; ring
  have hs0 : 0 ≤ s := by
    by_contra hcon
    have : s ≤ -1 := by omega
    nlinarith
  have hsP : s < (P : Int) := by
    by_contra hcon
    have : (P : Int) ≤ s := by omega
    have : (P : Int) * (sizeof_dir_ent_t c : Int) ≤ s * (sizeof_dir_ent_t c : Int) :=
      mul_le_mul_of_nonneg_right this (by omega)
    omega
  have hsN : ((s.toNat : Nat) : Int) = s := Int.toNat_of_nonneg hs0
  have hqN : ((q.toNat : Nat) : Int) = q := Int.toNat_of_nonneg hq0
  have hszE : (d.inodes p).size / (sizeof_dir_ent_t c : Int) =
      ((q.toNat * P + s.toNat : Nat) : Int) := by
    push_cast
    rw [hqN, hsN, hsval]; ring
  -- the last block of the parent
  obtain ⟨mq, _, hmq2, hmq3⟩ := hvalid q.toNat (by rw [hnum, hqN]; omega)
  rw [hqN] at hmq2
  have hnbeb : nb = -1 ∨ (d.inodes p).direct q ≠ nb := by
    rcases hnb with h | ⟨m, _, hm2, hm3, _⟩
    · exact Or.inl h
    · right
      rw [hmq2, hm2]
      intro hcon
      have : mq = m := by omega
      rw [this, hm3] at hmq3
      exact absurd hmq3 (by simp)
  obtain ⟨C1, _, _, C4, C5, C6, _⟩ := commit_createWrites c d ibm dbm
    (Function.update inodes p
      { type := (d.inodes p).type, size := (d.inodes p).size + (sizeof_dir_ent_t c : Int),
        direct := (d.inodes p).direct })
    ((d.inodes p).direct q)
    (setName c (setInum c (d.blocks ((d.inodes p).direct q)) s a) s name) nb nent
  have hpar : (commit c d (createWrites ibm dbm
      (Function.update inodes p
        { type := (d.inodes p).type, size := (d.inodes p).size + (sizeof_dir_ent_t c : Int),
          direct := (d.inodes p).direct })
      ((d.inodes p).direct q)
      (setName c (setInum c (d.blocks ((d.inodes p).direct q)) s a) s name) nb nent)).inodes p =
      { type := (d.inodes p).type, size := (d.inodes p).size + (sizeof_dir_ent_t c : Int),
        direct := (d.inodes p).direct } := by
    rw [C4]
    dsimp only
    rw [if_pos hp, Function.update_same]
  have hold : ∀ bi : Nat, (bi : Int) < q →
      (commit c d (createWrites ibm dbm
      (Function.update inodes p
        { type := (d.inodes p).type, size := (d.inodes p).size + (sizeof_dir_ent_t c : Int),
          direct := (d.inodes p).direct })
      ((d.inodes p).direct q)
      (setName c (setInum c (d.blocks ((d.inodes p).direct q)) s a) s name) nb nent)).blocks
        ((d.inodes p).direct (bi : Int)) = d.blocks ((d.inodes p).direct (bi : Int)) := by
    intro bi hbi
    obtain ⟨mb, _, hmb2, hmb3⟩ := hvalid bi (by rw [hnum]; omega)
    apply C5
    · intro hcon
      have := hdist bi q.toNat (by rw [hnum]; omega) (by rw [hnum, hqN]; omega)
        (by rw [hqN]; exact hcon)
      omega
    · rcases hnb with h | ⟨m, _, hm2, hm3, _⟩
      · exact Or.inl h
      · right
        rw [hmb2, hm2]
        intro hcon
        have : mb = m := by omega
        rw [this, hm3] at hmb3
        exact absurd hmb3 (by simp)
  refine ⟨C1, by rw [hpar], by rw [hpar], ?_, ?_, ?_, ?_⟩
  · intro k hk0 hk1
    unfold fileData
    rw [hpar]
    dsimp only
    have hk0' : 0 ≤ k / (c.UFS_BLOCK_SIZE : Int) := Int.ediv_nonneg hk0 (le_of_lt hB')
    have hkq : k / (c.UFS_BLOCK_SIZE : Int) ≤ q := Int.ediv_le_ediv hB' (by omega)
    have hkm0 : 0 ≤ k % (c.UFS_BLOCK_SIZE : Int) := Int.emod_nonneg _ (ne_of_gt hB')
    have hkmB : k % (c.UFS_BLOCK_SIZE : Int) < (c.UFS_BLOCK_SIZE : Int) := Int.emod_lt_of_pos _ hB'
    have hkdm : (c.UFS_BLOCK_SIZE : Int) * (k / (c.UFS_BLOCK_SIZE : Int))
        + k % (c.UFS_BLOCK_SIZE : Int) = k := Int.ediv_add_emod _ _
    by_cases hkq' : k / (c.UFS_BLOCK_SIZE : Int) = q
    · rw [hkq', C6 hnbeb _ hkm0 hkmB]
      rw [hkq'] at hkdm
      have hlt : k % (c.UFS_BLOCK_SIZE : Int) < s * (sizeof_dir_ent_t c : Int) := by
        rw [hsE]; linarith
      rw [setName_apply_of_outside c _ _ _ _ hl (Or.inl hlt),
        setInum_apply_of_outside c _ _ _ _ (Or.inl (by omega))]
    · have := hold (k / (c.UFS_BLOCK_SIZE : Int)).toNat
        (by rw [Int.toNat_of_nonneg hk0']; omega)
      rw [Int.toNat_of_nonneg hk0'] at this
      rw [this]
  · rw [hszE, entName_fileData c _ _ P q.toNat s.toNat hP (by omega), hpar]
    dsimp only
    rw [hqN, entName_block_congr c _
      (setName c (setInum c (d.blocks ((d.inodes p).direct q)) s a) s name) P s.toNat hP
      (by omega) (C6 hnbeb), hsN, entName_setName c _ _ _ hl]
  · rw [hszE, entInum_fileData c _ _ P q.toNat s.toNat hP (by omega), hpar]
    dsimp only
    rw [hqN, entInum_block_congr c _
      (setName c (setInum c (d.blocks ((d.inodes p).direct q)) s a) s name) P s.toNat hP
      (by omega) (C6 hnbeb), hsN, entInum_setName c _ _ _ _ hl,
      entInum_setInum c _ _ _ (by omega) ha.2]
  · intro bi hbi
    rw [hpar]
    dsimp only
    obtain ⟨mb, _, hmb2, _⟩ := hvalid bi (by rw [hnum]; omega)
    rw [hmb2]
    have := hL.1
    omega

theorem create_full (c : Cfg) (junk : Nat → Int → Nat) (d : Disk) (p t : Int)
    (name : List Nat)
    (hp : 0 ≤ p ∧ p < d.super.num_inodes)
    (hlen : name.length < c.DIR_ENT_NAME_SIZE)
    (ht : t = c.UFS_DIRECTORY ∨ t = c.UFS_REGULAR_FILE)
    (hdir : (d.inodes p).type = c.UFS_DIRECTORY)
    (hfull : (d.inodes p).size = (c.UFS_BLOCK_SIZE : Int) * (c.DIRECT_PTRS : Int)) :
    create c junk d p t name = (-c.ENOTENOUGHSPACE, []) := by
  have hchk : checkInode d.super p = true := (checkInode_iff _ _).2 hp
  unfold create
  simp only [readSuperBlock, readInodeRegion, hchk, Bool.not_true, Bool.false_eq_true, if_false]
  rw [if_neg (by simp [hlen]), if_neg (by rcases ht with h | h <;> simp [h]),
    if_neg (by simp [hdir]), if_pos hfull]

/-- A successful `create` of a name that the directory `p` does not hold
appends the entry `(name, k)` to `p`, where `k` is the inode number returned. -/
theorem create_appends (c : Cfg) (junk : Nat → Int → Nat) (d : Disk) (p t : Int)
    (name : List Nat) (P : Nat)
    (hP : c.UFS_BLOCK_SIZE = P * sizeof_dir_ent_t c) (hP0 : 0 < P)
    (hM : MAX_FILE_SIZE c < 2147483648)
    (hE : 0 < c.ENOTENOUGHSPACE)
    (hL : Layout c d)
    (hp : 0 ≤ p ∧ p < d.super.num_inodes) (huse : inUse d p)
    (hdir : (d.inodes p).type = c.UFS_DIRECTORY)
    (hsz : 0 ≤ (d.inodes p).size ∧ (d.inodes p).size ≤ MAX_FILE_SIZE c)
    (hmodE : (d.inodes p).size % (sizeof_dir_ent_t c : Int) = 0)
    (hvalid : ∀ k : Nat, (k : Int) < numBlocks c (d.inodes p) →
      ∃ m : Nat, m < d.super.num_data.toNat ∧
        (d.inodes p).direct (k : Int) = d.super.data_region_addr + (m : Int) ∧
        findBit d.dataBitmap (m : Int) = true)
    (hdist : ∀ k k' : Nat, (k : Int) < numBlocks c (d.inodes p) →
      (k' : Int) < numBlocks c (d.inodes p) →
      (d.inodes p).direct (k : Int) = (d.inodes p).direct (k' : Int) → k = k')
    (hlen : name.length < c.DIR_ENT_NAME_SIZE)
    (ht : t = c.UFS_DIRECTORY ∨ t = c.UFS_REGULAR_FILE)
    (hname : 0 ∉ name)
    (habs : ∀ j : Nat, (j : Int) < (d.inodes p).size / (sizeof_dir_ent_t c : Int) →
      entName c (fileData c d (d.inodes p)) (j : Int) ≠ name)
    (hs : 0 ≤ (create c junk d p t name).1)
    (hreg : ∀ b content, BlockWrite.block b content ∈ (create c junk d p t name).2 →
      d.super.data_region_addr ≤ b) :
    (d.inodes p).size < MAX_FILE_SIZE c ∧
    Appended c d (commit c d (create c junk d p t name).2) p (create c junk d p t name).1 name := by
  have hB : 0 < c.UFS_BLOCK_SIZE := by
    rw [hP]; exact Nat.mul_pos hP0 (sizeof_dir_ent_t_pos c)
  have hB' : (0 : Int) < (c.UFS_BLOCK_SIZE : Int) := by exact_mod_cast hB
  have hES := sizeof_dir_ent_t_pos c
  have hBE : (c.UFS_BLOCK_SIZE : Int) = (P : Int) * (sizeof_dir_ent_t c : Int) := by
    rw [hP]; push_cast; rfl
  have hMAX : (MAX_FILE_SIZE c : Int) = (c.UFS_BLOCK_SIZE : Int) * (c.DIRECT_PTRS : Int) := by
    unfold MAX_FILE_SIZE; ring
  have hnf : (d.inodes p).size ≠ (c.UFS_BLOCK_SIZE : Int) * (c.DIRECT_PTRS : Int) := by
    intro hfull
    rw [create_full c junk d p t name hp hlen ht hdir hfull] at hs
    simp only at hs
    omega
  have hlt : (d.inodes p).size < MAX_FILE_SIZE c := by
    rw [hMAX] at hsz ⊢
    omega
  -- the size grows by one entry and stays within the maximum
  have hsz2 : (d.inodes p).size + (sizeof_dir_ent_t c : Int) < 2147483648 := by
    have hu : (sizeof_dir_ent_t c : Int) * ((d.inodes p).size / (sizeof_dir_ent_t c : Int))
        = (d.inodes p).size := by
      have := Int.ediv_add_emod (d.inodes p).size (sizeof_dir_ent_t c : Int)
      rw [hmodE] at this
      linarith
    have hlt' : (sizeof_dir_ent_t c : Int) * ((d.inodes p).size / (sizeof_dir_ent_t c : Int))
        < (sizeof_dir_ent_t c : Int) * ((P : Int) * (c.DIRECT_PTRS : Int)) := by
      rw [hu]
      have : (sizeof_dir_ent_t c : Int) * ((P : Int) * (c.DIRECT_PTRS : Int)) = MAX_FILE_SIZE c := by
        rw [hMAX, hBE]; ring
      rw [this]; exact hlt
    have hq : (d.inodes p).size / (sizeof_dir_ent_t c : Int) < (P : Int) * (c.DIRECT_PTRS : Int) :=
      lt_of_mul_lt_mul_left hlt' (by omega)
    have : (d.inodes p).size + (sizeof_dir_ent_t c : Int) ≤ MAX_FILE_SIZE c := by
      have h2 : (sizeof_dir_ent_t c : Int) * ((d.inodes p).size / (sizeof_dir_ent_t c : Int) + 1)
          ≤ (sizeof_dir_ent_t c : Int) * ((P : Int) * (c.DIRECT_PTRS : Int)) :=
        mul_le_mul_of_nonneg_left (by omega) (by omega)
      have h3 : (sizeof_dir_ent_t c : Int) * ((P : Int) * (c.DIRECT_PTRS : Int)) = MAX_FILE_SIZE c := by
        rw [hMAX, hBE]; ring
      rw [h3] at h2
      linarith
    omega
  refine ⟨hlt, ?_⟩
  have hca := create_absent c junk d p t name hB hM hp hlen ht hdir ⟨hsz.1, hlt⟩ habs
  rw [hca] at hs hreg ⊢
  obtain ⟨a, _, ha2, ha3, _, hcase⟩ := createInode_nonneg c junk d p t name
    (readInodeBitmap c d (junk 3)) (readDataBitmap c d (junk 4)) d.inodes hE hL.2.2.2.2.2 hs
  -- the inode allocated is not the parent
  have hap : (a : Int) ≠ p := by
    intro h
    have hb : findBit (readInodeBitmap c d (junk 3)) (a : Int) = findBit d.inodeBitmap (a : Int) := by
      unfold readInodeBitmap
      exact findBit_copyRegion c _ _ _ a (by have := hL.2.2.2.1; omega)
    rw [ha3, h] at hb
    unfold inUse at huse
    rw [huse] at hb
    exact absurd hb (by simp)
  have haR : (0 : Int) ≤ (a : Int) ∧ (a : Int) < 2147483648 := by
    have := hL.2.1
    omega
  have hrd : ∀ j : Nat, j < d.super.num_data.toNat →
      findBit (readDataBitmap c d (junk 4)) (j : Int) = findBit d.dataBitmap (j : Int) :=
    fun j hj => findBit_readDataBitmap c d (junk 4) j hL.2.2.2.2.2 hj
  rcases hcase with ⟨_, m, _, hm2, hm3, _, heq⟩ | ⟨_, heq⟩
  · rw [heq] at hs hreg ⊢
    have hino : (Function.update d.inodes (a : Int)
        { type := t, size := 2 * (sizeof_dir_ent_t c : Int),
          direct := Function.update (d.inodes (a : Int)).direct 0
            (d.super.data_region_addr + (m : Int)) }) p = d.inodes p :=
      Function.update_noteq (Ne.symm hap) _ _
    have hdbm : ∀ j : Nat, j < d.super.num_data.toNat →
        findBit (createBit (readDataBitmap c d (junk 4)) (m : Int)) (j : Int) = false →
        findBit d.dataBitmap (j : Int) = false := by
      intro j hj h
      rw [findBit_createBit] at h
      rw [← hrd j hj]
      simp only [Bool.or_eq_false_iff] at h
      exact h.2
    have hnb : d.super.data_region_addr + (m : Int) = -1 ∨ ∃ m' : Nat,
        m' < d.super.num_data.toNat ∧
        d.super.data_region_addr + (m : Int) = d.super.data_region_addr + (m' : Int) ∧
        findBit d.dataBitmap (m' : Int) = false ∧
        findBit (createBit (readDataBitmap c d (junk 4)) (m : Int)) (m' : Int) = true :=
      Or.inr ⟨m, hm2, rfl, by rw [← hrd m hm2]; exact hm3, by rw [findBit_createBit]; simp⟩
    by_cases hmod : (d.inodes p).size % (c.UFS_BLOCK_SIZE : Int) = 0
    · have := createEntry_appends_new c junk d p name _ _ _ (a : Int) _ _ P hP hP0 hE hL hp hino
        hsz.1 hsz2 hmod hvalid hdbm hnb haR hlen hs hreg
      rw [c_str_of_no_zero name hname] at this
      rw [this.1]
      exact this.2
    · have := createEntry_appends_last c junk d p name
        (createBit (readInodeBitmap c d (junk 3)) (a : Int)) _ _ (a : Int) _
        (newDirEntries c junk (a : Int) p) P hP hP0 hL hp hino
        hsz.1 hsz2 hmodE hmod hvalid hdist hnb haR hlen
      rw [c_str_of_no_zero name hname] at this
      rw [this.1]
      exact this.2
  · rw [heq] at hs hreg ⊢
    have hino : (Function.update d.inodes (a : Int)
        { type := t, size := 0, direct := (d.inodes (a : Int)).direct }) p = d.inodes p :=
      Function.update_noteq (Ne.symm hap) _ _
    have hdbm : ∀ j : Nat, j < d.super.num_data.toNat →
        findBit (readDataBitmap c d (junk 4)) (j : Int) = false →
        findBit d.dataBitmap (j : Int) = false := by
      intro j hj h
      rw [← hrd j hj]; exact h
    by_cases hmod : (d.inodes p).size % (c.UFS_BLOCK_SIZE : Int) = 0
    · have := createEntry_appends_new c junk d p name _ _ _ (a : Int) _ _ P hP hP0 hE hL hp hino
        hsz.1 hsz2 hmod hvalid hdbm (Or.inl rfl) haR hlen hs hreg
      rw [c_str_of_no_zero name hname] at this
      rw [this.1]
      exact this.2
    · have := createEntry_appends_last c junk d p name
        (createBit (readInodeBitmap c d (junk 3)) (a : Int)) (readDataBitmap c d (junk 4))
        _ (a : Int) (-1) (junk 1) P hP hP0 hL hp hino
        hsz.1 hsz2 hmodE hmod hvalid hdist (Or.inl rfl) haR hlen
      rw [c_str_of_no_zero name hname] at this
      rw [this.1]
      exact this.2

theorem mem_writtenBlocks (ws : List BlockWrite) (b : Int) (content : Int → Nat)
    (h : BlockWrite.block b content ∈ ws) : b ∈ writtenBlocks ws := by
  induction ws with
  | nil => simp at h
  | cons w ws ih =>
    rcases List.mem_cons.1 h with h1 | h1
    · rw [← h1]; simp [writtenBlocks]
    · cases w <;> simp [writtenBlocks, ih h1]

theorem lt_divide_of_mul_lt (a B bi : Int) (hB : 0 < B) (ha : 0 ≤ a) (h : bi * B < a) :
    bi < divide a B := by
  have hdm : B * (a / B) + a % B = a := Int.ediv_add_emod a B
  have hm0 : 0 ≤ a % B := Int.emod_nonneg _ (ne_of_gt hB)
  have hmB : a % B < B := Int.emod_lt_of_pos _ hB
  by_cases hmod : a % B = 0
  · rw [divide_of_emod_zero a B hB ha hmod]
    by_contra hcon
    have : a / B ≤ bi := by omega
    have : B * (a / B) ≤ B * bi := mul_le_mul_of_nonneg_left this (le_of_lt hB)
    nlinarith
  · rw [divide_of_emod_ne_zero a B hB ha hmod]
    by_contra hcon
    have : a / B + 1 ≤ bi := by omega
    have : B * (a / B + 1) ≤ B * bi := mul_le_mul_of_nonneg_left this (le_of_lt hB)
    nlinarith

/-- The lookup of a name in a directory whose entries `0 .. e` lie in blocks
the inode references and carry inode numbers: the inode number of the first
entry with that name. -/
theorem lookup_first (c : Cfg) (d : Disk) (p : Int) (m : List Nat) (P n : Nat)
    (hp : 0 ≤ p ∧ p < d.super.num_inodes)
    (hdir : (d.inodes p).type = c.UFS_DIRECTORY)
    (hP : c.UFS_BLOCK_SIZE = P * sizeof_dir_ent_t c) (hP0 : 0 < P)
    (hn : n ≤ c.DIRECT_PTRS * P)
    (hptr : ∀ bi : Nat, bi * P < n → (d.inodes p).direct (bi : Int) ≠ -1)
    (hnum : ∀ j : Nat, j < n → entInum c (fileData c d (d.inodes p)) (j : Int) ≠ -1)
    (j0 : Nat) (hj0 : j0 < n)
    (hfirst : ∀ j : Nat, j < j0 → entName c (fileData c d (d.inodes p)) (j : Int) ≠ m)
    (hj : entName c (fileData c d (d.inodes p)) (j0 : Int) = m) :
    lookup c d p m = entInum c (fileData c d (d.inodes p)) (j0 : Int) := by
  apply lookup_eq_of_entry c d p m P j0 hp hdir hP hP0 (by omega)
  · intro bi hbi
    apply hptr
    have : bi * P ≤ j0 / P * P := Nat.mul_le_mul_right _ hbi
    have := Nat.div_mul_le_self j0 P
    omega
  · intro j hjj
    exact ⟨hnum j (by omega), hfirst j hjj⟩
  · exact hnum j0 hj0
  · exact hj

/-! ## Create then lookup -/

theorem findBit_delBit_imp (bitmap : Int → Nat) (x : Int) (j : Nat)
    (h : findBit (delBit bitmap x) (j : Int) = true) : findBit bitmap (j : Int) = true := by
  rw [findBit_natCast] at h ⊢
  unfold delBit at h
  by_cases hx : ((j / 8 : Nat) : Int) = Int.tdiv x 8
  · rw [hx, Function.update_same] at h
    have h256 : (256 : Nat) = 2 ^ 8 := by norm_num
    rw [h256, Nat.testBit_mod_two_pow, Nat.testBit_and] at h
    simp only [Bool.and_eq_true, decide_eq_true_eq] at h
    rw [hx]
    exact h.2.1
  · rw [Function.update_noteq hx] at h
    exact h

/-- The tail of `create` either returns before the transaction or writes the
bitmaps, the inode table with the record of the parent grown by one entry, the
entry block and the block of a new directory. -/
theorem createEntry_shape (c : Cfg) (junk : Nat → Int → Nat) (d : Disk)
    (p : Int) (name : List Nat) (ibm dbm : Int → Nat) (inodes : Int → inode_t)
    (a nb : Int) (nent : Int → Nat) :
    (createEntry c junk d p name ibm dbm inodes a nb nent).2 = [] ∨
    ∃ (dbm' : Int → Nat) (direct' : Int → Int) (eb : Int) (ent : Int → Nat),
      createEntry c junk d p name ibm dbm inodes a nb nent =
        (a, createWrites ibm dbm'
          (Function.update inodes p
            { type := (inodes p).type,
              size := toInt (toSizeT (inodes p).size + sizeof_dir_ent_t c),
              direct := direct' }) eb ent nb nent) ∧
      ((Int.tmod (inodes p).size (c.UFS_BLOCK_SIZE : Int) ≠ 0 ∧ direct' = (inodes p).direct) ∨
       (Int.tmod (inodes p).size (c.UFS_BLOCK_SIZE : Int) = 0 ∧
        ∃ bit : Int, -1 ≤ bit ∧ bit < d.super.num_data ∧ eb = bit + d.super.data_region_addr ∧
          direct' = Function.update (inodes p).direct
            (Int.tdiv (inodes p).size (c.UFS_BLOCK_SIZE : Int))
            (bit + d.super.data_region_addr))) := by
  unfold createEntry
  simp only [readSuperBlock]
  by_cases hmod : Int.tmod (inodes p).size (c.UFS_BLOCK_SIZE : Int) = 0
  · rw [if_pos hmod]
    by_cases hbit : findFirstBit dbm (d.super.data_bitmap_len * (c.UFS_BLOCK_SIZE : Int)) < -1 ∨
        findFirstBit dbm (d.super.data_bitmap_len * (c.UFS_BLOCK_SIZE : Int)) ≥ d.super.num_data
    · rw [if_pos hbit]
      exact Or.inl rfl
    · rw [if_neg hbit]
      right
      refine ⟨_, _, _, _, rfl, Or.inr ⟨hmod, _, by omega, by omega, rfl, rfl⟩⟩
  · rw [if_neg hmod]
    right
    exact ⟨_, _, _, _, rfl, Or.inl ⟨hmod, rfl⟩⟩

/-- The method `create` either returns before the transaction or allocates the
lowest clear bit `a` of the inode bitmap, sets the type of record `a` (and the
size 0 of a regular file) and continues with the tail `createEntry`; the parent
is then in range and its record is a directory. -/
theorem create_shape (c : Cfg) (junk : Nat → Int → Nat) (d : Disk) (p t : Int)
    (name : List Nat) :
    (create c junk d p t name).2 = [] ∨
    ((0 ≤ p ∧ p < d.super.num_inodes) ∧ (d.inodes p).type = c.UFS_DIRECTORY ∧
      ∃ (a : Nat) (dbm : Int → Nat) (r : inode_t) (nb : Int) (nent : Int → Nat),
        (a : Int) < d.super.num_inodes ∧
        findBit (readInodeBitmap c d (junk 3)) (a : Int) = false ∧
        r.type = t ∧ (t ≠ c.UFS_DIRECTORY → r.size = 0) ∧
        create c junk d p t name =
          createEntry c junk d p name (createBit (readInodeBitmap c d (junk 3)) (a : Int)) dbm
            (Function.update d.inodes (a : Int) r) (a : Int) nb nent) := by
  unfold create
  simp only [readSuperBlock, readInodeRegion]
  by_cases hchk : checkInode d.super p = true
  swap
  · left
    rw [if_pos (by simp [hchk])]
  rw [if_neg (by simp [hchk])]
  have hp := (checkInode_iff _ _).1 hchk
  split
  · exact Or.inl rfl
  split
  · exact Or.inl rfl
  split
  · exact Or.inl rfl
  rename_i hdir
  split
  · exact Or.inl rfl
  split
  · left
    split <;> rfl
  · have hdir' : (d.inodes p).type = c.UFS_DIRECTORY := by
      by_contra h; exact hdir h
    unfold createInode
    simp only [readSuperBlock]
    rcases findFirstBit_cases (readInodeBitmap c d (junk 3))
        (d.super.data_bitmap_len * (c.UFS_BLOCK_SIZE : Int)) with ⟨h1, _⟩ | ⟨a, h1, _, h3, _⟩
    · left
      rw [h1, if_pos (by left; omega)]
    · rw [h1]
      by_cases hcond : (a : Int) < 0 ∨ (a : Int) ≥ d.super.num_inodes
      · left
        rw [if_pos hcond]
      · rw [if_neg hcond]
        by_cases htd : t = c.UFS_DIRECTORY
        · rw [if_pos htd]
          split
          · exact Or.inl rfl
          · right
            simp only [Function.update_same, Function.update_idem]
            exact ⟨hp, hdir', a, _, _, _, _, by omega, h3, rfl, fun h => absurd htd h, rfl⟩
        · rw [if_neg htd]
          right
          simp only [Function.update_same, Function.update_idem]
          exact ⟨hp, hdir', a, _, _, _, _, by omega, h3, rfl, fun _ => rfl, rfl⟩

/-- The method `write` either returns before the transaction or its arguments
are valid and the allocation loop succeeds. -/
theorem write_cases (c : Cfg) (junk : Nat → Int → Nat) (d : Disk) (i : Int)
    (buffer : Int → Nat) (n : Int) :
    (write c junk d i buffer n).2 = [] ∨
    ((0 ≤ i ∧ i < d.super.num_inodes) ∧ (0 ≤ n ∧ n ≤ MAX_FILE_SIZE c) ∧
      (d.inodes i).type = c.UFS_REGULAR_FILE ∧
      ∃ bm' dir', allocBlocks c d.super (numBlocks c (d.inodes i))
        (max 0 (divide n (c.UFS_BLOCK_SIZE : Int) - numBlocks c (d.inodes i))).toNat 0
        (readDataBitmap c d (junk 0)) (d.inodes i).direct = some (bm', dir')) := by
  unfold write numBlocks
  simp only [readSuperBlock, readInodeRegion]
  split
  · exact Or.inl rfl
  rename_i hchk
  split
  · exact Or.inl rfl
  rename_i hsz
  split
  · exact Or.inl rfl
  rename_i hty
  split
  · exact Or.inl rfl
  split
  · exact Or.inl rfl
  · rename_i bm' dir' hal
    right
    refine ⟨(checkInode_iff _ _).1 (by simpa using hchk), by omega, by
      by_contra h; exact hty h, bm', dir', hal⟩

/-- The method `unlink` either returns before the transaction or writes the
inode table with a new record of the parent, of the same type, then the data
bitmap, then the inode bitmap with one bit cleared, then blocks. -/
theorem unlink_shape (c : Cfg) (junk : Nat → Int → Nat) (d : Disk) (p : Int)
    (name : List Nat) :
    (unlink c junk d p name).2 = [] ∨
    ((0 ≤ p ∧ p < d.super.num_inodes) ∧ (d.inodes p).type = c.UFS_DIRECTORY ∧
      ∃ (x : Int) (par : inode_t) (dbm : Int → Nat) (r : Nat) (f : Nat → Int)
        (g : Nat → Int → Nat),
        par.type = (d.inodes p).type ∧
        (unlink c junk d p name).2 =
          [BlockWrite.inodeRegion (Function.update d.inodes p par), BlockWrite.dataBitmap dbm,
            BlockWrite.inodeBitmap (delBit (readInodeBitmap c d (junk 1)) x)]
          ++ (List.range r).map (fun (k : Nat) => BlockWrite.block (f k) (g k))) := by
  generalize hres : unlink c junk d p name = res
  unfold unlink at hres
  dsimp only at hres
  split at hres
  · rw [← hres]; exact Or.inl rfl
  rename_i hchk
  split at hres
  · rw [← hres]; exact Or.inl rfl
  split at hres
  · rw [← hres]; exact Or.inl rfl
  split at hres
  · rw [← hres]; exact Or.inl rfl
  rename_i hty
  split at hres
  · rw [← hres]; exact Or.inl rfl
  unfold unlinkEntry at hres
  dsimp only at hres
  split at hres
  · rw [← hres]; exact Or.inl rfl
  right
  have hchk' : checkInode d.super p = true := by
    cases h : checkInode d.super p
    · exact absurd h hchk
    · rfl
  refine ⟨(checkInode_iff _ _).1 hchk', by by_contra h; exact hty h, ?_⟩
  rw [← hres]
  refine ⟨_, _, _, _, _, _, ?_, rfl⟩
  split <;> rfl

/-! ## The block pointers of regular files -/

theorem inUse_of_readInodeBitmap (c : Cfg) (d : Disk) (buf : Int → Nat) (i : Nat)
    (hL : Layout c d) (hi : i < d.super.num_inodes.toNat) :
    findBit (readInodeBitmap c d buf) (i : Int) = findBit d.inodeBitmap (i : Int) := by
  unfold readInodeBitmap
  exact findBit_copyRegion c _ _ _ i (by have := hL.2.2.2.1; omega)

theorem divide_zero (B : Int) (hB : 0 < B) : divide 0 B = 0 := by
  unfold divide
  exact Int.tdiv_eq_zero_of_lt (by omega) (by omega)

theorem create_fileBlocksValid (c : Cfg) (junk : Nat → Int → Nat) (d : Disk) (p t : Int)
    (name : List Nat) (P : Nat)
    (hP : c.UFS_BLOCK_SIZE = P * sizeof_dir_ent_t c) (hP0 : 0 < P)
    (hB31 : c.UFS_BLOCK_SIZE < 2147483648)
    (hTy : c.UFS_DIRECTORY ≠ c.UFS_REGULAR_FILE)
    (hL : Layout c d) (hinv : FileBlocksValid c d)
    (hreg : ∀ b ∈ writtenBlocks (create c junk d p t name).2, d.super.data_region_addr ≤ b) :
    FileBlocksValid c (commit c d (create c junk d p t name).2) := by
  have hB : 0 < c.UFS_BLOCK_SIZE := by
    rw [hP]; exact Nat.mul_pos hP0 (sizeof_dir_ent_t_pos c)
  have hB' : (0 : Int) < (c.UFS_BLOCK_SIZE : Int) := by exact_mod_cast hB
  have hES := sizeof_dir_ent_t_pos c
  have hEB : sizeof_dir_ent_t c ≤ c.UFS_BLOCK_SIZE := by
    rw [hP]; exact Nat.le_mul_of_pos_left _ hP0
  rcases create_shape c junk d p t name with h | ⟨hp, hdir, a, dbm, r, nb, nent, ha, hbit, hrt, hrs, heq⟩
  · rw [h, commit_nil]; exact hinv
  rw [heq] at hreg ⊢
  rcases createEntry_shape c junk d p name (createBit (readInodeBitmap c d (junk 3)) (a : Int)) dbm
    (Function.update d.inodes (a : Int) r) (a : Int) nb nent with h | ⟨dbm', direct', eb, ent, heq2, hbr⟩
  · rw [h, commit_nil]; exact hinv
  rw [heq2] at hreg ⊢
  dsimp only at hreg ⊢
  obtain ⟨C1, C2, _, C4, _, _, _⟩ := commit_createWrites c d
    (createBit (readInodeBitmap c d (junk 3)) (a : Int)) dbm'
    (Function.update (Function.update d.inodes (a : Int) r) p
      { type := (Function.update d.inodes (a : Int) r p).type,
        size := toInt (toSizeT (Function.update d.inodes (a : Int) r p).size + sizeof_dir_ent_t c),
        direct := direct' }) eb ent nb nent
  have heb : d.super.data_region_addr ≤ eb :=
    hreg eb (by simp [createWrites, writtenBlocks])
  intro i hi huse hty k hk hkn
  rw [C1] at hi ⊢
  have hir : (0 : Int) ≤ (i : Int) ∧ (i : Int) < d.super.num_inodes := by omega
  rw [C4] at hty hkn ⊢
  simp only [hir, and_self, if_true] at hty hkn ⊢
  by_cases hip : (i : Int) = p
  · rw [hip, Function.update_same] at hty hkn ⊢
    dsimp only at hty hkn ⊢
    by_cases hap : (a : Int) = p
    · rw [← hap, Function.update_same] at hty hkn hbr
      have hr0 : r.size = 0 := hrs (by rw [← hrt, hty]; exact Ne.symm hTy)
      rw [hr0] at hkn hbr
      have hsz : toInt (toSizeT 0 + sizeof_dir_ent_t c) = (sizeof_dir_ent_t c : Int) := by
        rw [toSizeT_of_nonneg 0 (le_refl _) (by omega)]
        simp only [Int.toNat_zero, Nat.zero_add]
        exact toInt_of_lt _ (by omega)
      unfold numBlocks at hkn
      dsimp only at hkn
      rw [hsz] at hkn
      have hle := divide_le_of_le_mul (sizeof_dir_ent_t c : Int) (c.UFS_BLOCK_SIZE : Int) 1 hB'
        (by omega) (by omega)
      have hk0 : k = 0 := by omega
      rcases hbr with ⟨hne, _⟩ | ⟨_, bit, hb1, hb2, hb3, hb4⟩
      · exact absurd (by simp) hne
      · rw [hb4, hk0]
        have h0 : Int.tdiv 0 (c.UFS_BLOCK_SIZE : Int) = 0 := by simp
        rw [h0]
        refine ⟨bit.toNat, by omega, ?_⟩
        have hc : ((0 : Nat) : Int) = 0 := rfl
        rw [hc, Function.update_same]
        omega
    · rw [Function.update_noteq (Ne.symm hap)] at hty
      exact absurd (hdir.symm.trans hty) hTy
  · rw [Function.update_noteq hip] at hty hkn ⊢
    by_cases hia : (i : Int) = (a : Int)
    · rw [hia, Function.update_same] at hty hkn
      have hr0 : r.size = 0 := hrs (by rw [← hrt, hty]; exact Ne.symm hTy)
      unfold numBlocks at hkn
      rw [hr0, divide_zero _ hB'] at hkn
      omega
    · rw [Function.update_noteq hia] at hty hkn ⊢
      have huse' : inUse d (i : Int) := by
        unfold inUse at huse ⊢
        rw [C2, findBit_copyRegion c _ _ _ i (by have := hL.2.2.2.1; omega),
          findBit_createBit] at huse
        have hne : i ≠ a := fun h => hia (by rw [h])
        simp only [hne, decide_False, Bool.false_or] at huse
        rw [inUse_of_readInodeBitmap c d _ i hL (by omega)] at huse
        exact huse
      exact hinv i (by omega) huse' hty k hk hkn

theorem write_fileBlocksValid (c : Cfg) (junk : Nat → Int → Nat) (d : Disk) (i : Int)
    (buffer : Int → Nat) (n : Int)
    (hB : 0 < c.UFS_BLOCK_SIZE)
    (hL : Layout c d) (hinv : FileBlocksValid c d) :
    FileBlocksValid c (commit c d (write c junk d i buffer n).2) := by
  rcases write_cases c junk d i buffer n with h | ⟨hi, hn, ht, bm', dir', hal⟩
  · rw [h, commit_nil]; exact hinv
  obtain ⟨_, W1, W2, W3, W4, _, _⟩ := write_commit c junk d i buffer n hB hi hn ht bm' dir' hal
  obtain ⟨A1, A2, _, _, _⟩ := allocBlocks_spec c d.super _ hL.2.2.2.2.2 _ _ _ _ _ _ hal
  intro j hj huse hty k hk hkn
  rw [W1] at hj ⊢
  unfold inUse at huse
  rw [W2] at huse
  by_cases hji : (j : Int) = i
  · rw [hji] at huse
    rw [hji, W3] at hkn ⊢
    unfold numBlocks at hkn
    dsimp only at hkn ⊢
    by_cases hold : (k : Int) < numBlocks c (d.inodes i)
    · rw [A1 (k : Int) (by left; omega)]
      have := hinv j hj (by unfold inUse; rw [hji]; exact huse) (by rw [hji]; exact ht) k hk
        (by rw [hji]; exact hold)
      rw [hji] at this
      exact this
    · have hlt : ((k : Int) - numBlocks c (d.inodes i)).toNat <
          (max 0 (divide n (c.UFS_BLOCK_SIZE : Int) - numBlocks c (d.inodes i))).toNat := by
        omega
      obtain ⟨m, hm1, hm2, _⟩ := A2 _ hlt
      have hidx : numBlocks c (d.inodes i) + ((0 : Nat) : Int) +
          ((((k : Int) - numBlocks c (d.inodes i)).toNat : Nat) : Int) = (k : Int) := by
        omega
      rw [hidx] at hm2
      exact ⟨m, hm1, hm2⟩
  · rw [W4 _ hji] at hty hkn ⊢
    exact hinv j hj huse hty k hk hkn

theorem unlink_fileBlocksValid (c : Cfg) (junk : Nat → Int → Nat) (d : Disk) (p : Int)
    (name : List Nat)
    (hTy : c.UFS_DIRECTORY ≠ c.UFS_REGULAR_FILE)
    (hL : Layout c d) (hinv : FileBlocksValid c d) :
    FileBlocksValid c (commit c d (unlink c junk d p name).2) := by
  rcases unlink_shape c junk d p name with h | ⟨hp, hdir, x, par, dbm, r, f, g, hpt, heq⟩
  · rw [h, commit_nil]; exact hinv
  rw [heq, commit_append]
  obtain ⟨B1, B2, B3, _, _, _⟩ := commit_blocks c f g r
    (commit c d [BlockWrite.inodeRegion (Function.update d.inodes p par), BlockWrite.dataBitmap dbm,
      BlockWrite.inodeBitmap (delBit (readInodeBitmap c d (junk 1)) x)])
  intro i hi huse hty k hk hkn
  unfold inUse at huse
  rw [B1] at hi ⊢
  rw [B2] at hty hkn ⊢
  rw [B3] at huse
  simp only [commit_cons, commit_nil, Disk.apply] at hi huse hty hkn ⊢
  have hir : (0 : Int) ≤ (i : Int) ∧ (i : Int) < d.super.num_inodes := by omega
  simp only [hir, and_self, if_true] at hty hkn ⊢
  by_cases hip : (i : Int) = p
  · rw [hip, Function.update_same] at hty
    exact absurd ((hdir.symm.trans hpt.symm).trans hty) hTy
  · rw [Function.update_noteq hip] at hty hkn ⊢
    rw [findBit_copyRegion c _ _ _ i (by have := hL.2.2.2.1; omega)] at huse
    have h2 := findBit_delBit_imp _ _ _ huse
    rw [inUse_of_readInodeBitmap c d _ i hL (by omega)] at h2
    exact hinv i hi h2 hty k hk hkn

theorem commit_super (c : Cfg) (ws : List BlockWrite) (d : Disk) :
    (commit c d ws).super = d.super := by
  induction ws generalizing d with
  | nil => rfl
  | cons w ws ih =>
    rw [commit_cons, ih]
    cases w <;> rfl

theorem layout_commit (c : Cfg) (ws : List BlockWrite) (d : Disk) (hL : Layout c d) :
    Layout c (commit c d ws) := by
  unfold Layout at hL ⊢
  rw [commit_super]
  exact hL

/-- A property of the image that every successful call writing only blocks of
the data region preserves holds after every sequence of such calls. -/
theorem runCalls_induction (c : Cfg) (Inv : Disk → Prop)
    (hstep : ∀ (d : Disk) (junk : Nat → Int → Nat) (call : Call), Inv d →
      0 ≤ (Call.exec c junk d call).1 →
      (∀ b ∈ writtenBlocks (Call.exec c junk d call).2, d.super.data_region_addr ≤ b) →
      Inv (commit c d (Call.exec c junk d call).2))
    (calls : List ((Nat → Int → Nat) × Call)) (d0 : Disk) (h0 : Inv d0) :
    ∀ d ∈ runCalls c d0 calls, Inv d := by
  induction calls generalizing d0 with
  | nil =>
    intro d hd
    unfold runCalls at hd
    rw [Option.mem_def, Option.some.injEq] at hd
    rw [← hd]; exact h0
  | cons jc rest ih =>
    intro d hd
    unfold runCalls at hd
    split at hd
    · rename_i hok
      exact ih _ (hstep d0 jc.1 jc.2 h0 hok.1 hok.2) d hd
    · simp at hd

theorem numBlocks_le_ptrs (c : Cfg) (inode : inode_t) (hB : 0 < c.UFS_BLOCK_SIZE)
    (h : 0 ≤ inode.size ∧ inode.size ≤ MAX_FILE_SIZE c) :
    0 ≤ numBlocks c inode ∧ numBlocks c inode ≤ (c.DIRECT_PTRS : Int) := by
  have hB' : (0 : Int) < (c.UFS_BLOCK_SIZE : Int) := by exact_mod_cast hB
  unfold numBlocks
  exact ⟨divide_nonneg _ _ hB' h.1,
    divide_le_of_le_mul _ _ _ hB' h.1 (by unfold MAX_FILE_SIZE at h; exact h.2)⟩

/-- Bytes `0 .. size` of a file are the same on two images when the blocks of
its first `ceil(size / block_size)` pointers are. -/
theorem fileData_eq_of_blocks (c : Cfg) (d d' : Disk) (ino ino' : inode_t)
    (hB : 0 < c.UFS_BLOCK_SIZE)
    (h : ∀ k : Nat, (k : Int) < numBlocks c ino →
      ∀ y : Int, 0 ≤ y → y < (c.UFS_BLOCK_SIZE : Int) →
        d'.blocks (ino'.direct (k : Int)) y = d.blocks (ino.direct (k : Int)) y) :
    ∀ x : Int, 0 ≤ x → x < ino.size → fileData c d' ino' x = fileData c d ino x := by
  have hB' : (0 : Int) < (c.UFS_BLOCK_SIZE : Int) := by exact_mod_cast hB
  intro x hx0 hx1
  unfold fileData
  have hq0 : 0 ≤ x / (c.UFS_BLOCK_SIZE : Int) := Int.ediv_nonneg hx0 (le_of_lt hB')
  have hdm : (c.UFS_BLOCK_SIZE : Int) * (x / (c.UFS_BLOCK_SIZE : Int))
      + x % (c.UFS_BLOCK_SIZE : Int) = x := Int.ediv_add_emod _ _
  have hm0 : 0 ≤ x % (c.UFS_BLOCK_SIZE : Int) := Int.emod_nonneg _ (ne_of_gt hB')
  have hmB : x % (c.UFS_BLOCK_SIZE : Int) < (c.UFS_BLOCK_SIZE : Int) := Int.emod_lt_of_pos _ hB'
  have hlt : x / (c.UFS_BLOCK_SIZE : Int) < numBlocks c ino := by
    unfold numBlocks
    apply lt_divide_of_mul_lt _ _ _ hB' (by omega)
    rw [mul_comm]; omega
  have := h (x / (c.UFS_BLOCK_SIZE : Int)).toNat (by rw [Int.toNat_of_nonneg hq0]; exact hlt)
    _ hm0 hmB
  rw [Int.toNat_of_nonneg hq0] at this
  exact this

/-- The entries `0 .. size / sizeof(dir_ent_t)` of two byte arrays that agree on
the bytes `0 .. size` are the same. -/
theorem entry_eq_of_bytes (c : Cfg) (fd fd' : Int → Nat) (size : Int)
    (h : ∀ x : Int, 0 ≤ x → x < size → fd' x = fd x)
    (e : Nat) (he : (e : Int) < size / (sizeof_dir_ent_t c : Int)) :
    entName c fd' (e : Int) = entName c fd (e : Int) ∧
    entInum c fd' (e : Int) = entInum c fd (e : Int) := by
  have hES := sizeof_dir_ent_t_pos c
  have hES' : (0 : Int) < (sizeof_dir_ent_t c : Int) := by exact_mod_cast hES
  have hEN : (sizeof_dir_ent_t c : Int) = (c.DIR_ENT_NAME_SIZE : Int) + 4 := by
    unfold sizeof_dir_ent_t; push_cast; rfl
  have hle : size / (sizeof_dir_ent_t c : Int) * (sizeof_dir_ent_t c : Int) ≤ size :=
    Int.ediv_mul_le _ (ne_of_gt hES')
  have hslot : ∀ k : Int, (e : Int) * (sizeof_dir_ent_t c : Int) ≤ k →
      k < (e : Int) * (sizeof_dir_ent_t c : Int) + (sizeof_dir_ent_t c : Int) →
      fd' k = fd k := by
    intro k hk1 hk2
    have := slot_bounds (sizeof_dir_ent_t c : Int) (c.DIR_ENT_NAME_SIZE : Int) (e : Int)
      (size / (sizeof_dir_ent_t c : Int)) k hEN (by omega) (by omega) he hk1 hk2
    exact h k this.1 (by omega)
  constructor
  · apply entName_congr
    intro k hk1 hk2
    exact hslot k hk1 (by omega)
  · apply entInum_congr
    intro k hk1 hk2
    exact hslot k (by omega) hk2

theorem numEntries_cast (c : Cfg) (inode : inode_t) (h : 0 ≤ inode.size) :
    ((numEntries c inode : Nat) : Int) = inode.size / (sizeof_dir_ent_t c : Int) := by
  have hES := sizeof_dir_ent_t_pos c
  unfold numEntries
  exact Int.toNat_of_nonneg (Int.ediv_nonneg h (by omega))

/-- The entries of a directory are the same on two images when the record and
the blocks of its first `ceil(size / block_size)` pointers are. -/
theorem child_eq_of_blocks (c : Cfg) (d d' : Disk) (q : Int)
    (hB : 0 < c.UFS_BLOCK_SIZE)
    (hq : d'.inodes q = d.inodes q) (hsz : 0 ≤ (d.inodes q).size)
    (h : ∀ k : Nat, (k : Int) < numBlocks c (d.inodes q) →
      ∀ y : Int, 0 ≤ y → y < (c.UFS_BLOCK_SIZE : Int) →
        d'.blocks ((d.inodes q).direct (k : Int)) y = d.blocks ((d.inodes q).direct (k : Int)) y)
    (e : Nat) (he : e < numEntries c (d.inodes q)) :
    entName c (fileData c d' (d'.inodes q)) (e : Int) =
      entName c (fileData c d (d.inodes q)) (e : Int) ∧
    child c d' q e = child c d q e := by
  unfold child
  rw [hq]
  have hne := numEntries_cast c (d.inodes q) hsz
  exact entry_eq_of_bytes c _ _ (d.inodes q).size
    (fileData_eq_of_blocks c d d' (d.inodes q) (d.inodes q) hB h) e (by omega)

/-- A `write` on a live inode keeps the image consistent. -/
theorem write_sound (c : Cfg) (junk : Nat → Int → Nat) (d : Disk) (i : Int)
    (buffer : Int → Nat) (n : Int)
    (hB : 0 < c.UFS_BLOCK_SIZE) (hTy : c.UFS_DIRECTORY ≠ c.UFS_REGULAR_FILE)
    (S : Sound c d) (huse : inUse d i) :
    Sound c (commit c d (write c junk d i buffer n).2) := by
  rcases write_cases c junk d i buffer n with h | ⟨hi, hn, ht, bm', dir', hal⟩
  · rw [h, commit_nil]; exact S
  have hB' : (0 : Int) < (c.UFS_BLOCK_SIZE : Int) := by exact_mod_cast hB
  have hli : live d i := ⟨hi.1, hi.2, huse⟩
  obtain ⟨_, W1, W2, W3, W4, W5, W6⟩ := write_commit c junk d i buffer n hB hi hn ht bm' dir' hal
  have hsz := S.sizes i hli
  have hN := S.layout.2.2.2.2.2
  have hvalid := S.valid i hli
  have hdist : ∀ k k' : Nat, (k : Int) < numBlocks c (d.inodes i) →
      (k' : Int) < numBlocks c (d.inodes i) →
      (d.inodes i).direct (k : Int) = (d.inodes i).direct (k' : Int) → k = k' :=
    fun k k' h1 h2 h3 => (S.distinct i i hli hli k k' h1 h2 h3).2
  obtain ⟨P1, P2, P3⟩ := write_pointers c d i n (junk 0) hB hN hsz.1 hvalid hdist bm' dir' hal
  have hcur0 : 0 ≤ numBlocks c (d.inodes i) := (numBlocks_le_ptrs c _ hB hsz).1
  have hreq0 : 0 ≤ divide n (c.UFS_BLOCK_SIZE : Int) := divide_nonneg _ _ hB' hn.1
  have hbits : ∀ j : Nat, j < d.super.num_data.toNat →
      (findBit (commit c d (write c junk d i buffer n).2).dataBitmap (j : Int) = true ↔
        (findBit d.dataBitmap (j : Int) = true ∧ ∀ k : Nat,
          divide n (c.UFS_BLOCK_SIZE : Int) ≤ (k : Int) → (k : Int) < numBlocks c (d.inodes i) →
          dir' (k : Int) ≠ d.super.data_region_addr + (j : Int)) ∨
        ∃ k : Nat, numBlocks c (d.inodes i) ≤ (k : Int) ∧
          (k : Int) < divide n (c.UFS_BLOCK_SIZE : Int) ∧
          dir' (k : Int) = d.super.data_region_addr + (j : Int)) := by
    intro j hj
    rw [W5]
    by_cases hcr : numBlocks c (d.inodes i) ≤ divide n (c.UFS_BLOCK_SIZE : Int)
    · rw [(write_bitmap_grow c d i n (junk 0) hN hcur0 hcr bm' dir' hal).1 j hj]
      constructor
      · rintro (h | h)
        · exact Or.inl ⟨h, fun k h1 h2 => by omega⟩
        · exact Or.inr h
      · rintro (h | h)
        · exact Or.inl h.1
        · exact Or.inr h
    · obtain ⟨hd, hb, _⟩ := write_bitmap_shrink c d i n (junk 0) hN hreq0 (by omega) hvalid hdist
        bm' dir' hal
      rw [hb j hj, hd]
      constructor
      · intro h
        exact Or.inl h
      · rintro (h | ⟨k, h1, h2, _⟩)
        · exact h
        · omega
  have hcross : ∀ x : Int, live d x → x ≠ i → ∀ k k' : Nat,
      (k : Int) < divide n (c.UFS_BLOCK_SIZE : Int) → (k' : Int) < numBlocks c (d.inodes x) →
      dir' (k : Int) ≠ (d.inodes x).direct (k' : Int) := by
    intro x hx hxi k k' hk hk' heq
    obtain ⟨m, _, hm2, hm3⟩ := P2 k (by rw [lt_max_iff]; right; exact hk)
    obtain ⟨m', _, hm2', hm3'⟩ := S.valid x hx k' hk'
    have hmm : m = m' := by omega
    rw [hmm] at hm3
    have hkc := hm3.1 hm3'
    rw [P1 _ hkc] at heq
    exact hxi (S.distinct i x hli hx k k' hkc hk' heq).1.symm
  have hrec : (commit c d (write c junk d i buffer n).2).inodes i =
      { type := (d.inodes i).type, size := n, direct := dir' } := W3
  generalize commit c d (write c junk d i buffer n).2 = d' at W1 W2 W4 W6 hbits hrec ⊢
  clear W3 W5
  have hlive : ∀ x : Int, live d' x ↔ live d x := by
    intro x
    unfold live inUse
    rw [W1, W2]
  have hnb : numBlocks c (d'.inodes i) = divide n (c.UFS_BLOCK_SIZE : Int) := by
    rw [hrec]; rfl
  have hblk : ∀ x : Int, live d x → x ≠ i → ∀ k : Nat, (k : Int) < numBlocks c (d.inodes x) →
      d'.blocks ((d.inodes x).direct (k : Int)) = d.blocks ((d.inodes x).direct (k : Int)) := by
    intro x hx hxi k hk
    exact W6 _ (fun k' hk' => hcross x hx hxi k' k hk' hk)
  have hkeep : ∀ x : Int, live d x → x ≠ i → ∀ k : Nat, (k : Int) < numBlocks c (d.inodes x) →
      ∀ m : Nat, m < d.super.num_data.toNat →
      (d.inodes x).direct (k : Int) = d.super.data_region_addr + (m : Int) →
      findBit d.dataBitmap (m : Int) = true → findBit d'.dataBitmap (m : Int) = true := by
    intro x hx hxi k hk m hm hmeq hbit
    rw [hbits m hm]
    left
    refine ⟨hbit, fun k'' h1 h2 hcon => ?_⟩
    rw [P1 _ h2, ← hmeq] at hcon
    exact hxi (S.distinct i x hli hx k'' k h2 hk hcon).1.symm
  refine ⟨?_, ?_, ?_, ?_, ?_, ?_, ?_, ?_⟩
  · have := S.layout
    unfold Layout at this ⊢
    rw [W1]; exact this
  · intro x hx
    by_cases hxi : x = i
    · rw [hxi, hrec]; exact hn
    · rw [W4 x hxi]; exact S.sizes x ((hlive x).1 hx)
  · intro x hx k hk
    rw [W1]
    by_cases hxi : x = i
    · rw [hxi] at hk ⊢
      rw [hnb] at hk
      rw [hrec]
      dsimp only
      obtain ⟨m, hm1, hm2, hm3⟩ := P2 k (by rw [lt_max_iff]; right; exact hk)
      refine ⟨m, hm1, hm2, ?_⟩
      rw [hbits m hm1]
      by_cases hkc : (k : Int) < numBlocks c (d.inodes i)
      · left
        refine ⟨hm3.2 hkc, fun k'' h1 h2 hcon => ?_⟩
        rw [← hm2] at hcon
        have := P3 k'' k (by rw [lt_max_iff]; left; exact h2)
          (by rw [lt_max_iff]; right; exact hk) hcon
        omega
      · right
        exact ⟨k, by omega, hk, hm2⟩
    · rw [W4 x hxi] at hk ⊢
      have hx' := (hlive x).1 hx
      obtain ⟨m, hm1, hm2, hm3⟩ := S.valid x hx' k hk
      exact ⟨m, hm1, hm2, hkeep x hx' hxi k hk m hm1 hm2 hm3⟩
  · intro x x' hx hx' k k' hk hk' heq
    have hxl := (hlive x).1 hx
    have hxl' := (hlive x').1 hx'
    by_cases hxi : x = i
    · by_cases hxi' : x' = i
      · rw [hxi] at hk heq
        rw [hxi'] at hk' heq
        rw [hnb] at hk hk'
        rw [hrec] at heq
        exact ⟨by rw [hxi, hxi'], P3 k k' (by rw [lt_max_iff]; right; exact hk)
          (by rw [lt_max_iff]; right; exact hk') heq⟩
      · rw [hxi] at hk heq
        rw [hnb] at hk
        rw [hrec, W4 x' hxi'] at heq
        rw [W4 x' hxi'] at hk'
        exact absurd heq (hcross x' hxl' hxi' k k' hk hk')
    · by_cases hxi' : x' = i
      · rw [hxi'] at hk' heq
        rw [hnb] at hk'
        rw [hrec, W4 x hxi] at heq
        rw [W4 x hxi] at hk
        exact absurd heq.symm (hcross x hxl hxi k' k hk' hk)
      · rw [W4 x hxi] at hk heq
        rw [W4 x' hxi'] at hk' heq
        exact S.distinct x x' hxl hxl' k k' hk hk' heq
  · intro j hj hbit
    rw [W1] at hj ⊢
    rcases (hbits j hj).1 hbit with ⟨hb, hnc⟩ | ⟨k, hk1, hk2, hk3⟩
    · obtain ⟨i0, hi0, k0, hk0, hk0'⟩ := S.owned j hj hb
      by_cases hi0i : i0 = i
      · rw [hi0i] at hk0 hk0'
        have hlt : (k0 : Int) < divide n (c.UFS_BLOCK_SIZE : Int) := by
          by_contra hcon
          exact hnc k0 (by omega) hk0 (by rw [P1 _ hk0]; exact hk0')
        refine ⟨i, (hlive i).2 hli, k0, by rw [hnb]; exact hlt, ?_⟩
        rw [hrec]
        dsimp only
        rw [P1 _ hk0]; exact hk0'
      · refine ⟨i0, (hlive i0).2 hi0, k0, ?_, ?_⟩
        · rw [W4 i0 hi0i]; exact hk0
        · rw [W4 i0 hi0i]; exact hk0'
    · refine ⟨i, (hlive i).2 hli, k, by rw [hnb]; exact hk2, ?_⟩
      rw [hrec]
      exact hk3
  · intro q hq hqd
    have hqi : q ≠ i := by
      intro h
      rw [h, hrec] at hqd
      exact hTy (hqd.symm.trans ht)
    have hq' := (hlive q).1 hq
    rw [W4 q hqi] at hqd
    obtain ⟨D1, D2, D3, D4⟩ := S.dirShape q hq' hqd
    have hES := sizeof_dir_ent_t_pos c
    have hne := numEntries_cast c (d.inodes q) (S.sizes q hq').1
    have hn2 : 2 ≤ numEntries c (d.inodes q) := by
      have : (2 : Int) ≤ (d.inodes q).size / (sizeof_dir_ent_t c : Int) :=
        Int.le_ediv_of_mul_le (by omega) D1
      omega
    have hc := child_eq_of_blocks c d d' q hB (W4 q hqi) (S.sizes q hq').1
      (fun k hk y _ _ => by rw [hblk q hq' hqi k hk])
    rw [(hc 0 (by omega)).1, (hc 1 (by omega)).1]
    rw [W4 q hqi]
    exact ⟨D1, D2, D3, D4⟩
  · intro q hq hqd e he2 hen
    have hqi : q ≠ i := by
      intro h
      rw [h, hrec] at hqd
      exact hTy (hqd.symm.trans ht)
    have hq' := (hlive q).1 hq
    rw [W4 q hqi] at hqd hen
    have hc := child_eq_of_blocks c d d' q hB (W4 q hqi) (S.sizes q hq').1
      (fun k hk y _ _ => by rw [hblk q hq' hqi k hk])
    rw [(hc e hen).2]
    exact (hlive _).2 (S.childLive q hq' hqd e he2 hen)
  · intro q q' hq hq' hqd hqd' e e' he2 he2' hen hen' heq
    have hqi : q ≠ i := by
      intro h
      rw [h, hrec] at hqd
      exact hTy (hqd.symm.trans ht)
    have hqi' : q' ≠ i := by
      intro h
      rw [h, hrec] at hqd'
      exact hTy (hqd'.symm.trans ht)
    have hql := (hlive q).1 hq
    have hql' := (hlive q').1 hq'
    rw [W4 q hqi] at hqd hen
    rw [W4 q' hqi'] at hqd' hen'
    have hc := child_eq_of_blocks c d d' q hB (W4 q hqi) (S.sizes q hql).1
      (fun k hk y _ _ => by rw [hblk q hql hqi k hk])
    have hc' := child_eq_of_blocks c d d' q' hB (W4 q' hqi') (S.sizes q' hql').1
      (fun k hk y _ _ => by rw [hblk q' hql' hqi' k hk])
    rw [(hc e hen).2, (hc' e' hen').2] at heq
    exact S.childInj q q' hql hql' hqd hqd' e e' he2 he2' hen hen' heq

/-- The image after the tail of `create`, for a live parent on a consistent
image: the bitmaps, the inode table, the blocks and the parent directory. -/
theorem createEntry_effect (c : Cfg) (junk : Nat → Int → Nat) (d : Disk)
    (p : Int) (name : List Nat) (ibm dbm : Int → Nat) (inodes : Int → inode_t)
    (a nb : Int) (nent : Int → Nat) (P : Nat)
    (hP : c.UFS_BLOCK_SIZE = P * sizeof_dir_ent_t c) (hP0 : 0 < P)
    (hE : 0 < c.ENOTENOUGHSPACE) (hL : Layout c d)
    (hp : 0 ≤ p ∧ p < d.super.num_inodes)
    (hino : inodes p = d.inodes p)
    (hsz : 0 ≤ (d.inodes p).size)
    (hsz2 : (d.inodes p).size + (sizeof_dir_ent_t c : Int) < 2147483648)
    (hmodE : (d.inodes p).size % (sizeof_dir_ent_t c : Int) = 0)
    (hvalid : ∀ k : Nat, (k : Int) < numBlocks c (d.inodes p) →
      ∃ m : Nat, m < d.super.num_data.toNat ∧
        (d.inodes p).direct (k : Int) = d.super.data_region_addr + (m : Int) ∧
        findBit d.dataBitmap (m : Int) = true)
    (hdist : ∀ k k' : Nat, (k : Int) < numBlocks c (d.inodes p) →
      (k' : Int) < numBlocks c (d.inodes p) →
      (d.inodes p).direct (k : Int) = (d.inodes p).direct (k' : Int) → k = k')
    (hdbm : ∀ j : Nat, j < d.super.num_data.toNat → findBit dbm (j : Int) = false →
      findBit d.dataBitmap (j : Int) = false)
    (hnb : nb = -1 ∨ ∃ m : Nat, m < d.super.num_data.toNat ∧
      nb = d.super.data_region_addr + (m : Int) ∧
      findBit d.dataBitmap (m : Int) = false ∧ findBit dbm (m : Int) = true)
    (ha : 0 ≤ a ∧ a < 2147483648)
    (hlen : name.length < c.DIR_ENT_NAME_SIZE)
    (hs : 0 ≤ (createEntry c junk d p name ibm dbm inodes a nb nent).1)
    (hreg : ∀ b content,
      BlockWrite.block b content ∈ (createEntry c junk d p name ibm dbm inodes a nb nent).2 →
      d.super.data_region_addr ≤ b) :
    ∃ (dbm' : Int → Nat) (direct' : Int → Int),
      (createEntry c junk d p name ibm dbm inodes a nb nent).1 = a ∧
      (commit c d (createEntry c junk d p name ibm dbm inodes a nb nent).2).inodeBitmap =
        copyRegion c d.super.inode_bitmap_len ibm d.inodeBitmap ∧
      (commit c d (createEntry c junk d p name ibm dbm inodes a nb nent).2).dataBitmap =
        copyRegion c d.super.data_bitmap_len dbm' d.dataBitmap ∧
      (commit c d (createEntry c junk d p name ibm dbm inodes a nb nent).2).inodes p =
        { type := (d.inodes p).type, size := (d.inodes p).size + (sizeof_dir_ent_t c : Int),
          direct := direct' } ∧
      (∀ i : Int, 0 ≤ i → i < d.super.num_inodes → i ≠ p →
        (commit c d (createEntry c junk d p name ibm dbm inodes a nb nent).2).inodes i =
          inodes i) ∧
      (∀ b : Int, b ≠ direct' ((d.inodes p).size / (c.UFS_BLOCK_SIZE : Int)) →
        (nb = -1 ∨ b ≠ nb) →
        (commit c d (createEntry c junk d p name ibm dbm inodes a nb nent).2).blocks b =
          d.blocks b) ∧
      (nb ≠ -1 → ∀ x : Int, 0 ≤ x → x < (c.UFS_BLOCK_SIZE : Int) →
        (commit c d (createEntry c junk d p name ibm dbm inodes a nb nent).2).blocks nb x =
          nent x) ∧
      Appended c d (commit c d (createEntry c junk d p name ibm dbm inodes a nb nent).2) p a
        (c_str name) ∧
      (((d.inodes p).size % (c.UFS_BLOCK_SIZE : Int) = 0 ∧ ∃ mp : Nat,
          mp < d.super.num_data.toNat ∧ findBit dbm (mp : Int) = false ∧
          dbm' = createBit dbm (mp : Int) ∧
          direct' = Function.update (d.inodes p).direct
            ((d.inodes p).size / (c.UFS_BLOCK_SIZE : Int))
            (d.super.data_region_addr + (mp : Int))) ∨
        ((d.inodes p).size % (c.UFS_BLOCK_SIZE : Int) ≠ 0 ∧ dbm' = dbm ∧
          direct' = (d.inodes p).direct)) := by
  have hB : 0 < c.UFS_BLOCK_SIZE := by
    rw [hP]; exact Nat.mul_pos hP0 (sizeof_dir_ent_t_pos c)
  by_cases hmod : (d.inodes p).size % (c.UFS_BLOCK_SIZE : Int) = 0
  · have hApp := createEntry_appends_new c junk d p name ibm dbm inodes a nb nent P hP hP0 hE hL
      hp hino hsz hsz2 hmod hvalid hdbm hnb ha hlen hs hreg
    rw [← hino] at hsz hsz2 hmod
    obtain ⟨he1, he2, heq⟩ := createEntry_new_block c junk d p name ibm dbm inodes a nb nent
      hB hE hsz hsz2 hmod hs
    rw [hino] at hsz hsz2 hmod heq
    rw [heq] at hreg hApp ⊢
    dsimp only at hreg hApp ⊢
    have hge : 0 ≤ findFirstBit dbm (d.super.data_bitmap_len * (c.UFS_BLOCK_SIZE : Int)) := by
      have := hreg (d.super.data_region_addr +
        findFirstBit dbm (d.super.data_bitmap_len * (c.UFS_BLOCK_SIZE : Int)))
        (newParentEntries c junk a name) (by simp [createWrites])
      omega
    rcases findFirstBit_cases dbm (d.super.data_bitmap_len * (c.UFS_BLOCK_SIZE : Int))
      with ⟨h1, _⟩ | ⟨m', h1, _, h3, _⟩
    · omega
    rw [h1] at he2 hApp ⊢
    have hm'N : m' < d.super.num_data.toNat := by omega
    obtain ⟨_, C2, C3, C4, C5, _, C7⟩ := commit_createWrites c d ibm
      (createBit dbm (m' : Int))
      (Function.update inodes p
        { type := (d.inodes p).type, size := (d.inodes p).size + (sizeof_dir_ent_t c : Int),
          direct := Function.update (d.inodes p).direct
            ((d.inodes p).size / (c.UFS_BLOCK_SIZE : Int))
            (d.super.data_region_addr + (m' : Int)) })
      (d.super.data_region_addr + (m' : Int)) (newParentEntries c junk a name) nb nent
    refine ⟨createBit dbm (m' : Int), Function.update (d.inodes p).direct
      ((d.inodes p).size / (c.UFS_BLOCK_SIZE : Int)) (d.super.data_region_addr + (m' : Int)),
      rfl, C2, C3, ?_, ?_, ?_, C7, hApp.2, Or.inl ⟨hmod, m', hm'N, h3, rfl, rfl⟩⟩
    · rw [C4]
      dsimp only
      rw [if_pos hp, Function.update_same]
    · intro i hi0 hi1 hip
      rw [C4]
      dsimp only
      rw [if_pos ⟨hi0, hi1⟩, Function.update_noteq hip]
    · intro b hb hb2
      rw [Function.update_same] at hb
      exact C5 b hb hb2
  · have hApp := createEntry_appends_last c junk d p name ibm dbm inodes a nb nent P hP hP0 hL
      hp hino hsz hsz2 hmodE hmod hvalid hdist hnb ha hlen
    rw [← hino] at hsz hsz2 hmod
    have heq := createEntry_last_block c junk d p name ibm dbm inodes a nb nent hB hsz hsz2 hmod
    rw [hino] at hsz hsz2 hmod heq
    rw [heq] at hApp ⊢
    dsimp only at hApp ⊢
    obtain ⟨_, C2, C3, C4, C5, _, C7⟩ := commit_createWrites c d ibm dbm
      (Function.update inodes p
        { type := (d.inodes p).type, size := (d.inodes p).size + (sizeof_dir_ent_t c : Int),
          direct := (d.inodes p).direct })
      ((d.inodes p).direct ((d.inodes p).size / (c.UFS_BLOCK_SIZE : Int)))
      (setName c (setInum c
          (d.blocks ((d.inodes p).direct ((d.inodes p).size / (c.UFS_BLOCK_SIZE : Int))))
          ((d.inodes p).size % (c.UFS_BLOCK_SIZE : Int) / (sizeof_dir_ent_t c : Int)) a)
          ((d.inodes p).size % (c.UFS_BLOCK_SIZE : Int) / (sizeof_dir_ent_t c : Int)) name)
      nb nent
    refine ⟨dbm, (d.inodes p).direct, rfl, C2, C3, ?_, ?_, C5, C7, hApp.2,
      Or.inr ⟨hmod, rfl, rfl⟩⟩
    · rw [C4]
      dsimp only
      rw [if_pos hp, Function.update_same]
    · intro i hi0 hi1 hip
      rw [C4]
      dsimp only
      rw [if_pos ⟨hi0, hi1⟩, Function.update_noteq hip]

/-- The method `create` either returns before the transaction or its arguments
are valid, the parent is not full and the allocation step `createInode` runs on
the bitmaps and the inode table as read from the image. -/
theorem create_cases (c : Cfg) (junk : Nat → Int → Nat) (d : Disk) (p t : Int)
    (name : List Nat) :
    (create c junk d p t name).2 = [] ∨
    ((0 ≤ p ∧ p < d.super.num_inodes) ∧ (d.inodes p).type = c.UFS_DIRECTORY ∧
      name.length < c.DIR_ENT_NAME_SIZE ∧
      (d.inodes p).size ≠ (c.UFS_BLOCK_SIZE : Int) * (c.DIRECT_PTRS : Int) ∧
      create c junk d p t name =
        createInode c junk d p t name (readInodeBitmap c d (junk 3))
          (readDataBitmap c d (junk 4)) d.inodes) := by
  unfold create
  simp only [readSuperBlock, readInodeRegion]
  by_cases hchk : checkInode d.super p = true
  swap
  · left
    rw [if_pos (by simp [hchk])]
  rw [if_neg (by simp [hchk])]
  have hp := (checkInode_iff _ _).1 hchk
  split
  · exact Or.inl rfl
  rename_i hlen
  split
  · exact Or.inl rfl
  split
  · exact Or.inl rfl
  rename_i hdir
  split
  · exact Or.inl rfl
  rename_i hfull
  split
  · left
    split <;> rfl
  · right
    exact ⟨hp, by by_contra h; exact hdir h, by simpa using hlen, hfull, rfl⟩

/-- A directory that is not full has room for one more entry. -/
theorem size_add_entry_le (c : Cfg) (size : Int) (P : Nat)
    (hP : c.UFS_BLOCK_SIZE = P * sizeof_dir_ent_t c)
    (hsz : size ≤ MAX_FILE_SIZE c)
    (hmodE : size % (sizeof_dir_ent_t c : Int) = 0)
    (hnf : size ≠ (c.UFS_BLOCK_SIZE : Int) * (c.DIRECT_PTRS : Int)) :
    size + (sizeof_dir_ent_t c : Int) ≤ MAX_FILE_SIZE c := by
  have hES := sizeof_dir_ent_t_pos c
  have hES' : (0 : Int) < (sizeof_dir_ent_t c : Int) := by exact_mod_cast hES
  have hBE : (c.UFS_BLOCK_SIZE : Int) = (P : Int) * (sizeof_dir_ent_t c : Int) := by
    rw [← Nat.cast_mul, ← hP]
  have hMAX : (MAX_FILE_SIZE c : Int) =
      (sizeof_dir_ent_t c : Int) * ((P : Int) * (c.DIRECT_PTRS : Int)) := by
    unfold MAX_FILE_SIZE; rw [hBE]; ring
  have hu : (sizeof_dir_ent_t c : Int) * (size / (sizeof_dir_ent_t c : Int)) = size := by
    have := Int.ediv_add_emod size (sizeof_dir_ent_t c : Int)
    rw [hmodE] at this
    linarith
  have hlt : size < MAX_FILE_SIZE c := by
    have : (MAX_FILE_SIZE c : Int) = (c.UFS_BLOCK_SIZE : Int) * (c.DIRECT_PTRS : Int) := by
      unfold MAX_FILE_SIZE; ring
    omega
  rw [hMAX] at hlt ⊢
  rw [← hu] at hlt
  have hq := lt_of_mul_lt_mul_left hlt (le_of_lt hES')
  have h2 : (sizeof_dir_ent_t c : Int) * (size / (sizeof_dir_ent_t c : Int) + 1)
      ≤ (sizeof_dir_ent_t c : Int) * ((P : Int) * (c.DIRECT_PTRS : Int)) :=
    mul_le_mul_of_nonneg_left (by omega) (le_of_lt hES')
  linarith

/-- The allocation step of `create`, when it does not fail, in one form for
both types: the inode `a` taken, the block `md` taken for a new directory (none
for a regular file), and the arguments of the tail `createEntry`. -/
theorem createInode_uniform (c : Cfg) (junk : Nat → Int → Nat) (d : Disk)
    (p t : Int) (name : List Nat) (ibm dbm : Int → Nat) (inodes : Int → inode_t)
    (hE : 0 < c.ENOTENOUGHSPACE)
    (hN : d.super.num_data ≤ d.super.data_bitmap_len * (c.UFS_BLOCK_SIZE : Int) * 8)
    (hs : 0 ≤ (createInode c junk d p t name ibm dbm inodes).1) :
    ∃ (a : Nat) (md : Option Nat) (dbm0 : Int → Nat) (ra : inode_t) (nb : Int)
      (nent : Int → Nat),
      (a : Int) < d.super.num_inodes ∧ findBit ibm (a : Int) = false ∧
      (∀ j : Nat, findBit dbm0 (j : Int) = (findBit dbm (j : Int) || decide (md = some j))) ∧
      ra.type = t ∧
      ra.size = (match md with | some _ => 2 * (sizeof_dir_ent_t c : Int) | none => 0) ∧
      (∀ m : Nat, md = some m → m < d.super.num_data.toNat ∧ findBit dbm (m : Int) = false ∧
        t = c.UFS_DIRECTORY ∧ nb = d.super.data_region_addr + (m : Int) ∧
        nent = newDirEntries c junk (a : Int) p ∧
        ra.direct 0 = d.super.data_region_addr + (m : Int)) ∧
      (md = none → t ≠ c.UFS_DIRECTORY ∧ nb = -1) ∧
      createInode c junk d p t name ibm dbm inodes =
        createEntry c junk d p name (createBit ibm (a : Int)) dbm0
          (Function.update inodes (a : Int) ra) (a : Int) nb nent := by
  obtain ⟨a, _, ha2, ha3, _, hcase⟩ := createInode_nonneg c junk d p t name ibm dbm inodes hE hN hs
  rcases hcase with ⟨htd, m, _, hm2, hm3, _, heq⟩ | ⟨htd, heq⟩
  · refine ⟨a, some m, createBit dbm (m : Int), _, _, _, ha2, ha3, ?_, ?_, ?_, ?_, ?_, heq⟩
    · intro j
      rw [findBit_createBit, Bool.or_comm]
      congr 1
      by_cases h : j = m
      · simp [h]
      · have : ¬ (m = j) := fun h' => h h'.symm
        simp [h, this]
    · rfl
    · rfl
    · intro m' hm'
      have : m = m' := by simpa using hm'
      rw [← this]
      exact ⟨hm2, hm3, htd, rfl, rfl, by simp⟩
    · intro h; simp at h
  · refine ⟨a, none, dbm, _, _, _, ha2, ha3, ?_, ?_, ?_, ?_, ?_, heq⟩
    · intro j; simp
    · rfl
    · rfl
    · intro m' hm'; simp at hm'
    · intro _; exact ⟨htd, rfl⟩

/-- The image after a successful `create` on a live parent of a consistent
image, when the call writes at all: the inode `a` allocated, the block `md`
allocated for a new directory, the block `mp` allocated for the parent when its
last block is full, and what the bitmaps, the inode table and the blocks hold
afterwards. -/
theorem create_effect (c : Cfg) (junk : Nat → Int → Nat) (d : Disk) (p t : Int)
    (name : List Nat) (P : Nat)
    (hP : c.UFS_BLOCK_SIZE = P * sizeof_dir_ent_t c) (hP0 : 0 < P)
    (hM : MAX_FILE_SIZE c < 2147483648) (hE : 0 < c.ENOTENOUGHSPACE)
    (S : Sound c d) (huse : inUse d p)
    (hs : 0 ≤ (create c junk d p t name).1)
    (hreg : ∀ b ∈ writtenBlocks (create c junk d p t name).2, d.super.data_region_addr ≤ b)
    (d' : Disk) (hd' : d' = commit c d (create c junk d p t name).2) :
    d' = d ∨
    ∃ (a : Nat) (md mp : Option Nat),
      live d p ∧ (d.inodes p).type = c.UFS_DIRECTORY ∧
      (a : Int) < d.super.num_inodes ∧ findBit d.inodeBitmap (a : Int) = false ∧
      d'.super = d.super ∧
      (∀ j : Nat, j < d.super.num_inodes.toNat →
        findBit d'.inodeBitmap (j : Int) = (decide (j = a) || findBit d.inodeBitmap (j : Int))) ∧
      (∀ j : Nat, j < d.super.num_data.toNat →
        findBit d'.dataBitmap (j : Int) =
          (findBit d.dataBitmap (j : Int) || decide (md = some j) || decide (mp = some j))) ∧
      (∀ m : Nat, md = some m → m < d.super.num_data.toNat ∧
        findBit d.dataBitmap (m : Int) = false ∧ t = c.UFS_DIRECTORY ∧
        (d'.inodes (a : Int)).direct 0 = d.super.data_region_addr + (m : Int) ∧
        ∀ x : Int, 0 ≤ x → x < (c.UFS_BLOCK_SIZE : Int) →
          d'.blocks (d.super.data_region_addr + (m : Int)) x = newDirEntries c junk (a : Int) p x) ∧
      (md = none → t ≠ c.UFS_DIRECTORY) ∧
      (∀ m : Nat, mp = some m → m < d.super.num_data.toNat ∧
        findBit d.dataBitmap (m : Int) = false ∧
        (d.inodes p).size % (c.UFS_BLOCK_SIZE : Int) = 0 ∧ md ≠ some m) ∧
      (mp = none → (d.inodes p).size % (c.UFS_BLOCK_SIZE : Int) ≠ 0) ∧
      d'.inodes p =
        { type := (d.inodes p).type, size := (d.inodes p).size + (sizeof_dir_ent_t c : Int),
          direct := (match mp with
            | some m => Function.update (d.inodes p).direct
                ((d.inodes p).size / (c.UFS_BLOCK_SIZE : Int)) (d.super.data_region_addr + (m : Int))
            | none => (d.inodes p).direct) } ∧
      (d'.inodes (a : Int)).type = t ∧
      (d'.inodes (a : Int)).size =
        (match md with | some _ => 2 * (sizeof_dir_ent_t c : Int) | none => 0) ∧
      (∀ i : Int, 0 ≤ i → i < d.super.num_inodes → i ≠ p → i ≠ (a : Int) →
        d'.inodes i = d.inodes i) ∧
      (∀ b : Int, b ≠ (d'.inodes p).direct ((d.inodes p).size / (c.UFS_BLOCK_SIZE : Int)) →
        (∀ m : Nat, md = some m → b ≠ d.super.data_region_addr + (m : Int)) →
        d'.blocks b = d.blocks b) ∧
      Appended c d d' p (a : Int) (c_str name) ∧
      (d.inodes p).size + (sizeof_dir_ent_t c : Int) ≤ MAX_FILE_SIZE c := by
  rcases create_cases c junk d p t name with h | ⟨hp, hdir, hlen, hnf, hcr⟩
  · left
    rw [hd', h, commit_nil]
  right
  have hlp : live d p := ⟨hp.1, hp.2, huse⟩
  have hL := S.layout
  have hsz := S.sizes p hlp
  have hIb : ∀ j : Nat, j < d.super.num_inodes.toNat →
      (j : Int) < d.super.inode_bitmap_len * (c.UFS_BLOCK_SIZE : Int) * 8 := by
    intro j hj
    have := hL.2.2.2.1
    omega
  have hDb : ∀ j : Nat, j < d.super.num_data.toNat →
      (j : Int) < d.super.data_bitmap_len * (c.UFS_BLOCK_SIZE : Int) * 8 := by
    intro j hj
    have := hL.2.2.2.2.2
    omega
  have hD0 := hL.1
  have hN31 := hL.2.1
  obtain ⟨_, hmodE, _, _⟩ := S.dirShape p hlp hdir
  have hsz2 := size_add_entry_le c (d.inodes p).size P hP hsz.2 hmodE hnf
  rw [hcr] at hs hreg hd'
  obtain ⟨a, md, dbm0, ra, nb, nent, ha1, ha2, hU1, hU2, hU3, hU4, hU5, heq⟩ :=
    createInode_uniform c junk d p t name (readInodeBitmap c d (junk 3))
      (readDataBitmap c d (junk 4)) d.inodes hE hL.2.2.2.2.2 hs
  rw [heq] at hs hreg hd'
  have haN : a < d.super.num_inodes.toNat := by omega
  have ha2' : findBit d.inodeBitmap (a : Int) = false := by
    rw [← inUse_of_readInodeBitmap c d (junk 3) a hL haN]; exact ha2
  have hap : (a : Int) ≠ p := by
    intro h
    unfold inUse at huse
    rw [h, huse] at ha2'
    exact absurd ha2' (by simp)
  have hrd : ∀ j : Nat, j < d.super.num_data.toNat →
      findBit (readDataBitmap c d (junk 4)) (j : Int) = findBit d.dataBitmap (j : Int) :=
    fun j hj => findBit_readDataBitmap c d (junk 4) j hL.2.2.2.2.2 hj
  have hnb : nb = -1 ∨ ∃ m : Nat, m < d.super.num_data.toNat ∧
      nb = d.super.data_region_addr + (m : Int) ∧
      findBit d.dataBitmap (m : Int) = false ∧ findBit dbm0 (m : Int) = true := by
    cases hmd : md with
    | none => exact Or.inl (hU5 hmd).2
    | some m =>
      obtain ⟨h1, h2, _, h4, _, _⟩ := hU4 m hmd
      exact Or.inr ⟨m, h1, h4, by rw [← hrd m h1]; exact h2, by rw [hU1, hmd]; simp⟩
  obtain ⟨dbm', direct', _, E2, E3, E4, E5, E6, E7, E8, E9⟩ :=
    createEntry_effect c junk d p name (createBit (readInodeBitmap c d (junk 3)) (a : Int)) dbm0
      (Function.update d.inodes (a : Int) ra) (a : Int) nb nent P hP hP0 hE hL hp
      (Function.update_noteq (Ne.symm hap) _ _) hsz.1 (by omega) hmodE (S.valid p hlp)
      (fun k k' h1 h2 h3 => (S.distinct p p hlp hlp k k' h1 h2 h3).2)
      (fun j hj h => by
        rw [hU1] at h
        rw [← hrd j hj]
        simp only [Bool.or_eq_false_iff] at h
        exact h.1)
      hnb ⟨by omega, by omega⟩ hlen hs
      (fun b content h => hreg b (mem_writtenBlocks _ b content h))
  rw [← hd'] at E2 E3 E4 E5 E6 E7 E8
  have hib : ∀ j : Nat, j < d.super.num_inodes.toNat →
      findBit d'.inodeBitmap (j : Int) = (decide (j = a) || findBit d.inodeBitmap (j : Int)) := by
    intro j hj
    rw [E2, findBit_copyRegion c _ _ _ j (hIb j hj), findBit_createBit,
      inUse_of_readInodeBitmap c d (junk 3) j hL hj]
  have hda : d'.inodes (a : Int) = ra := by
    rw [E5 (a : Int) (by omega) ha1 hap, Function.update_same]
  have hoth : ∀ i : Int, 0 ≤ i → i < d.super.num_inodes → i ≠ p → i ≠ (a : Int) →
      d'.inodes i = d.inodes i := by
    intro i h0 h1 h2 h3
    rw [E5 i h0 h1 h2, Function.update_noteq h3]
  have hmdfacts : ∀ m : Nat, md = some m → m < d.super.num_data.toNat ∧
      findBit d.dataBitmap (m : Int) = false ∧ t = c.UFS_DIRECTORY ∧
      (d'.inodes (a : Int)).direct 0 = d.super.data_region_addr + (m : Int) ∧
      ∀ x : Int, 0 ≤ x → x < (c.UFS_BLOCK_SIZE : Int) →
        d'.blocks (d.super.data_region_addr + (m : Int)) x = newDirEntries c junk (a : Int) p x := by
    intro m hm
    obtain ⟨h1, h2, h3, h4, h5, h6⟩ := hU4 m hm
    refine ⟨h1, by rw [← hrd m h1]; exact h2, h3, by rw [hda]; exact h6, ?_⟩
    intro x hx0 hx1
    rw [← h4, ← h5]
    exact E7 (by rw [h4]; omega) x hx0 hx1
  have hblocks : ∀ (dir : Int → Int), direct' = dir → ∀ b : Int,
      b ≠ dir ((d.inodes p).size / (c.UFS_BLOCK_SIZE : Int)) →
      (∀ m : Nat, md = some m → b ≠ d.super.data_region_addr + (m : Int)) →
      d'.blocks b = d.blocks b := by
    intro dir hdir' b hb hbm
    apply E6 b (by rw [hdir']; exact hb)
    cases hmd : md with
    | none => exact Or.inl (hU5 hmd).2
    | some m =>
      right
      rw [(hU4 m hmd).2.2.2.1]
      exact hbm m hmd
  have hdb : ∀ j : Nat, j < d.super.num_data.toNat →
      findBit d'.dataBitmap (j : Int) = findBit dbm' (j : Int) := by
    intro j hj
    rw [E3, findBit_copyRegion c _ _ _ j (hDb j hj)]
  rcases E9 with ⟨hmod, mp, hmp1, hmp2, hdbm', hdirect'⟩ | ⟨hmod, hdbm', hdirect'⟩
  · refine ⟨a, md, some mp, hlp, hdir, ha1, ha2', E8.1, hib, ?_, hmdfacts, fun h => (hU5 h).1, ?_,
      fun h => by simp at h, ?_, by rw [hda]; exact hU2, by rw [hda]; exact hU3, hoth, ?_, E8, hsz2⟩
    · intro j hj
      rw [hdb j hj, hdbm', findBit_createBit, hU1, hrd j hj]
      by_cases h : j = mp
      · simp [h]
      · have : ¬ (mp = j) := fun h' => h h'.symm
        simp [h, this]
    · intro m hm
      have hmm : mp = m := by simpa using hm
      rw [← hmm]
      have h2 := hmp2
      rw [hU1] at h2
      simp only [Bool.or_eq_false_iff, decide_eq_false_iff_not] at h2
      exact ⟨hmp1, by rw [← hrd mp hmp1]; exact h2.1, hmod, h2.2⟩
    · rw [E4, hdirect']
    · intro b hb hbm
      rw [E4, hdirect'] at hb
      exact hblocks _ hdirect' b hb hbm
  · refine ⟨a, md, none, hlp, hdir, ha1, ha2', E8.1, hib, ?_, hmdfacts, fun h => (hU5 h).1, ?_,
      fun _ => hmod, ?_, by rw [hda]; exact hU2, by rw [hda]; exact hU3, hoth, ?_, E8, hsz2⟩
    · intro j hj
      rw [hdb j hj, hdbm', hU1, hrd j hj]
      simp
    · intro m hm; simp at hm
    · rw [E4, hdirect']
    · intro b hb hbm
      rw [E4, hdirect'] at hb
      exact hblocks _ hdirect' b hb hbm

/-! ## Validation in `write` -/

theorem errorKinds_facts (c : Cfg) (h : ErrorKinds c) :
    (0 < c.EINVALIDINODE ∧ 0 < c.EINVALIDSIZE ∧ 0 < c.EINVALIDNAME ∧ 0 < c.EINVALIDTYPE ∧
      0 < c.ENOTFOUND ∧ 0 < c.ENOTENOUGHSPACE ∧ 0 < c.EDIRNOTEMPTY ∧ 0 < c.EUNLINKNOTALLOWED) ∧
    (c.EINVALIDINODE ≠ c.EINVALIDSIZE ∧ c.EINVALIDINODE ≠ c.EINVALIDNAME ∧
      c.EINVALIDINODE ≠ c.EINVALIDTYPE ∧ c.EINVALIDINODE ≠ c.ENOTENOUGHSPACE ∧
      c.EINVALIDINODE ≠ c.EDIRNOTEMPTY ∧ c.EINVALIDINODE ≠ c.EUNLINKNOTALLOWED ∧
      c.EINVALIDSIZE ≠ c.EINVALIDTYPE ∧ c.EINVALIDSIZE ≠ c.ENOTENOUGHSPACE ∧
      c.EINVALIDNAME ≠ c.EINVALIDTYPE ∧ c.EINVALIDNAME ≠ c.ENOTENOUGHSPACE ∧
      c.EINVALIDNAME ≠ c.EDIRNOTEMPTY ∧ c.EINVALIDNAME ≠ c.EUNLINKNOTALLOWED ∧
      c.EINVALIDTYPE ≠ c.ENOTENOUGHSPACE ∧ c.EDIRNOTEMPTY ≠ c.EUNLINKNOTALLOWED) := by
  obtain ⟨h1, h2⟩ := h
  unfold errorCodes at h1 h2
  simp only [List.nodup_cons, List.mem_cons, List.mem_singleton, not_or, List.not_mem_nil,
    not_false_eq_true, List.nodup_nil, and_true, forall_eq_or_imp, forall_eq] at h1 h2
  refine ⟨⟨h2.1, h2.2.1, h2.2.2.1, h2.2.2.2.1, h2.2.2.2.2.1, h2.2.2.2.2.2.1, h2.2.2.2.2.2.2.1,
    h2.2.2.2.2.2.2.2.1⟩, ?_⟩
  tauto

/-- The result of `write`, by the checks in their order. -/
theorem write_result_cases (c : Cfg) (junk : Nat → Int → Nat) (d : Disk) (i : Int)
    (buffer : Int → Nat) (n : Int) :
    (¬ (0 ≤ i ∧ i < d.super.num_inodes) → (write c junk d i buffer n).1 = -c.EINVALIDINODE) ∧
    ((0 ≤ i ∧ i < d.super.num_inodes) → (n < 0 ∨ n > MAX_FILE_SIZE c) →
      (write c junk d i buffer n).1 = -c.EINVALIDSIZE) ∧
    ((0 ≤ i ∧ i < d.super.num_inodes) → ¬ (n < 0 ∨ n > MAX_FILE_SIZE c) →
      (d.inodes i).type ≠ c.UFS_REGULAR_FILE → (write c junk d i buffer n).1 = -c.EINVALIDTYPE) ∧
    ((0 ≤ i ∧ i < d.super.num_inodes) → ¬ (n < 0 ∨ n > MAX_FILE_SIZE c) →
      (d.inodes i).type = c.UFS_REGULAR_FILE →
      ((write c junk d i buffer n).1 = -c.ENOTENOUGHSPACE ∨ (write c junk d i buffer n).1 = n)) := by
  refine ⟨?_, ?_, ?_, ?_⟩
  · intro hi
    have hchk : checkInode d.super i = false := by
      cases h : checkInode d.super i
      · rfl
      · exact absurd ((checkInode_iff _ _).1 h) hi
    unfold write
    simp only [readSuperBlock, hchk, if_true]
  · intro hi hn
    have hchk : checkInode d.super i = true := (checkInode_iff _ _).2 hi
    unfold write
    simp only [readSuperBlock, hchk, Bool.true_eq_false, if_false]
    rw [if_pos hn]
  · intro hi hn ht
    have hchk : checkInode d.super i = true := (checkInode_iff _ _).2 hi
    unfold write
    simp only [readSuperBlock, readInodeRegion, hchk, Bool.true_eq_false, if_false]
    rw [if_neg hn, if_pos ht]
  · intro hi hn ht
    have hchk : checkInode d.super i = true := (checkInode_iff _ _).2 hi
    unfold write
    simp only [readSuperBlock, readInodeRegion, hchk, Bool.true_eq_false, if_false]
    rw [if_neg hn, if_neg (by simp [ht])]
    split
    · exact Or.inl rfl
    · split
      · exact Or.inl rfl
      · exact Or.inr rfl

/-- C11. With distinct error kinds, `write(i, buf, n)` returns invalid-inode if
and only if `i` is outside `[0, num_inodes)`; for `i` in range it returns
invalid-size if and only if `n < 0` or `n > MAX_FILE_SIZE`, so `MAX_FILE_SIZE + 1`
is rejected and `MAX_FILE_SIZE` and `0` pass; for `i` in range and `n` accepted
it returns invalid-type if and only if the type of the inode is not
regular-file, in particular for a directory. -/
theorem write_validation (c : Cfg) (junk : Nat → Int → Nat) (d : Disk) (i : Int)
    (buffer : Int → Nat) (n : Int) (hK : ErrorKinds c)
    (hTy : c.UFS_DIRECTORY ≠ c.UFS_REGULAR_FILE) :
    ((write c junk d i buffer n).1 = -c.EINVALIDINODE ↔ ¬ (0 ≤ i ∧ i < d.super.num_inodes)) ∧
    ((0 ≤ i ∧ i < d.super.num_inodes) →
      (((write c junk d i buffer n).1 = -c.EINVALIDSIZE ↔ (n < 0 ∨ n > MAX_FILE_SIZE c)) ∧
       (write c junk d i buffer (MAX_FILE_SIZE c + 1)).1 = -c.EINVALIDSIZE ∧
       (write c junk d i buffer (MAX_FILE_SIZE c)).1 ≠ -c.EINVALIDSIZE ∧
       (write c junk d i buffer 0).1 ≠ -c.EINVALIDSIZE)) ∧
    ((0 ≤ i ∧ i < d.super.num_inodes) → ¬ (n < 0 ∨ n > MAX_FILE_SIZE c) →
      (((write c junk d i buffer n).1 = -c.EINVALIDTYPE ↔
          (d.inodes i).type ≠ c.UFS_REGULAR_FILE) ∧
       ((d.inodes i).type = c.UFS_DIRECTORY →
          (write c junk d i buffer n).1 = -c.EINVALIDTYPE))) := by
  obtain ⟨⟨p1, p2, _, p4, _, p6, _, _⟩, q1, _, q3, q4, _, _, q7, q8, _, _, _, _, q13, _⟩ :=
    errorKinds_facts c hK
  have hM0 : (0 : Int) ≤ MAX_FILE_SIZE c := by
    unfold MAX_FILE_SIZE
    exact mul_nonneg (by omega) (by omega)
  -- the result for arbitrary `n`, by cases
  have key : ∀ n : Int,
      ((write c junk d i buffer n).1 = -c.EINVALIDINODE ↔ ¬ (0 ≤ i ∧ i < d.super.num_inodes)) ∧
      ((0 ≤ i ∧ i < d.super.num_inodes) →
        ((write c junk d i buffer n).1 = -c.EINVALIDSIZE ↔ (n < 0 ∨ n > MAX_FILE_SIZE c))) ∧
      ((0 ≤ i ∧ i < d.super.num_inodes) → ¬ (n < 0 ∨ n > MAX_FILE_SIZE c) →
        ((write c junk d i buffer n).1 = -c.EINVALIDTYPE ↔
          (d.inodes i).type ≠ c.UFS_REGULAR_FILE)) := by
    intro n
    obtain ⟨W1, W2, W3, W4⟩ := write_result_cases c junk d i buffer n
    by_cases hi : 0 ≤ i ∧ i < d.super.num_inodes
    · by_cases hn : n < 0 ∨ n > MAX_FILE_SIZE c
      · have hr := W2 hi hn
        refine ⟨⟨fun h => ?_, fun h => absurd hi h⟩, fun _ => ⟨fun _ => hn, fun _ => hr⟩,
          fun _ h => absurd hn h⟩
        rw [hr] at h
        exact absurd (neg_injective h).symm q1
      · by_cases ht : (d.inodes i).type = c.UFS_REGULAR_FILE
        · have hr := W4 hi hn ht
          refine ⟨⟨fun h => ?_, fun h => absurd hi h⟩, fun _ => ⟨fun h => ?_, fun h => absurd h hn⟩,
            fun _ _ => ⟨fun h => ?_, fun h => absurd ht h⟩⟩
          · rcases hr with hr | hr
            · rw [hr] at h; exact absurd (neg_injective h).symm q4
            · rw [hr] at h; omega
          · rcases hr with hr | hr
            · rw [hr] at h; exact absurd (neg_injective h).symm q8
            · rw [hr] at h; omega
          · rcases hr with hr | hr
            · rw [hr] at h; exact absurd (neg_injective h).symm q13
            · rw [hr] at h; omega
        · have hr := W3 hi hn ht
          refine ⟨⟨fun h => ?_, fun h => absurd hi h⟩, fun _ => ⟨fun h => ?_, fun h => absurd h hn⟩,
            fun _ _ => ⟨fun _ => ht, fun _ => hr⟩⟩
          · rw [hr] at h; exact absurd (neg_injective h).symm q3
          · rw [hr] at h; exact absurd (neg_injective h).symm q7
    · have hr := W1 hi
      exact ⟨⟨fun _ => hi, fun _ => hr⟩, fun h => absurd h hi, fun h => absurd h hi⟩
  refine ⟨(key n).1, fun hi => ⟨(key n).2.1 hi, ?_, ?_, ?_⟩, fun hi hn => ⟨(key n).2.2 hi hn, ?_⟩⟩
  · exact ((key (MAX_FILE_SIZE c + 1)).2.1 hi).2 (Or.inr (by omega))
  · intro h
    have := ((key (MAX_FILE_SIZE c)).2.1 hi).1 h
    omega
  · intro h
    have := ((key 0).2.1 hi).1 h
    omega
  · intro hd
    exact ((key n).2.2 hi hn).2 (by rw [hd]; exact hTy)

theorem write_validation_witness :
    ((write exCfg exJunk exWithFile 1 exHi 2).1 = -exCfg.EINVALIDINODE ↔
      ¬ (0 ≤ (1 : Int) ∧ (1 : Int) < exWithFile.super.num_inodes)) ∧
    ((0 ≤ (1 : Int) ∧ (1 : Int) < exWithFile.super.num_inodes) →
      (((write exCfg exJunk exWithFile 1 exHi 2).1 = -exCfg.EINVALIDSIZE ↔
          ((2 : Int) < 0 ∨ (2 : Int) > MAX_FILE_SIZE exCfg)) ∧
       (write exCfg exJunk exWithFile 1 exHi (MAX_FILE_SIZE exCfg + 1)).1 = -exCfg.EINVALIDSIZE ∧
       (write exCfg exJunk exWithFile 1 exHi (MAX_FILE_SIZE exCfg)).1 ≠ -exCfg.EINVALIDSIZE ∧
       (write exCfg exJunk exWithFile 1 exHi 0).1 ≠ -exCfg.EINVALIDSIZE)) ∧
    ((0 ≤ (1 : Int) ∧ (1 : Int) < exWithFile.super.num_inodes) →
      ¬ ((2 : Int) < 0 ∨ (2 : Int) > MAX_FILE_SIZE exCfg) →
      (((write exCfg exJunk exWithFile 1 exHi 2).1 = -exCfg.EINVALIDTYPE ↔
          (exWithFile.inodes 1).type ≠ exCfg.UFS_REGULAR_FILE) ∧
       ((exWithFile.inodes 1).type = exCfg.UFS_DIRECTORY →
          (write exCfg exJunk exWithFile 1 exHi 2).1 = -exCfg.EINVALIDTYPE))) :=
  write_validation exCfg exJunk exWithFile 1 exHi 2 (by decide) (by decide)

/-! ## Validation in `create` -/

/-- C12, as amended. The checks of `create(p, t, n)` in their order: invalid-inode
if `p` is outside `[0, num_inodes)`; else invalid-name if the length of `n` is at
least `DIR_ENT_NAME_SIZE`; else invalid-type if `t` is neither regular-file nor
directory; else invalid-inode if inode `p` is not a directory; else
insufficient-space if the size of the parent equals `DIRECT_PTRS * block_size`.
Each check takes precedence over the later ones, a name of length
`DIR_ENT_NAME_SIZE - 1` passes the name check, and none of these returns
writes. -/
theorem create_validation (c : Cfg) (junk : Nat → Int → Nat) (d : Disk) (p t : Int)
    (name : List Nat) :
    (¬ (0 ≤ p ∧ p < d.super.num_inodes) →
      create c junk d p t name = (-c.EINVALIDINODE, [])) ∧
    ((0 ≤ p ∧ p < d.super.num_inodes) → c.DIR_ENT_NAME_SIZE ≤ name.length →
      create c junk d p t name = (-c.EINVALIDNAME, [])) ∧
    ((0 ≤ p ∧ p < d.super.num_inodes) → name.length < c.DIR_ENT_NAME_SIZE →
      (t ≠ c.UFS_DIRECTORY ∧ t ≠ c.UFS_REGULAR_FILE) →
      create c junk d p t name = (-c.EINVALIDTYPE, [])) ∧
    ((0 ≤ p ∧ p < d.super.num_inodes) → name.length + 1 = c.DIR_ENT_NAME_SIZE →
      (t ≠ c.UFS_DIRECTORY ∧ t ≠ c.UFS_REGULAR_FILE) →
      create c junk d p t name = (-c.EINVALIDTYPE, [])) ∧
    ((0 ≤ p ∧ p < d.super.num_inodes) → name.length < c.DIR_ENT_NAME_SIZE →
      (t = c.UFS_DIRECTORY ∨ t = c.UFS_REGULAR_FILE) →
      (d.inodes p).type ≠ c.UFS_DIRECTORY →
      create c junk d p t name = (-c.EINVALIDINODE, [])) ∧
    ((0 ≤ p ∧ p < d.super.num_inodes) → name.length < c.DIR_ENT_NAME_SIZE →
      (t = c.UFS_DIRECTORY ∨ t = c.UFS_REGULAR_FILE) →
      (d.inodes p).type = c.UFS_DIRECTORY →
      (d.inodes p).size = (c.DIRECT_PTRS : Int) * (c.UFS_BLOCK_SIZE : Int) →
      create c junk d p t name = (-c.ENOTENOUGHSPACE, [])) := by
  have hout : ¬ (0 ≤ p ∧ p < d.super.num_inodes) → checkInode d.super p = false := by
    intro hp
    cases h : checkInode d.super p
    · rfl
    · exact absurd ((checkInode_iff _ _).1 h) hp
  have hin : (0 ≤ p ∧ p < d.super.num_inodes) → checkInode d.super p = true :=
    fun hp => (checkInode_iff _ _).2 hp
  have h3 : (0 ≤ p ∧ p < d.super.num_inodes) → name.length < c.DIR_ENT_NAME_SIZE →
      (t ≠ c.UFS_DIRECTORY ∧ t ≠ c.UFS_REGULAR_FILE) →
      create c junk d p t name = (-c.EINVALIDTYPE, []) := by
    intro hp hlen ht
    unfold create
    simp only [readSuperBlock, hin hp, Bool.not_true, Bool.false_eq_true, if_false]
    rw [if_neg (by simp [hlen]), if_pos ht]
  refine ⟨?_, ?_, h3, ?_, ?_, ?_⟩
  · intro hp
    unfold create
    simp only [readSuperBlock, hout hp, Bool.not_false, if_true]
  · intro hp hlen
    unfold create
    simp only [readSuperBlock, hin hp, Bool.not_true, Bool.false_eq_true, if_false]
    rw [if_pos (by simp; omega)]
  · intro hp hlen ht
    exact h3 hp (by omega) ht
  · intro hp hlen ht hty
    unfold create
    simp only [readSuperBlock, readInodeRegion, hin hp, Bool.not_true, Bool.false_eq_true,
      if_false]
    rw [if_neg (by simp [hlen]), if_neg (by rcases ht with h | h <;> simp [h]), if_pos hty]
  · intro hp hlen ht hty hsz
    exact create_full c junk d p t name hp hlen ht hty (by rw [hsz]; ring)

theorem create_validation_witness :
    (¬ (0 ≤ (0 : Int) ∧ (0 : Int) < exFullDir.super.num_inodes) →
      create exCfg exJunk exFullDir 0 1 [101] = (-exCfg.EINVALIDINODE, [])) ∧
    ((0 ≤ (0 : Int) ∧ (0 : Int) < exFullDir.super.num_inodes) →
      exCfg.DIR_ENT_NAME_SIZE ≤ [101].length →
      create exCfg exJunk exFullDir 0 1 [101] = (-exCfg.EINVALIDNAME, [])) ∧
    ((0 ≤ (0 : Int) ∧ (0 : Int) < exFullDir.super.num_inodes) →
      [101].length < exCfg.DIR_ENT_NAME_SIZE →
      ((1 : Int) ≠ exCfg.UFS_DIRECTORY ∧ (1 : Int) ≠ exCfg.UFS_REGULAR_FILE) →
      create exCfg exJunk exFullDir 0 1 [101] = (-exCfg.EINVALIDTYPE, [])) ∧
    ((0 ≤ (0 : Int) ∧ (0 : Int) < exFullDir.super.num_inodes) →
      [101].length + 1 = exCfg.DIR_ENT_NAME_SIZE →
      ((1 : Int) ≠ exCfg.UFS_DIRECTORY ∧ (1 : Int) ≠ exCfg.UFS_REGULAR_FILE) →
      create exCfg exJunk exFullDir 0 1 [101] = (-exCfg.EINVALIDTYPE, [])) ∧
    ((0 ≤ (0 : Int) ∧ (0 : Int) < exFullDir.super.num_inodes) →
      [101].length < exCfg.DIR_ENT_NAME_SIZE →
      ((1 : Int) = exCfg.UFS_DIRECTORY ∨ (1 : Int) = exCfg.UFS_REGULAR_FILE) →
      (exFullDir.inodes 0).type ≠ exCfg.UFS_DIRECTORY →
      create exCfg exJunk exFullDir 0 1 [101] = (-exCfg.EINVALIDINODE, [])) ∧
    ((0 ≤ (0 : Int) ∧ (0 : Int) < exFullDir.super.num_inodes) →
      [101].length < exCfg.DIR_ENT_NAME_SIZE →
      ((1 : Int) = exCfg.UFS_DIRECTORY ∨ (1 : Int) = exCfg.UFS_REGULAR_FILE) →
      (exFullDir.inodes 0).type = exCfg.UFS_DIRECTORY →
      (exFullDir.inodes 0).size = (exCfg.DIRECT_PTRS : Int) * (exCfg.UFS_BLOCK_SIZE : Int) →
      create exCfg exJunk exFullDir 0 1 [101] = (-exCfg.ENOTENOUGHSPACE, [])) :=
  create_validation exCfg exJunk exFullDir 0 1 [101]

/-- C12, counterexample. On the image `exOversized` the root directory has size
64, which is not less than `DIRECT_PTRS * block_size = 48`, and the call
`create(0, regular-file, f)` passes the earlier checks; it does not return
insufficient-space but allocates inode 1 and writes block 5. -/
theorem create_oversized_parent :
    (0 ≤ (0 : Int) ∧ (0 : Int) < exOversized.super.num_inodes) ∧
    [102].length < exCfg.DIR_ENT_NAME_SIZE ∧
    (exOversized.inodes 0).type = exCfg.UFS_DIRECTORY ∧
    ¬ ((exOversized.inodes 0).size < (exCfg.DIRECT_PTRS : Int) * (exCfg.UFS_BLOCK_SIZE : Int)) ∧
    (create exCfg exJunk exOversized 0 1 [102]).1 = 1 ∧
    (create exCfg exJunk exOversized 0 1 [102]).1 ≠ -exCfg.ENOTENOUGHSPACE ∧
    writtenBlocks (create exCfg exJunk exOversized 0 1 [102]).2 = [5] := by
  decide

/-! ## The allocation steps of `create` -/

/-- C13, the code at the failing input. On the image `exFullFresh` every bit of
the data bitmap is set and the root directory fills its block
(`size % block_size = 0`), so `create(0, regular-file, f)` passes steps 1 to 8
and needs a new parent block for which no data bit is free. The call does not
return insufficient-space: `findFirstBit` returns `-1`, the test
`entryBlockBit < -1` lets it pass, and the call returns inode 1 after a
transaction that writes the entry block at `data_region_addr - 1`, the block of
the inode table. A `create` of a directory on that image fails at the step of
the child block, as it should; on `exOneFree`, where the child block takes the
one free bit, it goes the same wrong way for the parent block. -/
theorem create_without_parent_block :
    (∀ j : Nat, j < exFullFresh.super.num_data.toNat →
      findBit exFullFresh.dataBitmap (j : Int) = true) ∧
    (exFullFresh.inodes 0).size % (exCfg.UFS_BLOCK_SIZE : Int) = 0 ∧
    findFirstBit (readDataBitmap exCfg exFullFresh (exJunk 4))
      (exFullFresh.super.data_bitmap_len * (exCfg.UFS_BLOCK_SIZE : Int)) = -1 ∧
    (create exCfg exJunk exFullFresh 0 1 [102]).1 = 1 ∧
    (create exCfg exJunk exFullFresh 0 1 [102]).1 ≠ -exCfg.ENOTENOUGHSPACE ∧
    writtenBlocks (create exCfg exJunk exFullFresh 0 1 [102]).2 =
      [exFullFresh.super.data_region_addr - 1] ∧
    exFullFresh.super.data_region_addr - 1 = exFullFresh.super.inode_region_addr ∧
    (create exCfg exJunk exFullFresh 0 0 [102]).1 = -exCfg.ENOTENOUGHSPACE ∧
    findBit exOneFree.dataBitmap 1 = false ∧
    (∀ j : Nat, j < exOneFree.super.num_data.toNat → j ≠ 1 →
      findBit exOneFree.dataBitmap (j : Int) = true) ∧
    (create exCfg exJunk exOneFree 0 0 [100]).1 = 1 ∧
    writtenBlocks (create exCfg exJunk exOneFree 0 0 [100]).2 =
      [exOneFree.super.data_region_addr - 1, 5] := by
  decide

/-- C14, the code at the failing input. The superblock of `exWide` has two
blocks of inode bitmap for 130 inodes and one block of data bitmap; inodes 0 to
127 are in use and bit 128 of the inode bitmap is clear. The call
`create(0, regular-file, f)` passes steps 1 to 6, yet it fails with
insufficient-space: `create` sizes the scan of the inode bitmap by
`data_bitmap_len`, so `findFirstBit` looks at the first 128 bits only. -/
theorem create_misses_free_inode :
    Layout exCfg exWide ∧
    exWide.super.inode_bitmap_len = 2 ∧ exWide.super.data_bitmap_len = 1 ∧
    (128 : Int) < exWide.super.num_inodes ∧ findBit exWide.inodeBitmap 128 = false ∧
    (exWide.inodes 0).type = exCfg.UFS_DIRECTORY ∧
    (exWide.inodes 0).size < (exCfg.DIRECT_PTRS : Int) * (exCfg.UFS_BLOCK_SIZE : Int) ∧
    (∀ j : Nat, j < numEntries exCfg (exWide.inodes 0) →
      entName exCfg (fileData exCfg exWide (exWide.inodes 0)) (j : Int) ≠ [102]) ∧
    findFirstBit (readInodeBitmap exCfg exWide (exJunk 3))
      (exWide.super.data_bitmap_len * (exCfg.UFS_BLOCK_SIZE : Int)) = -1 ∧
    (create exCfg exJunk exWide 0 1 [102]).1 = -exCfg.ENOTENOUGHSPACE ∧
    (create exCfg exJunk exWide 0 1 [102]).2.isEmpty = true := by
  decide

/-! ## The steps of `unlink` -/

/-- The scan of `unlink` for a valid call: the loop looks for the first of the
`size / sizeof(dir_ent_t)` entries of the parent that carries the name. -/
theorem unlink_scan (c : Cfg) (junk : Nat → Int → Nat) (d : Disk) (p : Int)
    (name : List Nat)
    (hB : 0 < c.UFS_BLOCK_SIZE) (hM : MAX_FILE_SIZE c < 2147483648)
    (hp : 0 ≤ p ∧ p < d.super.num_inodes)
    (hlen : name.length < c.DIR_ENT_NAME_SIZE)
    (hnd : name ≠ [46] ∧ name ≠ [46, 46])
    (hdir : (d.inodes p).type = c.UFS_DIRECTORY)
    (hsz : 0 ≤ (d.inodes p).size ∧ (d.inodes p).size ≤ MAX_FILE_SIZE c) :
    (∀ k : Int, 0 ≤ k → k < (d.inodes p).size →
      (read c d p (fun _ => 0) (d.inodes p).size).2 k = fileData c d (d.inodes p) k) ∧
    (∀ k : Int, (d.inodes p).size ≤ k →
      (read c d p (fun _ => 0) (d.inodes p).size).2 k = 0) ∧
    unlink c junk d p name =
      match findEntry c (fileData c d (d.inodes p)) name (numEntries c (d.inodes p)) 0 with
      | none => (0, [])
      | some e =>
        unlinkEntry c junk d p d.inodes (readDataBitmap c d (junk 0))
          (readInodeBitmap c d (junk 1)) (read c d p (fun _ => 0) (d.inodes p).size).2
          ((d.inodes p).size / (sizeof_dir_ent_t c : Int)) e := by
  have hchk : checkInode d.super p = true := (checkInode_iff _ _).2 hp
  have hE : (sizeof_dir_ent_t c : Int) = (c.DIR_ENT_NAME_SIZE : Int) + 4 := by
    unfold sizeof_dir_ent_t; push_cast; rfl
  obtain ⟨h1, h2, h3⟩ := numEntries_eq c (d.inodes p).size hsz.1 (by omega)
  obtain ⟨_, hrd⟩ := read_spec c d p (fun _ => 0) (d.inodes p).size hB hchk hsz.1 hsz.2
    (Or.inr hdir)
  have hbuf : ∀ k : Int, 0 ≤ k → k < (d.inodes p).size →
      (read c d p (fun _ => 0) (d.inodes p).size).2 k = fileData c d (d.inodes p) k := by
    intro k hk0 hk1
    rw [hrd k, if_pos ⟨hk0, by rw [min_self]; exact hk1⟩]
  have hbuf0 : ∀ k : Int, (d.inodes p).size ≤ k →
      (read c d p (fun _ => 0) (d.inodes p).size).2 k = 0 := by
    intro k hk
    rw [hrd k, if_neg (by rw [min_self]; omega)]
  refine ⟨hbuf, hbuf0, ?_⟩
  have hfe : findEntry c (read c d p (fun _ => 0) (d.inodes p).size).2 name
      (numEntries c (d.inodes p)) 0 =
      findEntry c (fileData c d (d.inodes p)) name (numEntries c (d.inodes p)) 0 := by
    apply findEntry_congr
    intro j _ hj
    have hj' : (j : Int) < (d.inodes p).size / (sizeof_dir_ent_t c : Int) := by
      have := numEntries_cast c (d.inodes p) hsz.1
      omega
    exact (entry_eq_of_bytes c _ _ (d.inodes p).size hbuf j hj').1
  unfold unlink
  simp only [readSuperBlock, readInodeRegion, hchk, Bool.true_eq_false, if_false]
  rw [if_neg (by simp [hlen]), if_neg (by simp [hnd.1, hnd.2]), if_neg (by simp [hdir])]
  rw [h1]
  have hnum : ((d.inodes p).size / (sizeof_dir_ent_t c : Int)).toNat = numEntries c (d.inodes p) :=
    rfl
  rw [hnum, hfe]

/-- The tail of `unlink` for a target that is not a directory with entries of
its own: the writes of the transaction, in the order of the source. -/
theorem unlinkEntry_eq (c : Cfg) (junk : Nat → Int → Nat) (d : Disk) (p : Int)
    (dbm ibm entries : Int → Nat) (n : Int) (e : Nat)
    (hB : 0 < c.UFS_BLOCK_SIZE)
    (hsz : (sizeof_dir_ent_t c : Int) ≤ (d.inodes p).size ∧ (d.inodes p).size < 2147483648)
    (hne : ¬ ((d.inodes (entInum c entries (e : Int))).type = c.UFS_DIRECTORY ∧
      (d.inodes (entInum c entries (e : Int))).size > (sizeof_dir_ent_t c : Int) * 2)) :
    unlinkEntry c junk d p d.inodes dbm ibm entries n e =
      (0,
        [BlockWrite.inodeRegion (Function.update d.inodes p
            { type := (d.inodes p).type,
              size := (d.inodes p).size - (sizeof_dir_ent_t c : Int),
              direct :=
                if ((d.inodes p).size - (sizeof_dir_ent_t c : Int)) % (c.UFS_BLOCK_SIZE : Int) = 0 ∧
                    ((d.inodes p).size - (sizeof_dir_ent_t c : Int)) / (c.UFS_BLOCK_SIZE : Int)
                      < (c.DIRECT_PTRS : Int) then
                  Function.update (d.inodes p).direct
                    (((d.inodes p).size - (sizeof_dir_ent_t c : Int)) / (c.UFS_BLOCK_SIZE : Int))
                    (-1)
                else (d.inodes p).direct }),
          BlockWrite.dataBitmap
            (if ((d.inodes p).size - (sizeof_dir_ent_t c : Int)) % (c.UFS_BLOCK_SIZE : Int) = 0 ∧
                ((d.inodes p).size - (sizeof_dir_ent_t c : Int)) / (c.UFS_BLOCK_SIZE : Int)
                  < (c.DIRECT_PTRS : Int) then
              delBit (clearBlocks d.super (d.inodes (entInum c entries (e : Int))).direct
                  (numBlocks c (d.inodes (entInum c entries (e : Int)))).toNat 0 dbm)
                (block2Bit d.super ((d.inodes p).direct
                  (((d.inodes p).size - (sizeof_dir_ent_t c : Int)) / (c.UFS_BLOCK_SIZE : Int))))
            else clearBlocks d.super (d.inodes (entInum c entries (e : Int))).direct
                  (numBlocks c (d.inodes (entInum c entries (e : Int)))).toNat 0 dbm),
          BlockWrite.inodeBitmap (delBit ibm (entInum c entries (e : Int)))]
        ++ (List.range (divide ((d.inodes p).size - (sizeof_dir_ent_t c : Int))
              (c.UFS_BLOCK_SIZE : Int)).toNat).map (fun (i : Nat) =>
            BlockWrite.block ((d.inodes p).direct (i : Int))
              (fun k => padEntries c junk c.UFS_BLOCK_SIZE (eraseEntry c entries (e : Int))
                (n.toNat - 1) ((i : Int) * (ENTRIES_IN_BLOCK c : Int)
                  * (sizeof_dir_ent_t c : Int) + k)))) := by
  have hB' : (0 : Int) < (c.UFS_BLOCK_SIZE : Int) := by exact_mod_cast hB
  have hES := sizeof_dir_ent_t_pos c
  have hns : toInt ((toSizeT (d.inodes p).size + 18446744073709551616 - sizeof_dir_ent_t c)
      % 18446744073709551616) = (d.inodes p).size - (sizeof_dir_ent_t c : Int) := by
    rw [toSizeT_of_nonneg _ (by omega) (by omega)]
    have h1 : sizeof_dir_ent_t c ≤ (d.inodes p).size.toNat := by omega
    have h2 : ((d.inodes p).size.toNat + 18446744073709551616 - sizeof_dir_ent_t c)
        % 18446744073709551616 = (d.inodes p).size.toNat - sizeof_dir_ent_t c := by
      have : (d.inodes p).size.toNat + 18446744073709551616 - sizeof_dir_ent_t c =
          ((d.inodes p).size.toNat - sizeof_dir_ent_t c) + 18446744073709551616 := by omega
      rw [this, Nat.add_mod_right]
      exact Nat.mod_eq_of_lt (by omega)
    rw [h2, toInt_of_lt _ (by omega)]
    omega
  have hns0 : 0 ≤ (d.inodes p).size - (sizeof_dir_ent_t c : Int) := by omega
  unfold unlinkEntry
  simp only [readSuperBlock]
  rw [if_neg hne, hns, Int.tmod_eq_emod hns0 (le_of_lt hB'), Int.tdiv_eq_ediv hns0 (le_of_lt hB')]
  by_cases hsh : ((d.inodes p).size - (sizeof_dir_ent_t c : Int)) % (c.UFS_BLOCK_SIZE : Int) = 0 ∧
      ((d.inodes p).size - (sizeof_dir_ent_t c : Int)) / (c.UFS_BLOCK_SIZE : Int)
        < (c.DIRECT_PTRS : Int)
  · simp only [hsh, and_self, decide_True, if_true]
    refine Prod.ext rfl ?_
    simp only
    congr 1
    apply List.map_congr_left
    intro i hi
    rw [List.mem_range] at hi
    have hdiv := divide_of_emod_zero _ _ hB' hns0 hsh.1
    rw [hdiv] at hi
    have hi' : (i : Int) ≠
        ((d.inodes p).size - (sizeof_dir_ent_t c : Int)) / (c.UFS_BLOCK_SIZE : Int) := by
      have := Int.ediv_nonneg hns0 (le_of_lt hB')
      omega
    rw [Function.update_noteq hi']
  · simp only [hsh, decide_False, if_false, Bool.false_eq_true]
    rfl

/-- The image after the transaction of `unlink`: the regions hold what was
written, a block that is not written keeps its bytes, and a block written once
holds what was written. -/
theorem commit_unlinkWrites (c : Cfg) (d : Disk) (inodes : Int → inode_t) (dbm ibm : Int → Nat)
    (f : Nat → Int) (g : Nat → Int → Nat) (r : Nat) :
    (commit c d ([BlockWrite.inodeRegion inodes, BlockWrite.dataBitmap dbm,
      BlockWrite.inodeBitmap ibm]
      ++ (List.range r).map (fun (k : Nat) => BlockWrite.block (f k) (g k)))).super = d.super ∧
    (commit c d ([BlockWrite.inodeRegion inodes, BlockWrite.dataBitmap dbm,
      BlockWrite.inodeBitmap ibm]
      ++ (List.range r).map (fun (k : Nat) => BlockWrite.block (f k) (g k)))).inodes =
      (fun i => if 0 ≤ i ∧ i < d.super.num_inodes then inodes i else d.inodes i) ∧
    (commit c d ([BlockWrite.inodeRegion inodes, BlockWrite.dataBitmap dbm,
      BlockWrite.inodeBitmap ibm]
      ++ (List.range r).map (fun (k : Nat) => BlockWrite.block (f k) (g k)))).dataBitmap =
      copyRegion c d.super.data_bitmap_len dbm d.dataBitmap ∧
    (commit c d ([BlockWrite.inodeRegion inodes, BlockWrite.dataBitmap dbm,
      BlockWrite.inodeBitmap ibm]
      ++ (List.range r).map (fun (k : Nat) => BlockWrite.block (f k) (g k)))).inodeBitmap =
      copyRegion c d.super.inode_bitmap_len ibm d.inodeBitmap ∧
    (∀ b : Int, (∀ k : Nat, k < r → f k ≠ b) →
      (commit c d ([BlockWrite.inodeRegion inodes, BlockWrite.dataBitmap dbm,
        BlockWrite.inodeBitmap ibm]
        ++ (List.range r).map (fun (k : Nat) => BlockWrite.block (f k) (g k)))).blocks b =
        d.blocks b) ∧
    (∀ k : Nat, k < r → (∀ k' : Nat, k' < r → f k' = f k → k' = k) →
      ∀ x : Int, 0 ≤ x → x < (c.UFS_BLOCK_SIZE : Int) →
      (commit c d ([BlockWrite.inodeRegion inodes, BlockWrite.dataBitmap dbm,
        BlockWrite.inodeBitmap ibm]
        ++ (List.range r).map (fun (k : Nat) => BlockWrite.block (f k) (g k)))).blocks (f k) x =
        g k x) := by
  rw [commit_append]
  obtain ⟨B1, B2, B3, B4, B5, B6⟩ := commit_blocks c f g r
    (commit c d [BlockWrite.inodeRegion inodes, BlockWrite.dataBitmap dbm,
      BlockWrite.inodeBitmap ibm])
  rw [B1, B2, B3, B4]
  refine ⟨rfl, rfl, rfl, rfl, ?_, ?_⟩
  · intro b hb
    rw [B5 b hb]
    rfl
  · intro k hk hinj x hx0 hx1
    exact B6 k hk hinj x hx0 hx1

/-- C16. For a directory `p` in range (its size between 0 and `MAX_FILE_SIZE`)
and a name `n` of length below `DIR_ENT_NAME_SIZE` other than `.` and `..` that
none of the first `size / sizeof(dir_ent_t)` entries of `p` carries,
`unlink(p, n)` returns 0 and issues no write. -/
theorem unlink_absent (c : Cfg) (junk : Nat → Int → Nat) (d : Disk) (p : Int)
    (name : List Nat)
    (hB : 0 < c.UFS_BLOCK_SIZE) (hM : MAX_FILE_SIZE c < 2147483648)
    (hp : 0 ≤ p ∧ p < d.super.num_inodes)
    (hdir : (d.inodes p).type = c.UFS_DIRECTORY)
    (hsz : 0 ≤ (d.inodes p).size ∧ (d.inodes p).size ≤ MAX_FILE_SIZE c)
    (hlen : name.length < c.DIR_ENT_NAME_SIZE)
    (hnd : name ≠ [46] ∧ name ≠ [46, 46])
    (habs : ∀ j : Nat, j < numEntries c (d.inodes p) →
      entName c (fileData c d (d.inodes p)) (j : Int) ≠ name) :
    unlink c junk d p name = (0, []) ∧ commit c d (unlink c junk d p name).2 = d := by
  have h := (unlink_scan c junk d p name hB hM hp hlen hnd hdir hsz).2.2
  have hnone : findEntry c (fileData c d (d.inodes p)) name (numEntries c (d.inodes p)) 0 = none := by
    rw [findEntry_eq_none_iff]
    intro j _ hj
    exact habs j (by omega)
  rw [hnone] at h
  rw [h]
  exact ⟨rfl, rfl⟩

theorem unlink_absent_witness :
    unlink exCfg exJunk exWithFile 0 [120] = (0, []) ∧
    commit exCfg exWithFile (unlink exCfg exJunk exWithFile 0 [120]).2 = exWithFile :=
  unlink_absent exCfg exJunk exWithFile 0 [120] (by decide) (by decide) (by decide) (by decide)
    (by decide) (by decide) (by decide) (by decide)

/-- C18. `unlink(p, n)` returns invalid-inode for `p` outside `[0, num_inodes)`
and, `n` being a valid name other than `.` and `..`, for `p` in range whose
inode is not a directory; it returns unlink-not-allowed for `.` and `..` with
every `p` in range (the two names being shorter than `DIR_ENT_NAME_SIZE`), and
invalid-name for a name of length `DIR_ENT_NAME_SIZE` or more with `p` in range.
None of these calls writes, so the image after them is the image before. -/
theorem unlink_validation (c : Cfg) (junk : Nat → Int → Nat) (d : Disk) (p : Int)
    (name : List Nat) :
    (¬ (0 ≤ p ∧ p < d.super.num_inodes) →
      unlink c junk d p name = (-c.EINVALIDINODE, [])) ∧
    ((0 ≤ p ∧ p < d.super.num_inodes) → name.length < c.DIR_ENT_NAME_SIZE →
      (name ≠ [46] ∧ name ≠ [46, 46]) → (d.inodes p).type ≠ c.UFS_DIRECTORY →
      unlink c junk d p name = (-c.EINVALIDINODE, [])) ∧
    ((0 ≤ p ∧ p < d.super.num_inodes) → 2 < c.DIR_ENT_NAME_SIZE →
      unlink c junk d p [46] = (-c.EUNLINKNOTALLOWED, []) ∧
      unlink c junk d p [46, 46] = (-c.EUNLINKNOTALLOWED, []) ∧
      commit c d (unlink c junk d p [46]).2 = d ∧
      commit c d (unlink c junk d p [46, 46]).2 = d) ∧
    ((0 ≤ p ∧ p < d.super.num_inodes) → c.DIR_ENT_NAME_SIZE ≤ name.length →
      unlink c junk d p name = (-c.EINVALIDNAME, [])) := by
  have hout : ¬ (0 ≤ p ∧ p < d.super.num_inodes) → checkInode d.super p = false := by
    intro hp
    cases h : checkInode d.super p
    · rfl
    · exact absurd ((checkInode_iff _ _).1 h) hp
  have hin : (0 ≤ p ∧ p < d.super.num_inodes) → checkInode d.super p = true :=
    fun hp => (checkInode_iff _ _).2 hp
  have hdot : (0 ≤ p ∧ p < d.super.num_inodes) → 2 < c.DIR_ENT_NAME_SIZE →
      unlink c junk d p [46] = (-c.EUNLINKNOTALLOWED, []) ∧
      unlink c junk d p [46, 46] = (-c.EUNLINKNOTALLOWED, []) := by
    intro hp hNS
    constructor
    · unfold unlink
      simp only [readSuperBlock, hin hp, Bool.true_eq_false, if_false]
      rw [if_neg (by simp; omega), if_pos (by simp)]
    · unfold unlink
      simp only [readSuperBlock, hin hp, Bool.true_eq_false, if_false]
      rw [if_neg (by simp; omega), if_pos (by simp)]
  refine ⟨?_, ?_, ?_, ?_⟩
  · intro hp
    unfold unlink
    simp only [readSuperBlock, hout hp, if_true]
  · intro hp hlen hnd hty
    unfold unlink
    simp only [readSuperBlock, readInodeRegion, hin hp, Bool.true_eq_false, if_false]
    rw [if_neg (by simp [hlen]), if_neg (by simp [hnd.1, hnd.2]), if_pos hty]
  · intro hp hNS
    obtain ⟨h1, h2⟩ := hdot hp hNS
    refine ⟨h1, h2, by rw [h1]; rfl, by rw [h2]; rfl⟩
  · intro hp hlen
    unfold unlink
    simp only [readSuperBlock, hin hp, Bool.true_eq_false, if_false]
    rw [if_pos (by simp; omega)]

theorem unlink_validation_witness :
    (¬ (0 ≤ (1 : Int) ∧ (1 : Int) < exWithFile.super.num_inodes) →
      unlink exCfg exJunk exWithFile 1 [120] = (-exCfg.EINVALIDINODE, [])) ∧
    ((0 ≤ (1 : Int) ∧ (1 : Int) < exWithFile.super.num_inodes) →
      [120].length < exCfg.DIR_ENT_NAME_SIZE →
      (([120] : List Nat) ≠ [46] ∧ ([120] : List Nat) ≠ [46, 46]) →
      (exWithFile.inodes 1).type ≠ exCfg.UFS_DIRECTORY →
      unlink exCfg exJunk exWithFile 1 [120] = (-exCfg.EINVALIDINODE, [])) ∧
    ((0 ≤ (1 : Int) ∧ (1 : Int) < exWithFile.super.num_inodes) → 2 < exCfg.DIR_ENT_NAME_SIZE →
      unlink exCfg exJunk exWithFile 1 [46] = (-exCfg.EUNLINKNOTALLOWED, []) ∧
      unlink exCfg exJunk exWithFile 1 [46, 46] = (-exCfg.EUNLINKNOTALLOWED, []) ∧
      commit exCfg exWithFile (unlink exCfg exJunk exWithFile 1 [46]).2 = exWithFile ∧
      commit exCfg exWithFile (unlink exCfg exJunk exWithFile 1 [46, 46]).2 = exWithFile) ∧
    ((0 ≤ (1 : Int) ∧ (1 : Int) < exWithFile.super.num_inodes) →
      exCfg.DIR_ENT_NAME_SIZE ≤ [120].length →
      unlink exCfg exJunk exWithFile 1 [120] = (-exCfg.EINVALIDNAME, [])) :=
  unlink_validation exCfg exJunk exWithFile 1 [120]

theorem succ_div_mod (count P : Nat) (hP0 : 0 < P) :
    (count % P + 1 = P ∧ (count + 1) % P = 0 ∧ count + 1 = (count / P + 1) * P) ∨
    (count % P + 1 < P ∧ (count + 1) % P = count % P + 1 ∧ (count + 1) / P = count / P) := by
  have hdm := Nat.div_add_mod count P
  have hmodlt : count % P < P := Nat.mod_lt _ hP0
  rcases Nat.lt_or_ge (count % P + 1) P with hl | hl
  · right
    have e : count + 1 = P * (count / P) + (count % P + 1) := by omega
    refine ⟨hl, ?_, ?_⟩
    · have := congrArg (fun n => n % P) e
      simp only [Nat.mul_add_mod] at this
      rw [this]
      exact Nat.mod_eq_of_lt hl
    · have := congrArg (fun n => n / P) e
      simp only [Nat.mul_add_div hP0] at this
      rw [this, Nat.div_eq_of_lt hl]
      rfl
  · left
    have hr : count % P + 1 = P := by omega
    have e : count + 1 = (count / P + 1) * P := by
      rw [Nat.add_mul, one_mul, Nat.mul_comm]; omega
    refine ⟨hr, ?_, e⟩
    have := congrArg (fun n => n % P) e
    simp only [Nat.mul_mod_left] at this
    exact this

/-- The padding loop of `unlink` leaves the bytes of the `count` entries it
starts from as they are and, when `count` is not a multiple of the entries per
block, gives `inum = -1` to every slot from `count` to the end of that block. -/
theorem padEntries_spec (c : Cfg) (junk : Nat → Int → Nat) (P : Nat)
    (hP : c.UFS_BLOCK_SIZE = P * sizeof_dir_ent_t c) (hP0 : 0 < P)
    (fuel : Nat) (ent : Int → Nat) (count : Nat)
    (hfuel : P ≤ fuel + count % P) :
    (∀ y : Int, y < (count : Int) * (sizeof_dir_ent_t c : Int) →
      padEntries c junk fuel ent count y = ent y) ∧
    (count % P ≠ 0 → ∀ s : Nat, count ≤ s → s < (count / P + 1) * P →
      entInum c (padEntries c junk fuel ent count) (s : Int) = -1) := by
  have hES := sizeof_dir_ent_t_pos c
  have hE : (sizeof_dir_ent_t c : Int) = (c.DIR_ENT_NAME_SIZE : Int) + 4 := by
    unfold sizeof_dir_ent_t; push_cast; rfl
  have hcond : ∀ n : Nat, (n * sizeof_dir_ent_t c % c.UFS_BLOCK_SIZE ≠ 0 ↔ n % P ≠ 0) := by
    intro n
    rw [hP, Nat.mul_mod_mul_right]
    constructor
    · intro h h0
      rw [h0] at h
      simp at h
    · intro h h0
      rcases Nat.mul_eq_zero.1 h0 with h1 | h1
      · exact h h1
      · omega
  induction fuel generalizing ent count with
  | zero =>
    have : count % P < P := Nat.mod_lt _ hP0
    omega
  | succ fuel ih =>
    unfold padEntries
    by_cases hc : count % P = 0
    · rw [if_neg (by rw [hcond]; simp [hc])]
      exact ⟨fun _ _ => rfl, fun h => absurd hc h⟩
    · rw [if_pos ((hcond count).2 hc)]
      have hnext := succ_div_mod count P hP0
      set ent' := setInum c (memcpy ent ((count : Int) * (sizeof_dir_ent_t c : Int)) (junk 2) 0
          (sizeof_dir_ent_t c : Int)) (count : Int) (-1) with hent'
      have hrec : (∀ y : Int, y < ((count + 1 : Nat) : Int) * (sizeof_dir_ent_t c : Int) →
            padEntries c junk fuel ent' (count + 1) y = ent' y) ∧
          ((count + 1) % P ≠ 0 → ∀ s : Nat, count + 1 ≤ s → s < ((count + 1) / P + 1) * P →
            entInum c (padEntries c junk fuel ent' (count + 1)) (s : Int) = -1) := by
        rcases hnext with ⟨_, h, _⟩ | ⟨_, h, _⟩
        · cases fuel with
          | zero =>
            unfold padEntries
            exact ⟨fun _ _ => rfl, fun h' => absurd h h'⟩
          | succ f =>
            unfold padEntries
            rw [if_neg (by rw [hcond]; simp [h])]
            exact ⟨fun _ _ => rfl, fun h' => absurd h h'⟩
        · exact ih ent' (count + 1) (by omega)
      obtain ⟨R1, R2⟩ := hrec
      have hcast : ((count + 1 : Nat) : Int) * (sizeof_dir_ent_t c : Int) =
          (count : Int) * (sizeof_dir_ent_t c : Int) + (sizeof_dir_ent_t c : Int) := by
        push_cast; ring
      constructor
      · intro y hy
        rw [R1 y (by rw [hcast]; omega), hent',
          setInum_apply_of_outside c _ _ _ _ (Or.inl (by omega))]
        unfold memcpy
        rw [if_neg (by omega)]
      · intro _ s hs1 hs2
        by_cases hsc : s = count
        · rw [hsc]
          have : entInum c (padEntries c junk fuel ent' (count + 1)) (count : Int) =
              entInum c ent' (count : Int) := by
            apply entInum_congr
            intro k hk1 hk2
            exact R1 k (by rw [hcast]; omega)
          rw [this, hent', entInum_setInum c _ _ _ (by omega) (by omega)]
        · rcases hnext with ⟨_, _, hfull⟩ | ⟨_, h, hd⟩
          · omega
          · exact R2 (by omega) s (by omega) (by rw [hd]; exact hs2)

/-- The entries of an array after `erase` of entry `e`: those before `e` stay,
those after move down by one. -/
theorem entry_eraseEntry (c : Cfg) (ent : Int → Nat) (e j : Nat) :
    entName c (eraseEntry c ent (e : Int)) (j : Int) =
      entName c ent ((if j < e then j else j + 1 : Nat) : Int) ∧
    entInum c (eraseEntry c ent (e : Int)) (j : Int) =
      entInum c ent ((if j < e then j else j + 1 : Nat) : Int) := by
  have hES := sizeof_dir_ent_t_pos c
  have hE : (sizeof_dir_ent_t c : Int) = (c.DIR_ENT_NAME_SIZE : Int) + 4 := by
    unfold sizeof_dir_ent_t; push_cast; rfl
  have key : ∀ k : Int, 0 ≤ k → k < (sizeof_dir_ent_t c : Int) →
      eraseEntry c ent (e : Int) ((j : Int) * (sizeof_dir_ent_t c : Int) + k) =
      ent (((if j < e then j else j + 1 : Nat) : Int) * (sizeof_dir_ent_t c : Int) + k) := by
    intro k hk0 hk1
    unfold eraseEntry
    by_cases hje : j < e
    · have h1 : ((j : Int) + 1) * (sizeof_dir_ent_t c : Int) ≤ (e : Int) * (sizeof_dir_ent_t c : Int) :=
        mul_le_mul_of_nonneg_right (by omega) (by omega)
      rw [if_pos (by nlinarith), if_pos hje]
    · have h1 : (e : Int) * (sizeof_dir_ent_t c : Int) ≤ (j : Int) * (sizeof_dir_ent_t c : Int) :=
        mul_le_mul_of_nonneg_right (by omega) (by omega)
      rw [if_neg (by omega), if_neg hje]
      congr 1
      push_cast
      ring
  constructor
  · apply entName_congr_shift
    intro k hk
    exact key (k : Int) (by omega) (by omega)
  · apply entInum_congr_shift
    intro k hk0 hk1
    exact key k (by omega) hk1

/-- The loop of `unlink` over the blocks of the removed inode clears exactly
the bits of those blocks. -/
theorem clearBlocks_spec (superBlock : super_t) (dir : Int → Int) (n i : Nat) (bm : Int → Nat)
    (hv : ∀ t : Nat, i ≤ t → t < i + n →
      ∃ m : Nat, dir (t : Int) = superBlock.data_region_addr + (m : Int)) :
    ∀ j : Nat, findBit (clearBlocks superBlock dir n i bm) (j : Int) = true ↔
      (findBit bm (j : Int) = true ∧ ∀ t : Nat, i ≤ t → t < i + n →
        dir (t : Int) ≠ superBlock.data_region_addr + (j : Int)) := by
  induction n generalizing i bm with
  | zero =>
    intro j
    unfold clearBlocks
    constructor
    · intro h; exact ⟨h, fun t h1 h2 => by omega⟩
    · intro h; exact h.1
  | succ n ih =>
    intro j
    unfold clearBlocks
    obtain ⟨m, hm⟩ := hv i (le_refl _) (by omega)
    have hb : block2Bit superBlock (dir (i : Int)) = (m : Int) := by
      unfold block2Bit; omega
    rw [hb, ih (i + 1) _ (fun t h1 h2 => hv t (by omega) (by omega)), findBit_delBit]
    constructor
    · rintro ⟨h1, h2⟩
      simp only [Bool.and_eq_true, decide_eq_true_eq] at h1
      refine ⟨h1.2, fun t ht1 ht2 => ?_⟩
      by_cases hti : t = i
      · rw [hti, hm]
        intro hcon
        exact h1.1 (by omega)
      · exact h2 t (by omega) (by omega)
    · rintro ⟨h1, h2⟩
      refine ⟨?_, fun t ht1 ht2 => h2 t (by omega) (by omega)⟩
      simp only [Bool.and_eq_true, decide_eq_true_eq]
      refine ⟨fun hcon => ?_, h1⟩
      exact h2 i (le_refl _) (by omega) (by rw [hm, hcon])

/-- The bytes of a file whose first `nb` blocks hold consecutive pieces of an
array `E`. -/
theorem fileData_of_written (c : Cfg) (d : Disk) (inode : inode_t) (E : Int → Nat) (nb : Nat)
    (hB : 0 < c.UFS_BLOCK_SIZE)
    (h : ∀ k : Nat, k < nb → ∀ y : Int, 0 ≤ y → y < (c.UFS_BLOCK_SIZE : Int) →
      d.blocks (inode.direct (k : Int)) y = E ((k : Int) * (c.UFS_BLOCK_SIZE : Int) + y)) :
    ∀ y : Int, 0 ≤ y → y < (nb : Int) * (c.UFS_BLOCK_SIZE : Int) → fileData c d inode y = E y := by
  have hB' : (0 : Int) < (c.UFS_BLOCK_SIZE : Int) := by exact_mod_cast hB
  intro y hy0 hy1
  unfold fileData
  have hq0 : 0 ≤ y / (c.UFS_BLOCK_SIZE : Int) := Int.ediv_nonneg hy0 (le_of_lt hB')
  have hdm : (c.UFS_BLOCK_SIZE : Int) * (y / (c.UFS_BLOCK_SIZE : Int))
      + y % (c.UFS_BLOCK_SIZE : Int) = y := Int.ediv_add_emod _ _
  have hm0 : 0 ≤ y % (c.UFS_BLOCK_SIZE : Int) := Int.emod_nonneg _ (ne_of_gt hB')
  have hmB : y % (c.UFS_BLOCK_SIZE : Int) < (c.UFS_BLOCK_SIZE : Int) := Int.emod_lt_of_pos _ hB'
  have hlt : y / (c.UFS_BLOCK_SIZE : Int) < (nb : Int) :=
    Int.ediv_lt_of_lt_mul hB' hy1
  have := h (y / (c.UFS_BLOCK_SIZE : Int)).toNat (by omega) _ hm0 hmB
  rw [Int.toNat_of_nonneg hq0] at this
  rw [this]
  congr 1
  rw [mul_comm]
  exact hdm

/-- The entries of a directory of `count` entries and its blocks: the size is
`count` entries, a block holds `P` of them. -/
theorem entries_blocks (c : Cfg) (size : Int) (P : Nat)
    (hP : c.UFS_BLOCK_SIZE = P * sizeof_dir_ent_t c)
    (hsz : 0 ≤ size) (hmodE : size % (sizeof_dir_ent_t c : Int) = 0) :
    size = (((size / (sizeof_dir_ent_t c : Int)).toNat : Nat) : Int) * (sizeof_dir_ent_t c : Int) ∧
    size / (c.UFS_BLOCK_SIZE : Int) =
      (((size / (sizeof_dir_ent_t c : Int)).toNat / P : Nat) : Int) ∧
    (size % (c.UFS_BLOCK_SIZE : Int) = 0 ↔ (size / (sizeof_dir_ent_t c : Int)).toNat % P = 0) := by
  have hES := sizeof_dir_ent_t_pos c
  have hES' : (0 : Int) < (sizeof_dir_ent_t c : Int) := by exact_mod_cast hES
  have hBE : (c.UFS_BLOCK_SIZE : Int) = (P : Int) * (sizeof_dir_ent_t c : Int) := by
    rw [← Nat.cast_mul, ← hP]
  have hq0 : 0 ≤ size / (sizeof_dir_ent_t c : Int) := Int.ediv_nonneg hsz (le_of_lt hES')
  have hu : size = size / (sizeof_dir_ent_t c : Int) * (sizeof_dir_ent_t c : Int) := by
    have := Int.ediv_add_emod size (sizeof_dir_ent_t c : Int)
    rw [hmodE] at this
    linarith
  set n := (size / (sizeof_dir_ent_t c : Int)).toNat with hn
  have hnc : (n : Int) = size / (sizeof_dir_ent_t c : Int) := Int.toNat_of_nonneg hq0
  have h1 : size = (n : Int) * (sizeof_dir_ent_t c : Int) := by rw [hnc]; exact hu
  have h2 : size / (c.UFS_BLOCK_SIZE : Int) = ((n / P : Nat) : Int) := by
    rw [h1, hBE, Int.mul_ediv_mul_of_pos_left _ _ hES']
    norm_cast
  refine ⟨h1, h2, ?_⟩
  have h3 : size % (c.UFS_BLOCK_SIZE : Int) = ((n % P : Nat) : Int) * (sizeof_dir_ent_t c : Int) := by
    have hdm := Int.ediv_add_emod size (c.UFS_BLOCK_SIZE : Int)
    rw [h2] at hdm
    have hnm := Nat.div_add_mod n P
    have hnm' : (P : Int) * ((n / P : Nat) : Int) + ((n % P : Nat) : Int) = (n : Int) := by
      exact_mod_cast hnm
    have : size % (c.UFS_BLOCK_SIZE : Int) =
        size - (c.UFS_BLOCK_SIZE : Int) * ((n / P : Nat) : Int) := by linarith
    rw [this, hBE]
    nth_rewrite 1 [h1]
    rw [← hnm']
    ring
  rw [h3]
  constructor
  · intro h
    rcases Int.mul_eq_zero.1 h with h' | h'
    · exact_mod_cast h'
    · omega
  · intro h
    rw [h]
    simp

theorem slot_lt (E j n k : Int) (hE : 0 ≤ E) (hj : j + 1 ≤ n) (hk : k < j * E + E) :
    k < n * E := by
  nlinarith


/-- The image after an `unlink` that removes entry `e` of the directory `p`
(the first entry with the name, the inode `x` it names not being a directory
with entries of its own), when the blocks of `p` that survive are pairwise
distinct: the regions written, and the entries of `p` afterwards. -/
theorem unlink_effect (c : Cfg) (junk : Nat → Int → Nat) (d : Disk) (p : Int)
    (name : List Nat) (P : Nat) (e : Nat)
    (hP : c.UFS_BLOCK_SIZE = P * sizeof_dir_ent_t c) (hP0 : 0 < P)
    (hM : MAX_FILE_SIZE c < 2147483648)
    (hp : 0 ≤ p ∧ p < d.super.num_inodes)
    (hlen : name.length < c.DIR_ENT_NAME_SIZE)
    (hnd : name ≠ [46] ∧ name ≠ [46, 46])
    (hdir : (d.inodes p).type = c.UFS_DIRECTORY)
    (hsz : 0 ≤ (d.inodes p).size ∧ (d.inodes p).size ≤ MAX_FILE_SIZE c)
    (hmodE : (d.inodes p).size % (sizeof_dir_ent_t c : Int) = 0)
    (he : e < numEntries c (d.inodes p))
    (hname : entName c (fileData c d (d.inodes p)) (e : Int) = name)
    (hfirst : ∀ j : Nat, j < e → entName c (fileData c d (d.inodes p)) (j : Int) ≠ name)
    (hne : ¬ ((d.inodes (child c d p e)).type = c.UFS_DIRECTORY ∧
      (d.inodes (child c d p e)).size > (sizeof_dir_ent_t c : Int) * 2))
    (hdist : ∀ k k' : Nat,
      (k : Int) < divide ((d.inodes p).size - (sizeof_dir_ent_t c : Int)) (c.UFS_BLOCK_SIZE : Int) →
      (k' : Int) < divide ((d.inodes p).size - (sizeof_dir_ent_t c : Int)) (c.UFS_BLOCK_SIZE : Int) →
      (d.inodes p).direct (k : Int) = (d.inodes p).direct (k' : Int) → k = k')
    (d' : Disk) (hd' : d' = commit c d (unlink c junk d p name).2) :
    (unlink c junk d p name).1 = 0 ∧
    d'.super = d.super ∧
    d'.inodes p =
      { type := (d.inodes p).type,
        size := (d.inodes p).size - (sizeof_dir_ent_t c : Int),
        direct :=
          if ((d.inodes p).size - (sizeof_dir_ent_t c : Int)) % (c.UFS_BLOCK_SIZE : Int) = 0 then
            Function.update (d.inodes p).direct
              (((d.inodes p).size - (sizeof_dir_ent_t c : Int)) / (c.UFS_BLOCK_SIZE : Int)) (-1)
          else (d.inodes p).direct } ∧
    (∀ i : Int, i ≠ p → d'.inodes i = d.inodes i) ∧
    d'.inodeBitmap = copyRegion c d.super.inode_bitmap_len
      (delBit (readInodeBitmap c d (junk 1)) (child c d p e)) d.inodeBitmap ∧
    d'.dataBitmap = copyRegion c d.super.data_bitmap_len
      (if ((d.inodes p).size - (sizeof_dir_ent_t c : Int)) % (c.UFS_BLOCK_SIZE : Int) = 0 then
        delBit (clearBlocks d.super (d.inodes (child c d p e)).direct
            (numBlocks c (d.inodes (child c d p e))).toNat 0 (readDataBitmap c d (junk 0)))
          (block2Bit d.super ((d.inodes p).direct
            (((d.inodes p).size - (sizeof_dir_ent_t c : Int)) / (c.UFS_BLOCK_SIZE : Int))))
      else clearBlocks d.super (d.inodes (child c d p e)).direct
            (numBlocks c (d.inodes (child c d p e))).toNat 0 (readDataBitmap c d (junk 0)))
      d.dataBitmap ∧
    (∀ b : Int, (∀ k : Nat,
        (k : Int) < divide ((d.inodes p).size - (sizeof_dir_ent_t c : Int)) (c.UFS_BLOCK_SIZE : Int) →
        (d.inodes p).direct (k : Int) ≠ b) → d'.blocks b = d.blocks b) ∧
    (∀ j : Nat, j + 1 < numEntries c (d.inodes p) →
      entName c (fileData c d' (d'.inodes p)) (j : Int) =
        entName c (fileData c d (d.inodes p)) ((if j < e then j else j + 1 : Nat) : Int) ∧
      entInum c (fileData c d' (d'.inodes p)) (j : Int) =
        entInum c (fileData c d (d.inodes p)) ((if j < e then j else j + 1 : Nat) : Int)) ∧
    (∀ s : Nat, numEntries c (d.inodes p) ≤ s + 1 →
      (s : Int) < divide ((d.inodes p).size - (sizeof_dir_ent_t c : Int))
        (c.UFS_BLOCK_SIZE : Int) * (P : Int) →
      entInum c (fileData c d' (d'.inodes p)) (s : Int) = -1) := by
  have hES := sizeof_dir_ent_t_pos c
  have hES' : (0 : Int) < (sizeof_dir_ent_t c : Int) := by exact_mod_cast hES
  have hEN : (sizeof_dir_ent_t c : Int) = (c.DIR_ENT_NAME_SIZE : Int) + 4 := by
    unfold sizeof_dir_ent_t; push_cast; rfl
  have hB : 0 < c.UFS_BLOCK_SIZE := by
    rw [hP]; exact Nat.mul_pos hP0 hES
  have hB' : (0 : Int) < (c.UFS_BLOCK_SIZE : Int) := by exact_mod_cast hB
  have hBE : (c.UFS_BLOCK_SIZE : Int) = (P : Int) * (sizeof_dir_ent_t c : Int) := by
    rw [← Nat.cast_mul, ← hP]
  have hPB : P ≤ c.UFS_BLOCK_SIZE := by
    rw [hP]; exact Nat.le_mul_of_pos_right _ hES
  have hEIB : ENTRIES_IN_BLOCK c = P := by
    unfold ENTRIES_IN_BLOCK
    rw [hP, Nat.mul_div_cancel _ hES]
  -- the scan finds entry `e`
  obtain ⟨hbuf, _, hun⟩ := unlink_scan c junk d p name hB hM hp hlen hnd hdir hsz
  have hfe : findEntry c (fileData c d (d.inodes p)) name (numEntries c (d.inodes p)) 0 = some e := by
    rw [findEntry_eq_some_iff]
    exact ⟨Nat.zero_le _, by omega, hname, fun j _ hj => hfirst j hj⟩
  rw [hfe] at hun
  simp only at hun
  have hnc := numEntries_cast c (d.inodes p) hsz.1
  have hx : entInum c (read c d p (fun _ => 0) (d.inodes p).size).2 (e : Int) = child c d p e :=
    (entry_eq_of_bytes c _ _ (d.inodes p).size hbuf e (by omega)).2
  -- the size of the parent
  obtain ⟨hsN, _, _⟩ := entries_blocks c (d.inodes p).size P hP hsz.1 hmodE
  have hnE : (numEntries c (d.inodes p) : Int) * (sizeof_dir_ent_t c : Int) = (d.inodes p).size := by
    rw [hnc]; rw [← hnc]; exact hsN.symm
  have hszE : (sizeof_dir_ent_t c : Int) ≤ (d.inodes p).size := by
    have h1 : (1 : Int) ≤ (numEntries c (d.inodes p) : Int) := by omega
    nlinarith
  have hns0 : 0 ≤ (d.inodes p).size - (sizeof_dir_ent_t c : Int) := by omega
  have hnsmodE : ((d.inodes p).size - (sizeof_dir_ent_t c : Int)) % (sizeof_dir_ent_t c : Int) = 0 := by
    rw [Int.sub_emod, hmodE, Int.emod_self]; simp
  obtain ⟨hnsN, hnsdiv, hnsmod⟩ := entries_blocks c
    ((d.inodes p).size - (sizeof_dir_ent_t c : Int)) P hP hns0 hnsmodE
  have hcount : (((d.inodes p).size - (sizeof_dir_ent_t c : Int)) / (sizeof_dir_ent_t c : Int)).toNat
      = numEntries c (d.inodes p) - 1 := by
    have h1 : ((d.inodes p).size - (sizeof_dir_ent_t c : Int)) / (sizeof_dir_ent_t c : Int) =
        (numEntries c (d.inodes p) : Int) - 1 := by
      rw [← hnE]
      have : (numEntries c (d.inodes p) : Int) * (sizeof_dir_ent_t c : Int) -
          (sizeof_dir_ent_t c : Int) =
          ((numEntries c (d.inodes p) : Int) - 1) * (sizeof_dir_ent_t c : Int) := by ring
      rw [this, Int.mul_ediv_cancel _ (ne_of_gt hES')]
    rw [h1]; omega
  rw [hcount] at hnsN hnsdiv hnsmod
  have hlt : ((d.inodes p).size - (sizeof_dir_ent_t c : Int)) / (c.UFS_BLOCK_SIZE : Int)
      < (c.DIRECT_PTRS : Int) := by
    apply Int.ediv_lt_of_lt_mul hB'
    have : (MAX_FILE_SIZE c : Int) = (c.DIRECT_PTRS : Int) * (c.UFS_BLOCK_SIZE : Int) := rfl
    omega
  have hnb0 : 0 ≤ divide ((d.inodes p).size - (sizeof_dir_ent_t c : Int)) (c.UFS_BLOCK_SIZE : Int) :=
    divide_nonneg _ _ hB' hns0
  -- the writes
  have heq := unlinkEntry_eq c junk d p (readDataBitmap c d (junk 0)) (readInodeBitmap c d (junk 1))
    (read c d p (fun _ => 0) (d.inodes p).size).2 ((d.inodes p).size / (sizeof_dir_ent_t c : Int)) e
    hB ⟨hszE, by omega⟩ (by rw [hx]; exact hne)
  rw [hx] at heq
  simp only [hlt, and_true] at heq
  rw [heq] at hun
  rw [hun] at hd' ⊢
  dsimp only at hd'
  obtain ⟨U1, U2, U3, U4, U5, U6⟩ := commit_unlinkWrites c d
    (Function.update d.inodes p
      { type := (d.inodes p).type,
        size := (d.inodes p).size - (sizeof_dir_ent_t c : Int),
        direct :=
          if ((d.inodes p).size - (sizeof_dir_ent_t c : Int)) % (c.UFS_BLOCK_SIZE : Int) = 0 then
            Function.update (d.inodes p).direct
              (((d.inodes p).size - (sizeof_dir_ent_t c : Int)) / (c.UFS_BLOCK_SIZE : Int)) (-1)
          else (d.inodes p).direct })
    (if ((d.inodes p).size - (sizeof_dir_ent_t c : Int)) % (c.UFS_BLOCK_SIZE : Int) = 0 then
        delBit (clearBlocks d.super (d.inodes (child c d p e)).direct
            (numBlocks c (d.inodes (child c d p e))).toNat 0 (readDataBitmap c d (junk 0)))
          (block2Bit d.super ((d.inodes p).direct
            (((d.inodes p).size - (sizeof_dir_ent_t c : Int)) / (c.UFS_BLOCK_SIZE : Int))))
      else clearBlocks d.super (d.inodes (child c d p e)).direct
            (numBlocks c (d.inodes (child c d p e))).toNat 0 (readDataBitmap c d (junk 0)))
    (delBit (readInodeBitmap c d (junk 1)) (child c d p e))
    (fun (i : Nat) => (d.inodes p).direct (i : Int))
    (fun (i : Nat) => fun k => padEntries c junk c.UFS_BLOCK_SIZE
      (eraseEntry c (read c d p (fun _ => 0) (d.inodes p).size).2 (e : Int))
      (((d.inodes p).size / (sizeof_dir_ent_t c : Int)).toNat - 1)
      ((i : Int) * (ENTRIES_IN_BLOCK c : Int) * (sizeof_dir_ent_t c : Int) + k))
    (divide ((d.inodes p).size - (sizeof_dir_ent_t c : Int)) (c.UFS_BLOCK_SIZE : Int)).toNat
  rw [← hd'] at U1 U2 U3 U4 U5 U6
  have hrecp : d'.inodes p =
      { type := (d.inodes p).type,
        size := (d.inodes p).size - (sizeof_dir_ent_t c : Int),
        direct :=
          if ((d.inodes p).size - (sizeof_dir_ent_t c : Int)) % (c.UFS_BLOCK_SIZE : Int) = 0 then
            Function.update (d.inodes p).direct
              (((d.inodes p).size - (sizeof_dir_ent_t c : Int)) / (c.UFS_BLOCK_SIZE : Int)) (-1)
          else (d.inodes p).direct } := by
    rw [U2]
    dsimp only
    rw [if_pos hp, Function.update_same]
  have hoth : ∀ i : Int, i ≠ p → d'.inodes i = d.inodes i := by
    intro i hi
    rw [U2]
    dsimp only
    split
    · rw [Function.update_noteq hi]
    · rfl
  have hcountN : ((d.inodes p).size / (sizeof_dir_ent_t c : Int)).toNat - 1 =
      numEntries c (d.inodes p) - 1 := rfl
  -- the bytes of the parent after the call
  set E := padEntries c junk c.UFS_BLOCK_SIZE
      (eraseEntry c (read c d p (fun _ => 0) (d.inodes p).size).2 (e : Int))
      (numEntries c (d.inodes p) - 1) with hEdef
  have hdirect : ∀ k : Nat,
      (k : Int) < divide ((d.inodes p).size - (sizeof_dir_ent_t c : Int)) (c.UFS_BLOCK_SIZE : Int) →
      (d'.inodes p).direct (k : Int) = (d.inodes p).direct (k : Int) := by
    intro k hk
    rw [hrecp]
    dsimp only
    split
    · rename_i hmod0
      rw [divide_of_emod_zero _ _ hB' hns0 hmod0] at hk
      rw [Function.update_noteq (by omega)]
    · rfl
  have hFD : ∀ y : Int, 0 ≤ y →
      y < ((divide ((d.inodes p).size - (sizeof_dir_ent_t c : Int))
        (c.UFS_BLOCK_SIZE : Int)).toNat : Int) * (c.UFS_BLOCK_SIZE : Int) →
      fileData c d' (d'.inodes p) y = E y := by
    apply fileData_of_written c d' (d'.inodes p) E _ hB
    intro k hk y hy0 hy1
    rw [hdirect k (by omega)]
    have := U6 k hk (fun k' hk' h => hdist k' k (by omega) (by omega) h) y hy0 hy1
    rw [this, hEIB, hBE, hcountN, mul_assoc]
  have hslotE : ∀ s : Nat,
      (s : Int) < divide ((d.inodes p).size - (sizeof_dir_ent_t c : Int))
        (c.UFS_BLOCK_SIZE : Int) * (P : Int) →
      entName c (fileData c d' (d'.inodes p)) (s : Int) = entName c E (s : Int) ∧
      entInum c (fileData c d' (d'.inodes p)) (s : Int) = entInum c E (s : Int) := by
    intro s hs
    have hbound : ∀ k : Int, (s : Int) * (sizeof_dir_ent_t c : Int) ≤ k →
        k < (s : Int) * (sizeof_dir_ent_t c : Int) + (sizeof_dir_ent_t c : Int) →
        fileData c d' (d'.inodes p) k = E k := by
      intro k hk1 hk2
      have hb := slot_bounds (sizeof_dir_ent_t c : Int) (c.DIR_ENT_NAME_SIZE : Int) (s : Int)
        (divide ((d.inodes p).size - (sizeof_dir_ent_t c : Int)) (c.UFS_BLOCK_SIZE : Int) * (P : Int))
        k hEN (by omega) (by omega) hs hk1 hk2
      apply hFD k hb.1
      rw [Int.toNat_of_nonneg hnb0]
      have := hb.2
      rw [mul_assoc, ← hBE] at this
      exact this
    constructor
    · apply entName_congr
      intro k hk1 hk2
      exact hbound k hk1 (by omega)
    · apply entInum_congr
      intro k hk1 hk2
      exact hbound k (by omega) hk2
  obtain ⟨PA, PB⟩ := padEntries_spec c junk P hP hP0 c.UFS_BLOCK_SIZE
    (eraseEntry c (read c d p (fun _ => 0) (d.inodes p).size).2 (e : Int))
    (numEntries c (d.inodes p) - 1) (by omega)
  rw [← hEdef] at PA PB
  -- the number of blocks that survive, in entries
  have hnbP : divide ((d.inodes p).size - (sizeof_dir_ent_t c : Int)) (c.UFS_BLOCK_SIZE : Int)
        * (P : Int) =
      if (numEntries c (d.inodes p) - 1) % P = 0 then ((numEntries c (d.inodes p) - 1 : Nat) : Int)
      else ((((numEntries c (d.inodes p) - 1) / P + 1) * P : Nat) : Int) := by
    by_cases hm : (numEntries c (d.inodes p) - 1) % P = 0
    · rw [if_pos hm, divide_of_emod_zero _ _ hB' hns0 (hnsmod.2 hm), hnsdiv]
      have := Nat.div_add_mod (numEntries c (d.inodes p) - 1) P
      rw [hm] at this
      have h2 : (numEntries c (d.inodes p) - 1) / P * P = numEntries c (d.inodes p) - 1 := by
        rw [Nat.mul_comm]; omega
      exact_mod_cast h2
    · rw [if_neg hm, divide_of_emod_ne_zero _ _ hB' hns0 (fun h => hm (hnsmod.1 h)), hnsdiv]
      push_cast
      ring
  refine ⟨rfl, U1, hrecp, hoth, ?_, ?_, ?_, ?_, ?_⟩
  · rw [U4]
  · rw [U3]
  · intro b hb
    apply U5
    intro k hk
    exact hb k (by omega)
  · intro j hj
    have hs : (j : Int) < divide ((d.inodes p).size - (sizeof_dir_ent_t c : Int))
        (c.UFS_BLOCK_SIZE : Int) * (P : Int) := by
      rw [hnbP]
      split
      · omega
      · rename_i hm
        have h1 := Nat.div_add_mod (numEntries c (d.inodes p) - 1) P
        have h2 : (numEntries c (d.inodes p) - 1) % P < P := Nat.mod_lt _ hP0
        have h3 : ((numEntries c (d.inodes p) - 1) / P + 1) * P =
            P * ((numEntries c (d.inodes p) - 1) / P) + P := by ring
        have h4 : j < ((numEntries c (d.inodes p) - 1) / P + 1) * P := by omega
        exact_mod_cast h4
    obtain ⟨S1, S2⟩ := hslotE j hs
    have hEj : entName c E (j : Int) =
          entName c (eraseEntry c (read c d p (fun _ => 0) (d.inodes p).size).2 (e : Int)) (j : Int) ∧
        entInum c E (j : Int) =
          entInum c (eraseEntry c (read c d p (fun _ => 0) (d.inodes p).size).2 (e : Int)) (j : Int) := by
      have hb : ∀ k : Int, k < (j : Int) * (sizeof_dir_ent_t c : Int) + (sizeof_dir_ent_t c : Int) →
          E k = eraseEntry c (read c d p (fun _ => 0) (d.inodes p).size).2 (e : Int) k := by
        intro k hk
        exact PA k (slot_lt _ _ _ k (le_of_lt hES') (by omega) hk)
      constructor
      · apply entName_congr
        intro k _ hk2
        exact hb k (by omega)
      · apply entInum_congr
        intro k _ hk2
        exact hb k hk2
    obtain ⟨R1, R2⟩ := entry_eraseEntry c (read c d p (fun _ => 0) (d.inodes p).size).2 e j
    have hidx : (((if j < e then j else j + 1 : Nat) : Nat) : Int) <
        (d.inodes p).size / (sizeof_dir_ent_t c : Int) := by
      split <;> omega
    obtain ⟨B1, B2⟩ := entry_eq_of_bytes c _ _ (d.inodes p).size hbuf
      (if j < e then j else j + 1) hidx
    rw [S1, S2, hEj.1, hEj.2, R1, R2, B1, B2]
    exact ⟨rfl, rfl⟩
  · intro s hs1 hs2
    rw [(hslotE s hs2).2]
    rw [hnbP] at hs2
    by_cases hm : (numEntries c (d.inodes p) - 1) % P = 0
    · rw [if_pos hm] at hs2
      omega
    · rw [if_neg hm] at hs2
      exact PB hm s (by omega) (by exact_mod_cast hs2)

/-- An `unlink` whose scan finds the name at entry `e` first continues with
`unlinkEntry` for that entry, whose inode number is `child c d p e`; the
directory holds at least one entry. -/
theorem unlink_found (c : Cfg) (junk : Nat → Int → Nat) (d : Disk) (p : Int)
    (name : List Nat) (e : Nat)
    (hB : 0 < c.UFS_BLOCK_SIZE) (hM : MAX_FILE_SIZE c < 2147483648)
    (hp : 0 ≤ p ∧ p < d.super.num_inodes)
    (hlen : name.length < c.DIR_ENT_NAME_SIZE)
    (hnd : name ≠ [46] ∧ name ≠ [46, 46])
    (hdir : (d.inodes p).type = c.UFS_DIRECTORY)
    (hsz : 0 ≤ (d.inodes p).size ∧ (d.inodes p).size ≤ MAX_FILE_SIZE c)
    (he : e < numEntries c (d.inodes p))
    (hname : entName c (fileData c d (d.inodes p)) (e : Int) = name)
    (hfirst : ∀ j : Nat, j < e → entName c (fileData c d (d.inodes p)) (j : Int) ≠ name) :
    unlink c junk d p name =
      unlinkEntry c junk d p d.inodes (readDataBitmap c d (junk 0))
        (readInodeBitmap c d (junk 1)) (read c d p (fun _ => 0) (d.inodes p).size).2
        ((d.inodes p).size / (sizeof_dir_ent_t c : Int)) e ∧
    entInum c (read c d p (fun _ => 0) (d.inodes p).size).2 (e : Int) = child c d p e ∧
    (sizeof_dir_ent_t c : Int) ≤ (d.inodes p).size := by
  have hES := sizeof_dir_ent_t_pos c
  have hES' : (0 : Int) < (sizeof_dir_ent_t c : Int) := by exact_mod_cast hES
  obtain ⟨hbuf, _, hun⟩ := unlink_scan c junk d p name hB hM hp hlen hnd hdir hsz
  have hfe : findEntry c (fileData c d (d.inodes p)) name (numEntries c (d.inodes p)) 0 = some e := by
    rw [findEntry_eq_some_iff]
    exact ⟨Nat.zero_le _, by omega, hname, fun j _ hj => hfirst j hj⟩
  rw [hfe] at hun
  have hnc := numEntries_cast c (d.inodes p) hsz.1
  refine ⟨hun, (entry_eq_of_bytes c _ _ (d.inodes p).size hbuf e (by omega)).2, ?_⟩
  have h1 : (1 : Int) ≤ (d.inodes p).size / (sizeof_dir_ent_t c : Int) := by omega
  have h2 := Int.ediv_mul_le (d.inodes p).size (ne_of_gt hES')
  nlinarith

theorem map_range_eraseIdx {α : Type} (f : Nat → α) (n e : Nat) (he : e < n) :
    ((List.range n).map f).eraseIdx e =
      (List.range (n - 1)).map (fun j => f (if j < e then j else j + 1)) := by
  apply List.ext_getElem?
  intro j
  rw [List.getElem?_eraseIdx]
  simp only [List.getElem?_map, List.getElem?_range]
  by_cases hj : j < n - 1
  · have hj1 : j < n := by omega
    have hj2 : j + 1 < n := by omega
    by_cases hje : j < e
    · simp [List.getElem?_range, hj, hj1, hje]
    · simp [List.getElem?_range, hj, hj2, hje]
  · by_cases hje : j < e
    · omega
    · rw [if_neg hje, List.getElem?_eq_none (by rw [List.length_range]; omega),
        List.getElem?_eq_none (by rw [List.length_range]; omega)]
      rfl

/-- The entries that `read` returns for a directory in range are the entries
of the concatenation of its blocks. -/
theorem dirEntries_eq (c : Cfg) (d : Disk) (p : Int)
    (hB : 0 < c.UFS_BLOCK_SIZE)
    (hp : 0 ≤ p ∧ p < d.super.num_inodes)
    (hdir : (d.inodes p).type = c.UFS_DIRECTORY)
    (hsz : 0 ≤ (d.inodes p).size ∧ (d.inodes p).size ≤ MAX_FILE_SIZE c) :
    dirEntries c d p =
      (List.range (numEntries c (d.inodes p))).map (fun (j : Nat) =>
        (entName c (fileData c d (d.inodes p)) (j : Int),
          entInum c (fileData c d (d.inodes p)) (j : Int))) := by
  have hchk : checkInode d.super p = true := (checkInode_iff _ _).2 hp
  obtain ⟨_, hrd⟩ := read_spec c d p (fun _ => 0) (d.inodes p).size hB hchk hsz.1 hsz.2
    (Or.inr hdir)
  have hbuf : ∀ k : Int, 0 ≤ k → k < (d.inodes p).size →
      (read c d p (fun _ => 0) (d.inodes p).size).2 k = fileData c d (d.inodes p) k := by
    intro k hk0 hk1
    rw [hrd k, if_pos ⟨hk0, by rw [min_self]; exact hk1⟩]
  have hnc := numEntries_cast c (d.inodes p) hsz.1
  unfold dirEntries
  apply List.map_congr_left
  intro j hj
  rw [List.mem_range] at hj
  obtain ⟨h1, h2⟩ := entry_eq_of_bytes c _ _ (d.inodes p).size hbuf j (by omega)
  rw [h1, h2]

theorem numEntries_sub_entry (c : Cfg) (a b : inode_t)
    (h : b.size = a.size - (sizeof_dir_ent_t c : Int))
    (ha : (sizeof_dir_ent_t c : Int) ≤ a.size) :
    numEntries c b = numEntries c a - 1 := by
  have hES := sizeof_dir_ent_t_pos c
  have hES' : (0 : Int) < (sizeof_dir_ent_t c : Int) := by exact_mod_cast hES
  unfold numEntries
  have h1 : a.size - (sizeof_dir_ent_t c : Int) = a.size + (-1) * (sizeof_dir_ent_t c : Int) := by
    ring
  rw [h, h1, Int.add_mul_ediv_right _ _ (ne_of_gt hES')]
  have h2 : (1 : Int) ≤ a.size / (sizeof_dir_ent_t c : Int) :=
    Int.le_ediv_of_mul_le hES' (by omega)
  omega

theorem unlinkEntry_dir_not_empty (c : Cfg) (junk : Nat → Int → Nat) (d : Disk)
    (p : Int) (inodes : Int → inode_t) (dbm ibm entries : Int → Nat) (n : Int) (e : Nat)
    (h : (inodes (entInum c entries (e : Int))).type = c.UFS_DIRECTORY ∧
      (inodes (entInum c entries (e : Int))).size > (sizeof_dir_ent_t c : Int) * 2) :
    unlinkEntry c junk d p inodes dbm ibm entries n e = (-c.EDIRNOTEMPTY, []) := by
  unfold unlinkEntry
  dsimp only
  rw [if_pos h]

/-- C19. On an image where the directory `p` (in range, its size a multiple of
`sizeof(dir_ent_t)` between 0 and `MAX_FILE_SIZE`) holds its surviving blocks in
distinct slots, an `unlink(p, n)` that finds `n` first at entry `e`, returns 0
and writes blocks of the data region only leaves, after the commit: the size of `p` decreased by `sizeof(dir_ent_t)`; as
the sequence of `(name, inum)` entries read from `p`, the sequence before with
entry `e` deleted, the others in their order; no entry named `n` when the names
of the entries before were pairwise different; and `inum = -1` in every slot
after these entries in the last surviving block of `p`. -/
theorem unlink_stable_compaction (c : Cfg) (junk : Nat → Int → Nat) (d : Disk) (p : Int)
    (name : List Nat) (P : Nat) (e : Nat)
    (hP : c.UFS_BLOCK_SIZE = P * sizeof_dir_ent_t c) (hP0 : 0 < P)
    (hM : MAX_FILE_SIZE c < 2147483648) (hE : 0 < c.EDIRNOTEMPTY)
    (hp : 0 ≤ p ∧ p < d.super.num_inodes)
    (hlen : name.length < c.DIR_ENT_NAME_SIZE)
    (hnd : name ≠ [46] ∧ name ≠ [46, 46])
    (hdir : (d.inodes p).type = c.UFS_DIRECTORY)
    (hsz : 0 ≤ (d.inodes p).size ∧ (d.inodes p).size ≤ MAX_FILE_SIZE c)
    (hmodE : (d.inodes p).size % (sizeof_dir_ent_t c : Int) = 0)
    (hdist : ∀ k : Nat,
      k < (divide ((d.inodes p).size - (sizeof_dir_ent_t c : Int)) (c.UFS_BLOCK_SIZE : Int)).toNat →
      ∀ k' : Nat,
      k' < (divide ((d.inodes p).size - (sizeof_dir_ent_t c : Int)) (c.UFS_BLOCK_SIZE : Int)).toNat →
      (d.inodes p).direct (k : Int) = (d.inodes p).direct (k' : Int) → k = k')
    (he : e < numEntries c (d.inodes p))
    (hname : entName c (fileData c d (d.inodes p)) (e : Int) = name)
    (hfirst : ∀ j : Nat, j < e → entName c (fileData c d (d.inodes p)) (j : Int) ≠ name)
    (hres : (unlink c junk d p name).1 = 0)
    (hreg : ∀ b ∈ writtenBlocks (unlink c junk d p name).2, d.super.data_region_addr ≤ b) :
    ((commit c d (unlink c junk d p name).2).inodes p).size =
      (d.inodes p).size - (sizeof_dir_ent_t c : Int) ∧
    dirEntries c (commit c d (unlink c junk d p name).2) p = (dirEntries c d p).eraseIdx e ∧
    ((∀ j j' : Nat, j < numEntries c (d.inodes p) → j' < numEntries c (d.inodes p) →
        entName c (fileData c d (d.inodes p)) (j : Int) =
          entName c (fileData c d (d.inodes p)) (j' : Int) → j = j') →
      ∀ x ∈ dirEntries c (commit c d (unlink c junk d p name).2) p, x.1 ≠ name) ∧
    (∀ s : Nat, numEntries c ((commit c d (unlink c junk d p name).2).inodes p) ≤ s →
      (s : Int) < numBlocks c ((commit c d (unlink c junk d p name).2).inodes p) * (P : Int) →
      entInum c (fileData c (commit c d (unlink c junk d p name).2)
        ((commit c d (unlink c junk d p name).2).inodes p)) (s : Int) = -1) := by
  have _ := hreg
  have hES := sizeof_dir_ent_t_pos c
  have hB : 0 < c.UFS_BLOCK_SIZE := by
    rw [hP]; exact Nat.mul_pos hP0 hES
  obtain ⟨hun, hch, hszE⟩ := unlink_found c junk d p name e hB hM hp hlen hnd hdir hsz he hname hfirst
  have hne : ¬ ((d.inodes (child c d p e)).type = c.UFS_DIRECTORY ∧
      (d.inodes (child c d p e)).size > (sizeof_dir_ent_t c : Int) * 2) := by
    intro h
    rw [hun, unlinkEntry_dir_not_empty c junk d p _ _ _ _ _ e (by rw [hch]; exact h)] at hres
    simp only at hres
    omega
  obtain ⟨_, V1, V2, _, _, _, _, V7, V8⟩ := unlink_effect c junk d p name P e hP hP0 hM hp hlen hnd
    hdir hsz hmodE he hname hfirst hne
    (fun k k' hk hk' h => hdist k (by omega) k' (by omega) h)
    (commit c d (unlink c junk d p name).2) rfl
  generalize commit c d (unlink c junk d p name).2 = d' at V1 V2 V7 V8 ⊢
  have hsize : (d'.inodes p).size = (d.inodes p).size - (sizeof_dir_ent_t c : Int) := by
    rw [V2]
  have htype : (d'.inodes p).type = c.UFS_DIRECTORY := by
    rw [V2]; exact hdir
  have hn : numEntries c (d'.inodes p) = numEntries c (d.inodes p) - 1 :=
    numEntries_sub_entry c _ _ hsize hszE
  have hD' : dirEntries c d' p =
      (List.range (numEntries c (d.inodes p) - 1)).map (fun (j : Nat) =>
        (entName c (fileData c d (d.inodes p)) ((if j < e then j else j + 1 : Nat) : Int),
          entInum c (fileData c d (d.inodes p)) ((if j < e then j else j + 1 : Nat) : Int))) := by
    rw [dirEntries_eq c d' p hB (by rw [V1]; exact hp) htype (by rw [hsize]; omega), hn]
    apply List.map_congr_left
    intro j hj
    rw [List.mem_range] at hj
    obtain ⟨h1, h2⟩ := V7 j (by omega)
    rw [h1, h2]
  refine ⟨hsize, ?_, ?_, ?_⟩
  · rw [hD', dirEntries_eq c d p hB hp hdir hsz,
      map_range_eraseIdx (fun (j : Nat) => (entName c (fileData c d (d.inodes p)) (j : Int),
        entInum c (fileData c d (d.inodes p)) (j : Int))) _ e he]
  · intro huniq x hx
    rw [hD', List.mem_map] at hx
    obtain ⟨j, hj, rfl⟩ := hx
    rw [List.mem_range] at hj
    dsimp only
    intro hcon
    have := huniq (if j < e then j else j + 1) e (by split <;> omega) he (by rw [hcon, hname])
    split at this <;> omega
  · intro s hs1 hs2
    apply V8 s (by omega)
    have : numBlocks c (d'.inodes p) =
        divide ((d.inodes p).size - (sizeof_dir_ent_t c : Int)) (c.UFS_BLOCK_SIZE : Int) := by
      unfold numBlocks
      rw [hsize]
    rw [← this]
    exact hs2

theorem unlink_stable_compaction_witness :
    ((commit exCfg exFullDir (unlink exCfg exJunk exFullDir 0 [98]).2).inodes 0).size =
      (exFullDir.inodes 0).size - (sizeof_dir_ent_t exCfg : Int) ∧
    dirEntries exCfg (commit exCfg exFullDir (unlink exCfg exJunk exFullDir 0 [98]).2) 0 =
      (dirEntries exCfg exFullDir 0).eraseIdx 3 ∧
    ((∀ j j' : Nat, j < numEntries exCfg (exFullDir.inodes 0) →
        j' < numEntries exCfg (exFullDir.inodes 0) →
        entName exCfg (fileData exCfg exFullDir (exFullDir.inodes 0)) (j : Int) =
          entName exCfg (fileData exCfg exFullDir (exFullDir.inodes 0)) (j' : Int) → j = j') →
      ∀ x ∈ dirEntries exCfg (commit exCfg exFullDir (unlink exCfg exJunk exFullDir 0 [98]).2) 0,
        x.1 ≠ [98]) ∧
    (∀ s : Nat,
      numEntries exCfg ((commit exCfg exFullDir (unlink exCfg exJunk exFullDir 0 [98]).2).inodes 0)
        ≤ s →
      (s : Int) < numBlocks exCfg
        ((commit exCfg exFullDir (unlink exCfg exJunk exFullDir 0 [98]).2).inodes 0) * ((2 : Nat) : Int) →
      entInum exCfg (fileData exCfg (commit exCfg exFullDir (unlink exCfg exJunk exFullDir 0 [98]).2)
        ((commit exCfg exFullDir (unlink exCfg exJunk exFullDir 0 [98]).2).inodes 0)) (s : Int) = -1) :=
  unlink_stable_compaction exCfg exJunk exFullDir 0 [98] 2 3 (by decide) (by decide) (by decide)
    (by decide) (by decide) (by decide) (by decide) (by decide) (by decide) (by decide)
    (by decide) (by decide) (by decide) (by decide) (by decide) (by decide)

theorem divide_one (a B : Int) (ha : 0 < a) (hB : a ≤ B) : divide a B = 1 := by
  unfold divide
  rw [Int.tdiv_eq_ediv (by omega) (by omega)]
  have := (Int.ediv_emod_unique (a := a + B - 1) (r := a - 1) (q := 1) (by omega : 0 < B)).2
    ⟨by linarith, by omega, by omega⟩
  exact this.1

/-- The data bitmap that `unlink` writes after a `create` of the same name, bit
by bit: the bits that the `create` had set are clear again. -/
theorem restore_bits (dbm0 dbm1 : Int → Nat) (md mp : Option Nat) (j : Nat) (b : Bool)
    (h1 : findBit dbm1 (j : Int) =
      (findBit dbm0 (j : Int) || decide (md = some j) || decide (mp = some j)))
    (hmd : ∀ m : Nat, md = some m → findBit dbm0 (m : Int) = false)
    (hmp : ∀ m : Nat, mp = some m → findBit dbm0 (m : Int) = false)
    (hb : b = (decide (mp ≠ some j) && (decide (md ≠ some j) && findBit dbm1 (j : Int)))) :
    b = findBit dbm0 (j : Int) := by
  rw [hb, h1]
  by_cases hd : md = some j
  · simp [hd, hmd j hd]
  · by_cases hp : mp = some j
    · simp [hp, hmp j hp]
    · simp [hd, hp]

/-- A fresh image is sound, when a block holds at least two entries and an inode
at least one block. -/
theorem fresh_sound (c : Cfg) (d : Disk) (P : Nat)
    (hP : c.UFS_BLOCK_SIZE = P * sizeof_dir_ent_t c) (hP2 : 2 ≤ P)
    (hDP : 0 < c.DIRECT_PTRS) (hF : Fresh c d) : Sound c d := by
  have hES := sizeof_dir_ent_t_pos c
  have hES' : (0 : Int) < (sizeof_dir_ent_t c : Int) := by exact_mod_cast hES
  have hBE : (c.UFS_BLOCK_SIZE : Int) = (P : Int) * (sizeof_dir_ent_t c : Int) := by
    rw [← Nat.cast_mul, ← hP]
  have h2E : 2 * (sizeof_dir_ent_t c : Int) ≤ (c.UFS_BLOCK_SIZE : Int) := by
    rw [hBE]
    have : (2 : Int) ≤ (P : Int) := by exact_mod_cast hP2
    nlinarith
  obtain ⟨hL, hN0, huse, htype, hsize, ⟨m, hm1, hm2, hm3⟩, hn0, hi0, hn1, hi1, _⟩ := hF
  have hlive : ∀ i : Int, live d i → i = 0 := by
    intro i ⟨h0, h1, h2⟩
    have := (huse i.toNat (by omega)).1 (by rw [Int.toNat_of_nonneg h0]; exact h2)
    omega
  have hnb : numBlocks c (d.inodes 0) = 1 := by
    unfold numBlocks
    rw [hsize]
    exact divide_one _ _ (by omega) h2E
  have hne : numEntries c (d.inodes 0) = 2 := by
    unfold numEntries
    rw [hsize, Int.mul_ediv_cancel _ (ne_of_gt hES')]
    rfl
  have hc0 : ((0 : Nat) : Int) = 0 := rfl
  have hname0 : entName c (fileData c d (d.inodes 0)) ((0 : Nat) : Int) = [46] := by
    have := entName_fileData c d (d.inodes 0) P 0 0 hP (by omega)
    simp only [Nat.zero_mul, Nat.add_zero] at this
    rw [this]
    exact hn0
  have hname1 : entName c (fileData c d (d.inodes 0)) ((1 : Nat) : Int) = [46, 46] := by
    have := entName_fileData c d (d.inodes 0) P 0 1 hP (by omega)
    simp only [Nat.zero_mul, Nat.zero_add] at this
    rw [this]
    exact hn1
  refine ⟨hL, ?_, ?_, ?_, ?_, ?_, ?_, ?_⟩
  · intro i hi
    rw [hlive i hi, hsize]
    refine ⟨by omega, ?_⟩
    unfold MAX_FILE_SIZE
    have : (1 : Int) ≤ (c.DIRECT_PTRS : Int) := by exact_mod_cast hDP
    nlinarith
  · intro i hi k hk
    rw [hlive i hi] at hk ⊢
    rw [hnb] at hk
    have hk0 : k = 0 := by omega
    rw [hk0, hc0]
    exact ⟨m, hm1, hm2, (hm3 m hm1).2 rfl⟩
  · intro i i' hi hi' k k' hk hk' _
    rw [hlive i hi] at hk ⊢
    rw [hlive i' hi'] at hk' ⊢
    rw [hnb] at hk hk'
    exact ⟨rfl, by omega⟩
  · intro j hj hbit
    have hjm := (hm3 j hj).1 hbit
    refine ⟨0, ⟨le_refl _, hN0, ?_⟩, 0, by rw [hnb, hc0]; omega, ?_⟩
    · have := (huse 0 (by omega)).2 rfl
      rw [hc0] at this
      exact this
    · rw [hc0, hm2, hjm]
  · intro i hi _
    rw [hlive i hi, hsize]
    exact ⟨le_refl _, Int.mul_emod_left _ _, hname0, hname1⟩
  · intro q hq _ e he1 he2
    rw [hlive q hq, hne] at he2
    omega
  · intro q q' hq hq' _ _ e e' he1 _ he2 _ _
    rw [hlive q hq, hne] at he2
    omega

theorem exTight_sizes : SizeInv exCfgLong exTight ∧ DirInv exCfgLong exTight := by
  decide

theorem exTight_bijection : BitmapBijection exCfgLong exTight := by
  decide

theorem exTight_files : FileBlocksValid exCfgLong exTight ∧ FileRestVacant exCfgLong exTight := by
  decide

theorem exTight_bits : ∀ j : Nat, j < 127 → findBit exTight.dataBitmap (j : Int) = true := by
  decide

theorem exTight_create :
    (create exCfgLong exJunk exTight 0 0 [100]).1 = 3 ∧
    writtenBlocks (create exCfgLong exJunk exTight 0 0 [100]).2 =
      [exTight.super.data_region_addr - 1, 131] := by
  decide

/-- C15, the code at the failing input. The image `exTight` satisfies the layout
and the invariants 2, 3, 4 and 7 of section 3; its data bitmap has exactly
`num_data = 128` bits, of which only bit 127 is clear, and the root directory
fills its two blocks (`size % block_size = 0`) without an entry named `d`. The
call `create(0, directory, d)` succeeds and returns inode 3: the block of the
new directory takes bit 127 (block 131), then `findFirstBit` returns `-1` for the
new block of the parent, the test `entryBlockBit < -1` lets it pass, and the
transaction writes the entries of the parent at `data_region_addr - 1`, the last
block of the inode table, after the inode table itself was written. -/
theorem create_directory_over_inode_table :
    Layout exCfgLong exTight ∧ SizeInv exCfgLong exTight ∧ DirInv exCfgLong exTight ∧
    BitmapBijection exCfgLong exTight ∧
    FileBlocksValid exCfgLong exTight ∧ FileRestVacant exCfgLong exTight ∧
    exTight.super.num_data = exTight.super.data_bitmap_len * (exCfgLong.UFS_BLOCK_SIZE : Int) * 8 ∧
    inUse exTight 0 ∧ (exTight.inodes 0).type = exCfgLong.UFS_DIRECTORY ∧
    (exTight.inodes 0).size % (exCfgLong.UFS_BLOCK_SIZE : Int) = 0 ∧
    findBit exTight.dataBitmap 127 = false ∧
    (∀ j : Nat, j < 127 → findBit exTight.dataBitmap (j : Int) = true) ∧
    (∀ j : Nat, j < numEntries exCfgLong (exTight.inodes 0) →
      entName exCfgLong (fileData exCfgLong exTight (exTight.inodes 0)) (j : Int) ≠ [100]) ∧
    (create exCfgLong exJunk exTight 0 0 [100]).1 = 3 ∧
    writtenBlocks (create exCfgLong exJunk exTight 0 0 [100]).2 =
      [exTight.super.data_region_addr - 1, 131] ∧
    exTight.super.data_region_addr - 1 =
      exTight.super.inode_region_addr + exTight.super.inode_region_len - 1 :=
  ⟨by decide, exTight_sizes.1, exTight_sizes.2, exTight_bijection, exTight_files.1,
    exTight_files.2, by decide, by decide, by decide, by decide, by decide, exTight_bits,
    by decide, exTight_create.1, exTight_create.2, by decide⟩

theorem create_created (c : Cfg) (junk : Nat → Int → Nat) (d : Disk) (p t : Int)
    (name : List Nat) (P : Nat)
    (hP : c.UFS_BLOCK_SIZE = P * sizeof_dir_ent_t c) (hP0 : 0 < P)
    (hM : MAX_FILE_SIZE c < 2147483648) (hE : 0 < c.ENOTENOUGHSPACE)
    (S : Sound c d) (huse : inUse d p)
    (hs : 0 ≤ (create c junk d p t name).1)
    (hreg : ∀ b ∈ writtenBlocks (create c junk d p t name).2, d.super.data_region_addr ≤ b)
    (d' : Disk) (hd' : d' = commit c d (create c junk d p t name).2) :
    d' = d ∨ ∃ (a : Nat) (md mp : Option Nat), Created c junk d d' p t name a md mp := by
  rcases create_effect c junk d p t name P hP hP0 hM hE S huse hs hreg d' hd' with h | h
  · exact Or.inl h
  · right
    obtain ⟨a, md, mp, h1, h2, h3, h4, h5, h6, h7, h8, h9, h10, h11, h12, h13, h14, h15, h16,
      h17, h18⟩ := h
    refine ⟨a, md, mp, ⟨h1, h2, h3, h4, h5, h6, h7, h8, h9, h10, h11, by rw [h12], by rw [h12],
      ?_, ?_, h13, ?_, ?_, h15, h16, h17, h18⟩⟩
    · intro m hm
      rw [h12, hm]
    · intro hm
      rw [h12, hm]
    · intro m hm
      rw [h14, hm]
    · intro hm
      rw [h14, hm]

/-- The block count of a directory whose size grows by one entry: one more when
the last block was full, the same otherwise. -/
theorem numBlocks_add_entry (c : Cfg) (size : Int) (P : Nat)
    (hP : c.UFS_BLOCK_SIZE = P * sizeof_dir_ent_t c) (hP0 : 0 < P)
    (hsz : 0 ≤ size) (hmodE : size % (sizeof_dir_ent_t c : Int) = 0) :
    (size % (c.UFS_BLOCK_SIZE : Int) = 0 →
      divide size (c.UFS_BLOCK_SIZE : Int) = size / (c.UFS_BLOCK_SIZE : Int) ∧
      divide (size + (sizeof_dir_ent_t c : Int)) (c.UFS_BLOCK_SIZE : Int) =
        size / (c.UFS_BLOCK_SIZE : Int) + 1) ∧
    (size % (c.UFS_BLOCK_SIZE : Int) ≠ 0 →
      divide size (c.UFS_BLOCK_SIZE : Int) = size / (c.UFS_BLOCK_SIZE : Int) + 1 ∧
      divide (size + (sizeof_dir_ent_t c : Int)) (c.UFS_BLOCK_SIZE : Int) =
        size / (c.UFS_BLOCK_SIZE : Int) + 1) := by
  have hES := sizeof_dir_ent_t_pos c
  have hES' : (0 : Int) < (sizeof_dir_ent_t c : Int) := by exact_mod_cast hES
  have hB : 0 < c.UFS_BLOCK_SIZE := by
    rw [hP]; exact Nat.mul_pos hP0 hES
  have hB' : (0 : Int) < (c.UFS_BLOCK_SIZE : Int) := by exact_mod_cast hB
  obtain ⟨_, hdiv, hmod⟩ := entries_blocks c size P hP hsz hmodE
  have hmodE' : (size + (sizeof_dir_ent_t c : Int)) % (sizeof_dir_ent_t c : Int) = 0 := by
    rw [Int.add_emod_self]; exact hmodE
  obtain ⟨_, hdiv', hmod'⟩ := entries_blocks c (size + (sizeof_dir_ent_t c : Int)) P hP
    (by omega) hmodE'
  have hn : ((size + (sizeof_dir_ent_t c : Int)) / (sizeof_dir_ent_t c : Int)).toNat =
      (size / (sizeof_dir_ent_t c : Int)).toNat + 1 := by
    have := Int.add_mul_ediv_right size 1 (ne_of_gt hES')
    rw [one_mul] at this
    rw [this]
    have := Int.ediv_nonneg hsz (le_of_lt hES')
    omega
  rw [hn] at hdiv' hmod'
  have hnew : divide (size + (sizeof_dir_ent_t c : Int)) (c.UFS_BLOCK_SIZE : Int) =
      size / (c.UFS_BLOCK_SIZE : Int) + 1 := by
    rcases succ_div_mod (size / (sizeof_dir_ent_t c : Int)).toNat P hP0 with ⟨_, h2, h3⟩ | ⟨_, h2, h3⟩
    · rw [divide_of_emod_zero _ _ hB' (by omega) (hmod'.2 h2), hdiv', hdiv]
      have : ((size / (sizeof_dir_ent_t c : Int)).toNat + 1) / P =
          (size / (sizeof_dir_ent_t c : Int)).toNat / P + 1 := by
        rw [h3, Nat.mul_div_cancel _ hP0]
      rw [this]
      push_cast
      rfl
    · rw [divide_of_emod_ne_zero _ _ hB' (by omega) (fun h => by
        have := hmod'.1 h
        omega), hdiv', hdiv, h3]
  constructor
  · intro h
    exact ⟨divide_of_emod_zero _ _ hB' hsz h, hnew⟩
  · intro h
    exact ⟨divide_of_emod_ne_zero _ _ hB' hsz h, hnew⟩

theorem numEntries_add_entry (c : Cfg) (inode inode' : inode_t) (hsz : 0 ≤ inode.size)
    (h : inode'.size = inode.size + (sizeof_dir_ent_t c : Int)) :
    numEntries c inode' = numEntries c inode + 1 := by
  have hES := sizeof_dir_ent_t_pos c
  have hES' : (0 : Int) < (sizeof_dir_ent_t c : Int) := by exact_mod_cast hES
  unfold numEntries
  rw [h]
  have : (inode.size + (sizeof_dir_ent_t c : Int)) / (sizeof_dir_ent_t c : Int) =
      inode.size / (sizeof_dir_ent_t c : Int) + 1 := by
    have := Int.add_mul_ediv_right inode.size 1 (ne_of_gt hES')
    rw [one_mul] at this
    exact this
  rw [this]
  have := Int.ediv_nonneg hsz (le_of_lt hES')
  omega

/-- The names of the first two entries of the block that `create` builds for a
new directory. -/
theorem entName_newDirEntries (c : Cfg) (junk : Nat → Int → Nat) (a p : Int)
    (hNS : 2 < c.DIR_ENT_NAME_SIZE) :
    entName c (newDirEntries c junk a p) ((0 : Nat) : Int) = [46] ∧
    entName c (newDirEntries c junk a p) ((1 : Nat) : Int) = [46, 46] := by
  unfold newDirEntries
  have h1 : (c_str [46]).length < c.DIR_ENT_NAME_SIZE := by
    rw [c_str_of_no_zero _ (by decide)]; simp; omega
  have h2 : (c_str [46, 46]).length < c.DIR_ENT_NAME_SIZE := by
    rw [c_str_of_no_zero _ (by decide)]; simp; omega
  constructor
  · rw [entName_vacate]
    simp only [Nat.cast_zero, Nat.cast_one]
    rw [entName_setName_of_ne c _ _ _ _ h2 (by omega), entName_setInum,
      entName_setName c _ _ _ h1, c_str_of_no_zero _ (by decide)]
  · rw [entName_vacate]
    simp only [Nat.cast_zero, Nat.cast_one]
    rw [entName_setName c _ _ _ h2, c_str_of_no_zero _ (by decide)]

/-- After a `create` the live inodes are those that were live and the new one. -/
theorem created_live (c : Cfg) (junk : Nat → Int → Nat) (d d' : Disk) (p t : Int)
    (name : List Nat) (a : Nat) (md mp : Option Nat)
    (C : Created c junk d d' p t name a md mp) (i : Int) :
    live d' i ↔ (live d i ∨ i = (a : Int)) := by
  unfold live inUse
  rw [C.super]
  constructor
  · rintro ⟨h0, h1, h2⟩
    have hb := C.ibits i.toNat (by omega)
    rw [Int.toNat_of_nonneg h0, h2] at hb
    by_cases hia : i.toNat = a
    · right; omega
    · left
      simp only [hia, decide_False, Bool.false_or] at hb
      exact ⟨h0, h1, hb.symm⟩
  · rintro (⟨h0, h1, h2⟩ | h)
    · have hb := C.ibits i.toNat (by omega)
      rw [Int.toNat_of_nonneg h0, h2] at hb
      simp only [Bool.or_true] at hb
      exact ⟨h0, h1, hb⟩
    · rw [h]
      have hb := C.ibits a (by have := C.arange; omega)
      simp only [decide_True, Bool.true_or] at hb
      exact ⟨by omega, C.arange, hb⟩

theorem created_ne (c : Cfg) (junk : Nat → Int → Nat) (d d' : Disk) (p t : Int)
    (name : List Nat) (a : Nat) (md mp : Option Nat)
    (C : Created c junk d d' p t name a md mp) (i : Int) (hi : live d i) : i ≠ (a : Int) := by
  intro h
  have := hi.2.2
  unfold inUse at this
  rw [h, C.afree] at this
  exact absurd this (by simp)

/-- The records of the inodes that were live, the parent apart, are unchanged. -/
theorem created_other (c : Cfg) (junk : Nat → Int → Nat) (d d' : Disk) (p t : Int)
    (name : List Nat) (a : Nat) (md mp : Option Nat)
    (C : Created c junk d d' p t name a md mp) (i : Int) (hi : live d i) (hip : i ≠ p) :
    d'.inodes i = d.inodes i :=
  C.others i hi.1 hi.2.1 hip (created_ne c junk d d' p t name a md mp C i hi)

/-- The block counts of the parent before and after a `create`. -/
theorem created_numBlocks (c : Cfg) (junk : Nat → Int → Nat) (d d' : Disk) (p t : Int)
    (name : List Nat) (a : Nat) (md mp : Option Nat) (P : Nat)
    (hP : c.UFS_BLOCK_SIZE = P * sizeof_dir_ent_t c) (hP0 : 0 < P)
    (S : Sound c d) (C : Created c junk d d' p t name a md mp) :
    numBlocks c (d'.inodes p) = (d.inodes p).size / (c.UFS_BLOCK_SIZE : Int) + 1 ∧
    (mp = none → numBlocks c (d.inodes p) = (d.inodes p).size / (c.UFS_BLOCK_SIZE : Int) + 1) ∧
    (∀ m : Nat, mp = some m →
      numBlocks c (d.inodes p) = (d.inodes p).size / (c.UFS_BLOCK_SIZE : Int)) := by
  obtain ⟨h1, h2⟩ := numBlocks_add_entry c (d.inodes p).size P hP hP0 (S.sizes p C.plive).1
    (S.dirShape p C.plive C.pdir).2.1
  unfold numBlocks
  rw [C.psize]
  by_cases hm : (d.inodes p).size % (c.UFS_BLOCK_SIZE : Int) = 0
  · refine ⟨(h1 hm).2, fun h => absurd hm (C.mpNone h), fun _ _ => (h1 hm).1⟩
  · refine ⟨(h2 hm).2, fun _ => (h2 hm).1, fun m h => absurd (C.mpSome m h).2.2.1 hm⟩

/-- The direct slots of the parent below its old block count are unchanged. -/
theorem created_ptr (c : Cfg) (junk : Nat → Int → Nat) (d d' : Disk) (p t : Int)
    (name : List Nat) (a : Nat) (md mp : Option Nat) (P : Nat)
    (hP : c.UFS_BLOCK_SIZE = P * sizeof_dir_ent_t c) (hP0 : 0 < P)
    (S : Sound c d) (C : Created c junk d d' p t name a md mp)
    (k : Nat) (hk : (k : Int) < numBlocks c (d.inodes p)) :
    (d'.inodes p).direct (k : Int) = (d.inodes p).direct (k : Int) := by
  obtain ⟨_, _, h3⟩ := created_numBlocks c junk d d' p t name a md mp P hP hP0 S C
  cases hmp : mp with
  | none => rw [C.pdirectNone hmp]
  | some m =>
    rw [C.pdirectSome m hmp, Function.update_noteq]
    have := h3 m hmp
    omega

/-- The block count of the new inode: one block for a directory, none for a
regular file. -/
theorem created_numBlocks_new (c : Cfg) (junk : Nat → Int → Nat) (d d' : Disk) (p t : Int)
    (name : List Nat) (a : Nat) (md mp : Option Nat) (P : Nat)
    (hP : c.UFS_BLOCK_SIZE = P * sizeof_dir_ent_t c) (hP2 : 2 ≤ P)
    (C : Created c junk d d' p t name a md mp) :
    (md = none → numBlocks c (d'.inodes (a : Int)) = 0) ∧
    (∀ m : Nat, md = some m → numBlocks c (d'.inodes (a : Int)) = 1) := by
  have hES := sizeof_dir_ent_t_pos c
  have hES' : (0 : Int) < (sizeof_dir_ent_t c : Int) := by exact_mod_cast hES
  have hBE : (c.UFS_BLOCK_SIZE : Int) = (P : Int) * (sizeof_dir_ent_t c : Int) := by
    rw [← Nat.cast_mul, ← hP]
  have h2E : 2 * (sizeof_dir_ent_t c : Int) ≤ (c.UFS_BLOCK_SIZE : Int) := by
    rw [hBE]
    have : (2 : Int) ≤ (P : Int) := by exact_mod_cast hP2
    nlinarith
  unfold numBlocks
  constructor
  · intro h
    rw [C.asizeNone h]
    exact divide_zero _ (by omega)
  · intro m h
    rw [C.asizeSome m h]
    exact divide_one _ _ (by omega) h2E

/-- Every live slot after a `create` is a slot that was live, with the block
number it held, or the first slot of the new directory, or the new slot of the
parent. -/
theorem created_slot (c : Cfg) (junk : Nat → Int → Nat) (d d' : Disk) (p t : Int)
    (name : List Nat) (a : Nat) (md mp : Option Nat) (P : Nat)
    (hP : c.UFS_BLOCK_SIZE = P * sizeof_dir_ent_t c) (hP2 : 2 ≤ P)
    (S : Sound c d) (C : Created c junk d d' p t name a md mp)
    (i : Int) (k : Nat) (hi : live d' i) (hk : (k : Int) < numBlocks c (d'.inodes i)) :
    (live d i ∧ (k : Int) < numBlocks c (d.inodes i) ∧
      (d'.inodes i).direct (k : Int) = (d.inodes i).direct (k : Int)) ∨
    (i = (a : Int) ∧ k = 0 ∧ ∃ m : Nat, md = some m ∧
      (d'.inodes i).direct (k : Int) = d.super.data_region_addr + (m : Int)) ∨
    (i = p ∧ ∃ m : Nat, mp = some m ∧
      (d'.inodes i).direct (k : Int) = d.super.data_region_addr + (m : Int)) := by
  have hP0 : 0 < P := by omega
  rcases (created_live c junk d d' p t name a md mp C i).1 hi with hl | ha
  · by_cases hip : i = p
    · rw [hip] at hk hl ⊢
      obtain ⟨h1, h2, h3⟩ := created_numBlocks c junk d d' p t name a md mp P hP hP0 S C
      by_cases hkk : (k : Int) < numBlocks c (d.inodes p)
      · exact Or.inl ⟨hl, hkk, created_ptr c junk d d' p t name a md mp P hP hP0 S C k hkk⟩
      · right; right
        cases hmp : mp with
        | none =>
          have := h2 hmp
          omega
        | some m =>
          refine ⟨rfl, m, rfl, ?_⟩
          have := h3 m hmp
          have hke : (k : Int) = (d.inodes p).size / (c.UFS_BLOCK_SIZE : Int) := by omega
          rw [C.pdirectSome m hmp, hke, Function.update_same]
    · left
      have := created_other c junk d d' p t name a md mp C i hl hip
      rw [this] at hk ⊢
      exact ⟨hl, hk, rfl⟩
  · right; left
    rw [ha] at hk ⊢
    obtain ⟨h1, h2⟩ := created_numBlocks_new c junk d d' p t name a md mp P hP hP2 C
    cases hmd : md with
    | none =>
      rw [h1 hmd] at hk
      omega
    | some m =>
      rw [h2 m hmd] at hk
      have hk0 : k = 0 := by omega
      refine ⟨rfl, hk0, m, rfl, ?_⟩
      rw [hk0]
      exact (C.mdSome m hmd).2.2.2.1

/-- Two block numbers of the data region whose bits differ are different. -/
theorem ptr_ne_of_bits (bm : Int → Nat) (dra ptr : Int) (m0 m : Nat)
    (h0 : ptr = dra + (m0 : Int)) (hb0 : findBit bm (m0 : Int) = true)
    (hb : findBit bm (m : Int) = false) : ptr ≠ dra + (m : Int) := by
  intro h
  have : m0 = m := by omega
  rw [this, hb] at hb0
  exact absurd hb0 (by simp)

/-- A `create` leaves the blocks of the inodes that were live as they were, the
blocks of the parent apart. -/
theorem created_block_old (c : Cfg) (junk : Nat → Int → Nat) (d d' : Disk) (p t : Int)
    (name : List Nat) (a : Nat) (md mp : Option Nat) (P : Nat)
    (hP : c.UFS_BLOCK_SIZE = P * sizeof_dir_ent_t c) (hP0 : 0 < P)
    (S : Sound c d) (C : Created c junk d d' p t name a md mp)
    (i : Int) (hi : live d i) (hip : i ≠ p) (k : Nat)
    (hk : (k : Int) < numBlocks c (d.inodes i)) :
    d'.blocks ((d.inodes i).direct (k : Int)) = d.blocks ((d.inodes i).direct (k : Int)) := by
  have hES := sizeof_dir_ent_t_pos c
  have hB : 0 < c.UFS_BLOCK_SIZE := by
    rw [hP]; exact Nat.mul_pos hP0 hES
  have hB' : (0 : Int) < (c.UFS_BLOCK_SIZE : Int) := by exact_mod_cast hB
  obtain ⟨m0, _, hm0, hb0⟩ := S.valid i hi k hk
  apply C.blocks
  · cases hmp : mp with
    | some m =>
      rw [C.pdirectSome m hmp, Function.update_same]
      exact ptr_ne_of_bits _ _ _ m0 m hm0 hb0 (C.mpSome m hmp).2.1
    | none =>
      rw [C.pdirectNone hmp]
      intro h
      have hnb := (created_numBlocks c junk d d' p t name a md mp P hP hP0 S C).2.1 hmp
      have hq0 : 0 ≤ (d.inodes p).size / (c.UFS_BLOCK_SIZE : Int) :=
        Int.ediv_nonneg (S.sizes p C.plive).1 (le_of_lt hB')
      have := S.distinct i p hi C.plive k ((d.inodes p).size / (c.UFS_BLOCK_SIZE : Int)).toNat hk
        (by rw [Int.toNat_of_nonneg hq0]; omega) (by rw [Int.toNat_of_nonneg hq0]; exact h)
      exact hip this.1
  · intro m hm
    exact ptr_ne_of_bits _ _ _ m0 m hm0 hb0 (C.mdSome m hm).2.1

/-- The entries of a directory that was live, the parent apart, are unchanged by
a `create`. -/
theorem created_child_old (c : Cfg) (junk : Nat → Int → Nat) (d d' : Disk) (p t : Int)
    (name : List Nat) (a : Nat) (md mp : Option Nat) (P : Nat)
    (hP : c.UFS_BLOCK_SIZE = P * sizeof_dir_ent_t c) (hP0 : 0 < P)
    (S : Sound c d) (C : Created c junk d d' p t name a md mp)
    (q : Int) (hq : live d q) (hqp : q ≠ p) (e : Nat) (he : e < numEntries c (d.inodes q)) :
    entName c (fileData c d' (d'.inodes q)) (e : Int) =
      entName c (fileData c d (d.inodes q)) (e : Int) ∧
    child c d' q e = child c d q e := by
  have hES := sizeof_dir_ent_t_pos c
  have hB : 0 < c.UFS_BLOCK_SIZE := by
    rw [hP]; exact Nat.mul_pos hP0 hES
  apply child_eq_of_blocks c d d' q hB (created_other c junk d d' p t name a md mp C q hq hqp)
    (S.sizes q hq).1 _ e he
  intro k hk y _ _
  rw [created_block_old c junk d d' p t name a md mp P hP hP0 S C q hq hqp k hk]

/-- The entries of the parent before a `create` are its entries afterwards, in
the same places; the entry after them names the new inode. -/
theorem created_child_parent (c : Cfg) (junk : Nat → Int → Nat) (d d' : Disk) (p t : Int)
    (name : List Nat) (a : Nat) (md mp : Option Nat)
    (S : Sound c d) (C : Created c junk d d' p t name a md mp) :
    numEntries c (d'.inodes p) = numEntries c (d.inodes p) + 1 ∧
    (∀ e : Nat, e < numEntries c (d.inodes p) →
      entName c (fileData c d' (d'.inodes p)) (e : Int) =
        entName c (fileData c d (d.inodes p)) (e : Int) ∧
      child c d' p e = child c d p e) ∧
    child c d' p (numEntries c (d.inodes p)) = (a : Int) := by
  have hsz := (S.sizes p C.plive).1
  have hnc := numEntries_cast c (d.inodes p) hsz
  obtain ⟨_, _, _, A4, _, A6, _⟩ := C.appended
  refine ⟨numEntries_add_entry c _ _ hsz C.psize, ?_, ?_⟩
  · intro e he
    exact entry_eq_of_bytes c _ _ (d.inodes p).size A4 e (by omega)
  · unfold child
    rw [hnc]
    exact A6

/-- A bit of the data bitmap that was set stays set through a `create`. -/
theorem created_bit (c : Cfg) (junk : Nat → Int → Nat) (d d' : Disk) (p t : Int)
    (name : List Nat) (a : Nat) (md mp : Option Nat)
    (C : Created c junk d d' p t name a md mp) (j : Nat) (hj : j < d.super.num_data.toNat)
    (h : findBit d.dataBitmap (j : Int) = true) : findBit d'.dataBitmap (j : Int) = true := by
  rw [C.dbits j hj, h]
  rfl

/-- The block that a live slot holds after a `create` is a block of the data
region whose bit is set; the bit was set before exactly for the slots that were
live. -/
theorem created_valid (c : Cfg) (junk : Nat → Int → Nat) (d d' : Disk) (p t : Int)
    (name : List Nat) (a : Nat) (md mp : Option Nat) (P : Nat)
    (hP : c.UFS_BLOCK_SIZE = P * sizeof_dir_ent_t c) (hP2 : 2 ≤ P)
    (S : Sound c d) (C : Created c junk d d' p t name a md mp)
    (i : Int) (k : Nat) (hi : live d' i) (hk : (k : Int) < numBlocks c (d'.inodes i)) :
    ∃ m : Nat, m < d'.super.num_data.toNat ∧
      (d'.inodes i).direct (k : Int) = d'.super.data_region_addr + (m : Int) ∧
      findBit d'.dataBitmap (m : Int) = true := by
  rw [C.super]
  rcases created_slot c junk d d' p t name a md mp P hP hP2 S C i k hi hk with
    ⟨hl, hkk, hptr⟩ | ⟨_, _, m, hm, hptr⟩ | ⟨_, m, hm, hptr⟩
  · obtain ⟨m, h1, h2, h3⟩ := S.valid i hl k hkk
    exact ⟨m, h1, by rw [hptr, h2], created_bit c junk d d' p t name a md mp C m h1 h3⟩
  · have h1 := (C.mdSome m hm).1
    refine ⟨m, h1, hptr, ?_⟩
    rw [C.dbits m h1, hm]
    simp
  · have h1 := (C.mpSome m hm).1
    refine ⟨m, h1, hptr, ?_⟩
    rw [C.dbits m h1, hm]
    simp

theorem created_distinct (c : Cfg) (junk : Nat → Int → Nat) (d d' : Disk) (p t : Int)
    (name : List Nat) (a : Nat) (md mp : Option Nat) (P : Nat)
    (hP : c.UFS_BLOCK_SIZE = P * sizeof_dir_ent_t c) (hP2 : 2 ≤ P)
    (S : Sound c d) (C : Created c junk d d' p t name a md mp)
    (i i' : Int) (hi : live d' i) (hi' : live d' i') (k k' : Nat)
    (hk : (k : Int) < numBlocks c (d'.inodes i)) (hk' : (k' : Int) < numBlocks c (d'.inodes i'))
    (h : (d'.inodes i).direct (k : Int) = (d'.inodes i').direct (k' : Int)) :
    i = i' ∧ k = k' := by
  have hP0 : 0 < P := by omega
  have hES := sizeof_dir_ent_t_pos c
  have hB : 0 < c.UFS_BLOCK_SIZE := by
    rw [hP]; exact Nat.mul_pos hP0 hES
  have hB' : (0 : Int) < (c.UFS_BLOCK_SIZE : Int) := by exact_mod_cast hB
  have hq0 : 0 ≤ (d.inodes p).size / (c.UFS_BLOCK_SIZE : Int) :=
    Int.ediv_nonneg (S.sizes p C.plive).1 (le_of_lt hB')
  obtain ⟨hnb, hnbN, hnbS⟩ := created_numBlocks c junk d d' p t name a md mp P hP hP0 S C
  -- the slot of the parent that holds its new block
  have hpk : ∀ (x : Nat) (m : Nat), mp = some m → (x : Int) < numBlocks c (d'.inodes p) →
      (d'.inodes p).direct (x : Int) = d.super.data_region_addr + (m : Int) →
      (x : Int) = (d.inodes p).size / (c.UFS_BLOCK_SIZE : Int) := by
    intro x m hm hx hptr
    by_contra hne
    have hx' : (x : Int) < numBlocks c (d.inodes p) := by
      have := hnbS m hm
      omega
    rw [created_ptr c junk d d' p t name a md mp P hP hP0 S C x hx'] at hptr
    obtain ⟨m0, _, hm0, hb0⟩ := S.valid p C.plive x hx'
    exact ptr_ne_of_bits _ _ _ m0 m hm0 hb0 (C.mpSome m hm).2.1 hptr
  rcases created_slot c junk d d' p t name a md mp P hP hP2 S C i k hi hk with
    ⟨hl, hkk, hptr⟩ | ⟨hia, hk0, m, hm, hptr⟩ | ⟨hip, m, hm, hptr⟩
  · obtain ⟨m0, _, hm0, hb0⟩ := S.valid i hl k hkk
    rcases created_slot c junk d d' p t name a md mp P hP hP2 S C i' k' hi' hk' with
      ⟨hl', hkk', hptr'⟩ | ⟨_, _, m', hm', hptr'⟩ | ⟨_, m', hm', hptr'⟩
    · rw [hptr, hptr'] at h
      exact S.distinct i i' hl hl' k k' hkk hkk' h
    · rw [hptr, hptr'] at h
      exact absurd h (ptr_ne_of_bits _ _ _ m0 m' hm0 hb0 (C.mdSome m' hm').2.1)
    · rw [hptr, hptr'] at h
      exact absurd h (ptr_ne_of_bits _ _ _ m0 m' hm0 hb0 (C.mpSome m' hm').2.1)
  · rcases created_slot c junk d d' p t name a md mp P hP hP2 S C i' k' hi' hk' with
      ⟨hl', hkk', hptr'⟩ | ⟨hia', hk0', _, _, _⟩ | ⟨_, m', hm', hptr'⟩
    · obtain ⟨m0, _, hm0, hb0⟩ := S.valid i' hl' k' hkk'
      rw [hptr, hptr'] at h
      exact absurd h.symm (ptr_ne_of_bits _ _ _ m0 m hm0 hb0 (C.mdSome m hm).2.1)
    · exact ⟨by rw [hia, hia'], by rw [hk0, hk0']⟩
    · rw [hptr, hptr'] at h
      have hmm : m = m' := by omega
      rw [hmm] at hm
      exact absurd hm (C.mpSome m' hm').2.2.2
  · rcases created_slot c junk d d' p t name a md mp P hP hP2 S C i' k' hi' hk' with
      ⟨hl', hkk', hptr'⟩ | ⟨_, _, m', hm', hptr'⟩ | ⟨hip', m', hm', hptr'⟩
    · obtain ⟨m0, _, hm0, hb0⟩ := S.valid i' hl' k' hkk'
      rw [hptr, hptr'] at h
      exact absurd h.symm (ptr_ne_of_bits _ _ _ m0 m hm0 hb0 (C.mpSome m hm).2.1)
    · rw [hptr, hptr'] at h
      have hmm : m' = m := by omega
      rw [hmm] at hm'
      exact absurd hm' (C.mpSome m hm).2.2.2
    · refine ⟨by rw [hip, hip'], ?_⟩
      rw [hip] at hk hptr
      rw [hip'] at hk' hptr'
      have e1 := hpk k m hm hk hptr
      have e2 := hpk k' m' hm' hk' hptr'
      omega

theorem created_owned (c : Cfg) (junk : Nat → Int → Nat) (d d' : Disk) (p t : Int)
    (name : List Nat) (a : Nat) (md mp : Option Nat) (P : Nat)
    (hP : c.UFS_BLOCK_SIZE = P * sizeof_dir_ent_t c) (hP2 : 2 ≤ P)
    (S : Sound c d) (C : Created c junk d d' p t name a md mp)
    (j : Nat) (hj : j < d'.super.num_data.toNat)
    (hb : findBit d'.dataBitmap (j : Int) = true) :
    ∃ i : Int, live d' i ∧ ∃ k : Nat, (k : Int) < numBlocks c (d'.inodes i) ∧
      (d'.inodes i).direct (k : Int) = d'.super.data_region_addr + (j : Int) := by
  have hP0 : 0 < P := by omega
  have hES := sizeof_dir_ent_t_pos c
  have hB : 0 < c.UFS_BLOCK_SIZE := by
    rw [hP]; exact Nat.mul_pos hP0 hES
  have hB' : (0 : Int) < (c.UFS_BLOCK_SIZE : Int) := by exact_mod_cast hB
  have hq0 : 0 ≤ (d.inodes p).size / (c.UFS_BLOCK_SIZE : Int) :=
    Int.ediv_nonneg (S.sizes p C.plive).1 (le_of_lt hB')
  obtain ⟨hnb, hnbN, hnbS⟩ := created_numBlocks c junk d d' p t name a md mp P hP hP0 S C
  rw [C.super] at hj ⊢
  rw [C.dbits j hj] at hb
  simp only [Bool.or_eq_true, decide_eq_true_eq] at hb
  rcases hb with (hb | hb) | hb
  · obtain ⟨i, hl, k, hk, hptr⟩ := S.owned j hj hb
    refine ⟨i, (created_live c junk d d' p t name a md mp C i).2 (Or.inl hl), k, ?_⟩
    by_cases hip : i = p
    · rw [hip] at hk hptr ⊢
      refine ⟨?_, ?_⟩
      · rw [hnb]
        cases hmp : mp with
        | none => have := hnbN hmp; omega
        | some m => have := hnbS m hmp; omega
      · rw [created_ptr c junk d d' p t name a md mp P hP hP0 S C k hk]
        exact hptr
    · rw [created_other c junk d d' p t name a md mp C i hl hip]
      exact ⟨hk, hptr⟩
  · refine ⟨(a : Int), (created_live c junk d d' p t name a md mp C _).2 (Or.inr rfl), 0, ?_, ?_⟩
    · rw [(created_numBlocks_new c junk d d' p t name a md mp P hP hP2 C).2 j hb]
      decide
    · exact (C.mdSome j hb).2.2.2.1
  · refine ⟨p, (created_live c junk d d' p t name a md mp C _).2 (Or.inl C.plive),
      ((d.inodes p).size / (c.UFS_BLOCK_SIZE : Int)).toNat, ?_, ?_⟩
    · rw [Int.toNat_of_nonneg hq0, hnb]
      omega
    · rw [Int.toNat_of_nonneg hq0, C.pdirectSome j hb, Function.update_same]

theorem created_dirShape (c : Cfg) (junk : Nat → Int → Nat) (d d' : Disk) (p t : Int)
    (name : List Nat) (a : Nat) (md mp : Option Nat) (P : Nat)
    (hP : c.UFS_BLOCK_SIZE = P * sizeof_dir_ent_t c) (hP2 : 2 ≤ P)
    (hNS : 2 < c.DIR_ENT_NAME_SIZE)
    (S : Sound c d) (C : Created c junk d d' p t name a md mp)
    (i : Int) (hi : live d' i) (hdir : (d'.inodes i).type = c.UFS_DIRECTORY) :
    2 * (sizeof_dir_ent_t c : Int) ≤ (d'.inodes i).size ∧
    (d'.inodes i).size % (sizeof_dir_ent_t c : Int) = 0 ∧
    entName c (fileData c d' (d'.inodes i)) ((0 : Nat) : Int) = [46] ∧
    entName c (fileData c d' (d'.inodes i)) ((1 : Nat) : Int) = [46, 46] := by
  have hP0 : 0 < P := by omega
  have hES := sizeof_dir_ent_t_pos c
  have hES' : (0 : Int) < (sizeof_dir_ent_t c : Int) := by exact_mod_cast hES
  rcases (created_live c junk d d' p t name a md mp C i).1 hi with hl | ha
  · by_cases hip : i = p
    · rw [hip]
      obtain ⟨h1, h2, h3, h4⟩ := S.dirShape p C.plive C.pdir
      obtain ⟨hn, hold, _⟩ := created_child_parent c junk d d' p t name a md mp S C
      have hnc := numEntries_cast c (d.inodes p) (S.sizes p C.plive).1
      have hn2 : 2 ≤ numEntries c (d.inodes p) := by
        have : (2 : Int) ≤ (d.inodes p).size / (sizeof_dir_ent_t c : Int) :=
          Int.le_ediv_of_mul_le hES' (by omega)
        omega
      refine ⟨by rw [C.psize]; omega, ?_, ?_, ?_⟩
      · rw [C.psize, Int.add_emod_self]; exact h2
      · rw [(hold 0 (by omega)).1]; exact h3
      · rw [(hold 1 (by omega)).1]; exact h4
    · have hrec := created_other c junk d d' p t name a md mp C i hl hip
      have hdir' : (d.inodes i).type = c.UFS_DIRECTORY := by rw [← hrec]; exact hdir
      obtain ⟨h1, h2, h3, h4⟩ := S.dirShape i hl hdir'
      have hnc := numEntries_cast c (d.inodes i) (S.sizes i hl).1
      have hn2 : 2 ≤ numEntries c (d.inodes i) := by
        have : (2 : Int) ≤ (d.inodes i).size / (sizeof_dir_ent_t c : Int) :=
          Int.le_ediv_of_mul_le hES' (by omega)
        omega
      refine ⟨by rw [hrec]; exact h1, by rw [hrec]; exact h2, ?_, ?_⟩
      · rw [(created_child_old c junk d d' p t name a md mp P hP hP0 S C i hl hip 0 (by omega)).1]
        exact h3
      · rw [(created_child_old c junk d d' p t name a md mp P hP hP0 S C i hl hip 1 (by omega)).1]
        exact h4
  · rw [ha] at hdir ⊢
    cases hmd : md with
    | none =>
      exact absurd (by rw [← C.atype]; exact hdir) (C.mdNone hmd)
    | some m =>
      obtain ⟨_, _, _, hd0, hblk⟩ := C.mdSome m hmd
      obtain ⟨hn0, hn1⟩ := entName_newDirEntries c junk (a : Int) p hNS
      have e0 := entName_fileData c d' (d'.inodes (a : Int)) P 0 0 hP (by omega)
      have e1 := entName_fileData c d' (d'.inodes (a : Int)) P 0 1 hP (by omega)
      simp only [Nat.zero_mul, Nat.add_zero, Nat.zero_add] at e0 e1
      have hc0 : ((0 : Nat) : Int) = 0 := rfl
      rw [hc0, hd0] at e0 e1
      refine ⟨by rw [C.asizeSome m hmd], by rw [C.asizeSome m hmd]; exact Int.mul_emod_left _ _,
        ?_, ?_⟩
      · rw [hc0, e0, ← hn0]
        exact entName_block_congr c _ _ P 0 hP (by omega) hblk
      · rw [e1, ← hn1]
        exact entName_block_congr c _ _ P 1 hP (by omega) hblk

/-- Every entry after `.` and `..` of a live directory after a `create` is an
entry that the directory held before, or the new entry of the parent. -/
theorem created_entry (c : Cfg) (junk : Nat → Int → Nat) (d d' : Disk) (p t : Int)
    (name : List Nat) (a : Nat) (md mp : Option Nat) (P : Nat)
    (hP : c.UFS_BLOCK_SIZE = P * sizeof_dir_ent_t c) (hP2 : 2 ≤ P)
    (S : Sound c d) (C : Created c junk d d' p t name a md mp)
    (q : Int) (e : Nat) (hq : live d' q) (hdir : (d'.inodes q).type = c.UFS_DIRECTORY)
    (he2 : 2 ≤ e) (he : e < numEntries c (d'.inodes q)) :
    (live d q ∧ (d.inodes q).type = c.UFS_DIRECTORY ∧ e < numEntries c (d.inodes q) ∧
      child c d' q e = child c d q e) ∨
    (q = p ∧ e = numEntries c (d.inodes p) ∧ child c d' q e = (a : Int)) := by
  have hP0 : 0 < P := by omega
  have hES := sizeof_dir_ent_t_pos c
  have hES' : (0 : Int) < (sizeof_dir_ent_t c : Int) := by exact_mod_cast hES
  rcases (created_live c junk d d' p t name a md mp C q).1 hq with hl | ha
  · by_cases hqp : q = p
    · rw [hqp] at he ⊢
      obtain ⟨hn, hold, hnew⟩ := created_child_parent c junk d d' p t name a md mp S C
      by_cases hee : e < numEntries c (d.inodes p)
      · exact Or.inl ⟨C.plive, C.pdir, hee, (hold e hee).2⟩
      · have : e = numEntries c (d.inodes p) := by omega
        right
        exact ⟨rfl, this, by rw [this]; exact hnew⟩
    · have hrec := created_other c junk d d' p t name a md mp C q hl hqp
      rw [hrec] at he hdir
      exact Or.inl ⟨hl, hdir, he,
        (created_child_old c junk d d' p t name a md mp P hP hP0 S C q hl hqp e he).2⟩
  · exfalso
    rw [ha] at he hdir
    cases hmd : md with
    | none => exact absurd (by rw [← C.atype]; exact hdir) (C.mdNone hmd)
    | some m =>
      unfold numEntries at he
      rw [C.asizeSome m hmd, Int.mul_ediv_cancel _ (ne_of_gt hES')] at he
      have : (2 : Int).toNat = 2 := rfl
      omega

/-- The image after a `create` on a sound image is sound. -/
theorem created_sound (c : Cfg) (junk : Nat → Int → Nat) (d d' : Disk) (p t : Int)
    (name : List Nat) (a : Nat) (md mp : Option Nat) (P : Nat)
    (hP : c.UFS_BLOCK_SIZE = P * sizeof_dir_ent_t c) (hP2 : 2 ≤ P)
    (hNS : 2 < c.DIR_ENT_NAME_SIZE)
    (S : Sound c d) (C : Created c junk d d' p t name a md mp) : Sound c d' := by
  have hP0 : 0 < P := by omega
  have hlive := created_live c junk d d' p t name a md mp C
  refine ⟨?_, ?_, ?_, ?_, ?_, ?_, ?_, ?_⟩
  · unfold Layout
    rw [C.super]
    exact S.layout
  · intro i hi
    rcases (hlive i).1 hi with hl | ha
    · by_cases hip : i = p
      · rw [hip, C.psize]
        have := (S.sizes p C.plive).1
        exact ⟨by have := sizeof_dir_ent_t_pos c; omega, C.room⟩
      · rw [created_other c junk d d' p t name a md mp C i hl hip]
        exact S.sizes i hl
    · rw [ha]
      have h1 := (S.dirShape p C.plive C.pdir).1
      have h2 := (S.sizes p C.plive).2
      cases hmd : md with
      | none => rw [C.asizeNone hmd]; omega
      | some m => rw [C.asizeSome m hmd]; omega
  · intro i hi k hk
    exact created_valid c junk d d' p t name a md mp P hP hP2 S C i k hi hk
  · intro i i' hi hi' k k' hk hk' h
    exact created_distinct c junk d d' p t name a md mp P hP hP2 S C i i' hi hi' k k' hk hk' h
  · intro j hj hb
    exact created_owned c junk d d' p t name a md mp P hP hP2 S C j hj hb
  · intro i hi hdir
    exact created_dirShape c junk d d' p t name a md mp P hP hP2 hNS S C i hi hdir
  · intro q hq hdir e he2 he
    rcases created_entry c junk d d' p t name a md mp P hP hP2 S C q e hq hdir he2 he with
      ⟨hl, hd, hee, hch⟩ | ⟨_, _, hch⟩
    · rw [hch]
      exact (hlive _).2 (Or.inl (S.childLive q hl hd e he2 hee))
    · rw [hch]
      exact (hlive _).2 (Or.inr rfl)
  · intro q q' hq hq' hdir hdir' e e' he2 he2' he he' h
    rcases created_entry c junk d d' p t name a md mp P hP hP2 S C q e hq hdir he2 he with
      ⟨hl, hd, hee, hch⟩ | ⟨hqp, hen, hch⟩
    · rcases created_entry c junk d d' p t name a md mp P hP hP2 S C q' e' hq' hdir' he2' he' with
        ⟨hl', hd', hee', hch'⟩ | ⟨_, _, hch'⟩
      · rw [hch, hch'] at h
        exact S.childInj q q' hl hl' hd hd' e e' he2 he2' hee hee' h
      · rw [hch, hch'] at h
        exact absurd h (created_ne c junk d d' p t name a md mp C _
          (S.childLive q hl hd e he2 hee))
    · rcases created_entry c junk d d' p t name a md mp P hP hP2 S C q' e' hq' hdir' he2' he' with
        ⟨hl', hd', hee', hch'⟩ | ⟨hqp', hen', _⟩
      · rw [hch, hch'] at h
        exact absurd h.symm (created_ne c junk d d' p t name a md mp C _
          (S.childLive q' hl' hd' e' he2' hee'))
      · exact ⟨by rw [hqp, hqp'], by rw [hen, hen']⟩

/-- A successful `create` on a live directory of a sound image, writing blocks
of the data region only, leaves a sound image. -/
theorem create_sound (c : Cfg) (junk : Nat → Int → Nat) (d : Disk) (p t : Int)
    (name : List Nat) (P : Nat)
    (hP : c.UFS_BLOCK_SIZE = P * sizeof_dir_ent_t c) (hP2 : 2 ≤ P)
    (hNS : 2 < c.DIR_ENT_NAME_SIZE)
    (hM : MAX_FILE_SIZE c < 2147483648) (hE : 0 < c.ENOTENOUGHSPACE)
    (S : Sound c d) (huse : inUse d p)
    (hs : 0 ≤ (create c junk d p t name).1)
    (hreg : ∀ b ∈ writtenBlocks (create c junk d p t name).2, d.super.data_region_addr ≤ b) :
    Sound c (commit c d (create c junk d p t name).2) := by
  rcases create_created c junk d p t name P hP (by omega) hM hE S huse hs hreg _ rfl with
    h | ⟨a, md, mp, C⟩
  · rw [h]; exact S
  · exact created_sound c junk d _ p t name a md mp P hP hP2 hNS S C

/-- An `unlink` that writes has passed the validation. -/
theorem unlink_cases (c : Cfg) (junk : Nat → Int → Nat) (d : Disk) (p : Int)
    (name : List Nat) :
    (unlink c junk d p name).2 = [] ∨
    ((0 ≤ p ∧ p < d.super.num_inodes) ∧ name.length < c.DIR_ENT_NAME_SIZE ∧
      (name ≠ [46] ∧ name ≠ [46, 46]) ∧ (d.inodes p).type = c.UFS_DIRECTORY) := by
  by_cases hp : 0 ≤ p ∧ p < d.super.num_inodes
  swap
  · left
    have hchk : checkInode d.super p = false := by
      cases h : checkInode d.super p
      · rfl
      · exact absurd ((checkInode_iff _ _).1 h) hp
    unfold unlink
    simp only [readSuperBlock, hchk, if_true]
  have hchk : checkInode d.super p = true := (checkInode_iff _ _).2 hp
  by_cases hlen : name.length < c.DIR_ENT_NAME_SIZE
  swap
  · left
    unfold unlink
    simp only [readSuperBlock, hchk, Bool.true_eq_false, if_false]
    rw [if_pos (by simp; omega)]
  by_cases hnd : name ≠ [46] ∧ name ≠ [46, 46]
  swap
  · left
    unfold unlink
    simp only [readSuperBlock, hchk, Bool.true_eq_false, if_false]
    rw [if_neg (by simp [hlen]), if_pos (by simpa using hnd)]
  by_cases hdir : (d.inodes p).type = c.UFS_DIRECTORY
  swap
  · left
    unfold unlink
    simp only [readSuperBlock, readInodeRegion, hchk, Bool.true_eq_false, if_false]
    rw [if_neg (by simp [hlen]), if_neg (by simp [hnd.1, hnd.2]), if_pos hdir]
  exact Or.inr ⟨hp, hlen, hnd, hdir⟩

/-- The image after an `unlink` on a live directory of a sound image: unchanged,
or described by `Unlinked` for the entry found. -/
theorem unlink_unlinked (c : Cfg) (junk : Nat → Int → Nat) (d : Disk) (p : Int)
    (name : List Nat) (P : Nat)
    (hP : c.UFS_BLOCK_SIZE = P * sizeof_dir_ent_t c) (hP0 : 0 < P)
    (hM : MAX_FILE_SIZE c < 2147483648)
    (S : Sound c d) (huse : inUse d p)
    (d' : Disk) (hd' : d' = commit c d (unlink c junk d p name).2) :
    d' = d ∨ ∃ e : Nat, Unlinked c d d' p e := by
  have hES := sizeof_dir_ent_t_pos c
  have hES' : (0 : Int) < (sizeof_dir_ent_t c : Int) := by exact_mod_cast hES
  have hB : 0 < c.UFS_BLOCK_SIZE := by
    rw [hP]; exact Nat.mul_pos hP0 hES
  have hB' : (0 : Int) < (c.UFS_BLOCK_SIZE : Int) := by exact_mod_cast hB
  have hL := S.layout
  rcases unlink_cases c junk d p name with h | ⟨hp, hlen, hnd, hdir⟩
  · left
    rw [hd', h, commit_nil]
  have hlp : live d p := ⟨hp.1, hp.2, huse⟩
  have hsz := S.sizes p hlp
  obtain ⟨hsz2, hmodE, hdot, hdotdot⟩ := S.dirShape p hlp hdir
  have hnc := numEntries_cast c (d.inodes p) hsz.1
  obtain ⟨_, _, hun⟩ := unlink_scan c junk d p name hB hM hp hlen hnd hdir hsz
  cases hfe : findEntry c (fileData c d (d.inodes p)) name (numEntries c (d.inodes p)) 0 with
  | none =>
    left
    rw [hfe] at hun
    rw [hd', hun]
    rfl
  | some e =>
    obtain ⟨_, he, hname, hfirst⟩ := (findEntry_eq_some_iff c _ name _ 0 e).1 hfe
    have he' : e < numEntries c (d.inodes p) := by omega
    have he2 : 2 ≤ e := by
      by_contra hcon
      have : e = 0 ∨ e = 1 := by omega
      rcases this with h0 | h1
      · rw [h0, hdot] at hname
        exact hnd.1 hname.symm
      · rw [h1, hdotdot] at hname
        exact hnd.2 hname.symm
    have hxl := S.childLive p hlp hdir e he2 he'
    obtain ⟨hun', hch, hszE⟩ := unlink_found c junk d p name e hB hM hp hlen hnd hdir hsz he' hname
      (fun j hj => hfirst j (Nat.zero_le _) hj)
    by_cases hne : (d.inodes (child c d p e)).type = c.UFS_DIRECTORY ∧
        (d.inodes (child c d p e)).size > (sizeof_dir_ent_t c : Int) * 2
    · left
      rw [hd', hun', unlinkEntry_dir_not_empty c junk d p _ _ _ _ _ e (by rw [hch]; exact hne)]
      rfl
    right
    -- the size of the parent without the entry
    have hs3 : 3 * (sizeof_dir_ent_t c : Int) ≤ (d.inodes p).size := by
      have h1 : (3 : Int) ≤ (d.inodes p).size / (sizeof_dir_ent_t c : Int) := by omega
      have h2 := Int.ediv_mul_le (d.inodes p).size (ne_of_gt hES')
      nlinarith
    have hxne : child c d p e ≠ p := by
      intro h
      rw [h] at hne
      exact hne ⟨hdir, by omega⟩
    have hs0 : 0 ≤ (d.inodes p).size - (sizeof_dir_ent_t c : Int) := by omega
    have hs0m : ((d.inodes p).size - (sizeof_dir_ent_t c : Int)) % (sizeof_dir_ent_t c : Int) = 0 := by
      rw [Int.sub_emod, hmodE, Int.emod_self]; simp
    obtain ⟨hA, hB2⟩ := numBlocks_add_entry c ((d.inodes p).size - (sizeof_dir_ent_t c : Int)) P hP
      hP0 hs0 hs0m
    rw [sub_add_cancel] at hA hB2
    have hq0 : 0 ≤ ((d.inodes p).size - (sizeof_dir_ent_t c : Int)) / (c.UFS_BLOCK_SIZE : Int) :=
      Int.ediv_nonneg hs0 (le_of_lt hB')
    have hnbold : numBlocks c (d.inodes p) =
        ((d.inodes p).size - (sizeof_dir_ent_t c : Int)) / (c.UFS_BLOCK_SIZE : Int) + 1 := by
      unfold numBlocks
      by_cases hm : ((d.inodes p).size - (sizeof_dir_ent_t c : Int)) % (c.UFS_BLOCK_SIZE : Int) = 0
      · exact (hA hm).2
      · exact (hB2 hm).2
    have hdist : ∀ k k' : Nat,
        (k : Int) < divide ((d.inodes p).size - (sizeof_dir_ent_t c : Int))
          (c.UFS_BLOCK_SIZE : Int) →
        (k' : Int) < divide ((d.inodes p).size - (sizeof_dir_ent_t c : Int))
          (c.UFS_BLOCK_SIZE : Int) →
        (d.inodes p).direct (k : Int) = (d.inodes p).direct (k' : Int) → k = k' := by
      intro k k' hk hk' h
      have hle : divide ((d.inodes p).size - (sizeof_dir_ent_t c : Int)) (c.UFS_BLOCK_SIZE : Int)
          ≤ numBlocks c (d.inodes p) := by
        rw [hnbold]
        by_cases hm : ((d.inodes p).size - (sizeof_dir_ent_t c : Int)) %
            (c.UFS_BLOCK_SIZE : Int) = 0
        · rw [(hA hm).1]; omega
        · rw [(hB2 hm).1]
      exact (S.distinct p p hlp hlp k k' (by omega) (by omega) h).2
    obtain ⟨_, V1, V2, V3, V4, V5, V6, V7, _⟩ := unlink_effect c junk d p name P e hP hP0 hM hp
      hlen hnd hdir hsz hmodE he' hname (fun j hj => hfirst j (Nat.zero_le _) hj) hne hdist d' hd'
    have hpsize : (d'.inodes p).size = (d.inodes p).size - (sizeof_dir_ent_t c : Int) := by
      rw [V2]
    have hnb' : numBlocks c (d'.inodes p) =
        divide ((d.inodes p).size - (sizeof_dir_ent_t c : Int)) (c.UFS_BLOCK_SIZE : Int) := by
      unfold numBlocks
      rw [hpsize]
    have hnbz : ((d.inodes p).size - (sizeof_dir_ent_t c : Int)) % (c.UFS_BLOCK_SIZE : Int) = 0 →
        numBlocks c (d'.inodes p) =
          ((d.inodes p).size - (sizeof_dir_ent_t c : Int)) / (c.UFS_BLOCK_SIZE : Int) := by
      intro hm
      rw [hnb', (hA hm).1]
    have hnbn : ((d.inodes p).size - (sizeof_dir_ent_t c : Int)) % (c.UFS_BLOCK_SIZE : Int) ≠ 0 →
        numBlocks c (d'.inodes p) = numBlocks c (d.inodes p) := by
      intro hm
      rw [hnb', (hB2 hm).1, hnbold]
    -- the inode removed, as a natural number
    obtain ⟨x, hx⟩ : ∃ x : Nat, child c d p e = (x : Int) :=
      ⟨(child c d p e).toNat, by have := hxl.1; omega⟩
    have hvx : ∀ t : Nat, 0 ≤ t → t < 0 + (numBlocks c (d.inodes (child c d p e))).toNat →
        ∃ m : Nat, (d.inodes (child c d p e)).direct (t : Int) =
          d.super.data_region_addr + (m : Int) := by
      intro t _ ht
      obtain ⟨m, _, hm, _⟩ := S.valid _ hxl t (by omega)
      exact ⟨m, hm⟩
    have hCB := clearBlocks_spec d.super (d.inodes (child c d p e)).direct
      (numBlocks c (d.inodes (child c d p e))).toNat 0 (readDataBitmap c d (junk 0)) hvx
    refine ⟨e, ⟨hlp, hdir, he2, he', hxl, hxne, V1, by rw [V2], hpsize, ?_, ?_, V3, ?_, ?_, ?_, ?_⟩⟩
    · -- nbLe
      by_cases hm : ((d.inodes p).size - (sizeof_dir_ent_t c : Int)) % (c.UFS_BLOCK_SIZE : Int) = 0
      · rw [hnbz hm, hnbold]; omega
      · rw [hnbn hm]
    · -- pptr
      intro k hk
      rw [V2]
      dsimp only
      split
      · rename_i hm
        rw [hnbz hm] at hk
        rw [Function.update_noteq (by omega)]
      · rfl
    · -- ibits
      intro j hj
      rw [V4, findBit_copyRegion c _ _ _ j (by have := hL.2.2.2.1; omega), hx, findBit_delBit,
        inUse_of_readInodeBitmap c d (junk 1) j hL hj]
      by_cases hjx : j = x
      · simp [hjx]
      · have : ¬ ((j : Int) = (x : Int)) := by omega
        simp [hjx, this]
    · -- dbits
      intro j hj
      have hrd := findBit_readDataBitmap c d (junk 0) j hL.2.2.2.2.2 hj
      rw [V5, findBit_copyRegion c _ _ _ j (by have := hL.2.2.2.2.2; omega)]
      have hCBj : findBit (clearBlocks d.super (d.inodes (child c d p e)).direct
          (numBlocks c (d.inodes (child c d p e))).toNat 0 (readDataBitmap c d (junk 0))) (j : Int)
          = true ↔ (findBit d.dataBitmap (j : Int) = true ∧
            ∀ k : Nat, (k : Int) < numBlocks c (d.inodes (child c d p e)) →
              (d.inodes (child c d p e)).direct (k : Int) ≠
                d.super.data_region_addr + (j : Int)) := by
        rw [hCB j, hrd]
        constructor
        · rintro ⟨h1, h2⟩
          exact ⟨h1, fun k hk => h2 k (Nat.zero_le _) (by omega)⟩
        · rintro ⟨h1, h2⟩
          exact ⟨h1, fun k _ hk => h2 k (by omega)⟩
      by_cases hm : ((d.inodes p).size - (sizeof_dir_ent_t c : Int)) % (c.UFS_BLOCK_SIZE : Int) = 0
      · rw [if_pos hm]
        obtain ⟨m1, _, hm1, _⟩ := S.valid p hlp
          (((d.inodes p).size - (sizeof_dir_ent_t c : Int)) / (c.UFS_BLOCK_SIZE : Int)).toNat
          (by rw [Int.toNat_of_nonneg hq0, hnbold]; omega)
        rw [Int.toNat_of_nonneg hq0] at hm1
        rw [hm1]
        unfold block2Bit
        rw [add_sub_cancel_left, findBit_delBit]
        simp only [Bool.and_eq_true, decide_eq_true_eq]
        rw [hCBj, hnbz hm, hnbold]
        constructor
        · rintro ⟨h1, h2, h3⟩
          refine ⟨h2, h3, ?_⟩
          intro k hk1 hk2
          have hk : (k : Int) = ((d.inodes p).size - (sizeof_dir_ent_t c : Int)) /
              (c.UFS_BLOCK_SIZE : Int) := by omega
          rw [hk, hm1]
          omega
        · rintro ⟨h2, h3, h4⟩
          refine ⟨?_, h2, h3⟩
          intro hjm
          have := h4 (((d.inodes p).size - (sizeof_dir_ent_t c : Int)) /
            (c.UFS_BLOCK_SIZE : Int)).toNat (by rw [Int.toNat_of_nonneg hq0])
            (by rw [Int.toNat_of_nonneg hq0]; omega)
          rw [Int.toNat_of_nonneg hq0, hm1, hjm] at this
          exact this rfl
      · rw [if_neg hm, hCBj, hnbn hm]
        constructor
        · rintro ⟨h1, h2⟩
          exact ⟨h1, h2, fun k hk1 hk2 => by omega⟩
        · rintro ⟨h1, h2, _⟩
          exact ⟨h1, h2⟩
    · -- blocks
      intro b hb
      apply V6 b
      intro k hk
      exact hb k (by rw [hnb']; exact hk)
    · -- entries
      intro j hj
      exact V7 j hj

/-- After an `unlink` the live inodes are those that were live, the inode
removed apart. -/
theorem unlinked_live (c : Cfg) (d d' : Disk) (p : Int) (e : Nat)
    (U : Unlinked c d d' p e) (i : Int) :
    live d' i ↔ (live d i ∧ i ≠ child c d p e) := by
  unfold live inUse
  rw [U.super]
  constructor
  · rintro ⟨h0, h1, h2⟩
    have hb := U.ibits i.toNat (by omega)
    rw [Int.toNat_of_nonneg h0, h2] at hb
    have hb' := hb.symm
    simp only [Bool.and_eq_true, decide_eq_true_eq] at hb'
    exact ⟨⟨h0, h1, hb'.2⟩, hb'.1⟩
  · rintro ⟨⟨h0, h1, h2⟩, h3⟩
    have hb := U.ibits i.toNat (by omega)
    rw [Int.toNat_of_nonneg h0, h2] at hb
    refine ⟨h0, h1, ?_⟩
    rw [hb]
    simp [h3]

/-- Every live slot after an `unlink` was live before and holds the block it
held. -/
theorem unlinked_slot (c : Cfg) (d d' : Disk) (p : Int) (e : Nat)
    (U : Unlinked c d d' p e)
    (i : Int) (k : Nat) (hi : live d' i) (hk : (k : Int) < numBlocks c (d'.inodes i)) :
    live d i ∧ i ≠ child c d p e ∧ (k : Int) < numBlocks c (d.inodes i) ∧
      (d'.inodes i).direct (k : Int) = (d.inodes i).direct (k : Int) := by
  obtain ⟨hl, hx⟩ := (unlinked_live c d d' p e U i).1 hi
  by_cases hip : i = p
  · rw [hip] at hk ⊢
    rw [hip] at hx
    have := U.nbLe
    exact ⟨U.plive, hx, by omega, U.pptr k hk⟩
  · rw [U.others i hip] at hk ⊢
    exact ⟨hl, hx, hk, rfl⟩

/-- The bit of a block that a live slot holds after an `unlink` is still set. -/
theorem unlinked_bit (c : Cfg) (d d' : Disk) (p : Int) (e : Nat)
    (S : Sound c d) (U : Unlinked c d d' p e)
    (i : Int) (k : Nat) (hi : live d' i) (hk : (k : Int) < numBlocks c (d'.inodes i)) :
    ∃ m : Nat, m < d.super.num_data.toNat ∧
      (d.inodes i).direct (k : Int) = d.super.data_region_addr + (m : Int) ∧
      findBit d'.dataBitmap (m : Int) = true := by
  obtain ⟨hl, hx, hkk, _⟩ := unlinked_slot c d d' p e U i k hi hk
  obtain ⟨m, h1, h2, h3⟩ := S.valid i hl k hkk
  refine ⟨m, h1, h2, ?_⟩
  rw [U.dbits m h1]
  refine ⟨h3, ?_, ?_⟩
  · intro k' hk' h
    rw [← h2] at h
    exact hx (S.distinct i _ hl U.xlive k k' hkk hk' h.symm).1
  · intro k' hk1 hk2 h
    rw [← h2] at h
    obtain ⟨h4, h5⟩ := S.distinct i p hl U.plive k k' hkk hk2 h.symm
    rw [h4] at hk
    omega

/-- The blocks of a live directory other than the parent are unchanged by an
`unlink`, and so are its entries. -/
theorem unlinked_child_old (c : Cfg) (d d' : Disk) (p : Int) (e : Nat)
    (hB : 0 < c.UFS_BLOCK_SIZE)
    (S : Sound c d) (U : Unlinked c d d' p e)
    (q : Int) (hq : live d q) (hqp : q ≠ p) (e' : Nat) (he : e' < numEntries c (d.inodes q)) :
    entName c (fileData c d' (d'.inodes q)) (e' : Int) =
      entName c (fileData c d (d.inodes q)) (e' : Int) ∧
    child c d' q e' = child c d q e' := by
  apply child_eq_of_blocks c d d' q hB (U.others q hqp) (S.sizes q hq).1 _ e' he
  intro k hk y _ _
  rw [U.blocks]
  intro k' hk' h
  have := U.nbLe
  exact hqp (S.distinct q p hq U.plive k k' hk (by omega) h.symm).1

/-- Every entry after `.` and `..` of a live directory after an `unlink` is an
entry that the directory held before, other than the entry removed. -/
theorem unlinked_entry (c : Cfg) (d d' : Disk) (p : Int) (e : Nat)
    (hB : 0 < c.UFS_BLOCK_SIZE)
    (S : Sound c d) (U : Unlinked c d d' p e)
    (q : Int) (e' : Nat) (hq : live d' q) (hdir : (d'.inodes q).type = c.UFS_DIRECTORY)
    (he2 : 2 ≤ e') (he : e' < numEntries c (d'.inodes q)) :
    ∃ f : Nat, live d q ∧ (d.inodes q).type = c.UFS_DIRECTORY ∧ 2 ≤ f ∧
      f < numEntries c (d.inodes q) ∧ child c d' q e' = child c d q f ∧
      (q = p → f = (if e' < e then e' else e' + 1)) ∧ (q ≠ p → f = e') := by
  obtain ⟨hl, _⟩ := (unlinked_live c d d' p e U q).1 hq
  by_cases hqp : q = p
  · rw [hqp] at he hdir ⊢
    have hn := numEntries_sub_entry c (d.inodes p) (d'.inodes p) U.psize (by
      have := (S.dirShape p U.plive U.pdir).1
      have := sizeof_dir_ent_t_pos c
      omega)
    have helt := U.elt
    refine ⟨if e' < e then e' else e' + 1, U.plive, U.pdir, by split <;> omega,
      by split <;> omega, (U.entries e' (by omega)).2, fun _ => rfl, fun h => absurd rfl h⟩
  · have hrec := U.others q hqp
    rw [hrec] at he hdir
    exact ⟨e', hl, hdir, he2, he, (unlinked_child_old c d d' p e hB S U q hl hqp e' he).2,
      fun h => absurd h hqp, fun _ => rfl⟩

/-- The image after an `unlink` on a sound image is sound. -/
theorem unlinked_sound (c : Cfg) (d d' : Disk) (p : Int) (e : Nat)
    (hB : 0 < c.UFS_BLOCK_SIZE)
    (S : Sound c d) (U : Unlinked c d d' p e) : Sound c d' := by
  have hES := sizeof_dir_ent_t_pos c
  have hES' : (0 : Int) < (sizeof_dir_ent_t c : Int) := by exact_mod_cast hES
  have hlive := unlinked_live c d d' p e U
  have hnc := numEntries_cast c (d.inodes p) (S.sizes p U.plive).1
  have he2 := U.e2
  have helt := U.elt
  have hs3 : 3 * (sizeof_dir_ent_t c : Int) ≤ (d.inodes p).size := by
    have h1 : (3 : Int) ≤ (d.inodes p).size / (sizeof_dir_ent_t c : Int) := by omega
    have h2 := Int.ediv_mul_le (d.inodes p).size (ne_of_gt hES')
    nlinarith
  refine ⟨?_, ?_, ?_, ?_, ?_, ?_, ?_, ?_⟩
  · unfold Layout
    rw [U.super]
    exact S.layout
  · intro i hi
    obtain ⟨hl, _⟩ := (hlive i).1 hi
    by_cases hip : i = p
    · rw [hip, U.psize]
      have := S.sizes p U.plive
      omega
    · rw [U.others i hip]
      exact S.sizes i hl
  · intro i hi k hk
    obtain ⟨m, h1, h2, h3⟩ := unlinked_bit c d d' p e S U i k hi hk
    rw [U.super]
    exact ⟨m, h1, by rw [(unlinked_slot c d d' p e U i k hi hk).2.2.2]; exact h2, h3⟩
  · intro i i' hi hi' k k' hk hk' h
    obtain ⟨hl, _, hkk, hptr⟩ := unlinked_slot c d d' p e U i k hi hk
    obtain ⟨hl', _, hkk', hptr'⟩ := unlinked_slot c d d' p e U i' k' hi' hk'
    rw [hptr, hptr'] at h
    exact S.distinct i i' hl hl' k k' hkk hkk' h
  · intro j hj hb
    rw [U.super] at hj ⊢
    obtain ⟨h1, h2, h3⟩ := (U.dbits j hj).1 hb
    obtain ⟨i, hl, k, hk, hptr⟩ := S.owned j hj h1
    have hix : i ≠ child c d p e := by
      intro h
      rw [h] at hk hptr
      exact h2 k hk hptr
    refine ⟨i, (hlive i).2 ⟨hl, hix⟩, k, ?_⟩
    by_cases hip : i = p
    · rw [hip] at hk hptr ⊢
      have hk' : (k : Int) < numBlocks c (d'.inodes p) := by
        by_contra hcon
        exact h3 k (by omega) hk hptr
      exact ⟨hk', by rw [U.pptr k hk']; exact hptr⟩
    · rw [U.others i hip]
      exact ⟨hk, hptr⟩
  · intro i hi hdir
    obtain ⟨hl, _⟩ := (hlive i).1 hi
    by_cases hip : i = p
    · rw [hip]
      obtain ⟨h1, h2, h3, h4⟩ := S.dirShape p U.plive U.pdir
      refine ⟨by rw [U.psize]; omega, ?_, ?_, ?_⟩
      · rw [U.psize, Int.sub_emod, h2, Int.emod_self]; simp
      · have := (U.entries 0 (by omega)).1
        rw [if_pos (by omega)] at this
        rw [this]; exact h3
      · have := (U.entries 1 (by omega)).1
        rw [if_pos (by omega)] at this
        rw [this]; exact h4
    · have hrec := U.others i hip
      have hdir' : (d.inodes i).type = c.UFS_DIRECTORY := by rw [← hrec]; exact hdir
      obtain ⟨h1, h2, h3, h4⟩ := S.dirShape i hl hdir'
      have hnci := numEntries_cast c (d.inodes i) (S.sizes i hl).1
      have hn2 : 2 ≤ numEntries c (d.inodes i) := by
        have : (2 : Int) ≤ (d.inodes i).size / (sizeof_dir_ent_t c : Int) :=
          Int.le_ediv_of_mul_le hES' (by omega)
        omega
      refine ⟨by rw [hrec]; exact h1, by rw [hrec]; exact h2, ?_, ?_⟩
      · rw [(unlinked_child_old c d d' p e hB S U i hl hip 0 (by omega)).1]; exact h3
      · rw [(unlinked_child_old c d d' p e hB S U i hl hip 1 (by omega)).1]; exact h4
  · intro q hq hdir e' he2' he'
    obtain ⟨f, hl, hd, hf2, hf, hch, hfp, hfn⟩ :=
      unlinked_entry c d d' p e hB S U q e' hq hdir he2' he'
    rw [hch]
    refine (hlive _).2 ⟨S.childLive q hl hd f hf2 hf, ?_⟩
    intro h
    obtain ⟨h1, h2⟩ := S.childInj q p hl U.plive hd U.pdir f e hf2 he2 hf helt h
    have := hfp h1
    rw [this] at h2
    split at h2 <;> omega
  · intro q q' hq hq' hdir hdir' e1 e2 he1 he2' hlt1 hlt2 h
    obtain ⟨f, hl, hd, hf2, hf, hch, hfp, hfn⟩ :=
      unlinked_entry c d d' p e hB S U q e1 hq hdir he1 hlt1
    obtain ⟨f', hl', hd', hf2', hf', hch', hfp', hfn'⟩ :=
      unlinked_entry c d d' p e hB S U q' e2 hq' hdir' he2' hlt2
    rw [hch, hch'] at h
    obtain ⟨h1, h2⟩ := S.childInj q q' hl hl' hd hd' f f' hf2 hf2' hf hf' h
    refine ⟨h1, ?_⟩
    by_cases hqp : q = p
    · have e1' := hfp hqp
      have e2' := hfp' (by rw [← h1]; exact hqp)
      rw [e1', e2'] at h2
      split at h2 <;> split at h2 <;> omega
    · have e1' := hfn hqp
      have e2' := hfn' (by rw [← h1]; exact hqp)
      omega

/-- An `unlink` on a live directory of a sound image leaves a sound image. -/
theorem unlink_sound (c : Cfg) (junk : Nat → Int → Nat) (d : Disk) (p : Int)
    (name : List Nat) (P : Nat)
    (hP : c.UFS_BLOCK_SIZE = P * sizeof_dir_ent_t c) (hP0 : 0 < P)
    (hM : MAX_FILE_SIZE c < 2147483648)
    (S : Sound c d) (huse : inUse d p) :
    Sound c (commit c d (unlink c junk d p name).2) := by
  have hB : 0 < c.UFS_BLOCK_SIZE := by
    rw [hP]; exact Nat.mul_pos hP0 (sizeof_dir_ent_t_pos c)
  rcases unlink_unlinked c junk d p name P hP hP0 hM S huse _ rfl with h | ⟨e, U⟩
  · rw [h]; exact S
  · exact unlinked_sound c d _ p e hB S U

/-- On a sound image every set bit of the data bitmap belongs to exactly one
live slot. -/
theorem sound_bijection (c : Cfg) (d : Disk) (hB : 0 < c.UFS_BLOCK_SIZE) (S : Sound c d) :
    BitmapBijection c d := by
  intro j hj
  constructor
  · intro hb
    obtain ⟨i, hl, k, hk, hptr⟩ := S.owned j hj hb
    have hkD := (numBlocks_le_ptrs c (d.inodes i) hB (S.sizes i hl)).2
    have hi : ((i.toNat : Nat) : Int) = i := Int.toNat_of_nonneg hl.1
    refine ⟨i.toNat, by have := hl.2.1; omega, ?_, ?_⟩
    · unfold owns
      rw [hi]
      exact ⟨hl.2.2, k, by omega, hk, hptr⟩
    · intro i' hi' ho
      obtain ⟨hu, k', _, hk', hptr'⟩ := ho
      have hl' : live d (i' : Int) := ⟨by omega, by omega, hu⟩
      have := (S.distinct (i' : Int) i hl' hl k' k hk' hk (by rw [hptr, hptr'])).1
      omega
  · rintro ⟨i, hi, ⟨hu, k, _, hk, hptr⟩, _⟩
    have hl : live d (i : Int) := ⟨by omega, by omega, hu⟩
    obtain ⟨m, _, hm, hb⟩ := S.valid (i : Int) hl k hk
    have : m = j := by omega
    rw [← this]
    exact hb

/-- A property of images that holds at the start and is kept by every
successful call on a live inode that writes blocks of the data region only holds
after every sequence of such calls. -/
theorem runLiveCalls_induction (c : Cfg) (Inv : Disk → Prop)
    (hstep : ∀ (d : Disk) (junk : Nat → Int → Nat) (call : Call), Inv d →
      inUse d (Call.inode call) →
      0 ≤ (Call.exec c junk d call).1 →
      (∀ b ∈ writtenBlocks (Call.exec c junk d call).2, d.super.data_region_addr ≤ b) →
      Inv (commit c d (Call.exec c junk d call).2))
    (calls : List ((Nat → Int → Nat) × Call)) (d0 : Disk) (h0 : Inv d0) :
    ∀ d ∈ runLiveCalls c d0 calls, Inv d := by
  induction calls generalizing d0 with
  | nil =>
    intro d hd
    unfold runLiveCalls at hd
    rw [Option.mem_def, Option.some.injEq] at hd
    rw [← hd]; exact h0
  | cons jc rest ih =>
    intro d hd
    unfold runLiveCalls at hd
    split at hd
    · rename_i hok
      exact ih _ (hstep d0 jc.1 jc.2 h0 hok.1 hok.2.1 hok.2.2) d hd
    · simp at hd

/-- C21, as amended. For a parent inode number in range, `create` and `unlink`
reject with invalid-name every name whose length is `DIR_ENT_NAME_SIZE` or more,
and write nothing. -/
theorem name_length_at_ingress (c : Cfg) (junk : Nat → Int → Nat) (d : Disk) (p t : Int)
    (name : List Nat)
    (hp : 0 ≤ p ∧ p < d.super.num_inodes)
    (hlen : c.DIR_ENT_NAME_SIZE ≤ name.length) :
    create c junk d p t name = (-c.EINVALIDNAME, []) ∧
    unlink c junk d p name = (-c.EINVALIDNAME, []) := by
  have hchk : checkInode d.super p = true := (checkInode_iff _ _).2 hp
  constructor
  · unfold create
    simp only [readSuperBlock, hchk, Bool.not_true, Bool.false_eq_true, if_false]
    rw [if_pos (by simp; omega)]
  · unfold unlink
    simp only [readSuperBlock, hchk, Bool.true_eq_false, if_false]
    rw [if_pos (by simp; omega)]

theorem name_length_at_ingress_witness :
    create exCfg exJunk exFresh 0 1 [97, 98, 99, 100] = (-exCfg.EINVALIDNAME, []) ∧
    unlink exCfg exJunk exFresh 0 [97, 98, 99, 100] = (-exCfg.EINVALIDNAME, []) :=
  name_length_at_ingress exCfg exJunk exFresh 0 1 [97, 98, 99, 100] (by decide) (by decide)

/-- C21, counterexample. With `DIR_ENT_NAME_SIZE = 4` the name `abc` has length
`DIR_ENT_NAME_SIZE - 1`; on the fresh image `exFresh` neither call rejects it:
`create(0, regular-file, abc)` returns the new inode 1 and `unlink(0, abc)`
returns 0 (the name is absent from the root directory, and present after the
`create`). And for a parent out of range a name of any length is rejected with
invalid-inode, not invalid-name. -/
theorem name_of_length_below_field_accepted :
    [97, 98, 99].length = exCfg.DIR_ENT_NAME_SIZE - 1 ∧
    (create exCfg exJunk exFresh 0 1 [97, 98, 99]).1 = 1 ∧
    (create exCfg exJunk exFresh 0 1 [97, 98, 99]).1 ≠ -exCfg.EINVALIDNAME ∧
    (unlink exCfg exJunk exFresh 0 [97, 98, 99]).1 = 0 ∧
    (unlink exCfg exJunk (exCreate exFresh 0 1 [97, 98, 99]) 0 [97, 98, 99]).1 = 0 ∧
    (unlink exCfg exJunk exFresh 0 [97, 98, 99]).1 ≠ -exCfg.EINVALIDNAME ∧
    (create exCfg exJunk exFresh (-1) 1 [97, 98, 99, 100]).1 = -exCfg.EINVALIDINODE ∧
    (unlink exCfg exJunk exFresh (-1) [97, 98, 99, 100]).1 = -exCfg.EINVALIDINODE := by
  decide

/-- C23. The bit `i` of a bitmap is bit `i % 8` of byte `i / 8`; after
`createBit(i)` the bit `i` is set and after `delBit(i)` it is clear; both leave
every other bit `j` as it was and change no byte other than byte `i / 8`. -/
theorem bitmap_bit_algebra (bitmap : Int → Nat) (i j : Nat) :
    findBit bitmap (i : Int) = (bitmap ((i / 8 : Nat) : Int)).testBit (i % 8) ∧
    findBit (createBit bitmap (i : Int)) (i : Int) = true ∧
    findBit (delBit bitmap (i : Int)) (i : Int) = false ∧
    (j ≠ i → findBit (createBit bitmap (i : Int)) (j : Int) = findBit bitmap (j : Int) ∧
      findBit (delBit bitmap (i : Int)) (j : Int) = findBit bitmap (j : Int)) ∧
    (∀ k : Int, k ≠ ((i / 8 : Nat) : Int) →
      createBit bitmap (i : Int) k = bitmap k ∧ delBit bitmap (i : Int) k = bitmap k) := by
  refine ⟨findBit_natCast bitmap i, ?_, ?_, ?_, ?_⟩
  · rw [findBit_createBit]; simp
  · rw [findBit_delBit]; simp
  · intro h
    rw [findBit_createBit, findBit_delBit]
    simp [h]
  · intro k hk
    unfold createBit delBit
    rw [tdiv_natCast, Function.update_noteq hk, Function.update_noteq hk]
    exact ⟨rfl, rfl⟩

theorem bitmap_bit_algebra_witness :
    findBit exFresh.dataBitmap ((9 : Nat) : Int) =
      (exFresh.dataBitmap ((9 / 8 : Nat) : Int)).testBit (9 % 8) ∧
    findBit (createBit exFresh.dataBitmap ((9 : Nat) : Int)) ((9 : Nat) : Int) = true ∧
    findBit (delBit exFresh.dataBitmap ((9 : Nat) : Int)) ((9 : Nat) : Int) = false ∧
    ((0 : Nat) ≠ 9 →
      findBit (createBit exFresh.dataBitmap ((9 : Nat) : Int)) ((0 : Nat) : Int) =
        findBit exFresh.dataBitmap ((0 : Nat) : Int) ∧
      findBit (delBit exFresh.dataBitmap ((9 : Nat) : Int)) ((0 : Nat) : Int) =
        findBit exFresh.dataBitmap ((0 : Nat) : Int)) ∧
    (∀ k : Int, k ≠ ((9 / 8 : Nat) : Int) →
      createBit exFresh.dataBitmap ((9 : Nat) : Int) k = exFresh.dataBitmap k ∧
      delBit exFresh.dataBitmap ((9 : Nat) : Int) k = exFresh.dataBitmap k) :=
  bitmap_bit_algebra exFresh.dataBitmap 9 0

/-- C24. `findFirstBit(bitmap, len)` returns `-1` if and only if all the
`8 * len` bits of the bitmap are set; otherwise it returns the smallest index
in `[0, 8 * len)` whose bit is clear. -/
theorem findFirstBit_first_clear (bitmap : Int → Nat) (len : Int) :
    (findFirstBit bitmap len = -1 ↔
      ∀ j : Nat, j < (len * 8).toNat → findBit bitmap (j : Int) = true) ∧
    (findFirstBit bitmap len ≠ -1 →
      ∃ m : Nat, findFirstBit bitmap len = (m : Int) ∧ m < (len * 8).toNat ∧
        findBit bitmap (m : Int) = false ∧
        ∀ j : Nat, j < m → findBit bitmap (j : Int) = true) := by
  rcases findFirstBit_cases bitmap len with ⟨h1, h2⟩ | ⟨m, h1, h2, h3, h4⟩
  · exact ⟨⟨fun _ => h2, fun _ => h1⟩, fun h => absurd h1 h⟩
  · refine ⟨⟨fun h => ?_, fun h => ?_⟩, fun _ => ⟨m, h1, h2, h3, h4⟩⟩
    · rw [h1] at h; omega
    · have := h m h2
      rw [h3] at this
      exact absurd this (by simp)

theorem findFirstBit_first_clear_witness :
    (findFirstBit exFresh.dataBitmap 16 = -1 ↔
      ∀ j : Nat, j < ((16 : Int) * 8).toNat → findBit exFresh.dataBitmap (j : Int) = true) ∧
    (findFirstBit exFresh.dataBitmap 16 ≠ -1 →
      ∃ m : Nat, findFirstBit exFresh.dataBitmap 16 = (m : Int) ∧ m < ((16 : Int) * 8).toNat ∧
        findBit exFresh.dataBitmap (m : Int) = false ∧
        ∀ j : Nat, j < m → findBit exFresh.dataBitmap (j : Int) = true) :=
  findFirstBit_first_clear exFresh.dataBitmap 16

theorem countBitsFrom_eq_filter (bitmap : Int → Nat) (n i : Nat) :
    countBitsFrom bitmap n i =
      ((((List.range' i n).filter (fun (j : Nat) => !findBit bitmap (j : Int))).length : Nat) : Int) := by
  induction n generalizing i with
  | zero => simp [countBitsFrom]
  | succ n ih =>
    unfold countBitsFrom
    rw [ih (i + 1), List.range'_succ, List.filter_cons]
    cases h : findBit bitmap (i : Int)
    · simp [h]; omega
    · simp [h]

theorem exRoomy_clear : clearBelow exRoomy.inodeBitmap 128 = 127 := by
  decide

/-- C25, the code. `countBits(bitmap, size)` counts the clear bits among the bits
`0 .. size-1`; `diskHasSpace` passes a length in bytes, so only the first
`len_bytes` of the `8 * len_bytes` bits of the bitmap are counted. On the image
`exRoomy`, whose inode bitmap of 16 bytes has 128 bits for 128 inodes, 127 of
them clear, the call of `diskHasSpace` counts 15 free inodes and answers that 16
inodes are not available. -/
theorem countBits_counts_size_bits :
    (∀ (bitmap : Int → Nat) (size : Int),
      countBits bitmap size = ((clearBelow bitmap size.toNat : Nat) : Int)) ∧
    exRoomy.super.inode_bitmap_len * (exCfg.UFS_BLOCK_SIZE : Int) = 16 ∧
    exRoomy.super.num_inodes = 8 * 16 ∧
    clearBelow exRoomy.inodeBitmap (8 * 16) = 127 ∧
    countBits (readInodeBitmap exCfg exRoomy (exJunk 0))
      (exRoomy.super.inode_bitmap_len * (exCfg.UFS_BLOCK_SIZE : Int)) = 15 ∧
    diskHasSpace exCfg exJunk exRoomy 16 0 0 = false ∧
    diskHasSpace exCfg exJunk exRoomy 15 0 0 = true := by
  refine ⟨?_, by decide, by decide, exRoomy_clear, by decide, by decide, by decide⟩
  intro bitmap size
  unfold countBits clearBelow
  rw [countBitsFrom_eq_filter, List.range_eq_range']

theorem exTight_after_create_records :
    ((commit exCfgLong exTight (create exCfgLong exJunk exTight 0 0 [100]).2).inodes 3).direct 0
      = 131 ∧
    ((commit exCfgLong exTight (create exCfgLong exJunk exTight 0 0 [100]).2).inodes 0).direct 2
      = 3 ∧
    ((commit exCfgLong exTight (create exCfgLong exJunk exTight 0 0 [100]).2).inodes 0).size
      = 40 := by
  decide

theorem exTight_after_create_bits :
    findBit (commit exCfgLong exTight (create exCfgLong exJunk exTight 0 0 [100]).2).dataBitmap 127
      = true ∧
    ∀ j : Nat, j < 127 →
      findBit (commit exCfgLong exTight (create exCfgLong exJunk exTight 0 0 [100]).2).dataBitmap
        (j : Int) = findBit exTight.dataBitmap (j : Int) := by
  decide

/-- C26, the code at the failing input. On the image `exTight` (the invariants
of section 3 hold, the root directory fills its two blocks, bit 127 is the only
clear bit of the 128 bits of the data bitmap) the call `create(0, directory, d)`
succeeds with inode 3 and allocates a block for the new directory and a block
for the new entry of the parent. The block of the directory is block 131, whose
bit 127 was clear and is set afterwards. The block of the parent is
`data_region_addr - 1 = 3`: it lies before the data region, it corresponds to
no bit of `[0, num_data)` (`block2Bit` gives `-1`), and no bit of the data
bitmap other than bit 127 has changed. -/
theorem create_parent_block_before_data_region :
    BitmapBijection exCfgLong exTight ∧
    (create exCfgLong exJunk exTight 0 0 [100]).1 = 3 ∧
    (exTight.inodes 0).size / (exCfgLong.UFS_BLOCK_SIZE : Int) = 2 ∧
    ((commit exCfgLong exTight (create exCfgLong exJunk exTight 0 0 [100]).2).inodes 3).direct 0
      = exTight.super.data_region_addr + 127 ∧
    findBit exTight.dataBitmap 127 = false ∧
    findBit (commit exCfgLong exTight (create exCfgLong exJunk exTight 0 0 [100]).2).dataBitmap 127
      = true ∧
    ((commit exCfgLong exTight (create exCfgLong exJunk exTight 0 0 [100]).2).inodes 0).direct 2
      = exTight.super.data_region_addr - 1 ∧
    block2Bit exTight.super
      (((commit exCfgLong exTight (create exCfgLong exJunk exTight 0 0 [100]).2).inodes 0).direct 2)
      = -1 ∧
    (∀ j : Nat, j < 127 →
      findBit (commit exCfgLong exTight (create exCfgLong exJunk exTight 0 0 [100]).2).dataBitmap
        (j : Int) = findBit exTight.dataBitmap (j : Int)) ∧
    exTight.super.num_data = 128 := by
  obtain ⟨h1, h2, _⟩ := exTight_after_create_records
  refine ⟨exTight_bijection, exTight_create.1, by decide, ?_, by decide,
    exTight_after_create_bits.1, ?_, ?_, exTight_after_create_bits.2, by decide⟩
  · rw [h1]; decide
  · rw [h2]; decide
  · rw [h2]; decide

theorem lookupBlock_vacant (c : Cfg) (blk : Int → Nat) (name : List Nat) (n j s0 : Nat)
    (hs0 : j ≤ s0 ∧ s0 < j + n)
    (h : ∀ s : Nat, j ≤ s → s < s0 →
      entInum c blk (s : Int) ≠ -1 ∧ entName c blk (s : Int) ≠ name)
    (h1 : entInum c blk (s0 : Int) = -1) :
    lookupBlock c blk name n j = some (-c.ENOTFOUND) := by
  induction n generalizing j with
  | zero => omega
  | succ n ih =>
    unfold lookupBlock
    by_cases hj : j = s0
    · subst hj
      rw [if_pos h1]
    · obtain ⟨h3, h4⟩ := h j (le_refl _) (by omega)
      rw [if_neg h3, if_neg h4]
      exact ih (j + 1) (by omega) (fun s hs1 hs2 => h s (by omega) hs2)

/-- The scan of `lookup` returns not-found when none of the `n0` entries of the
directory data carries the name, these entries are live and their blocks are
not `-1`, and after them comes a vacant slot, a direct slot `-1`, or the end of
the direct slots. -/
theorem lookupLoop_absent (c : Cfg) (d : Disk) (inode : inode_t) (name : List Nat) (P n0 : Nat)
    (hP : c.UFS_BLOCK_SIZE = P * sizeof_dir_ent_t c) (hP0 : 0 < P)
    (hdir : ∀ bi : Nat, bi * P < n0 → inode.direct (bi : Int) ≠ -1)
    (hskip : ∀ j : Nat, j < n0 →
      entInum c (fileData c d inode) (j : Int) ≠ -1 ∧ entName c (fileData c d inode) (j : Int) ≠ name)
    (hend : (n0 % P ≠ 0 ∧ entInum c (fileData c d inode) (n0 : Int) = -1) ∨
      (n0 % P = 0 ∧ (inode.direct ((n0 / P : Nat) : Int) = -1 ∨ c.DIRECT_PTRS ≤ n0 / P)))
    (n i : Nat) (hi : i ≤ n0 / P) (hn : i + n = c.DIRECT_PTRS) :
    lookupLoop c d inode name n i = -c.ENOTFOUND := by
  have hEPB : ENTRIES_IN_BLOCK c = P := by
    unfold ENTRIES_IN_BLOCK
    rw [hP]
    exact Nat.mul_div_cancel _ (sizeof_dir_ent_t_pos c)
  have hdm := Nat.div_add_mod n0 P
  have hmodlt : n0 % P < P := Nat.mod_lt _ hP0
  induction n generalizing i with
  | zero => rfl
  | succ n ih =>
    unfold lookupLoop
    by_cases hie : i = n0 / P
    · rcases hend with ⟨hm, hv⟩ | ⟨hm, hv⟩
      · have hlt : i * P < n0 := by
          rw [hie, Nat.mul_comm]; omega
        have he : n0 = i * P + n0 % P := by
          rw [hie, Nat.mul_comm]; omega
        rw [if_neg (hdir i hlt), hEPB]
        have hf := lookupBlock_vacant c (d.blocks (inode.direct (i : Int))) name P 0 (n0 % P)
          (by omega)
          (fun s _ hs => by
            have hj := hskip (i * P + s) (by omega)
            rw [entName_fileData c d inode P i s hP (by omega),
              entInum_fileData c d inode P i s hP (by omega)] at hj
            exact hj)
          (by
            rw [← entInum_fileData c d inode P i (n0 % P) hP hmodlt, ← he]; exact hv)
        rw [hf]
      · rcases hv with hv | hv
        · rw [hie, if_pos hv]
        · omega
    · have hlt : i < n0 / P := by omega
      have hmul : (i + 1) * P ≤ n0 / P * P := Nat.mul_le_mul_right _ (by omega)
      have hle : n0 / P * P ≤ n0 := Nat.div_mul_le_self n0 P
      have hiP : i * P + P ≤ n0 := by
        have : (i + 1) * P = i * P + P := by ring
        omega
      rw [if_neg (hdir i (by omega)), hEPB]
      have hnone := lookupBlock_none c (d.blocks (inode.direct (i : Int))) name P 0
        (fun s _ hs => by
          have hj := hskip (i * P + s) (by omega)
          rw [entName_fileData c d inode P i s hP (by omega),
            entInum_fileData c d inode P i s hP (by omega)] at hj
          exact hj)
      rw [hnone]
      exact ih (i + 1) (by omega) (by omega)

theorem lookup_absent (c : Cfg) (d : Disk) (p : Int) (name : List Nat) (P n0 : Nat)
    (hp : 0 ≤ p ∧ p < d.super.num_inodes)
    (hdir : (d.inodes p).type = c.UFS_DIRECTORY)
    (hP : c.UFS_BLOCK_SIZE = P * sizeof_dir_ent_t c) (hP0 : 0 < P)
    (hptr : ∀ bi : Nat, bi * P < n0 → (d.inodes p).direct (bi : Int) ≠ -1)
    (hskip : ∀ j : Nat, j < n0 →
      entInum c (fileData c d (d.inodes p)) (j : Int) ≠ -1 ∧
      entName c (fileData c d (d.inodes p)) (j : Int) ≠ name)
    (hend : (n0 % P ≠ 0 ∧ entInum c (fileData c d (d.inodes p)) (n0 : Int) = -1) ∨
      (n0 % P = 0 ∧ ((d.inodes p).direct ((n0 / P : Nat) : Int) = -1 ∨ c.DIRECT_PTRS ≤ n0 / P))) :
    lookup c d p name = -c.ENOTFOUND := by
  have hchk : checkInode d.super p = true := (checkInode_iff _ _).2 hp
  unfold lookup
  simp only [readSuperBlock, hchk, Bool.true_eq_false, if_false]
  rw [stat_snd c d p default hchk, if_neg (by simp [hdir])]
  exact lookupLoop_absent c d (d.inodes p) name P n0 hP hP0 hptr hskip hend c.DIRECT_PTRS 0
    (Nat.zero_le _) (by omega)

/-- C27. On an image where the directory `p` (in range, its size a multiple of
`sizeof(dir_ent_t)` between 0 and `MAX_FILE_SIZE`) holds entries with an inode
number each and names pairwise different, in blocks that are not `-1` and
pairwise distinct, an `unlink(p, n)` that finds `n` at entry `e` (an inode in
range), returns 0 and writes blocks of the data region only leaves, after the
commit: `lookup(p, n)` not-found, the bit of the removed inode clear in the inode
bitmap, and `lookup(p, m)` as before for every other name `m` of an entry of
`p`; this includes the removal that leaves the size of `p` on a block
boundary. -/
theorem unlink_then_lookup (c : Cfg) (junk : Nat → Int → Nat) (d : Disk) (p : Int)
    (name : List Nat) (P : Nat) (e : Nat)
    (hP : c.UFS_BLOCK_SIZE = P * sizeof_dir_ent_t c) (hP0 : 0 < P)
    (hM : MAX_FILE_SIZE c < 2147483648) (hE : 0 < c.EDIRNOTEMPTY)
    (hL : Layout c d)
    (hp : 0 ≤ p ∧ p < d.super.num_inodes)
    (hlen : name.length < c.DIR_ENT_NAME_SIZE)
    (hnd : name ≠ [46] ∧ name ≠ [46, 46])
    (hdir : (d.inodes p).type = c.UFS_DIRECTORY)
    (hsz : 0 ≤ (d.inodes p).size ∧ (d.inodes p).size ≤ MAX_FILE_SIZE c)
    (hmodE : (d.inodes p).size % (sizeof_dir_ent_t c : Int) = 0)
    (hptr : ∀ bi : Nat, bi < c.DIRECT_PTRS → bi * P < numEntries c (d.inodes p) →
      (d.inodes p).direct (bi : Int) ≠ -1)
    (hdist : ∀ k : Nat,
      k < (divide ((d.inodes p).size - (sizeof_dir_ent_t c : Int)) (c.UFS_BLOCK_SIZE : Int)).toNat →
      ∀ k' : Nat,
      k' < (divide ((d.inodes p).size - (sizeof_dir_ent_t c : Int)) (c.UFS_BLOCK_SIZE : Int)).toNat →
      (d.inodes p).direct (k : Int) = (d.inodes p).direct (k' : Int) → k = k')
    (hnum : ∀ j : Nat, j < numEntries c (d.inodes p) →
      entInum c (fileData c d (d.inodes p)) (j : Int) ≠ -1)
    (huniq : ∀ j : Nat, j < numEntries c (d.inodes p) → ∀ j' : Nat,
      j' < numEntries c (d.inodes p) →
      entName c (fileData c d (d.inodes p)) (j : Int) =
        entName c (fileData c d (d.inodes p)) (j' : Int) → j = j')
    (he : e < numEntries c (d.inodes p))
    (hname : entName c (fileData c d (d.inodes p)) (e : Int) = name)
    (hx : 0 ≤ child c d p e ∧ child c d p e < d.super.num_inodes)
    (hres : (unlink c junk d p name).1 = 0)
    (hreg : ∀ b ∈ writtenBlocks (unlink c junk d p name).2, d.super.data_region_addr ≤ b) :
    lookup c (commit c d (unlink c junk d p name).2) p name = -c.ENOTFOUND ∧
    ¬ inUse (commit c d (unlink c junk d p name).2) (child c d p e) ∧
    (∀ (m : List Nat) (j : Nat), j < numEntries c (d.inodes p) → j ≠ e →
      entName c (fileData c d (d.inodes p)) (j : Int) = m →
      lookup c (commit c d (unlink c junk d p name).2) p m = lookup c d p m) := by
  have _ := hreg
  have hES := sizeof_dir_ent_t_pos c
  have hES' : (0 : Int) < (sizeof_dir_ent_t c : Int) := by exact_mod_cast hES
  have hB : 0 < c.UFS_BLOCK_SIZE := by
    rw [hP]; exact Nat.mul_pos hP0 hES
  have hB' : (0 : Int) < (c.UFS_BLOCK_SIZE : Int) := by exact_mod_cast hB
  have hBE : (c.UFS_BLOCK_SIZE : Int) = (P : Int) * (sizeof_dir_ent_t c : Int) := by
    rw [← Nat.cast_mul, ← hP]
  have hfirst : ∀ j : Nat, j < e → entName c (fileData c d (d.inodes p)) (j : Int) ≠ name := by
    intro j hj h
    have := huniq j (by omega) e he (by rw [h, hname])
    omega
  obtain ⟨hun, hch, hszE⟩ := unlink_found c junk d p name e hB hM hp hlen hnd hdir hsz he hname hfirst
  have hne : ¬ ((d.inodes (child c d p e)).type = c.UFS_DIRECTORY ∧
      (d.inodes (child c d p e)).size > (sizeof_dir_ent_t c : Int) * 2) := by
    intro h
    rw [hun, unlinkEntry_dir_not_empty c junk d p _ _ _ _ _ e (by rw [hch]; exact h)] at hres
    simp only at hres
    omega
  obtain ⟨_, V1, V2, _, V4, _, _, V7, V8⟩ := unlink_effect c junk d p name P e hP hP0 hM hp hlen hnd
    hdir hsz hmodE he hname hfirst hne
    (fun k k' hk hk' h => hdist k (by omega) k' (by omega) h)
    (commit c d (unlink c junk d p name).2) rfl
  generalize commit c d (unlink c junk d p name).2 = d' at V1 V2 V4 V7 V8 ⊢
  -- sizes and counts
  have hnc := numEntries_cast c (d.inodes p) hsz.1
  obtain ⟨hsN, _, _⟩ := entries_blocks c (d.inodes p).size P hP hsz.1 hmodE
  have hnE : (numEntries c (d.inodes p) : Int) * (sizeof_dir_ent_t c : Int) = (d.inodes p).size := by
    rw [hnc]; rw [← hnc]; exact hsN.symm
  have hs0 : 0 ≤ (d.inodes p).size - (sizeof_dir_ent_t c : Int) := by omega
  have hs0m : ((d.inodes p).size - (sizeof_dir_ent_t c : Int)) % (sizeof_dir_ent_t c : Int) = 0 := by
    rw [Int.sub_emod, hmodE, Int.emod_self]; simp
  have hsize' : (d'.inodes p).size = (d.inodes p).size - (sizeof_dir_ent_t c : Int) := by rw [V2]
  have htype' : (d'.inodes p).type = c.UFS_DIRECTORY := by rw [V2]; exact hdir
  have hn' : numEntries c (d'.inodes p) = numEntries c (d.inodes p) - 1 :=
    numEntries_sub_entry c _ _ hsize' hszE
  obtain ⟨_, hdiv0, hmod0⟩ := entries_blocks c ((d.inodes p).size - (sizeof_dir_ent_t c : Int)) P hP
    hs0 hs0m
  have hcnt : (((d.inodes p).size - (sizeof_dir_ent_t c : Int)) / (sizeof_dir_ent_t c : Int)).toNat
      = numEntries c (d.inodes p) - 1 := by
    have := hn'
    unfold numEntries at this
    rw [hsize'] at this
    exact this
  rw [hcnt] at hdiv0 hmod0
  have hnDP : numEntries c (d.inodes p) ≤ c.DIRECT_PTRS * P := by
    have h1 : (numEntries c (d.inodes p) : Int) * (sizeof_dir_ent_t c : Int) ≤
        ((c.DIRECT_PTRS * P : Nat) : Int) * (sizeof_dir_ent_t c : Int) := by
      rw [hnE]
      have : MAX_FILE_SIZE c = (c.DIRECT_PTRS : Int) * (c.UFS_BLOCK_SIZE : Int) := rfl
      rw [this, hBE] at hsz
      push_cast
      rw [mul_assoc]
      exact hsz.2
    have := le_of_mul_le_mul_right h1 hES'
    exact_mod_cast this
  have hbiDP : ∀ bi : Nat, bi * P < numEntries c (d.inodes p) → bi < c.DIRECT_PTRS := by
    intro bi hbi
    by_contra hcon
    have : c.DIRECT_PTRS * P ≤ bi * P := Nat.mul_le_mul_right _ (by omega)
    omega
  have hp' : 0 ≤ p ∧ p < d'.super.num_inodes := by rw [V1]; exact hp
  -- the direct slots of the blocks that survive
  have hptr' : ∀ bi : Nat, bi * P < numEntries c (d.inodes p) - 1 →
      (d'.inodes p).direct (bi : Int) ≠ -1 := by
    intro bi hbi
    rw [V2]
    dsimp only
    split
    · rename_i hm
      have hm' := hmod0.1 hm
      have hdm := Nat.div_add_mod (numEntries c (d.inodes p) - 1) P
      rw [hm'] at hdm
      have hne' : bi ≠ (numEntries c (d.inodes p) - 1) / P := by
        intro h
        rw [h, Nat.mul_comm] at hbi
        omega
      rw [hdiv0, Function.update_noteq (by omega)]
      exact hptr bi (hbiDP bi (by omega)) (by omega)
    · exact hptr bi (hbiDP bi (by omega)) (by omega)
  -- the entries that survive
  have hent : ∀ j : Nat, j < numEntries c (d.inodes p) - 1 →
      entName c (fileData c d' (d'.inodes p)) (j : Int) =
        entName c (fileData c d (d.inodes p)) ((if j < e then j else j + 1 : Nat) : Int) ∧
      entInum c (fileData c d' (d'.inodes p)) (j : Int) =
        entInum c (fileData c d (d.inodes p)) ((if j < e then j else j + 1 : Nat) : Int) :=
    fun j hj => V7 j (by omega)
  have hidx : ∀ j : Nat, j < numEntries c (d.inodes p) - 1 →
      (if j < e then j else j + 1) < numEntries c (d.inodes p) ∧ (if j < e then j else j + 1) ≠ e := by
    intro j hj
    split <;> omega
  have hnum' : ∀ j : Nat, j < numEntries c (d.inodes p) - 1 →
      entInum c (fileData c d' (d'.inodes p)) (j : Int) ≠ -1 := by
    intro j hj
    rw [(hent j hj).2]
    exact hnum _ (hidx j hj).1
  refine ⟨?_, ?_, ?_⟩
  · -- the name removed
    apply lookup_absent c d' p name P (numEntries c (d.inodes p) - 1) hp' htype' hP hP0 hptr'
    · intro j hj
      refine ⟨hnum' j hj, ?_⟩
      rw [(hent j hj).1]
      intro h
      exact (hidx j hj).2 (huniq _ (hidx j hj).1 e he (by rw [h, hname]))
    · by_cases hm : (numEntries c (d.inodes p) - 1) % P = 0
      · right
        refine ⟨hm, Or.inl ?_⟩
        rw [V2]
        dsimp only
        rw [if_pos (hmod0.2 hm), hdiv0, Function.update_same]
      · left
        refine ⟨hm, ?_⟩
        apply V8 (numEntries c (d.inodes p) - 1) (by omega)
        rw [divide_of_emod_ne_zero _ _ hB' hs0 (fun h => hm (hmod0.1 h)), hdiv0]
        have hdm := Nat.div_add_mod (numEntries c (d.inodes p) - 1) P
        have hlt : (numEntries c (d.inodes p) - 1) % P < P := Nat.mod_lt _ hP0
        have h3 : ((numEntries c (d.inodes p) - 1) / P + 1) * P =
            P * ((numEntries c (d.inodes p) - 1) / P) + P := by ring
        have h4 : numEntries c (d.inodes p) - 1 < ((numEntries c (d.inodes p) - 1) / P + 1) * P := by
          omega
        exact_mod_cast h4
  · -- the inode removed
    unfold inUse
    rw [V4]
    obtain ⟨x, hxx⟩ : ∃ x : Nat, child c d p e = (x : Int) := ⟨(child c d p e).toNat, by omega⟩
    rw [hxx] at hx ⊢
    rw [findBit_copyRegion c _ _ _ x (by have := hL.2.2.2.1; omega), findBit_delBit]
    simp
  · -- the other names
    intro m j hj hje hm
    have hold : lookup c d p m = entInum c (fileData c d (d.inodes p)) (j : Int) :=
      lookup_first c d p m P (numEntries c (d.inodes p)) hp hdir hP hP0 hnDP
        (fun bi hbi => hptr bi (hbiDP bi hbi) hbi) hnum j hj
        (fun j' hj' h => by
          have := huniq j' (by omega) j hj (by rw [h, hm])
          omega)
        hm
    have hj1 : (if j < e then j else j - 1) < numEntries c (d.inodes p) - 1 := by
      split <;> omega
    have hback : (if (if j < e then j else j - 1) < e then (if j < e then j else j - 1)
        else (if j < e then j else j - 1) + 1) = j := by
      by_cases hje2 : j < e
      · simp only [if_pos hje2]
      · have h2 : ¬ (j - 1 < e) := by omega
        simp only [if_neg hje2, if_neg h2]
        omega
    have hnew : lookup c d' p m =
        entInum c (fileData c d' (d'.inodes p)) ((if j < e then j else j - 1 : Nat) : Int) := by
      apply lookup_first c d' p m P (numEntries c (d.inodes p) - 1) hp' htype' hP hP0 (by omega)
        hptr' hnum' _ hj1
      · intro j' hj' h
        have hj'' : j' < numEntries c (d.inodes p) - 1 := by omega
        rw [(hent j' hj'').1] at h
        have := huniq _ (hidx j' hj'').1 j hj (by rw [h, hm])
        by_cases hje2 : j < e
        · rw [if_pos hje2] at hj'
          rw [if_pos (by omega)] at this
          omega
        · rw [if_neg hje2] at hj'
          by_cases hj3 : j' < e
          · rw [if_pos hj3] at this
            omega
          · rw [if_neg hj3] at this
            omega
      · rw [(hent _ hj1).1, hback]
        exact hm
    rw [hnew, hold, (hent _ hj1).2, hback]

theorem unlink_then_lookup_witness :
    lookup exCfg (commit exCfg exWithFile (unlink exCfg exJunk exWithFile 0 [102]).2) 0 [102] =
      -exCfg.ENOTFOUND ∧
    ¬ inUse (commit exCfg exWithFile (unlink exCfg exJunk exWithFile 0 [102]).2)
      (child exCfg exWithFile 0 2) ∧
    (∀ (m : List Nat) (j : Nat), j < numEntries exCfg (exWithFile.inodes 0) → j ≠ 2 →
      entName exCfg (fileData exCfg exWithFile (exWithFile.inodes 0)) (j : Int) = m →
      lookup exCfg (commit exCfg exWithFile (unlink exCfg exJunk exWithFile 0 [102]).2) 0 m =
        lookup exCfg exWithFile 0 m) :=
  unlink_then_lookup exCfg exJunk exWithFile 0 [102] 2 2 (by decide) (by decide) (by decide)
    (by decide) (by decide) (by decide) (by decide) (by decide) (by decide) (by decide)
    (by decide) (by decide) (by decide) (by decide) (by decide) (by decide) (by decide)
    (by decide) (by decide) (by decide)

theorem c_str_append_zero (b : List Nat) : c_str (b ++ [0]) = c_str b := by
  unfold c_str
  induction b with
  | nil => simp
  | cons x r ih =>
    simp only [List.cons_append, List.takeWhile_cons]
    split
    · rw [ih]
    · rfl

/-- The bytes `buffer[0 .. n]` that `get` passes to `setBody`, for a buffer
that holds the bytes of `b` and then the zero that `get` stores. -/
theorem buffer_bytes (b : List Nat) (buf : Int → Nat)
    (h : ∀ k : Nat, k < b.length → buf (k : Int) = b.getD k 0) :
    (List.range (((b.length : Nat) : Int) + 1).toNat).map
      (fun (k : Nat) => (fun (x : Int) => if x = ((b.length : Nat) : Int) then 0 else buf x) (k : Int))
      = b ++ [0] := by
  have : (((b.length : Nat) : Int) + 1).toNat = b.length + 1 := by omega
  rw [this, List.range_succ, List.map_append]
  congr 1
  · apply List.ext_getElem
    · simp
    · intro k h1 h2
      simp only [List.length_map, List.length_range] at h1
      simp only [List.getElem_map, List.getElem_range]
      rw [if_neg (by omega), h k h1, List.getD_eq_getElem _ _ h1]
  · simp

/-- The body that `get` sets for a path that resolves to a regular file whose
content is `b`: the bytes of `b` before its first zero byte. -/
theorem get_file_content (c : Cfg) (junk : Nat → Int → Nat) (inode0 : inode_t) (d : Disk)
    (url paths : List Nat) (i : Int) (b : List Nat)
    (hB : 0 < c.UFS_BLOCK_SIZE)
    (hurl : parsePath url = some paths)
    (hwalk : getWalk c d (splitPath paths) ROOT_INODE = Resolved.inode i)
    (hi : 0 ≤ i ∧ i < d.super.num_inodes)
    (ht : (d.inodes i).type = c.UFS_REGULAR_FILE)
    (hsize : (d.inodes i).size = (b.length : Int))
    (hmax : (b.length : Int) ≤ MAX_FILE_SIZE c)
    (hb : ∀ k : Nat, k < b.length → fileData c d (d.inodes i) (k : Int) = b.getD k 0) :
    get c junk inode0 d url = { status := none, body := Body.bytes (c_str b) } := by
  have hchk : checkInode d.super i = true := (checkInode_iff _ _).2 hi
  obtain ⟨R1, R2⟩ := read_spec c d i (junk 0) (d.inodes i).size hB hchk (by omega) (by omega)
    (Or.inl ht)
  rw [min_self] at R1 R2
  unfold get
  rw [hurl]
  dsimp only
  rw [hwalk]
  dsimp only
  rw [stat_snd c d i inode0 hchk, if_pos ht, if_neg (by rw [R1]; omega)]
  rw [hsize] at R2 ⊢
  rw [buffer_bytes b _ (fun k hk => by rw [R2, if_pos ⟨by omega, by omega⟩]; exact hb k hk),
    c_str_append_zero]

/-- C22, the code at the failing input. On the fresh image `exFresh`,
`PUT /ds3/f` with the three-byte body `a`, zero, `b` answers without an error
and leaves the regular file of inode 1, to which the path resolves, with size 3
and exactly these three bytes as content (`read` returns them), while
`GET /ds3/f` on that image sets the one-byte body `a`, not the three bytes.
The same exchange with the body `hi`, which has no zero byte, returns `hi`. -/
theorem get_body_stops_at_zero_byte :
    (put exCfg exJunk exFresh exUrl [97, 0, 98]).1 = { status := none, body := Body.bytes [] } ∧
    getWalk exCfg (exPut [97, 0, 98]) (splitPath [102]) ROOT_INODE = Resolved.inode 1 ∧
    ((exPut [97, 0, 98]).inodes 1).type = exCfg.UFS_REGULAR_FILE ∧
    ((exPut [97, 0, 98]).inodes 1).size = 3 ∧
    (read exCfg (exPut [97, 0, 98]) 1 (exJunk 0) 3).1 = 3 ∧
    (List.range 3).map (fun (k : Nat) => (read exCfg (exPut [97, 0, 98]) 1 (exJunk 0) 3).2 (k : Int))
      = [97, 0, 98] ∧
    get exCfg exJunk default (exPut [97, 0, 98]) exUrl =
      { status := none, body := Body.bytes [97] } ∧
    get exCfg exJunk default (exPut [97, 0, 98]) exUrl ≠
      { status := none, body := Body.bytes [97, 0, 98] } ∧
    (put exCfg exJunk exFresh exUrl [104, 105]).1 = { status := none, body := Body.bytes [] } ∧
    get exCfg exJunk default (exPut [104, 105]) exUrl =
      { status := none, body := Body.bytes [104, 105] } := by
  decide

/-- C17. For a valid `unlink(p, n)` (`p` in range and a directory whose size is
a multiple of `sizeof(dir_ent_t)` between 0 and `MAX_FILE_SIZE` and whose blocks
are distinct blocks of the data region, `n` shorter than `DIR_ENT_NAME_SIZE` and
neither `.` nor `..`, the blocks it writes in the data region) whose first entry
named `n`, entry `e`, refers to an inode in range of type directory with its
blocks in the data region: the result is dir-not-empty if and only if the size
of that directory exceeds `2 * sizeof(dir_ent_t)`, and then nothing is written
and the image is unchanged.  When the directory holds no more than `.` and `..`
it is removed: the result is 0 and, after the commit, the bit of that inode in
the inode bitmap is clear and no other bit of the inode bitmap has changed; the
size of `p` has decreased by one entry, its direct slot of the block that held
the last entry is `-1` when the new size is a multiple of the block size, and
no other inode record has changed; the sequence of `(name, inum)` entries read from `p` is the sequence before with
entry `e` deleted, so that no entry is named `n` when the names before were
pairwise different; and a bit of the data bitmap is set if and only if it was
set before and is neither the bit of a block of the removed directory nor,
when the new size of `p` is a multiple of the block size, the bit of the block
of `p` that held the last entry. -/
theorem unlink_directory (c : Cfg) (junk : Nat → Int → Nat) (d : Disk) (p : Int)
    (name : List Nat) (P : Nat) (e : Nat)
    (hP : c.UFS_BLOCK_SIZE = P * sizeof_dir_ent_t c) (hP0 : 0 < P)
    (hM : MAX_FILE_SIZE c < 2147483648)
    (hE : 0 < c.EDIRNOTEMPTY) (hL : Layout c d)
    (hp : 0 ≤ p ∧ p < d.super.num_inodes)
    (hlen : name.length < c.DIR_ENT_NAME_SIZE)
    (hnd : name ≠ [46] ∧ name ≠ [46, 46])
    (hdir : (d.inodes p).type = c.UFS_DIRECTORY)
    (hsz : 0 ≤ (d.inodes p).size ∧ (d.inodes p).size ≤ MAX_FILE_SIZE c)
    (hmodE : (d.inodes p).size % (sizeof_dir_ent_t c : Int) = 0)
    (hpv : ∀ k : Nat, k < (numBlocks c (d.inodes p)).toNat →
      d.super.data_region_addr ≤ (d.inodes p).direct (k : Int))
    (hdist : ∀ k : Nat, k < (numBlocks c (d.inodes p)).toNat →
      ∀ k' : Nat, k' < (numBlocks c (d.inodes p)).toNat →
      (d.inodes p).direct (k : Int) = (d.inodes p).direct (k' : Int) → k = k')
    (he : e < numEntries c (d.inodes p))
    (hname : entName c (fileData c d (d.inodes p)) (e : Int) = name)
    (hfirst : ∀ j : Nat, j < e → entName c (fileData c d (d.inodes p)) (j : Int) ≠ name)
    (hx : 0 ≤ child c d p e ∧ child c d p e < d.super.num_inodes)
    (hxdir : (d.inodes (child c d p e)).type = c.UFS_DIRECTORY)
    (hxv : ∀ k : Nat, k < (numBlocks c (d.inodes (child c d p e))).toNat →
      d.super.data_region_addr ≤ (d.inodes (child c d p e)).direct (k : Int))
    (hreg : ∀ b ∈ writtenBlocks (unlink c junk d p name).2, d.super.data_region_addr ≤ b) :
    ((unlink c junk d p name).1 = -c.EDIRNOTEMPTY ↔
      (d.inodes (child c d p e)).size > 2 * (sizeof_dir_ent_t c : Int)) ∧
    ((d.inodes (child c d p e)).size > 2 * (sizeof_dir_ent_t c : Int) →
      (unlink c junk d p name).2 = [] ∧ commit c d (unlink c junk d p name).2 = d) ∧
    ((d.inodes (child c d p e)).size ≤ 2 * (sizeof_dir_ent_t c : Int) →
      (unlink c junk d p name).1 = 0 ∧
      ¬ inUse (commit c d (unlink c junk d p name).2) (child c d p e) ∧
      (∀ j : Nat, j < d.super.num_inodes.toNat →
        findBit (commit c d (unlink c junk d p name).2).inodeBitmap (j : Int) =
          (decide ((j : Int) ≠ child c d p e) && findBit d.inodeBitmap (j : Int))) ∧
      ((commit c d (unlink c junk d p name).2).inodes p).size =
        (d.inodes p).size - (sizeof_dir_ent_t c : Int) ∧
      ((commit c d (unlink c junk d p name).2).inodes p).direct =
        (if ((d.inodes p).size - (sizeof_dir_ent_t c : Int)) % (c.UFS_BLOCK_SIZE : Int) = 0 then
          Function.update (d.inodes p).direct
            (((d.inodes p).size - (sizeof_dir_ent_t c : Int)) / (c.UFS_BLOCK_SIZE : Int)) (-1)
        else (d.inodes p).direct) ∧
      (∀ i : Int, i ≠ p → (commit c d (unlink c junk d p name).2).inodes i = d.inodes i) ∧
      dirEntries c (commit c d (unlink c junk d p name).2) p = (dirEntries c d p).eraseIdx e ∧
      ((∀ j : Nat, j < numEntries c (d.inodes p) → ∀ j' : Nat, j' < numEntries c (d.inodes p) →
          entName c (fileData c d (d.inodes p)) (j : Int) =
            entName c (fileData c d (d.inodes p)) (j' : Int) → j = j') →
        ∀ x ∈ dirEntries c (commit c d (unlink c junk d p name).2) p, x.1 ≠ name) ∧
      (∀ j : Nat, j < d.super.num_data.toNat →
        (findBit (commit c d (unlink c junk d p name).2).dataBitmap (j : Int) = true ↔
          (findBit d.dataBitmap (j : Int) = true ∧
            (∀ k : Nat, k < (numBlocks c (d.inodes (child c d p e))).toNat →
              (d.inodes (child c d p e)).direct (k : Int) ≠
                d.super.data_region_addr + (j : Int)) ∧
            (((d.inodes p).size - (sizeof_dir_ent_t c : Int)) % (c.UFS_BLOCK_SIZE : Int) = 0 →
              (d.inodes p).direct
                (((d.inodes p).size - (sizeof_dir_ent_t c : Int)) / (c.UFS_BLOCK_SIZE : Int)) ≠
                d.super.data_region_addr + (j : Int)))))) := by
  have _ := hreg
  have hES := sizeof_dir_ent_t_pos c
  have hES' : (0 : Int) < (sizeof_dir_ent_t c : Int) := by exact_mod_cast hES
  have hB : 0 < c.UFS_BLOCK_SIZE := by
    rw [hP]; exact Nat.mul_pos hP0 hES
  have hB' : (0 : Int) < (c.UFS_BLOCK_SIZE : Int) := by exact_mod_cast hB
  obtain ⟨hun, hch, hszE⟩ := unlink_found c junk d p name e hB hM hp hlen hnd hdir hsz he hname hfirst
  have hbig : (d.inodes (child c d p e)).size > 2 * (sizeof_dir_ent_t c : Int) →
      unlink c junk d p name = (-c.EDIRNOTEMPTY, []) := by
    intro h
    rw [hun]
    exact unlinkEntry_dir_not_empty c junk d p _ _ _ _ _ e (by rw [hch]; exact ⟨hxdir, by omega⟩)
  have hsmall : (d.inodes (child c d p e)).size ≤ 2 * (sizeof_dir_ent_t c : Int) →
      (unlink c junk d p name).1 = 0 ∧
      ¬ inUse (commit c d (unlink c junk d p name).2) (child c d p e) ∧
      (∀ j : Nat, j < d.super.num_inodes.toNat →
        findBit (commit c d (unlink c junk d p name).2).inodeBitmap (j : Int) =
          (decide ((j : Int) ≠ child c d p e) && findBit d.inodeBitmap (j : Int))) ∧
      ((commit c d (unlink c junk d p name).2).inodes p).size =
        (d.inodes p).size - (sizeof_dir_ent_t c : Int) ∧
      ((commit c d (unlink c junk d p name).2).inodes p).direct =
        (if ((d.inodes p).size - (sizeof_dir_ent_t c : Int)) % (c.UFS_BLOCK_SIZE : Int) = 0 then
          Function.update (d.inodes p).direct
            (((d.inodes p).size - (sizeof_dir_ent_t c : Int)) / (c.UFS_BLOCK_SIZE : Int)) (-1)
        else (d.inodes p).direct) ∧
      (∀ i : Int, i ≠ p → (commit c d (unlink c junk d p name).2).inodes i = d.inodes i) ∧
      dirEntries c (commit c d (unlink c junk d p name).2) p = (dirEntries c d p).eraseIdx e ∧
      ((∀ j : Nat, j < numEntries c (d.inodes p) → ∀ j' : Nat, j' < numEntries c (d.inodes p) →
          entName c (fileData c d (d.inodes p)) (j : Int) =
            entName c (fileData c d (d.inodes p)) (j' : Int) → j = j') →
        ∀ x ∈ dirEntries c (commit c d (unlink c junk d p name).2) p, x.1 ≠ name) ∧
      (∀ j : Nat, j < d.super.num_data.toNat →
        (findBit (commit c d (unlink c junk d p name).2).dataBitmap (j : Int) = true ↔
          (findBit d.dataBitmap (j : Int) = true ∧
            (∀ k : Nat, k < (numBlocks c (d.inodes (child c d p e))).toNat →
              (d.inodes (child c d p e)).direct (k : Int) ≠
                d.super.data_region_addr + (j : Int)) ∧
            (((d.inodes p).size - (sizeof_dir_ent_t c : Int)) % (c.UFS_BLOCK_SIZE : Int) = 0 →
              (d.inodes p).direct
                (((d.inodes p).size - (sizeof_dir_ent_t c : Int)) / (c.UFS_BLOCK_SIZE : Int)) ≠
                d.super.data_region_addr + (j : Int))))) := by
    intro h
    have hne : ¬ ((d.inodes (child c d p e)).type = c.UFS_DIRECTORY ∧
        (d.inodes (child c d p e)).size > (sizeof_dir_ent_t c : Int) * 2) := by
      intro h'
      omega
    have hs0 : 0 ≤ (d.inodes p).size - (sizeof_dir_ent_t c : Int) := by omega
    have hs0m : ((d.inodes p).size - (sizeof_dir_ent_t c : Int)) % (sizeof_dir_ent_t c : Int) = 0 := by
      rw [Int.sub_emod, hmodE, Int.emod_self]; simp
    obtain ⟨hA, hB2⟩ := numBlocks_add_entry c ((d.inodes p).size - (sizeof_dir_ent_t c : Int)) P hP
      hP0 hs0 hs0m
    rw [sub_add_cancel] at hA hB2
    have hq0 : 0 ≤ ((d.inodes p).size - (sizeof_dir_ent_t c : Int)) / (c.UFS_BLOCK_SIZE : Int) :=
      Int.ediv_nonneg hs0 (le_of_lt hB')
    have hnbold : numBlocks c (d.inodes p) =
        ((d.inodes p).size - (sizeof_dir_ent_t c : Int)) / (c.UFS_BLOCK_SIZE : Int) + 1 := by
      unfold numBlocks
      by_cases hm : ((d.inodes p).size - (sizeof_dir_ent_t c : Int)) % (c.UFS_BLOCK_SIZE : Int) = 0
      · exact (hA hm).2
      · exact (hB2 hm).2
    have hle : divide ((d.inodes p).size - (sizeof_dir_ent_t c : Int)) (c.UFS_BLOCK_SIZE : Int)
        ≤ numBlocks c (d.inodes p) := by
      rw [hnbold]
      by_cases hm : ((d.inodes p).size - (sizeof_dir_ent_t c : Int)) %
          (c.UFS_BLOCK_SIZE : Int) = 0
      · rw [(hA hm).1]; omega
      · rw [(hB2 hm).1]
    obtain ⟨V0, V1, V2, V3, V4, V5, _, V7, _⟩ := unlink_effect c junk d p name P e hP hP0 hM hp hlen
      hnd hdir hsz hmodE he hname hfirst hne
      (fun k k' hk hk' h => hdist k (by omega) k' (by omega) h)
      (commit c d (unlink c junk d p name).2) rfl
    generalize commit c d (unlink c junk d p name).2 = d' at V1 V2 V3 V4 V5 V7 ⊢
    have hsize : (d'.inodes p).size = (d.inodes p).size - (sizeof_dir_ent_t c : Int) := by
      rw [V2]
    have htype : (d'.inodes p).type = c.UFS_DIRECTORY := by
      rw [V2]; exact hdir
    have hn : numEntries c (d'.inodes p) = numEntries c (d.inodes p) - 1 :=
      numEntries_sub_entry c _ _ hsize hszE
    have hD' : dirEntries c d' p =
        (List.range (numEntries c (d.inodes p) - 1)).map (fun (j : Nat) =>
          (entName c (fileData c d (d.inodes p)) ((if j < e then j else j + 1 : Nat) : Int),
            entInum c (fileData c d (d.inodes p)) ((if j < e then j else j + 1 : Nat) : Int))) := by
      rw [dirEntries_eq c d' p hB (by rw [V1]; exact hp) htype (by rw [hsize]; omega), hn]
      apply List.map_congr_left
      intro j hj
      rw [List.mem_range] at hj
      obtain ⟨h1, h2⟩ := V7 j (by omega)
      rw [h1, h2]
    refine ⟨V0, ?_, ?_, hsize, by rw [V2], V3, ?_, ?_, ?_⟩
    · unfold inUse
      rw [V4]
      obtain ⟨x, hxx⟩ : ∃ x : Nat, child c d p e = (x : Int) := ⟨(child c d p e).toNat, by omega⟩
      rw [hxx] at hx ⊢
      rw [findBit_copyRegion c _ _ _ x (by have := hL.2.2.2.1; omega), findBit_delBit]
      simp
    · intro j hj
      obtain ⟨x, hxx⟩ : ∃ x : Nat, child c d p e = (x : Int) := ⟨(child c d p e).toNat, by omega⟩
      rw [V4, findBit_copyRegion c _ _ _ j (by have := hL.2.2.2.1; omega), hxx, findBit_delBit,
        inUse_of_readInodeBitmap c d (junk 1) j hL hj]
      by_cases hjx : j = x
      · simp [hjx]
      · have : ¬ ((j : Int) = (x : Int)) := by omega
        simp [hjx, this]
    · rw [hD', dirEntries_eq c d p hB hp hdir hsz,
        map_range_eraseIdx (fun (j : Nat) => (entName c (fileData c d (d.inodes p)) (j : Int),
          entInum c (fileData c d (d.inodes p)) (j : Int))) _ e he]
    · intro huniq x hx'
      rw [hD', List.mem_map] at hx'
      obtain ⟨j, hj, rfl⟩ := hx'
      rw [List.mem_range] at hj
      dsimp only
      intro hcon
      by_cases hje : j < e
      · rw [if_pos hje] at hcon
        have := huniq j (by omega) e he (by rw [hcon, hname])
        omega
      · rw [if_neg hje] at hcon
        have := huniq (j + 1) (by omega) e he (by rw [hcon, hname])
        omega
    · intro j hj
      have hvx : ∀ t : Nat, 0 ≤ t → t < 0 + (numBlocks c (d.inodes (child c d p e))).toNat →
          ∃ m : Nat, (d.inodes (child c d p e)).direct (t : Int) =
            d.super.data_region_addr + (m : Int) := by
        intro t _ ht
        have := hxv t (by omega)
        exact ⟨((d.inodes (child c d p e)).direct (t : Int) - d.super.data_region_addr).toNat,
          by omega⟩
      have hCB := clearBlocks_spec d.super (d.inodes (child c d p e)).direct
        (numBlocks c (d.inodes (child c d p e))).toNat 0 (readDataBitmap c d (junk 0)) hvx
      have hrd := findBit_readDataBitmap c d (junk 0) j hL.2.2.2.2.2 hj
      rw [V5, findBit_copyRegion c _ _ _ j (by have := hL.2.2.2.2.2; omega)]
      have hCBj : findBit (clearBlocks d.super (d.inodes (child c d p e)).direct
          (numBlocks c (d.inodes (child c d p e))).toNat 0 (readDataBitmap c d (junk 0))) (j : Int)
          = true ↔ (findBit d.dataBitmap (j : Int) = true ∧
            ∀ k : Nat, k < (numBlocks c (d.inodes (child c d p e))).toNat →
              (d.inodes (child c d p e)).direct (k : Int) ≠
                d.super.data_region_addr + (j : Int)) := by
        rw [hCB j, hrd]
        constructor
        · rintro ⟨h1, h2⟩
          exact ⟨h1, fun k hk => h2 k (Nat.zero_le _) (by omega)⟩
        · rintro ⟨h1, h2⟩
          exact ⟨h1, fun k _ hk => h2 k (by omega)⟩
      by_cases hm : ((d.inodes p).size - (sizeof_dir_ent_t c : Int)) % (c.UFS_BLOCK_SIZE : Int) = 0
      · rw [if_pos hm]
        have hpq := hpv (((d.inodes p).size - (sizeof_dir_ent_t c : Int)) /
          (c.UFS_BLOCK_SIZE : Int)).toNat (by omega)
        rw [Int.toNat_of_nonneg hq0] at hpq
        obtain ⟨m1, hm1⟩ : ∃ m1 : Nat, (d.inodes p).direct
            (((d.inodes p).size - (sizeof_dir_ent_t c : Int)) / (c.UFS_BLOCK_SIZE : Int)) =
            d.super.data_region_addr + (m1 : Int) :=
          ⟨((d.inodes p).direct (((d.inodes p).size - (sizeof_dir_ent_t c : Int)) /
            (c.UFS_BLOCK_SIZE : Int)) - d.super.data_region_addr).toNat, by omega⟩
        rw [hm1]
        unfold block2Bit
        rw [add_sub_cancel_left, findBit_delBit]
        simp only [Bool.and_eq_true, decide_eq_true_eq]
        rw [hCBj]
        constructor
        · rintro ⟨h1, h2, h3⟩
          exact ⟨h2, h3, fun _ => by omega⟩
        · rintro ⟨h2, h3, h4⟩
          exact ⟨fun hjm => h4 hm (by rw [hjm]), h2, h3⟩
      · rw [if_neg hm, hCBj]
        constructor
        · rintro ⟨h1, h2⟩
          exact ⟨h1, h2, fun h' => absurd h' hm⟩
        · rintro ⟨h1, h2, _⟩
          exact ⟨h1, h2⟩
  refine ⟨⟨?_, ?_⟩, ?_, hsmall⟩
  · intro h
    by_contra hn
    have := (hsmall (by omega)).1
    omega
  · intro h
    rw [hbig h]
  · intro h
    rw [hbig h]
    exact ⟨rfl, rfl⟩

theorem unlink_directory_witness :
    ((unlink exCfg exJunk exWithDirFile 0 [100]).1 = -exCfg.EDIRNOTEMPTY ∧
      (unlink exCfg exJunk exWithDirFile 0 [100]).2 = [] ∧
      commit exCfg exWithDirFile (unlink exCfg exJunk exWithDirFile 0 [100]).2 = exWithDirFile) ∧
    (child exCfg exWithDir 0 2 = 1 ∧
      (unlink exCfg exJunk exWithDir 0 [100]).1 = 0 ∧
      ¬ inUse (commit exCfg exWithDir (unlink exCfg exJunk exWithDir 0 [100]).2)
        (child exCfg exWithDir 0 2) ∧
      ((commit exCfg exWithDir (unlink exCfg exJunk exWithDir 0 [100]).2).inodes 0).size =
        (exWithDir.inodes 0).size - (sizeof_dir_ent_t exCfg : Int) ∧
      ((commit exCfg exWithDir (unlink exCfg exJunk exWithDir 0 [100]).2).inodes 0).direct 1 = -1 ∧
      dirEntries exCfg (commit exCfg exWithDir (unlink exCfg exJunk exWithDir 0 [100]).2) 0 =
        (dirEntries exCfg exWithDir 0).eraseIdx 2 ∧
      (∀ x ∈ dirEntries exCfg (commit exCfg exWithDir (unlink exCfg exJunk exWithDir 0 [100]).2) 0,
        x.1 ≠ [100]) ∧
      findBit exWithDir.dataBitmap 1 = true ∧
      (exWithDir.inodes 1).direct 0 = exWithDir.super.data_region_addr + 1 ∧
      ¬ findBit (commit exCfg exWithDir (unlink exCfg exJunk exWithDir 0 [100]).2).dataBitmap
        ((1 : Nat) : Int) = true ∧
      findBit exWithDir.dataBitmap 2 = true ∧
      (exWithDir.inodes 0).direct 1 = exWithDir.super.data_region_addr + 2 ∧
      ¬ findBit (commit exCfg exWithDir (unlink exCfg exJunk exWithDir 0 [100]).2).dataBitmap
        ((2 : Nat) : Int) = true ∧
      findBit (commit exCfg exWithDir (unlink exCfg exJunk exWithDir 0 [100]).2).dataBitmap
        ((0 : Nat) : Int) = true) :=
  have hA := unlink_directory exCfg exJunk exWithDirFile 0 [100] 2 2 (by decide) (by decide)
    (by decide) (by decide) (by decide) (by decide) (by decide) (by decide) (by decide)
    (by decide) (by decide) (by decide) (by decide) (by decide) (by decide) (by decide)
    (by decide) (by decide) (by decide) (by decide)
  have hB := (unlink_directory exCfg exJunk exWithDir 0 [100] 2 2 (by decide) (by decide)
    (by decide) (by decide) (by decide) (by decide) (by decide) (by decide) (by decide)
    (by decide) (by decide) (by decide) (by decide) (by decide) (by decide) (by decide)
    (by decide) (by decide) (by decide) (by decide)).2.2 (by decide)
  ⟨⟨hA.1.2 (by decide), hA.2.1 (by decide)⟩,
    by decide, hB.1, hB.2.1, hB.2.2.2.1, by rw [hB.2.2.2.2.1]; decide, hB.2.2.2.2.2.2.1,
    hB.2.2.2.2.2.2.2.1 (by decide), by decide, by decide,
    fun h => ((hB.2.2.2.2.2.2.2.2 1 (by decide)).1 h).2.1 0 (by decide) (by decide),
    by decide, by decide,
    fun h => ((hB.2.2.2.2.2.2.2.2 2 (by decide)).1 h).2.2 (by decide) (by decide),
    (hB.2.2.2.2.2.2.2.2 0 (by decide)).2 ⟨by decide, by decide, by decide⟩⟩

end LocalFileSystem
